import Mathlib

/-!
# The boundary-tag allocator of `malloclab-handout/mm.c`

A shallow embedding of the allocator: the arena is a map from 4-aligned byte
addresses to 32-bit words, pointers and `size_t` values are natural numbers
taken modulo `2^32`, every memory access outside the arena (or at an address
that is not 4-aligned) is a fault (`fault`), and every loop of the source runs
on a fuel counter (`timeout` when the fuel is used up).
-/

namespace MM

/-! ## Words, constants and the packing macros -/

/-- Number of values of a 32-bit word (`size_t` and pointers are 32 bits wide). -/
def W32 : Nat := 4294967296

/-- The word `(size_t)-1`, which the source stores as the "replica" marker. -/
def M1 : Nat := 4294967295

/-- `#define WSIZE 4`. -/
def WSIZE : Nat := 4
/-- `#define DSIZE 8`. -/
def DSIZE : Nat := 8
/-- `#define CHUNKSIZE (1<<12)`. -/
def CHUNKSIZE : Nat := 4096
/-- `#define OVERHEAD 8`. -/
def OVERHEAD : Nat := 8

/-- Addition of 32-bit words. -/
def add32 (a b : Nat) : Nat := (a + b) % W32

/-- Subtraction of 32-bit words. -/
def sub32 (a b : Nat) : Nat := (a + (W32 - b % W32)) % W32

/-- `#define ALIGNED(size) (((size) + 0x7) & ~0x7)`. -/
def ALIGNED (size : Nat) : Nat := (add32 size 7) &&& 4294967288

/-- `#define MAX(x, y) ((x) > (y)? (x) : (y))`. -/
def MAX (x y : Nat) : Nat := if x > y then x else y

/-- `#define PACK(size, alloc) ((size) | (alloc))`. -/
def PACK (size alloc : Nat) : Nat := size ||| alloc

/-- The size field of a tag word: `word & ~0x7`. -/
def sizeOf (word : Nat) : Nat := word &&& 4294967288

/-- The allocated bit of a tag word: `word & 0x1`. -/
def allocOf (word : Nat) : Nat := word &&& 1

/-! ## Outcomes of a run -/

/-- Outcome of running a piece of the source: a value, a memory fault (an
access outside the arena), or a loop that used up its fuel. -/
inductive Res (α : Type) where
  | ok (a : α)
  | fault
  | timeout
  deriving DecidableEq

/-- Sequencing of two pieces of the source. -/
@[noinline] def Res.bind {α β : Type} (x : Res α) (f : α → Res β) : Res β :=
  match x with
  | .ok a => f a
  | .fault => .fault
  | .timeout => .timeout

/-- Applying a pure function to the value of a run. -/
def Res.map {α β : Type} (f : α → β) (x : Res α) : Res β :=
  match x with
  | .ok a => .ok (f a)
  | .fault => .fault
  | .timeout => .timeout

instance : Monad Res where
  pure := Res.ok
  bind := Res.bind

/-! ## The arena -/

/-- The allocator state: the arena (`words` between `lo` and `brk`, growable up
to `limit`) and the two globals `startPointer` and `seat` of the source. -/
structure Heap where
  /-- Content of the 32-bit word stored at each 4-aligned byte address. -/
  words : Nat → Nat
  /-- First byte of the arena. -/
  lo : Nat
  /-- One past the last byte of the arena (the current break). -/
  brk : Nat
  /-- The break can never pass this address. -/
  limit : Nat
  /-- Global `startPointer`. -/
  startPointer : Nat
  /-- Global `seat`, the root of the free tree. -/
  seat : Nat

/-- An address at which the arena holds a word. -/
def Heap.valid (h : Heap) (p : Nat) : Prop := h.lo ≤ p ∧ p + 4 ≤ h.brk ∧ p % 4 = 0

instance (h : Heap) (p : Nat) : Decidable (h.valid p) := by
  unfold Heap.valid; infer_instance

/-- `#define GET(p) (*(size_t *)(p))`. -/
def GET (h : Heap) (p : Nat) : Res Nat :=
  if h.valid p then .ok (h.words p) else .fault

/-- The arena with the word at `p` replaced by `v`. -/
def Heap.store (h : Heap) (p v : Nat) : Heap :=
  { h with words := fun a => if a = p then v % W32 else h.words a }

/-- `#define PUT(p, val) (*(size_t *)(p) = (int)(val))`. -/
def PUT (h : Heap) (p v : Nat) : Res Heap :=
  if h.valid p then .ok (h.store p v) else .fault

/-- Assignment to the global `seat`. -/
def Heap.setSeat (h : Heap) (s : Nat) : Heap := { h with seat := s }

/-- Modelled from the spec: the arena-growth primitive `mem_sbrk` of the
collaborator `memlib` ("extends the managed address range by a requested number
of bytes and returns a pointer to the start of the new region, failing only
when backing memory is exhausted"). Failure is the pointer `(void *)-1`. -/
def mem_sbrk (h : Heap) (incr : Nat) : Heap × Nat :=
  if h.brk + incr ≤ h.limit then ({ h with brk := h.brk + incr }, h.brk) else (h, M1)

/-- `#define GET_SIZE(p) (GET(p) & ~0x7)`. -/
def GET_SIZE (h : Heap) (p : Nat) : Res Nat := (GET h p).map sizeOf

/-- `#define GET_ALLOC(p) (GET(p) & 0x1)`. -/
def GET_ALLOC (h : Heap) (p : Nat) : Res Nat := (GET h p).map allocOf

/-- `#define HDRP(bp) ((char *)(bp) - WSIZE)`. -/
def HDRP (bp : Nat) : Nat := sub32 bp WSIZE

/-- `#define FTRP(bp) ((char *)(bp) + GET_SIZE(HDRP(bp)) - DSIZE)`. -/
def FTRP (h : Heap) (bp : Nat) : Res Nat :=
  (GET_SIZE h (HDRP bp)).map fun s => sub32 (add32 bp s) DSIZE

/-- `#define NEXT_BLKP(bp) ((char *)(bp) + GET_SIZE(((char *)(bp) - WSIZE)))`. -/
def NEXT_BLKP (h : Heap) (bp : Nat) : Res Nat :=
  (GET_SIZE h (sub32 bp WSIZE)).map fun s => add32 bp s

/-- `#define PREV_BLKP(bp) ((char *)(bp) - GET_SIZE(((char *)(bp) - DSIZE)))`. -/
def PREV_BLKP (h : Heap) (bp : Nat) : Res Nat :=
  (GET_SIZE h (sub32 bp DSIZE)).map fun s => sub32 bp s

/-- `#define LEFT(bp) ((void *)(bp))`. -/
def LEFT (bp : Nat) : Nat := bp
/-- `#define RIGHT(bp) ((void *)(bp)+WSIZE)`. -/
def RIGHT (bp : Nat) : Nat := add32 bp WSIZE
/-- `#define PARENT(bp) ((void *)(bp)+DSIZE)`. -/
def PARENT (bp : Nat) : Nat := add32 bp DSIZE
/-- `#define REPLICA(bp) ((void *)(bp)+(3*WSIZE))`. -/
def REPLICA (bp : Nat) : Nat := add32 bp (3 * WSIZE)

/-- `#define PUT_LEFT(bp,val) (PUT(LEFT(bp),val))`. -/
def PUT_LEFT (h : Heap) (bp v : Nat) : Res Heap := PUT h (LEFT bp) v
/-- `#define PUT_RIGHT(bp,val) (PUT(RIGHT(bp),val))`. -/
def PUT_RIGHT (h : Heap) (bp v : Nat) : Res Heap := PUT h (RIGHT bp) v
/-- `#define GET_LEFT(bp) ((char*)GET(LEFT(bp)))`. -/
def GET_LEFT (h : Heap) (bp : Nat) : Res Nat := GET h (LEFT bp)
/-- `#define GET_RIGHT(bp) ((char*)GET(RIGHT(bp)))`. -/
def GET_RIGHT (h : Heap) (bp : Nat) : Res Nat := GET h (RIGHT bp)

/-- The library call `memcpy(dst, src, 4 * n)`, one word after the other from
the low addresses up. -/
def memcpyWords : Nat → Heap → Nat → Nat → Res Heap
  | 0, h, _, _ => .ok h
  | n + 1, h, dst, src => do
      let v ← GET h src
      let h ← PUT h dst v
      memcpyWords n h (add32 dst 4) (add32 src 4)

/-- The library call `memcpy(dst, src, n)`. -/
def memcpy (h : Heap) (dst src n : Nat) : Res Heap := memcpyWords (n / 4) h dst src

/-! ## The free tree -/

/-- The loop `while (GET_LEFT(currSeat) != 0) currSeat = GET_LEFT(currSeat);`
of `deleteNode`. -/
def leftmost : Nat → Heap → Nat → Res Nat
  | 0, _, _ => .timeout
  | fuel + 1, h, currSeat => do
      let l ← GET_LEFT h currSeat
      if l ≠ 0 then leftmost fuel h l else .ok currSeat

/-- The branch of `deleteNode` for a node that is not the root, is not a
replica and has no replica (source lines 435-476). -/
def deleteNodePlain (fuel : Nat) (h : Heap) (bp : Nat) : Res Heap := do
  let r ← GET_RIGHT h bp
  if r ≠ 0 then
    let currSeat ← leftmost fuel h r
    let sb ← GET_SIZE h (HDRP bp)
    let p ← GET h (PARENT bp)
    let sp ← GET_SIZE h (HDRP p)
    let h ← (if sb > sp then PUT_RIGHT h p currSeat else PUT_LEFT h p currSeat)
    let r ← GET_RIGHT h bp
    let h ←
      (if currSeat ≠ r then do
        let cr ← GET_RIGHT h currSeat
        let h ←
          (if cr ≠ 0 then do
            let cp ← GET h (PARENT currSeat)
            let cr ← GET_RIGHT h currSeat
            let h ← PUT_LEFT h cp cr
            let cp ← GET h (PARENT currSeat)
            let cr ← GET_RIGHT h currSeat
            let h ← PUT_LEFT h cp cr
            let cr ← GET h (RIGHT currSeat)
            let cp ← GET h (PARENT currSeat)
            PUT h (PARENT cr) cp
          else do
            let cp ← GET h (PARENT currSeat)
            PUT_LEFT h cp 0)
        let r ← GET_RIGHT h bp
        let h ← PUT_RIGHT h currSeat r
        let r ← GET h (RIGHT bp)
        PUT h (PARENT r) currSeat
      else .ok h)
    let p ← GET h (PARENT bp)
    let h ← PUT h (PARENT currSeat) p
    let l ← GET_LEFT h bp
    let h ← PUT_LEFT h currSeat l
    let l ← GET_LEFT h bp
    if l ≠ 0 then do
      let l ← GET h (LEFT bp)
      PUT h (PARENT l) currSeat
    else .ok h
  else do
    let sb ← GET_SIZE h (HDRP bp)
    let p ← GET h (PARENT bp)
    let sp ← GET_SIZE h (HDRP p)
    let l ← GET_LEFT h bp
    let h ← (if sb > sp then PUT_RIGHT h p l else PUT_LEFT h p l)
    let l ← GET_LEFT h bp
    if l ≠ 0 then do
      let p ← GET h (PARENT bp)
      if p ≠ 0 then do
        let l ← GET h (LEFT bp)
        let p ← GET h (PARENT bp)
        PUT h (PARENT l) p
      else .ok h
    else .ok h

/-- The branch of `deleteNode` for a replica (source lines 478-483). -/
def deleteNodeReplica (h : Heap) (bp : Nat) : Res Heap := do
  let rep ← GET h (REPLICA bp)
  let h ←
    (if rep ≠ 0 then do
      let rep ← GET h (REPLICA bp)
      let l ← GET_LEFT h bp
      PUT_LEFT h rep l
    else .ok h)
  let l ← GET_LEFT h bp
  let rep ← GET h (REPLICA bp)
  PUT h (REPLICA l) rep

/-- The branch of `deleteNode` for a node that is not the root and has a
replica (source lines 485-501). -/
def deleteNodePromote (h : Heap) (bp : Nat) : Res Heap := do
  let sb ← GET_SIZE h (HDRP bp)
  let p ← GET h (PARENT bp)
  let sp ← GET_SIZE h (HDRP p)
  let rep ← GET h (REPLICA bp)
  let h ← (if sb > sp then PUT_RIGHT h p rep else PUT_LEFT h p rep)
  let rep ← GET h (REPLICA bp)
  let l ← GET_LEFT h bp
  let h ← PUT_LEFT h rep l
  let rep ← GET h (REPLICA bp)
  let r ← GET_RIGHT h bp
  let h ← PUT_RIGHT h rep r
  let l ← GET_LEFT h bp
  let h ←
    (if l ≠ 0 then do
      let l ← GET h (LEFT bp)
      let rep ← GET h (REPLICA bp)
      PUT h (PARENT l) rep
    else .ok h)
  let r ← GET_RIGHT h bp
  let h ←
    (if r ≠ 0 then do
      let r ← GET h (RIGHT bp)
      let rep ← GET h (REPLICA bp)
      PUT h (PARENT r) rep
    else .ok h)
  let rep ← GET h (REPLICA bp)
  let p ← GET h (PARENT bp)
  PUT h (PARENT rep) p

/-- The branch of `deleteNode` for the root of the tree (source lines 504-533). -/
def deleteNodeRoot (fuel : Nat) (h : Heap) (bp : Nat) : Res Heap := do
  let l ← GET_LEFT h bp
  let both ← (if l ≠ 0 then (GET_RIGHT h bp).map fun r => decide (r ≠ 0) else .ok false)
  if both then
    let r ← GET_RIGHT h bp
    let currSeat ← leftmost fuel h r
    let h := h.setSeat currSeat
    let l ← GET_LEFT h bp
    let h ← PUT h (PARENT l) currSeat
    let r ← GET_RIGHT h bp
    let h ←
      (if currSeat ≠ r then do
        let cr ← GET_RIGHT h currSeat
        let h ←
          (if cr ≠ 0 then do
            let cr ← GET h (RIGHT currSeat)
            let cp ← GET h (PARENT currSeat)
            PUT h (PARENT cr) cp
          else .ok h)
        let cp ← GET h (PARENT currSeat)
        let cr ← GET_RIGHT h currSeat
        let h ← PUT_LEFT h cp cr
        let r ← GET_RIGHT h bp
        let h ← PUT_RIGHT h currSeat r
        let r ← GET h (RIGHT bp)
        PUT h (PARENT r) currSeat
      else .ok h)
    let l ← GET_LEFT h bp
    PUT_LEFT h currSeat l
  else do
    let l ← GET_LEFT h bp
    if l = 0 then do
      let r ← GET_RIGHT h bp
      .ok (h.setSeat r)
    else do
      let l ← GET_LEFT h bp
      .ok (h.setSeat l)

/-- The function `deleteNode` (source lines 428-534). -/
def deleteNode (fuel : Nat) (h : Heap) (bp : Nat) : Res Heap := do
  if bp ≠ h.seat then
    let r ← GET_RIGHT h bp
    let plain ← (if r ≠ M1 then (GET h (REPLICA bp)).map fun rep => decide (rep = 0) else .ok false)
    if plain then deleteNodePlain fuel h bp
    else do
      let r ← GET_RIGHT h bp
      if r = M1 then deleteNodeReplica h bp else deleteNodePromote h bp
  else deleteNodeRoot fuel h bp

/-- The branch of `addNode` for a block whose size equals the size of the tree
node `currSeat` (source lines 587-619). -/
def addNodeExact (h : Heap) (bp currSeat : Nat) : Res Heap := do
  let h ←
    (if currSeat = h.seat then
      PUT (h.setSeat bp) (PARENT bp) 0
    else do
      let cp ← GET h (PARENT currSeat)
      let sp ← GET_SIZE h (HDRP cp)
      let sc ← GET_SIZE h (HDRP currSeat)
      let cp ← GET h (PARENT currSeat)
      let h ← (if sp > sc then PUT_LEFT h cp bp else PUT_RIGHT h cp bp)
      let cp ← GET h (PARENT currSeat)
      PUT h (PARENT bp) cp)
  let l ← GET_LEFT h currSeat
  let h ←
    (if l ≠ 0 then do
      let l ← GET_LEFT h currSeat
      PUT h (PARENT l) bp
    else .ok h)
  let r ← GET_RIGHT h currSeat
  let h ←
    (if r ≠ 0 then do
      let r ← GET_RIGHT h currSeat
      PUT h (PARENT r) bp
    else .ok h)
  let l ← GET_LEFT h currSeat
  let h ← PUT_LEFT h bp l
  let r ← GET_RIGHT h currSeat
  let h ← PUT_RIGHT h bp r
  let h ← PUT h (REPLICA bp) currSeat
  let h ← PUT_LEFT h currSeat bp
  PUT_RIGHT h currSeat M1

/-- The statements that hang `bp` as a new leaf under `currSeat`, on the left
(source lines 565-569) or on the right (source lines 579-583). -/
def addNodeLeaf (h : Heap) (bp currSeat : Nat) (left : Bool) : Res Heap := do
  let h ← (if left then PUT_LEFT h currSeat bp else PUT_RIGHT h currSeat bp)
  let h ← PUT h (PARENT bp) currSeat
  let h ← PUT h (REPLICA bp) 0
  let h ← PUT_LEFT h bp 0
  PUT_RIGHT h bp 0

/-- The loop `while (1)` of `addNode` (source lines 556-620). -/
def addNodeLoop : Nat → Heap → Nat → Nat → Res Heap
  | 0, _, _, _ => .timeout
  | fuel + 1, h, bp, currSeat => do
      let sb ← GET_SIZE h (HDRP bp)
      let sc ← GET_SIZE h (HDRP currSeat)
      if sb < sc then do
        let l ← GET_LEFT h currSeat
        if l ≠ 0 then addNodeLoop fuel h bp l else addNodeLeaf h bp currSeat true
      else if sb > sc then do
        let r ← GET_RIGHT h currSeat
        if r ≠ 0 then addNodeLoop fuel h bp r else addNodeLeaf h bp currSeat false
      else addNodeExact h bp currSeat

/-- The function `addNode` (source lines 541-621). -/
def addNode (fuel : Nat) (h : Heap) (bp : Nat) : Res Heap := do
  if h.seat = 0 then
    let h := h.setSeat bp
    let h ← PUT_LEFT h bp 0
    let h ← PUT_RIGHT h bp 0
    let h ← PUT h (PARENT bp) 0
    PUT h (REPLICA bp) 0
  else addNodeLoop fuel h bp h.seat

/-- The loop of `findFit` (source lines 217-239), from `previousSeat` with the
candidate `best_fit`. -/
def findFitLoop : Nat → Heap → Nat → Nat → Nat → Res Nat
  | 0, _, _, _, _ => .timeout
  | fuel + 1, h, asize, previousSeat, best_fit => do
      if previousSeat ≠ 0 then
        let s ← GET_SIZE h (HDRP previousSeat)
        if asize = s then .ok previousSeat
        else if asize < s then do
          let l ← GET_LEFT h previousSeat
          findFitLoop fuel h asize l previousSeat
        else do
          let r ← GET_RIGHT h previousSeat
          findFitLoop fuel h asize r best_fit
      else .ok best_fit

/-- The function `findFit` (source lines 213-241). -/
def findFit (fuel : Nat) (h : Heap) (asize : Nat) : Res Nat :=
  findFitLoop fuel h asize h.seat 0

/-! ## Coalescing, placement and the entry points -/

/-- The function `coalesce` (source lines 171-207): the new state and the
returned block pointer. -/
def coalesce (fuel : Nat) (h : Heap) (bp : Nat) : Res (Heap × Nat) := do
  let pb ← PREV_BLKP h bp
  let pf ← FTRP h pb
  let prev_alloc ← GET_ALLOC h pf
  let nb ← NEXT_BLKP h bp
  let next_alloc ← GET_ALLOC h (HDRP nb)
  let size ← GET_SIZE h (HDRP bp)
  if prev_alloc ≠ 0 ∧ next_alloc ≠ 0 then .ok (h, bp)
  else if prev_alloc ≠ 0 ∧ next_alloc = 0 then do
    let nb ← NEXT_BLKP h bp
    let ns ← GET_SIZE h (HDRP nb)
    let size := add32 size ns
    let nb ← NEXT_BLKP h bp
    let h ← deleteNode fuel h nb
    let h ← PUT h (HDRP bp) (PACK size 0)
    let f ← FTRP h bp
    let h ← PUT h f (PACK size 0)
    .ok (h, bp)
  else if prev_alloc = 0 ∧ next_alloc ≠ 0 then do
    let pb ← PREV_BLKP h bp
    let ps ← GET_SIZE h (HDRP pb)
    let size := add32 size ps
    let pb ← PREV_BLKP h bp
    let h ← deleteNode fuel h pb
    let f ← FTRP h bp
    let h ← PUT h f (PACK size 0)
    let pb ← PREV_BLKP h bp
    let h ← PUT h (HDRP pb) (PACK size 0)
    let bp ← PREV_BLKP h bp
    .ok (h, bp)
  else do
    let pb ← PREV_BLKP h bp
    let ps ← GET_SIZE h (HDRP pb)
    let nb ← NEXT_BLKP h bp
    let nf ← FTRP h nb
    let ns ← GET_SIZE h nf
    let size := add32 size (add32 ps ns)
    let nb ← NEXT_BLKP h bp
    let h ← deleteNode fuel h nb
    let pb ← PREV_BLKP h bp
    let h ← deleteNode fuel h pb
    let pb ← PREV_BLKP h bp
    let h ← PUT h (HDRP pb) (PACK size 0)
    let nb ← NEXT_BLKP h bp
    let nf ← FTRP h nb
    let h ← PUT h nf (PACK size 0)
    let bp ← PREV_BLKP h bp
    .ok (h, bp)

/-- The call `addNode(coalesce(bp))`. -/
def addCoalesced (fuel : Nat) (h : Heap) (bp : Nat) : Res Heap := do
  let (h, bp) ← coalesce fuel h bp
  addNode fuel h bp

/-- The function `extendHeap` (source lines 138-149): the new state and the
returned pointer (`0` when the arena cannot grow). -/
def extendHeap (fuel : Nat) (h : Heap) (size : Nat) : Res (Heap × Nat) :=
  let (h, bp) := mem_sbrk h size
  if bp = M1 then .ok (h, 0)
  else do
    let h ← PUT h (HDRP bp) (PACK size 0)
    let f ← FTRP h bp
    let h ← PUT h f (PACK size 0)
    let nb ← NEXT_BLKP h bp
    let h ← PUT h (HDRP nb) (PACK 0 1)
    let h ← addCoalesced fuel h bp
    .ok (h, bp)

/-- The function `mm_init` (source lines 117-132): the new state and the
returned status (`0`, or `-1` as the word `M1`). -/
def mm_init (fuel : Nat) (h : Heap) : Res (Heap × Nat) :=
  let (h, sp) := mem_sbrk h (4 * WSIZE)
  let h := { h with startPointer := sp }
  if sp = M1 then .ok (h, M1)
  else do
    let h ← PUT h h.startPointer 0
    let h ← PUT h (add32 h.startPointer WSIZE) (PACK OVERHEAD 1)
    let h ← PUT h (add32 h.startPointer DSIZE) (PACK OVERHEAD 1)
    let h ← PUT h (add32 (add32 h.startPointer WSIZE) DSIZE) (PACK 0 1)
    let h := { h with startPointer := add32 h.startPointer (DSIZE * 2) }
    let h := h.setSeat 0
    let (h, r) ← extendHeap fuel h (CHUNKSIZE / WSIZE)
    if r = 0 then .ok (h, M1) else .ok (h, 0)

/-- The function `mm_free` (source lines 156-163). -/
def mm_free (fuel : Nat) (h : Heap) (bp : Nat) : Res Heap := do
  let size ← GET_SIZE h (HDRP bp)
  let h ← PUT h (HDRP bp) (PACK size 0)
  let f ← FTRP h bp
  let h ← PUT h f (PACK size 0)
  addCoalesced fuel h bp

/-- The function `place` (source lines 250-271). -/
def place (fuel : Nat) (h : Heap) (bp asize : Nat) : Res Heap := do
  let csize ← GET_SIZE h (HDRP bp)
  let h ← deleteNode fuel h bp
  if sub32 csize asize ≥ DSIZE * 2 + OVERHEAD then
    let h ← PUT h (HDRP bp) (PACK asize 1)
    let f ← FTRP h bp
    let h ← PUT h f (PACK asize 1)
    let bp ← NEXT_BLKP h bp
    let h ← PUT h (HDRP bp) (PACK (sub32 csize asize) 0)
    let f ← FTRP h bp
    let h ← PUT h f (PACK (sub32 csize asize) 0)
    addCoalesced fuel h bp
  else do
    let h ← PUT h (HDRP bp) (PACK csize 1)
    let f ← FTRP h bp
    PUT h f (PACK csize 1)

/-- The block size `asize` that `mm_malloc` computes for a request of `size`
bytes (source lines 290-293). -/
def adjust (size : Nat) : Nat :=
  if size ≤ DSIZE then 2 * DSIZE + OVERHEAD
  else (DSIZE * (add32 size (OVERHEAD + (DSIZE - 1)) / DSIZE)) % W32

/-- The function `mm_malloc` (source lines 278-312): the new state and the
returned pointer (`0` for `NULL`). -/
def mm_malloc (fuel : Nat) (h : Heap) (size : Nat) : Res (Heap × Nat) := do
  if size = 0 then .ok (h, 0)
  else
    let asize := adjust size
    let bp ← findFit fuel h asize
    if bp ≠ 0 then
      let h ← place fuel h bp asize
      .ok (h, bp)
    else do
      let extendsize := MAX asize CHUNKSIZE
      let (h, _) ← extendHeap fuel h extendsize
      let bp ← findFit fuel h asize
      if bp = 0 then .ok (h, 0)
      else do
        let h ← place fuel h bp asize
        .ok (h, bp)

/-- The tail of `mm_realloc` (source lines 409-420): find a block elsewhere,
copy, place, free the old block. -/
def reallocMove (fuel : Nat) (h : Heap) (ptr size old_size : Nat) : Res (Heap × Nat) := do
  let bp ← findFit fuel h (ALIGNED (add32 size 8))
  if bp = 0 then
    let (h, _) ← extendHeap fuel h (ALIGNED (28087 + 8))
    let bp ← findFit fuel h (ALIGNED (add32 size 8))
    if bp = 0 then .ok (h, 0)
    else do
      let h ← memcpy h bp ptr (sub32 old_size DSIZE)
      let h ← place fuel h bp (ALIGNED (add32 size 8))
      let h ← mm_free fuel h ptr
      .ok (h, bp)
  else do
    let h ← memcpy h bp ptr (sub32 old_size DSIZE)
    let h ← place fuel h bp (ALIGNED (add32 size 8))
    let h ← mm_free fuel h ptr
    .ok (h, bp)

/-- The statements shared by the three in-place branches of `mm_realloc`
(source lines 367-372, 381-386, 400-405): tag the block at `bp` with the new
size, tag what is left behind it as free and insert it. The size of what is
left is the expression `rest`, which the source evaluates once for the header
and once for the footer. -/
def reallocRetag (fuel : Nat) (h : Heap) (bp size : Nat) (rest : Heap → Res Nat) :
    Res (Heap × Nat) := do
  let h ← PUT h (HDRP bp) (PACK (ALIGNED (add32 size 8)) 1)
  let f ← FTRP h bp
  let h ← PUT h f (PACK (ALIGNED (add32 size 8)) 1)
  let nb ← NEXT_BLKP h bp
  let v ← rest h
  let h ← PUT h (HDRP nb) (PACK v 0)
  let nb ← NEXT_BLKP h bp
  let f ← FTRP h nb
  let v ← rest h
  let h ← PUT h f (PACK v 0)
  let nb ← NEXT_BLKP h bp
  let h ← addNode fuel h nb
  .ok (h, bp)

/-- The branch of `mm_realloc` taken when both neighbours are allocated
(source lines 343-356). -/
def reallocBothAllocated (fuel : Nat) (h : Heap) (ptr size old_size : Nat) :
    Res (Heap × Nat) := do
  let bp ← findFit fuel h (ALIGNED (add32 size 8))
  let (h, bp) ←
    if bp = 0 then do
      let (h, _) ← extendHeap fuel h (ALIGNED (28087 + 8 + 24))
      let bp ← findFit fuel h (ALIGNED (add32 size 8))
      .ok (h, bp)
    else .ok (h, bp)
  let h ← memcpy h bp ptr (sub32 old_size DSIZE)
  let h ← place fuel h bp (ALIGNED (add32 size 8))
  let h ← mm_free fuel h ptr
  .ok (h, bp)

/-- The function `mm_realloc` (source lines 316-421): the new state and the
returned pointer (`0` for `NULL`). -/
def mm_realloc (fuel : Nat) (h : Heap) (ptr size : Nat) : Res (Heap × Nat) := do
  let old_size ← GET_SIZE h (HDRP ptr)
  let nb ← NEXT_BLKP h ptr
  let nexta ← GET_ALLOC h (HDRP nb)
  let pb ← PREV_BLKP h ptr
  let preva ← GET_ALLOC h (HDRP pb)
  let nextb ← NEXT_BLKP h ptr
  if size = 0 then
    let h ← mm_free fuel h ptr
    .ok (h, 0)
  else if ptr = 0 then do
    let (h, _) ← mm_malloc fuel h size
    .ok (h, 0)
  else if preva ≠ 0 ∧ nexta ≠ 0 then reallocBothAllocated fuel h ptr size old_size
  else if nexta ≠ 0 ∧ preva = 0 then do
    let pb ← PREV_BLKP h ptr
    let prevd ← GET_SIZE h (HDRP pb)
    if add32 old_size prevd ≥ add32 (ALIGNED (add32 size 8)) 24 then
      let pb ← PREV_BLKP h ptr
      let h ← deleteNode fuel h pb
      let bp ← PREV_BLKP h ptr
      let h ← memcpy h bp ptr (sub32 old_size DSIZE)
      reallocRetag fuel h bp size fun _ =>
        .ok (sub32 (add32 old_size prevd) (ALIGNED (add32 size 8)))
    else reallocMove fuel h ptr size old_size
  else if preva ≠ 0 ∧ nexta = 0 then do
    let ns ← GET_SIZE h (HDRP nextb)
    if add32 old_size ns ≥ add32 (ALIGNED (add32 size 8)) 24 then
      let h ← deleteNode fuel h nextb
      reallocRetag fuel h ptr size fun h =>
        (GET h (HDRP nextb)).map fun nw => sub32 (add32 old_size nw) (ALIGNED (add32 size 8))
    else reallocMove fuel h ptr size old_size
  else do
    let pb ← PREV_BLKP h ptr
    let prevd ← GET_SIZE h (HDRP pb)
    let nextd ← GET_SIZE h (HDRP nextb)
    let h ← deleteNode fuel h nextb
    let pb ← PREV_BLKP h ptr
    let h ← deleteNode fuel h pb
    let bp ← PREV_BLKP h ptr
    if add32 (add32 old_size prevd) nextd ≥ add32 (ALIGNED (add32 size 8)) 24 then
      let h ← memcpy h bp ptr (sub32 old_size DSIZE)
      reallocRetag fuel h bp size fun _ =>
        .ok (sub32 (add32 (add32 old_size prevd) nextd) (ALIGNED (add32 size 8)))
    else reallocMove fuel h ptr size old_size

/-- What the consistency check `mm_check` reports. -/
inductive Report where
  | nonCoalesced
  | zeroSize
  | overlapping
  deriving DecidableEq

/-- The function `mm_check` (source lines 629-664), from the block `buff`: the
message it prints before it leaves its loop. -/
def mm_checkLoop : Nat → Heap → Nat → Res Report
  | 0, _, _ => .timeout
  | fuel + 1, h, buff => do
      let prevBuff := buff
      let buff ← NEXT_BLKP h buff
      let pa ← GET_ALLOC h (HDRP prevBuff)
      let both ← if pa = 0 then (GET_ALLOC h (HDRP buff)).map fun a => decide (a = 0)
                 else .ok false
      if both then .ok .nonCoalesced
      else do
        let ps ← GET_SIZE h (HDRP prevBuff)
        let zero ← if ps = 0 then (GET_ALLOC h (HDRP prevBuff)).map fun a => decide (a = 1)
                   else .ok false
        if zero then .ok .zeroSize
        else do
          let s1 ← GET_SIZE h (HDRP prevBuff)
          let s2 ← GET_SIZE h (HDRP prevBuff)
          if s1 ≠ s2 then .ok .overlapping else mm_checkLoop fuel h buff

/-- The function `mm_check` (source lines 629-664). -/
def mm_check (fuel : Nat) (h : Heap) : Res Report := mm_checkLoop fuel h h.startPointer

/-! ## Concrete runs -/

/-- An arena that has not been grown yet: its base is the 8-aligned address
`65536`, it may grow by `8192` bytes, and fresh memory reads as zero. -/
def heap0 : Heap :=
  { words := fun _ => 0, lo := 65536, brk := 65536, limit := 65536 + 8192,
    startPointer := 0, seat := 0 }

/-- The state after `mm_init`. -/
def afterInit : Res Heap := (mm_init 100 heap0).map Prod.fst

/-- Four 16-byte allocations `A`, `B`, `C`, `D`, then `mm_malloc(920)` (which
uses up the arena), `mm_free(A)`, `mm_free(C)` and `mm_malloc(16)`: the state
and the pointers `A`, `B` and the last returned pointer. -/
def lostReplicaRun : Res (Heap × Nat × Nat × Nat) := do
  let h ← afterInit
  let (h, a) ← mm_malloc 100 h 16
  let (h, b) ← mm_malloc 100 h 16
  let (h, c) ← mm_malloc 100 h 16
  let (h, _) ← mm_malloc 100 h 16
  let (h, _) ← mm_malloc 100 h 920
  let h ← mm_free 100 h a
  let h ← mm_free 100 h c
  let (h, f) ← mm_malloc 100 h 16
  .ok (h, a, b, f)

/-- The run `lostReplicaRun`, after which the client stores the word
`3735928559` in the last word of the payload of the live block `F` and then
calls `mm_free(B)`: the word found in that place afterwards. -/
def corruptionRun : Res Nat := do
  let (h, _, b, f) ← lostReplicaRun
  let h ← PUT h (f + 12) 3735928559
  let h ← mm_free 100 h b
  GET h (f + 12)

/-- `mm_init`, `A = mm_malloc(16)`, `mm_realloc(A, 1)`, `mm_malloc(1000)`,
`mm_free(A)`: the state and the pointer returned by `mm_realloc`. -/
def smallBlockRun : Res (Heap × Nat) := do
  let h ← afterInit
  let (h, a) ← mm_malloc 100 h 16
  let (h, a) ← mm_realloc 100 h a 1
  let (h, _) ← mm_malloc 100 h 1000
  let h ← mm_free 100 h a
  .ok (h, a)

/-- The allocated bits found in the headers of the block at `bp` and of the
block that follows it. -/
def twoAllocBits (h : Heap) (bp : Nat) : Res (Nat × Nat) := do
  let a ← GET_ALLOC h (HDRP bp)
  let nb ← NEXT_BLKP h bp
  let b ← GET_ALLOC h (HDRP nb)
  .ok (a, b)

/-- `mm_init`, `A = mm_malloc(16)`, `B = mm_malloc(16)`; the client stores the
word `32` at `B`, and the words `0` and `B + 4` at `A` and `A + 4` (all inside
its own payloads); then `mm_realloc(A, 100)` and `mm_malloc(20)`: the pointer
returned by that `mm_malloc`. -/
def misalignedRun : Res Nat := do
  let h ← afterInit
  let (h, a) ← mm_malloc 100 h 16
  let (h, b) ← mm_malloc 100 h 16
  let h ← PUT h b 32
  let h ← PUT h a 0
  let h ← PUT h (a + 4) (b + 4)
  let (h, _) ← mm_realloc 100 h a 100
  let (_, p) ← mm_malloc 100 h 20
  .ok p

/-- `mm_init`, `A = mm_malloc(16)`, `B = mm_malloc(16)`; the client stores the
words `B + 16` and `B` in the first two words of the payload of `A`; then
`mm_realloc(A, 100)`: the first payload word of `A` before the call, the
returned pointer, and the first payload word found there after the call. -/
def reallocContentRun : Res (Nat × Nat × Nat) := do
  let h ← afterInit
  let (h, a) ← mm_malloc 100 h 16
  let (h, b) ← mm_malloc 100 h 16
  let h ← PUT h a (b + 16)
  let h ← PUT h (a + 4) b
  let before ← GET h a
  let (h, q) ← mm_realloc 100 h a 100
  let after ← GET h q
  .ok (before, q, after)

/-- The tags of the block at `ptr` and the headers of its two neighbours lie
in the arena, as they do for every block between the prologue and the
epilogue. -/
def Heap.tagsReadable (h : Heap) (ptr : Nat) : Prop :=
  h.valid (HDRP ptr) ∧ h.valid (sub32 ptr DSIZE) ∧
  h.valid (HDRP (add32 ptr (sizeOf (h.words (HDRP ptr))))) ∧
  h.valid (HDRP (sub32 ptr (sizeOf (h.words (sub32 ptr DSIZE)))))

instance (h : Heap) (ptr : Nat) : Decidable (h.tagsReadable ptr) := by
  unfold Heap.tagsReadable; infer_instance

/-! ## Well-formed states -/

/-- The free tree as a value: a binary tree of block pointers, each tree node
with the list of its replicas (head of the chain first). -/
inductive FTree where
  | nil : FTree
  | node (l : FTree) (a : Nat) (reps : List Nat) (r : FTree) : FTree

/-- The pointer that stands for a tree: its top node, or NULL. -/
def FTree.root : FTree → Nat
  | .nil => 0
  | .node _ a _ _ => a

/-- The tree nodes, in order. -/
def FTree.nodes : FTree → List Nat
  | .nil => []
  | .node l a _ r => l.nodes ++ a :: r.nodes

/-- The tree nodes and their replicas. -/
def FTree.members : FTree → List Nat
  | .nil => []
  | .node l a reps r => l.members ++ (a :: reps ++ r.members)

/-- The number of nodes on the longest path from the top. -/
def FTree.height : FTree → Nat
  | .nil => 0
  | .node l _ _ r => max l.height r.height + 1

/-- The subtree whose top node is `c`. -/
def FTree.subtreeAt : FTree → Nat → FTree
  | .nil, _ => .nil
  | .node l a reps r, c =>
    if a = c then .node l a reps r
    else if c ∈ l.nodes then l.subtreeAt c else r.subtreeAt c

/-- The tree with the subtree whose top node is `c` replaced by `s`. -/
def FTree.subst : FTree → Nat → FTree → FTree
  | .nil, _, _ => .nil
  | .node l a reps r, c, s =>
    if a = c then s
    else if c ∈ l.nodes then .node (l.subst c s) a reps r else .node l a reps (r.subst c s)

/-- The tree node above the tree node `c` (NULL for the top node). -/
def FTree.parentOf : FTree → Nat → Nat
  | .nil, _ => 0
  | .node l a _ r, c =>
    if a = c then 0
    else if c ∈ l.nodes then (if l.root = c then a else l.parentOf c)
    else (if r.root = c then a else r.parentOf c)

/-- The tree node in whose replica chain `b` stands (NULL when there is none). -/
def FTree.ownerOf : FTree → Nat → Nat
  | .nil, _ => 0
  | .node l a reps r, b =>
    if b ∈ reps then a else if b ∈ l.members then l.ownerOf b else r.ownerOf b

/-- The leftmost tree node. -/
def FTree.leftAddr : FTree → Nat
  | .nil => 0
  | .node .nil a _ _ => a
  | .node (.node l b rs r') _ _ _ => (FTree.node l b rs r').leftAddr

/-- The size field of the header of the block at `a`. -/
def szOf (w : Nat → Nat) (a : Nat) : Nat := sizeOf (w (a - 4))

/-- The result of the best-fit search of `findFit` on a tree, for the request
`k` and the candidate `best`. -/
def FTree.fit (w : Nat → Nat) : FTree → Nat → Nat → Nat
  | .nil, _, best => best
  | .node l a _ r, k, best =>
    if k = szOf w a then a else if k < szOf w a then l.fit w k a else r.fit w k best

/-- The link words of a replica chain that hangs off `prev`: each replica
points back with `LEFT`, carries the marker `-1` in `RIGHT` and points on with
`REPLICA`. -/
def ChainOK (w : Nat → Nat) : Nat → List Nat → Prop
  | _, [] => True
  | prev, x :: xs =>
    w x = prev ∧ w (x + 4) = M1 ∧ w (x + 12) = xs.headD 0 ∧ ChainOK w x xs

/-- The link words in memory spell out the tree: `LEFT`, `RIGHT` and `REPLICA`
of every tree node name its children and the head of its replica chain, and
`PARENT` of every child names its parent. (`PARENT` of the top node and of the
replicas is not constrained: the source never reads it.) -/
def Shape (w : Nat → Nat) : FTree → Prop
  | .nil => True
  | .node l a reps r =>
    w a = l.root ∧ w (a + 4) = r.root ∧ w (a + 12) = reps.headD 0 ∧ ChainOK w a reps ∧
    (l.root ≠ 0 → w (l.root + 8) = a) ∧ (r.root ≠ 0 → w (r.root + 8) = a) ∧
    Shape w l ∧ Shape w r

/-- The size order of the tree: sizes in a left subtree are strictly smaller,
sizes in a right subtree strictly greater, replicas have the size of their
tree node; all sizes lie strictly between `lo` and `hi`. -/
def Ordered (w : Nat → Nat) : FTree → Nat → Nat → Prop
  | .nil, _, _ => True
  | .node l a reps r, lo, hi =>
    lo < szOf w a ∧ szOf w a < hi ∧ (∀ x ∈ reps, szOf w x = szOf w a) ∧
    Ordered w l lo (szOf w a) ∧ Ordered w r (szOf w a) hi

/-- The size field of the header of the block at `a`. -/
def Heap.bsize (h : Heap) (a : Nat) : Nat := sizeOf (h.words (a - 4))

/-- The allocated bit of the header of the block at `a`. -/
def Heap.balloc (h : Heap) (a : Nat) : Nat := allocOf (h.words (a - 4))

/-- The arena and its two sentinels: an 8-aligned base, not at address zero,
inside the 32-bit address space, the prologue (header and footer `8 | 1`) in front of
`startPointer`, and the epilogue header `0 | 1` in the last word. -/
structure Arena (h : Heap) : Prop where
  lo_pos : 8 ≤ h.lo
  lo_aligned : h.lo % 8 = 0
  start : h.startPointer = h.lo + 16
  brk_le : h.brk ≤ h.limit
  limit_lt : h.limit < W32
  prologue_header : h.words (h.lo + 4) = 9
  prologue_footer : h.words (h.lo + 8) = 9
  epilogue : h.words (h.brk - 4) = 1

/-- The blocks `S`, lowest address first, tile the arena from the address `a`
up to the epilogue: every block starts where the block before it ends, has a
size that is a multiple of 8 and at least 16, a header that holds nothing but
the size and the allocated bit, and a footer that agrees with the header; a
free block is at least 24 bytes long (so that it holds the four link words);
the last block ends at the break. -/
def Chain (h : Heap) : Nat → List Nat → Prop
  | a, [] => a = h.brk
  | a, b :: bs => b = a ∧ a % 8 = 0 ∧ 16 ≤ h.bsize a ∧
      h.words (a - 4) = h.bsize a + h.balloc a ∧
      h.words (a + h.bsize a - 8) = h.words (a - 4) ∧
      (h.balloc a = 0 → 24 ≤ h.bsize a) ∧ Chain h (a + h.bsize a) bs

/-- The blocks `S` tile the arena between the prologue and the epilogue. -/
def Tiled (h : Heap) (S : List Nat) : Prop := Chain h h.startPointer S

/-- No two neighbours are both free. -/
def NoAdjacentFree (h : Heap) (S : List Nat) : Prop :=
  ∀ a ∈ S, a + h.bsize a ∈ S → h.balloc a = 0 → h.balloc (a + h.bsize a) = 1

/-- The free tree `t` is laid out in memory under `seat`, is ordered by size,
names no block twice, and all its members are free blocks of the tiling. -/
structure Indexed (h : Heap) (S : List Nat) (t : FTree) : Prop where
  shape : Shape h.words t
  root : t.root = h.seat
  ordered : Ordered h.words t 0 W32
  nodup : t.members.Nodup
  free : ∀ a ∈ t.members, a ∈ S ∧ h.balloc a = 0

/-- A state in which the blocks `S` tile the arena and the free tree `t` holds
free blocks only. -/
structure Consistent (h : Heap) (S : List Nat) (t : FTree) : Prop where
  arena : Arena h
  tiled : Tiled h S
  indexed : Indexed h S t

/-- A well-formed allocator state: the blocks tile the arena between prologue
and epilogue with agreeing header and footer, no two neighbours are both free,
and the members of the free tree are exactly the free blocks. -/
def WellFormed (h : Heap) : Prop :=
  ∃ S t, Consistent h S t ∧ NoAdjacentFree h S ∧ ∀ a ∈ S, h.balloc a = 0 → a ∈ t.members

/-- The words `w'` differ from the words `w` at most inside the four link
words of the blocks in `W`. -/
def Untouched (w w' : Nat → Nat) (W : List Nat) : Prop :=
  ∀ y, (∀ m ∈ W, y < m ∨ m + 16 ≤ y) → w' y = w y

/-- The arena bounds and `startPointer` are the same in both states. -/
def SameArena (h h' : Heap) : Prop :=
  h'.lo = h.lo ∧ h'.brk = h.brk ∧ h'.limit = h.limit ∧ h'.startPointer = h.startPointer

/-- What the tree functions need of a state: the free tree `t` is laid out in
memory under `seat` and ordered by size, and its members are distinct blocks
whose header and link words lie in the arena, at least 24 bytes apart. -/
structure TreeOK (h : Heap) (t : FTree) : Prop where
  shape : Shape h.words t
  root : t.root = h.seat
  ordered : Ordered h.words t 0 W32
  nodup : t.members.Nodup
  range : ∀ a ∈ t.members, 24 ≤ a ∧ h.lo + 4 ≤ a ∧ a + 16 ≤ h.brk ∧ a % 4 = 0
  sep : ∀ a ∈ t.members, ∀ b ∈ t.members, a ≠ b → a + 24 ≤ b ∨ b + 24 ≤ a
  brk_lt : h.brk < W32

/-! ## Heaps written by the branches of `deleteNode` -/

/-- The heap after the writes of `deleteNodePromote`. -/
def promoteHeap (h : Heap) (slot x p lr rr : Nat) : Heap :=
  let h3 := ((h.store slot x).store x lr).store (x + 4) rr
  let h4 := if lr ≠ 0 then h3.store (lr + 8) x else h3
  let h5 := if rr ≠ 0 then h4.store (rr + 8) x else h4
  h5.store (x + 8) p

/-- The tree nodes with their replica chains, in order. -/
def FTree.listing : FTree → List (Nat × List Nat)
  | .nil => []
  | .node l a reps r => l.listing ++ (a, reps) :: r.listing

/-- The listing of the tree after `deleteNode(b)`: a replica leaves its chain;
a tree node that is not the root hands its place to the head of its chain; a
tree node without replicas disappears, and so does the root, together with its
chain. -/
def delListing (b : Nat) (isRoot : Bool) : List (Nat × List Nat) → List (Nat × List Nat)
  | [] => []
  | p :: rest =>
    if p.1 = b then
      (if isRoot = true ∨ p.2 = [] then rest else (p.2.headD 0, p.2.tail) :: rest)
    else if b ∈ p.2 then (p.1, p.2.erase b) :: rest
    else p :: delListing b isRoot rest

/-- What every branch of `deleteNode` establishes for a member `b` of the tree. -/
def Deleted (h : Heap) (t : FTree) (b : Nat) (h' : Heap) (t' : FTree) : Prop :=
  SameArena h h' ∧ Untouched h.words h'.words t.members ∧ TreeOK h' t' ∧
    (∀ x ∈ t'.members, x ∈ t.members) ∧ b ∉ t'.members

/-- What every branch of `deleteNode` establishes beyond `Deleted`: the words
that change are link words of members of the new tree, the new tree is the old
one without `b` (and, when `b` was the root, without its replicas), and it is
not higher than the old one. -/
def DeletedExact (h : Heap) (t : FTree) (b : Nat) (h' : Heap) (t' : FTree) : Prop :=
  Untouched h.words h'.words t'.members ∧
    t'.listing = delListing b (decide (b = t.root)) t.listing ∧ t'.height ≤ t.height

/-- The heap after the writes of `deleteNodePlain` on a node without a right child. -/
def plainLeftHeap (h : Heap) (slot p lr : Nat) : Heap :=
  if lr ≠ 0 then (h.store slot lr).store (lr + 8) p else h.store slot lr

/-- The heap after `deleteNodeRoot` when the right child is the successor. -/
def rootNearHeap (h : Heap) (c lr : Nat) : Heap :=
  ((h.setSeat c).store (lr + 8) c).store c lr

/-- The heap after `deleteNodeRoot` when the successor lies deeper in the right subtree. -/
def rootFarHeap (h : Heap) (c lr rr cp crr : Nat) : Heap :=
  let h1 := (h.setSeat c).store (lr + 8) c
  let h2 := if crr ≠ 0 then h1.store (crr + 8) cp else h1
  ((((h2.store cp crr).store (c + 4) rr).store (rr + 8) c)).store c lr

/-- The heap after `deleteNodePlain` when the right child is the successor. -/
def plainNearHeap (h : Heap) (slot c p lr : Nat) : Heap :=
  let h3 := ((h.store slot c).store (c + 8) p).store c lr
  if lr ≠ 0 then h3.store (lr + 8) c else h3

/-- The heap after `deleteNodePlain` when the successor lies deeper in the right subtree. -/
def plainFarHeap (h : Heap) (slot c p lr rr cp crr : Nat) : Heap :=
  let h1 := h.store slot c
  let h2 := if crr ≠ 0 then ((h1.store cp crr).store cp crr).store (crr + 8) cp
    else h1.store cp 0
  let h5 := (((h2.store (c + 4) rr).store (rr + 8) c).store (c + 8) p).store c lr
  if lr ≠ 0 then h5.store (lr + 8) c else h5

/-! ## More concrete runs -/

/-- What `mm_init` leaves on the arena `heap0`: the returned status, the root
`seat` of the free tree, the size and allocated bit in the header and in the
footer of the block at `seat`, and the number of bytes of the arena. -/
def initRun : Res (Nat × Nat × (Nat × Nat) × (Nat × Nat) × Nat) := do
  let (h, r) ← mm_init 100 heap0
  let hd ← GET h (HDRP h.seat)
  let f ← FTRP h h.seat
  let ft ← GET h f
  .ok (r, h.seat, (sizeOf hd, allocOf hd), (sizeOf ft, allocOf ft), h.brk - h.lo)

/-- Four 16-byte allocations `A`, `B`, `C`, `D`, then `mm_malloc(920)` (which
uses up the arena), `mm_free(A)` and `mm_free(C)`; then `deleteNode` on the
root of the free tree: the pointers `A` and `C`, the root and the head of its
replica chain before the call, and after the call the root, the header of `A`
and the `LEFT` word of `A`. -/
def rootReplicaRun : Res ((Nat × Nat) × (Nat × Nat) × (Nat × Nat × Nat)) := do
  let h ← afterInit
  let (h, a) ← mm_malloc 100 h 16
  let (h, _) ← mm_malloc 100 h 16
  let (h, c) ← mm_malloc 100 h 16
  let (h, _) ← mm_malloc 100 h 16
  let (h, _) ← mm_malloc 100 h 920
  let h ← mm_free 100 h a
  let h ← mm_free 100 h c
  let root := h.seat
  let rep ← GET h (REPLICA root)
  let h ← deleteNode 100 h root
  let hd ← GET h (HDRP a)
  let l ← GET_LEFT h a
  .ok ((a, c), (root, rep), (h.seat, hd, l))

/-! ## Deciding the layout of a concrete tree -/

/-- The link words of a chain can be checked word by word. -/
def ChainOK.dec (w : Nat → Nat) : (p : Nat) → (xs : List Nat) → Decidable (ChainOK w p xs)
  | _, [] => isTrue trivial
  | _, x :: xs =>
    have := ChainOK.dec w x xs
    inferInstanceAs (Decidable (w x = _ ∧ w (x + 4) = M1 ∧ w (x + 12) = xs.headD 0 ∧
      ChainOK w x xs))

instance (w : Nat → Nat) (p : Nat) (xs : List Nat) : Decidable (ChainOK w p xs) :=
  ChainOK.dec w p xs

/-- The layout of a tree can be checked word by word. -/
def Shape.dec (w : Nat → Nat) : (t : FTree) → Decidable (Shape w t)
  | .nil => isTrue trivial
  | .node l a reps r =>
    have := Shape.dec w l
    have := Shape.dec w r
    inferInstanceAs (Decidable (w a = l.root ∧ w (a + 4) = r.root ∧ w (a + 12) = reps.headD 0 ∧
      ChainOK w a reps ∧ (l.root ≠ 0 → w (l.root + 8) = a) ∧ (r.root ≠ 0 → w (r.root + 8) = a) ∧
      Shape w l ∧ Shape w r))

instance (w : Nat → Nat) (t : FTree) : Decidable (Shape w t) := Shape.dec w t

/-- The size order of a tree can be checked node by node. -/
def Ordered.dec (w : Nat → Nat) : (t : FTree) → (lo hi : Nat) → Decidable (Ordered w t lo hi)
  | .nil, _, _ => isTrue trivial
  | .node l a reps r, lo, hi =>
    have := Ordered.dec w l lo (szOf w a)
    have := Ordered.dec w r (szOf w a) hi
    inferInstanceAs (Decidable (lo < szOf w a ∧ szOf w a < hi ∧
      (∀ x ∈ reps, szOf w x = szOf w a) ∧
      Ordered w l lo (szOf w a) ∧ Ordered w r (szOf w a) hi))

instance (w : Nat → Nat) (t : FTree) (lo hi : Nat) : Decidable (Ordered w t lo hi) :=
  Ordered.dec w t lo hi

instance (h : Heap) (t : FTree) : Decidable (TreeOK h t) :=
  decidable_of_iff (Shape h.words t ∧ t.root = h.seat ∧ Ordered h.words t 0 W32 ∧
      t.members.Nodup ∧
      (∀ a ∈ t.members, 24 ≤ a ∧ h.lo + 4 ≤ a ∧ a + 16 ≤ h.brk ∧ a % 4 = 0) ∧
      (∀ a ∈ t.members, ∀ b ∈ t.members, a ≠ b → a + 24 ≤ b ∨ b + 24 ≤ a) ∧ h.brk < W32)
    ⟨fun ⟨a, b, c, d, e, f, g⟩ => ⟨a, b, c, d, e, f, g⟩,
      fun ⟨a, b, c, d, e, f, g⟩ => ⟨a, b, c, d, e, f, g⟩⟩

/-! ## A state with three tree nodes and a replica -/

/-- The state of a run that ends well (the empty arena `heap0` otherwise). -/
def stateOf (r : Res Heap) : Heap :=
  match r with
  | .ok h => h
  | _ => heap0

/-- `mm_init`, then allocations of 16, 16, 32, 16, 48, 16, 16 and 16 bytes
(`A` at 65552, `B` at 65576, `C` at 65600, `D` at 65640, `E` at 65664, `F` at
65720, `G` at 65744, `H` at 65768), then `mm_free` of `C`, `E`, `A` and `G`. -/
def demoRun : Res Heap := do
  let h ← afterInit
  let (h, a) ← mm_malloc 100 h 16
  let (h, _) ← mm_malloc 100 h 16
  let (h, c) ← mm_malloc 100 h 32
  let (h, _) ← mm_malloc 100 h 16
  let (h, e) ← mm_malloc 100 h 48
  let (h, _) ← mm_malloc 100 h 16
  let (h, g) ← mm_malloc 100 h 16
  let (h, _) ← mm_malloc 100 h 16
  let h ← mm_free 100 h c
  let h ← mm_free 100 h e
  let h ← mm_free 100 h a
  mm_free 100 h g

/-- The state after `demoRun`. -/
def demoHeap : Heap := stateOf demoRun

/-- The free tree of `demoHeap`: the root is the block at 65792 (784 bytes);
its left child `C` (40 bytes) has the children `G` (24 bytes, with the replica
`A`) and `E` (56 bytes). -/
def demoTree : FTree :=
  .node (.node (.node .nil 65744 [65552] .nil) 65600 [] (.node .nil 65664 [] .nil)) 65792 []
    .nil

/-! ## Insertion into the free tree -/

/-- The tree node at which the loop of `addNode` stops for a block of size `k`:
the node of that size, or the node under which the block becomes a leaf. -/
def FTree.stopAt (w : Nat → Nat) : FTree → Nat → Nat
  | .nil, _ => 0
  | .node l a _ r, k =>
    if k < szOf w a then (if l.root ≠ 0 then l.stopAt w k else a)
    else if k > szOf w a then (if r.root ≠ 0 then r.stopAt w k else a)
    else a

/-- The tree after `addNode` of a block `b` of size `k`: a new leaf, or, when a
tree node `a` of that size exists, `b` in the place of `a` with `a` as the head
of its replica chain. -/
def FTree.ins (w : Nat → Nat) (b k : Nat) : FTree → FTree
  | .nil => .node .nil b [] .nil
  | .node l a reps r =>
    if k < szOf w a then .node (l.ins w b k) a reps r
    else if k > szOf w a then .node l a reps (r.ins w b k)
    else .node l b (a :: reps) r

/-- The heap after the writes of `addNodeLeaf`. -/
def leafHeap (h : Heap) (slot b c : Nat) : Heap :=
  ((((h.store slot b).store (b + 8) c).store (b + 12) 0).store b 0).store (b + 4) 0

/-- The heap after the writes of `addNode` on an empty tree. -/
def firstHeap (h : Heap) (b : Nat) : Heap :=
  ((((h.setSeat b).store b 0).store (b + 4) 0).store (b + 8) 0).store (b + 12) 0

/-- The heap after the writes of `addNodeExact` on the root `c` (`slot` is not
used) or on the node `c` that hangs in the word `slot` of its parent `p`. -/
def exactHeap (h : Heap) (b c p slot lr rr : Nat) : Heap :=
  let h1 := if c = h.seat then (h.setSeat b).store (b + 8) 0
    else (h.store slot b).store (b + 8) p
  let h2 := if lr ≠ 0 then h1.store (lr + 8) b else h1
  let h3 := if rr ≠ 0 then h2.store (rr + 8) b else h2
  ((((h3.store b lr).store (b + 4) rr).store (b + 12) c).store c b).store (c + 4) M1

end MM

namespace Bloom

/-! ## The Bloom filter of `RabinKarpMatching/bloom.c`

`int` is a 32-bit and `long long` a 64-bit two's complement integer; `%` is the
truncating remainder of C. The bit array `buf` is a list of bytes, each given by
its bit pattern (`0 ≤ b < 256`); `char` is signed, so a byte read into an `int`
expression is sign-extended. An access outside the array is `none`. -/

/-- `const int H1PRIME = 4189793;`. -/
def H1PRIME : Int := 4189793
/-- `const int H2PRIME = 3296731;`. -/
def H2PRIME : Int := 3296731
/-- `const int BLOOM_HASH_NUM = 10;`. -/
def BLOOM_HASH_NUM : Nat := 10

/-- Conversion of an integer to `int`. -/
def toInt32 (x : Int) : Int := (x + 2147483648) % 4294967296 - 2147483648

/-- Conversion of an integer to `long long`. -/
def toInt64 (x : Int) : Int :=
  (x + 9223372036854775808) % 18446744073709551616 - 9223372036854775808

/-- The function `hash_i` (source lines 13-18): the sum is formed in `long long`
and returned as an `int`. -/
def hash_i (i : Int) (x : Int) : Int :=
  toInt32 (toInt64 (x.tmod H1PRIME + i * x.tmod H2PRIME + 1 + i * i))

/-- The struct `bloom_filter` of `bloom.h`: the number of bits and the byte array. -/
structure bloom_filter where
  /-- Field `bsz`, the size of the bitmap in bits. -/
  bsz : Int
  /-- Field `buf`, the bytes of the bitmap. -/
  buf : List Nat

/-- The function `bloom_init` (source lines 25-42); `malloc` is taken to succeed. -/
def bloom_init (bsz : Int) : bloom_filter :=
  let n := if bsz.tmod 8 ≠ 0 then (bsz >>> (3 : Nat)) + 1 else bsz >>> (3 : Nat)
  { bsz := bsz, buf := List.replicate n.toNat 0 }

/-- The value of a `char` with bit pattern `b` in an `int` expression, as a
32-bit pattern (sign extension). -/
def promote (b : Nat) : Nat := if b < 128 then b else b + 4294967040

/-- The `int` value `1 << (7 - bit % 8)` as a 32-bit pattern. -/
def mask (bit : Int) : Nat := (1 <<< (7 - bit.tmod 8).toNat) % 4294967296

/-- The statement `f.buf[bit >> 3] |= 1 << (7 - bit % 8);` (source line 57). -/
def setBit (buf : List Nat) (bit : Int) : Option (List Nat) :=
  if 0 ≤ bit >>> (3 : Nat) ∧ (bit >>> (3 : Nat)).toNat < buf.length then
    some (buf.set (bit >>> (3 : Nat)).toNat
      ((promote (buf.getD (bit >>> (3 : Nat)).toNat 0) ||| mask bit) % 256))
  else none

/-- The test `(f.buf[bit >> 3]) & (1 << (7 - bit % 8))` (source line 76). -/
def testBit (buf : List Nat) (bit : Int) : Option Bool :=
  if 0 ≤ bit >>> (3 : Nat) ∧ (bit >>> (3 : Nat)).toNat < buf.length then
    some (promote (buf.getD (bit >>> (3 : Nat)).toNat 0) &&& mask bit != 0)
  else none

/-- The loop of `bloom_add` (source lines 52-58) from the hash number `i`, for
`n` more rounds. -/
def bloom_addLoop : Nat → Nat → bloom_filter → Int → Option bloom_filter
  | 0, _, f, _ => some f
  | n + 1, i, f, elm =>
    match setBit f.buf ((hash_i i elm).tmod f.bsz) with
    | some buf => bloom_addLoop n (i + 1) { f with buf := buf } elm
    | none => none

/-- The function `bloom_add` (source lines 45-60): the filter with the same
`bsz` and the updated contents of `buf`. -/
def bloom_add (f : bloom_filter) (elm : Int) : Option bloom_filter :=
  bloom_addLoop BLOOM_HASH_NUM 0 f elm

/-- The loop of `bloom_query` (source lines 70-80) from the hash number `i`,
for `n` more rounds. -/
def bloom_queryLoop : Nat → Nat → bloom_filter → Int → Option Int
  | 0, _, _, _ => some 1
  | n + 1, i, f, elm =>
    match testBit f.buf ((hash_i i elm).tmod f.bsz) with
    | some true => bloom_queryLoop n (i + 1) f elm
    | some false => some 0
    | none => none

/-- The function `bloom_query` (source lines 63-82). -/
def bloom_query (f : bloom_filter) (elm : Int) : Option Int :=
  bloom_queryLoop BLOOM_HASH_NUM 0 f elm

/-- A sequence of `bloom_add` calls, one per element of `elms`. -/
def addAll : bloom_filter → List Int → Option bloom_filter
  | f, [] => some f
  | f, e :: es =>
    match bloom_add f e with
    | some f' => addAll f' es
    | none => none

end Bloom

namespace MM

/-! ## Runs of `mm_realloc` -/

/-- `mm_init`, then `X = mm_malloc(16)`, `Y = mm_malloc(16)`, `B = mm_malloc(200)`,
`Z = mm_malloc(16)` and `mm_free(X)`. The client stores the word `286331153` in
the first payload word of `Y`, and in the payload of `B` the words `root` (the
value of `seat`) at offset 8, `24` at 16, `25` at 20, `3735928559` at 24, `25` at
40 and `209` at 44. Then `mm_realloc(B, 8)`. The result: the pointers `X`, `Y`
and `B`; the block size of `B` before the call and the returned pointer; the
header of the returned block after the call; the first payload word of `Y`
before and after the call. -/
def copyOverrunRun : Res ((Nat × Nat × Nat) × (Nat × Nat) × Nat × (Nat × Nat)) := do
  let h ← afterInit
  let (h, x) ← mm_malloc 100 h 16
  let (h, y) ← mm_malloc 100 h 16
  let (h, b) ← mm_malloc 100 h 200
  let (h, _) ← mm_malloc 100 h 16
  let h ← mm_free 100 h x
  let h ← PUT h y 286331153
  let h ← PUT h (b + 8) h.seat
  let h ← PUT h (b + 16) 24
  let h ← PUT h (b + 20) 25
  let h ← PUT h (b + 24) 3735928559
  let h ← PUT h (b + 40) 25
  let h ← PUT h (b + 44) 209
  let old_size ← GET_SIZE h (HDRP b)
  let before ← GET h y
  let (h, q) ← mm_realloc 100 h b 8
  let hd ← GET h (HDRP q)
  let after ← GET h y
  .ok ((x, y, b), (old_size, q), hd, (before, after))

/-- `mm_init`, `A = mm_malloc(16)`, `mm_realloc(A, 1)`: the pointer `A`, the
returned pointer, and the size and the allocated bit in the header of the
returned block. -/
def reallocTinyRun : Res (Nat × Nat × Nat × Nat) := do
  let h ← afterInit
  let (h, a) ← mm_malloc 100 h 16
  let (h, q) ← mm_realloc 100 h a 1
  let s ← GET_SIZE h (HDRP q)
  let al ← GET_ALLOC h (HDRP q)
  .ok (a, q, s, al)

/-- `mm_init`, `A = mm_malloc(16)`, `mm_realloc(A, 16)`: the pointer `A`, the
block after `A` and the root of the free tree before the call; the returned
pointer, the block after it and the root of the free tree after the call. -/
def reallocSameSizeRun : Res ((Nat × Nat × Nat) × (Nat × Nat × Nat)) := do
  let h ← afterInit
  let (h, a) ← mm_malloc 100 h 16
  let nextb ← NEXT_BLKP h a
  let s0 := h.seat
  let (h, q) ← mm_realloc 100 h a 16
  let nb ← NEXT_BLKP h q
  .ok ((a, nextb, s0), (q, nb, h.seat))

/-! ## In-place growth -/

/-- The heap after the four tag writes of the in-place branches of `mm_realloc`
(source lines 379-382): header and footer of the block at `bp` hold `news | 1`,
header and footer of the block after it hold `rem`. -/
def retagHeap (h : Heap) (bp news rem : Nat) : Heap :=
  (((h.store (bp - 4) (news + 1)).store (bp + news - 8) (news + 1)).store
    (bp + news - 4) rem).store (bp + news + rem - 8) rem

/-- The tiling can be checked block by block. -/
def Chain.dec (h : Heap) : (a : Nat) → (S : List Nat) → Decidable (Chain h a S)
  | a, [] => inferInstanceAs (Decidable (a = h.brk))
  | a, b :: bs =>
    have := Chain.dec h (a + h.bsize a) bs
    inferInstanceAs (Decidable (b = a ∧ a % 8 = 0 ∧ 16 ≤ h.bsize a ∧
      h.words (a - 4) = h.bsize a + h.balloc a ∧
      h.words (a + h.bsize a - 8) = h.words (a - 4) ∧
      (h.balloc a = 0 → 24 ≤ h.bsize a) ∧ Chain h (a + h.bsize a) bs))

instance (h : Heap) (a : Nat) (S : List Nat) : Decidable (Chain h a S) := Chain.dec h a S

instance (h : Heap) (S : List Nat) : Decidable (Tiled h S) := Chain.dec h h.startPointer S

instance (h : Heap) : Decidable (Arena h) :=
  decidable_of_iff (8 ≤ h.lo ∧ h.lo % 8 = 0 ∧ h.startPointer = h.lo + 16 ∧ h.brk ≤ h.limit ∧
      h.limit < W32 ∧ h.words (h.lo + 4) = 9 ∧ h.words (h.lo + 8) = 9 ∧ h.words (h.brk - 4) = 1)
    ⟨fun ⟨a, b, c, d, e, f, g, i⟩ => ⟨a, b, c, d, e, f, g, i⟩,
      fun ⟨a, b, c, d, e, f, g, i⟩ => ⟨a, b, c, d, e, f, g, i⟩⟩

instance (h : Heap) (S : List Nat) (t : FTree) : Decidable (Indexed h S t) :=
  decidable_of_iff (Shape h.words t ∧ t.root = h.seat ∧ Ordered h.words t 0 W32 ∧
      t.members.Nodup ∧ ∀ a ∈ t.members, a ∈ S ∧ h.balloc a = 0)
    ⟨fun ⟨a, b, c, d, e⟩ => ⟨a, b, c, d, e⟩, fun ⟨a, b, c, d, e⟩ => ⟨a, b, c, d, e⟩⟩

instance (h : Heap) (S : List Nat) (t : FTree) : Decidable (Consistent h S t) :=
  decidable_of_iff (Arena h ∧ Tiled h S ∧ Indexed h S t)
    ⟨fun ⟨a, b, c⟩ => ⟨a, b, c⟩, fun ⟨a, b, c⟩ => ⟨a, b, c⟩⟩

/-- `mm_init`, then `A = mm_malloc(16)` (at 65552) and `B = mm_malloc(16)` (at
65576). -/
def growRun : Res Heap := do
  let h ← afterInit
  let (h, _) ← mm_malloc 100 h 16
  let (h, _) ← mm_malloc 100 h 16
  .ok h

/-- The state after `growRun`: the blocks `A` and `B` of 24 bytes each and the
free block at 65600 (976 bytes), the root of the free tree. -/
def growHeap : Heap := stateOf growRun

/-- The free tree of `growHeap`. -/
def growTree : FTree := .node .nil 65600 [] .nil

/-! ## Requests near the top of the word range -/

instance (h : Heap) (S : List Nat) : Decidable (NoAdjacentFree h S) :=
  inferInstanceAs (Decidable (∀ a ∈ S, a + h.bsize a ∈ S → h.balloc a = 0 →
    h.balloc (a + h.bsize a) = 1))

/-- The free tree after `mm_init`: the one free block. -/
def initTree : FTree := .node .nil 65552 [] .nil

/-- `mm_init`, then `mm_malloc(4294967295)`: the returned pointer, the size and
the allocated bit in the header of the returned block, and the break before and
after the call. -/
def hugeRequestRun : Res (Nat × Nat × Nat × Nat × Nat) := do
  let h ← afterInit
  let (h1, p) ← mm_malloc 100 h 4294967295
  let s ← GET_SIZE h1 (HDRP p)
  let a ← GET_ALLOC h1 (HDRP p)
  .ok (p, s, a, h.brk, h1.brk)

/-- `mm_init`, then `A = mm_malloc(16)`, `B = mm_malloc(16)`, `C = mm_malloc(16)`
and `D = mm_malloc(64)`; the client stores 0 in the payload words of `D` at the
offsets 20, 28, 32 and 36; then `mm_free(D)` and `mm_free(A)`. -/
def roundTripStart : Res Heap := do
  let h ← afterInit
  let (h, a) ← mm_malloc 100 h 16
  let (h, _) ← mm_malloc 100 h 16
  let (h, _) ← mm_malloc 100 h 16
  let (h, d) ← mm_malloc 100 h 64
  let h ← PUT h (d + 20) 0
  let h ← PUT h (d + 28) 0
  let h ← PUT h (d + 32) 0
  let h ← PUT h (d + 36) 0
  let h ← mm_free 100 h d
  mm_free 100 h a

/-- The state after `roundTripStart`: the free block `A` (24 bytes, at 65552),
the live blocks `B` and `C`, and the free block at 65624 (952 bytes), the root
of the free tree. -/
def roundTripHeap : Heap := stateOf roundTripStart

/-- The free tree of `roundTripHeap`. -/
def roundTripTree : FTree := .node (.node .nil 65552 [] .nil) 65624 [] .nil

/-- From `roundTripHeap`: `p = mm_malloc(4294967288)`, `mm_free(p)` and
`mm_malloc(4294967288)` again. The result: `p`, the break before the first and
after the second of these calls, and the outcome of the third. -/
def roundTripRun : Res (Nat × Nat × Nat × Res Nat) := do
  let (h1, p) ← mm_malloc 100 roundTripHeap 4294967288
  let h2 ← mm_free 100 h1 p
  .ok (p, roundTripHeap.brk, h2.brk, (mm_malloc 100 h2 4294967288).map Prod.snd)

/-! ## Coalescing -/

/-- The block in front of the block at `bp`, as `PREV_BLKP` finds it from the
footer in front of `bp`. -/
def Heap.prevOf (h : Heap) (bp : Nat) : Nat := bp - sizeOf (h.words (bp - 8))

/-- The heap after the writes of `deleteNodeReplica`: the neighbours `prev` and
`next` of the replica in its chain name each other. -/
def spliceHeap (h : Heap) (prev next : Nat) : Heap :=
  (if next ≠ 0 then h.store next prev else h).store (prev + 12) next

/-- Four 16-byte allocations `A`, `B`, `C`, `D`, then `mm_malloc(920)` (which
uses up the arena), `mm_free(A)` and `mm_free(C)`; then header and footer of `B`
are marked free, as `mm_free(B)` does before it calls `coalesce(B)`. -/
def mergeRun : Res Heap := do
  let h ← afterInit
  let (h, a) ← mm_malloc 100 h 16
  let (h, b) ← mm_malloc 100 h 16
  let (h, c) ← mm_malloc 100 h 16
  let (h, _) ← mm_malloc 100 h 16
  let (h, _) ← mm_malloc 100 h 920
  let h ← mm_free 100 h a
  let h ← mm_free 100 h c
  let size ← GET_SIZE h (HDRP b)
  let h ← PUT h (HDRP b) (PACK size 0)
  let f ← FTRP h b
  PUT h f (PACK size 0)

/-- The state after `mergeRun`: the blocks `A` (65552), `B` (65576) and `C`
(65600) are marked free, `D` (65624) and the block at 65648 are live. -/
def mergeHeap : Heap := stateOf mergeRun

/-- The free tree of `mergeHeap`: the root `C` with the replica `A`. -/
def mergeTree : FTree := .node .nil 65600 [65552] .nil

/-! ## Growing the arena -/

/-- The state after the break has moved up by `size` bytes and `extendHeap` has
written the header and the footer of the new block and the new epilogue. -/
def extendedHeap (h : Heap) (size : Nat) : Heap :=
  ((({ h with brk := h.brk + size } : Heap).store (h.brk - 4) size).store
    (h.brk + size - 8) size).store (h.brk + size - 4) 1

/-! ## A state with two neighbouring free blocks -/

/-- `mm_init`, then `A = mm_malloc(40)`, `B = mm_malloc(16)` and
`mm_malloc(16)`; then first `A` and then `B` is marked free, as `mm_free` does,
and inserted into the free tree with `addNode`, without the call of `coalesce`
in between. -/
def adjRun : Res Heap := do
  let h ← afterInit
  let (h, a) ← mm_malloc 100 h 40
  let (h, b) ← mm_malloc 100 h 16
  let (h, _) ← mm_malloc 100 h 16
  let size ← GET_SIZE h (HDRP a)
  let h ← PUT h (HDRP a) (PACK size 0)
  let f ← FTRP h a
  let h ← PUT h f (PACK size 0)
  let h ← addNode 100 h a
  let size ← GET_SIZE h (HDRP b)
  let h ← PUT h (HDRP b) (PACK size 0)
  let f ← FTRP h b
  let h ← PUT h f (PACK size 0)
  addNode 100 h b

/-- The state after `adjRun`: the blocks `A` (65552, 48 bytes) and `B` (65600,
24 bytes) are free neighbours, the block at 65624 is live, and the rest of the
arena is the free block at 65648 (928 bytes). -/
def adjHeap : Heap := stateOf adjRun

/-- The free tree of `adjHeap`: the root 65648, its left child `A`, and `B`,
the left child of `A`. -/
def adjTree : FTree := .node (.node (.node .nil 65600 [] .nil) 65552 [] .nil) 65648 [] .nil

/-! ## Theorems -/

@[simp] theorem ok_bind {α β : Type} (a : α) (f : α → Res β) : (Res.ok a >>= f) = f a := rfl

@[simp] theorem fault_bind {α β : Type} (f : α → Res β) :
    ((Res.fault : Res α) >>= f) = Res.fault := rfl

@[simp] theorem timeout_bind {α β : Type} (f : α → Res β) :
    ((Res.timeout : Res α) >>= f) = Res.timeout := rfl

@[simp] theorem map_ok {α β : Type} (f : α → β) (a : α) : (Res.ok a).map f = Res.ok (f a) := rfl

@[simp] theorem map_fault {α β : Type} (f : α → β) : (Res.fault : Res α).map f = Res.fault := rfl

@[simp] theorem map_timeout {α β : Type} (f : α → β) :
    (Res.timeout : Res α).map f = Res.timeout := rfl

theorem GET_ok {h : Heap} {p : Nat} (hv : h.valid p) : GET h p = .ok (h.words p) := by
  simp [GET, hv]

theorem GET_fault {h : Heap} {p : Nat} (hv : ¬ h.valid p) : GET h p = .fault := by
  simp [GET, hv]

/-- C2 (as the code behaves): on an arena whose base is a multiple of 8, a
client that only writes inside its own live payloads obtains from `mm_malloc`
a non-NULL pointer that is not a multiple of 8. -/
theorem malloc_returns_misaligned :
    heap0.lo % 8 = 0 ∧ misalignedRun = .ok 65580 ∧ 65580 % 8 = 4 := by
  decide!

/-- C4 (as the code behaves): after the candidate sequence the block `F`
returned by the last `mm_malloc(16)` is live (its header is `24 | 1`), and the
following `mm_free(B)` overwrites the last word of the payload of `F` with zero. -/
theorem free_corrupts_live_payload :
    (lostReplicaRun.bind fun s => GET s.1 (HDRP s.2.2.2)) = .ok 25 ∧
    corruptionRun = .ok 0 := by
  decide!

/-- C5 (as the code behaves): after `mm_init`, `A = mm_malloc(16)`,
`mm_realloc(A, 1)`, `mm_malloc(1000)`, `mm_free(A)` the first block of the arena
and the block that follows it are both marked free, and `mm_check` reports
non-coalesced blocks. -/
theorem adjacent_free_after_small_realloc :
    (smallBlockRun.bind fun s => twoAllocBits s.1 s.1.startPointer) = .ok (0, 0) ∧
    (smallBlockRun.bind fun s => mm_check 100 s.1) = .ok Report.nonCoalesced := by
  decide!

/-- C6 (as the code behaves): after the sequence `lostReplicaRun` the block
`A` is marked free with size 24, yet the free tree is empty (`seat` is NULL). -/
theorem free_block_not_in_index :
    (lostReplicaRun.bind fun s => GET s.1 (HDRP s.2.1)) = .ok 24 ∧
    lostReplicaRun.map (fun s => s.1.seat) = .ok 0 := by
  decide!

/-- C8 (as the code behaves): `mm_realloc(A, 100)` on a 16-byte payload whose
first word is `65592` returns the non-NULL pointer `65600`, where the first
word is `65576`. -/
theorem realloc_loses_content : reallocContentRun = .ok (65592, 65600, 65576) := by
  decide!

/-- The first statement of `mm_realloc` reads the header of its argument, so
the call faults when that word is outside the arena. -/
theorem mm_realloc_fault_of_header (fuel : Nat) (h : Heap) (ptr size : Nat)
    (hv : ¬ h.valid (HDRP ptr)) : mm_realloc fuel h ptr size = .fault := by
  simp [mm_realloc, GET_SIZE, GET_fault hv]

/-- C9 (as the code behaves): after `mm_init`, `mm_malloc(50)` returns the
pointer `65552`, whereas `mm_realloc(NULL, 50)` faults whatever the fuel: it
reads the header word below the NULL pointer before it tests for NULL. -/
theorem realloc_null_is_not_malloc :
    (afterInit.bind fun h => (mm_malloc 100 h 50).map Prod.snd) = .ok 65552 ∧
    ∀ fuel, (afterInit.bind fun h => mm_realloc fuel h 0 50) = .fault := by
  refine ⟨by decide!, fun fuel => ?_⟩
  have hb : afterInit.map (fun h => h.brk) = .ok 66576 := by decide!
  cases hi : afterInit with
  | ok h =>
    rw [hi] at hb
    simp only [map_ok, Res.ok.injEq] at hb
    show mm_realloc fuel h 0 50 = .fault
    apply mm_realloc_fault_of_header
    simp [Heap.valid, HDRP, sub32, W32, WSIZE, hb]
  | fault => rw [hi] at hb; simp at hb
  | timeout => rw [hi] at hb; simp at hb

/-- C10: for a block whose tags and neighbouring headers lie in the arena,
`mm_realloc(ptr, 0)` returns NULL and leaves exactly the state that
`mm_free(ptr)` leaves (and faults or runs out of fuel exactly when it does). -/
theorem realloc_zero_is_free (fuel : Nat) (h : Heap) (ptr : Nat) (hr : h.tagsReadable ptr) :
    mm_realloc fuel h ptr 0 = (mm_free fuel h ptr).map fun h' => (h', 0) := by
  obtain ⟨h1, h2, h3, h4⟩ := hr
  have e : ∀ x : Res Heap, (x >>= fun h' => Res.ok (h', 0)) = x.map fun h' => (h', 0) := by
    intro x; cases x <;> rfl
  simp [mm_realloc, GET_SIZE, GET_ALLOC, NEXT_BLKP, PREV_BLKP, GET_ok h1, GET_ok h2,
    GET_ok h3, GET_ok h4, e, show sub32 ptr WSIZE = HDRP ptr from rfl]

/-- C10 at a concrete state: the block returned by `mm_malloc(100)` after
`mm_init`. -/
theorem realloc_zero_is_free_witness :
    ∃ h, (afterInit.bind fun h0 => mm_malloc 100 h0 100) = .ok (h, 65552) ∧
      h.tagsReadable 65552 ∧
      mm_realloc 100 h 65552 0 = (mm_free 100 h 65552).map fun h' => (h', 0) := by
  have hp : (afterInit.bind fun h0 => mm_malloc 100 h0 100).map
      (fun s => (s.2, decide (s.1.tagsReadable 65552))) = .ok (65552, true) := by decide!
  cases hi : (afterInit.bind fun h0 => mm_malloc 100 h0 100) with
  | ok s =>
    obtain ⟨h, p⟩ := s
    rw [hi] at hp
    simp only [map_ok, Res.ok.injEq, Prod.mk.injEq, decide_eq_true_eq] at hp
    obtain ⟨rfl, hr⟩ := hp
    exact ⟨h, rfl, hr, realloc_zero_is_free 100 h 65552 hr⟩
  | fault => rw [hi] at hp; simp at hp
  | timeout => rw [hi] at hp; simp at hp

/-! ### Words and tags -/

theorem mask_eq_shift : (4294967288 : Nat) = (2 ^ 29 - 1) <<< 3 := by decide

theorem land_mask (w : Nat) : w &&& 4294967288 = (w % 4294967296) / 8 * 8 := by
  have h : w &&& 4294967288 = ((w % 2 ^ 32) >>> 3) <<< 3 := by
    apply Nat.eq_of_testBit_eq
    intro i
    rw [mask_eq_shift, Nat.testBit_and, Nat.testBit_shiftLeft, Nat.testBit_shiftLeft,
      Nat.testBit_shiftRight, Nat.testBit_two_pow_sub_one, Nat.testBit_mod_two_pow]
    by_cases h3 : i ≥ 3
    · have e : 3 + (i - 3) = i := by omega
      rw [e]
      by_cases h32 : i < 32
      · have : i - 3 < 29 := by omega
        simp [h3, h32, this]
      · have : ¬ (i - 3 < 29) := by omega
        simp [h3, h32, this]
    · simp [h3]
  rw [h, Nat.shiftRight_eq_div_pow, Nat.shiftLeft_eq]
  norm_num

theorem lor_one (s : Nat) (h : s % 2 = 0) : s ||| 1 = s + 1 := by
  apply Nat.eq_of_testBit_eq
  intro i
  rw [Nat.testBit_or]
  cases i with
  | zero => simp [Nat.testBit_zero]; omega
  | succ i =>
    simp [Nat.testBit_succ]
    congr 1
    omega

theorem sizeOf_eq (w : Nat) : sizeOf w = (w % 4294967296) / 8 * 8 := land_mask w

theorem allocOf_eq (w : Nat) : allocOf w = w % 2 := Nat.and_one_is_mod w

theorem PACK_zero (s : Nat) : PACK s 0 = s := by simp [PACK]

theorem PACK_one (s : Nat) (h : s % 2 = 0) : PACK s 1 = s + 1 := lor_one s h

theorem add32_eq {a b : Nat} (h : a + b < 4294967296) : add32 a b = a + b := by
  simp [add32, W32, Nat.mod_eq_of_lt h]

theorem sub32_eq {a b : Nat} (h1 : b ≤ a) (h2 : a < 4294967296) : sub32 a b = a - b := by
  unfold sub32 W32
  omega

theorem HDRP_eq {a : Nat} (h1 : 4 ≤ a) (h2 : a < 4294967296) : HDRP a = a - 4 := by
  unfold HDRP WSIZE; exact sub32_eq h1 h2

theorem RIGHT_eq {a : Nat} (h : a + 4 < 4294967296) : RIGHT a = a + 4 := by
  unfold RIGHT WSIZE; exact add32_eq h

theorem PARENT_eq {a : Nat} (h : a + 8 < 4294967296) : PARENT a = a + 8 := by
  unfold PARENT DSIZE; exact add32_eq h

theorem REPLICA_eq {a : Nat} (h : a + 12 < 4294967296) : REPLICA a = a + 12 := by
  unfold REPLICA WSIZE; exact add32_eq h

theorem LEFT_eq (a : Nat) : LEFT a = a := rfl

/-! ### Reading and writing the arena -/

theorem PUT_ok {h : Heap} {p : Nat} (v : Nat) (hv : h.valid p) :
    PUT h p v = .ok (h.store p v) := by
  simp [PUT, hv]

@[simp] theorem store_valid (h : Heap) (p v q : Nat) : (h.store p v).valid q ↔ h.valid q :=
  Iff.rfl

@[simp] theorem store_lo (h : Heap) (p v : Nat) : (h.store p v).lo = h.lo := rfl
@[simp] theorem store_brk (h : Heap) (p v : Nat) : (h.store p v).brk = h.brk := rfl
@[simp] theorem store_limit (h : Heap) (p v : Nat) : (h.store p v).limit = h.limit := rfl
@[simp] theorem store_seat (h : Heap) (p v : Nat) : (h.store p v).seat = h.seat := rfl
@[simp] theorem store_startPointer (h : Heap) (p v : Nat) :
    (h.store p v).startPointer = h.startPointer := rfl

theorem store_words (h : Heap) (p v q : Nat) :
    (h.store p v).words q = if q = p then v % W32 else h.words q := rfl

theorem store_words_eq (h : Heap) (p v : Nat) (hv : v < 4294967296) :
    (h.store p v).words p = v := by
  simp [store_words, W32, Nat.mod_eq_of_lt hv]

theorem store_words_ne (h : Heap) {p q : Nat} (v : Nat) (hne : q ≠ p) :
    (h.store p v).words q = h.words q := by
  simp [store_words, hne]

@[simp] theorem setSeat_valid (h : Heap) (s q : Nat) : (h.setSeat s).valid q ↔ h.valid q :=
  Iff.rfl

@[simp] theorem setSeat_words (h : Heap) (s : Nat) : (h.setSeat s).words = h.words := rfl
@[simp] theorem setSeat_lo (h : Heap) (s : Nat) : (h.setSeat s).lo = h.lo := rfl
@[simp] theorem setSeat_brk (h : Heap) (s : Nat) : (h.setSeat s).brk = h.brk := rfl
@[simp] theorem setSeat_limit (h : Heap) (s : Nat) : (h.setSeat s).limit = h.limit := rfl
@[simp] theorem setSeat_seat (h : Heap) (s : Nat) : (h.setSeat s).seat = s := rfl
@[simp] theorem setSeat_startPointer (h : Heap) (s : Nat) :
    (h.setSeat s).startPointer = h.startPointer := rfl
@[simp] theorem store_setSeat_seat (h : Heap) (p v s : Nat) :
    ((h.setSeat s).store p v).seat = s := rfl

theorem valid_of_range {h : Heap} {p : Nat} (h1 : h.lo ≤ p) (h2 : p + 4 ≤ h.brk)
    (h3 : p % 4 = 0) : h.valid p := ⟨h1, h2, h3⟩

/-! ### The tree as a value -/

theorem FTree.nodes_sub_members (t : FTree) : ∀ a ∈ t.nodes, a ∈ t.members := by
  induction t with
  | nil => simp [FTree.nodes]
  | node l a reps r ihl ihr =>
    intro x hx
    simp only [FTree.nodes, List.mem_append, List.mem_cons] at hx
    simp only [FTree.members, List.mem_append, List.mem_cons, List.cons_append]
    rcases hx with hx | hx | hx
    · exact Or.inl (ihl x hx)
    · exact Or.inr (Or.inl hx)
    · exact Or.inr (Or.inr (Or.inr (ihr x hx)))

theorem FTree.root_mem_nodes {t : FTree} (h : t.root ≠ 0) : t.root ∈ t.nodes := by
  cases t with
  | nil => simp [FTree.root] at h
  | node l a reps r => simp [FTree.root, FTree.nodes]

theorem FTree.root_mem_members {t : FTree} (h : t.root ≠ 0) : t.root ∈ t.members :=
  t.nodes_sub_members _ (FTree.root_mem_nodes h)

theorem FTree.nodup_node {l r : FTree} {a : Nat} {reps : List Nat}
    (h : (FTree.node l a reps r).members.Nodup) :
    l.members.Nodup ∧ r.members.Nodup ∧ reps.Nodup ∧ a ∉ reps ∧
    (∀ x ∈ l.members, x ≠ a ∧ x ∉ reps ∧ x ∉ r.members) ∧
    (∀ x ∈ r.members, x ≠ a ∧ x ∉ reps) := by
  simp only [FTree.members, List.cons_append, List.nodup_append, List.nodup_cons,
    List.mem_append, List.disjoint_cons_right, List.disjoint_append_right, not_or] at h
  obtain ⟨hl, ⟨⟨har, har'⟩, hr1, hr2, hd1⟩, hd2, hd3, hd4⟩ := h
  refine ⟨hl, hr2, hr1, har, ?_, ?_⟩
  · intro x hx
    refine ⟨?_, fun h => hd3 hx h, fun h => hd4 hx h⟩
    rintro rfl; exact hd2 hx
  · intro x hx
    refine ⟨?_, fun h => hd1 h hx⟩
    rintro rfl; exact har' hx

theorem FTree.nodup_node_of {l r : FTree} {a : Nat} {reps : List Nat}
    (hl : l.members.Nodup) (hr : r.members.Nodup) (hreps : reps.Nodup) (ha : a ∉ reps)
    (hdl : ∀ x ∈ l.members, x ≠ a ∧ x ∉ reps ∧ x ∉ r.members)
    (hdr : ∀ x ∈ r.members, x ≠ a ∧ x ∉ reps) :
    (FTree.node l a reps r).members.Nodup := by
  simp only [FTree.members, List.cons_append, List.nodup_append, List.nodup_cons,
    List.mem_append, List.disjoint_cons_right, List.disjoint_append_right, not_or]
  refine ⟨hl, ⟨⟨ha, fun h => (hdr a h).1 rfl⟩, hreps, hr, ?_⟩, fun h => (hdl a h).1 rfl, ?_, ?_⟩
  · intro x hx hx'; exact (hdr x hx').2 hx
  · intro x hx hx'; exact (hdl x hx).2.1 hx'
  · intro x hx hx'; exact (hdl x hx).2.2 hx'

theorem FTree.mem_members_node {l r : FTree} {a x : Nat} {reps : List Nat} :
    x ∈ (FTree.node l a reps r).members ↔
      x ∈ l.members ∨ x = a ∨ x ∈ reps ∨ x ∈ r.members := by
  simp [FTree.members]

theorem FTree.mem_nodes_node {l r : FTree} {a x : Nat} {reps : List Nat} :
    x ∈ (FTree.node l a reps r).nodes ↔ x ∈ l.nodes ∨ x = a ∨ x ∈ r.nodes := by
  simp [FTree.nodes]

theorem FTree.subtreeAt_eq {t : FTree} {c : Nat} (hc : c ∈ t.nodes) :
    ∃ l reps r, t.subtreeAt c = .node l c reps r := by
  induction t with
  | nil => simp [FTree.nodes] at hc
  | node l a reps r ihl ihr =>
    unfold FTree.subtreeAt
    by_cases hac : a = c
    · subst hac; exact ⟨l, reps, r, by simp⟩
    · rw [if_neg hac]
      by_cases hl : c ∈ l.nodes
      · rw [if_pos hl]; exact ihl hl
      · rw [if_neg hl]
        rcases FTree.mem_nodes_node.1 hc with h | h | h
        · exact absurd h hl
        · exact absurd h.symm hac
        · exact ihr h

theorem FTree.subtreeAt_members_sub (t : FTree) (c : Nat) :
    ∀ x ∈ (t.subtreeAt c).members, x ∈ t.members := by
  induction t with
  | nil => simp [FTree.subtreeAt, FTree.members]
  | node l a reps r ihl ihr =>
    intro x hx
    unfold FTree.subtreeAt at hx
    by_cases hac : a = c
    · rwa [if_pos hac] at hx
    · rw [if_neg hac] at hx
      by_cases hl : c ∈ l.nodes
      · rw [if_pos hl] at hx
        exact FTree.mem_members_node.2 (Or.inl (ihl x hx))
      · rw [if_neg hl] at hx
        exact FTree.mem_members_node.2 (Or.inr (Or.inr (Or.inr (ihr x hx))))

theorem FTree.subtreeAt_nodes_sub (t : FTree) (c : Nat) :
    ∀ x ∈ (t.subtreeAt c).nodes, x ∈ t.nodes := by
  induction t with
  | nil => simp [FTree.subtreeAt, FTree.nodes]
  | node l a reps r ihl ihr =>
    intro x hx
    unfold FTree.subtreeAt at hx
    by_cases hac : a = c
    · rwa [if_pos hac] at hx
    · rw [if_neg hac] at hx
      by_cases hl : c ∈ l.nodes
      · rw [if_pos hl] at hx
        exact FTree.mem_nodes_node.2 (Or.inl (ihl x hx))
      · rw [if_neg hl] at hx
        exact FTree.mem_nodes_node.2 (Or.inr (Or.inr (ihr x hx)))

theorem FTree.subtreeAt_nodup {t : FTree} (c : Nat) (h : t.members.Nodup) :
    (t.subtreeAt c).members.Nodup := by
  induction t with
  | nil => simp [FTree.subtreeAt, FTree.members]
  | node l a reps r ihl ihr =>
    obtain ⟨hl, hr, -⟩ := FTree.nodup_node h
    unfold FTree.subtreeAt
    by_cases hac : a = c
    · rwa [if_pos hac]
    · rw [if_neg hac]
      by_cases hlc : c ∈ l.nodes
      · rw [if_pos hlc]; exact ihl hl
      · rw [if_neg hlc]; exact ihr hr

theorem FTree.subtreeAt_height_le (t : FTree) (c : Nat) :
    (t.subtreeAt c).height ≤ t.height := by
  induction t with
  | nil => simp [FTree.subtreeAt]
  | node l a reps r ihl ihr =>
    unfold FTree.subtreeAt
    by_cases hac : a = c
    · rw [if_pos hac]
    · rw [if_neg hac]
      by_cases hlc : c ∈ l.nodes
      · rw [if_pos hlc]; simp only [FTree.height]; omega
      · rw [if_neg hlc]; simp only [FTree.height]; omega

theorem Shape_subtreeAt {w : Nat → Nat} {t : FTree} (c : Nat) (h : Shape w t) :
    Shape w (t.subtreeAt c) := by
  induction t with
  | nil => simp [FTree.subtreeAt, Shape]
  | node l a reps r ihl ihr =>
    unfold FTree.subtreeAt
    by_cases hac : a = c
    · rwa [if_pos hac]
    · rw [if_neg hac]
      have h' := h
      simp only [Shape] at h'
      by_cases hlc : c ∈ l.nodes
      · rw [if_pos hlc]; exact ihl h'.2.2.2.2.2.2.1
      · rw [if_neg hlc]; exact ihr h'.2.2.2.2.2.2.2

theorem FTree.subst_root (t : FTree) {c : Nat} (hc : c ≠ 0) (s : FTree) :
    (t.subst c s).root = if t.root = c then s.root else t.root := by
  cases t with
  | nil => simp [FTree.subst, FTree.root, Ne.symm hc]
  | node l a reps r =>
    unfold FTree.subst
    by_cases hac : a = c
    · simp [hac, FTree.root]
    · rw [if_neg hac]
      by_cases hlc : c ∈ l.nodes <;> simp [hlc, FTree.root, hac]

/-! ### Trees in memory -/

theorem ChainOK_congr {w w' : Nat → Nat} {xs : List Nat} (p : Nat)
    (hx : ∀ x ∈ xs, w' x = w x ∧ w' (x + 4) = w (x + 4) ∧ w' (x + 12) = w (x + 12))
    (h : ChainOK w p xs) : ChainOK w' p xs := by
  induction xs generalizing p with
  | nil => trivial
  | cons x xs ih =>
    obtain ⟨h1, h2, h3, h4⟩ := h
    obtain ⟨e1, e2, e3⟩ := hx x (List.mem_cons_self _ _)
    exact ⟨e1 ▸ h1, e2 ▸ h2, e3 ▸ h3, ih x (fun y hy => hx y (List.mem_cons_of_mem _ hy)) h4⟩

theorem Shape_congr {w w' : Nat → Nat} {t : FTree} (hnd : t.members.Nodup)
    (hm : ∀ a ∈ t.members, w' a = w a ∧ w' (a + 4) = w (a + 4) ∧ w' (a + 12) = w (a + 12))
    (hp : ∀ a ∈ t.nodes, a ≠ t.root → w' (a + 8) = w (a + 8))
    (h : Shape w t) : Shape w' t := by
  induction t with
  | nil => trivial
  | node l a reps r ihl ihr =>
    obtain ⟨hl, hr, hreps, har, hdl, hdr⟩ := FTree.nodup_node hnd
    obtain ⟨h1, h2, h3, h4, h5, h6, h7, h8⟩ := h
    have ma : ∀ x, x ∈ l.members → x ∈ (FTree.node l a reps r).members :=
      fun x hx => FTree.mem_members_node.2 (Or.inl hx)
    have mr : ∀ x, x ∈ r.members → x ∈ (FTree.node l a reps r).members :=
      fun x hx => FTree.mem_members_node.2 (Or.inr (Or.inr (Or.inr hx)))
    obtain ⟨e1, e2, e3⟩ := hm a (FTree.mem_members_node.2 (Or.inr (Or.inl rfl)))
    refine ⟨e1 ▸ h1, e2 ▸ h2, e3 ▸ h3, ?_, ?_, ?_, ?_, ?_⟩
    · exact ChainOK_congr a
        (fun x hx => hm x (FTree.mem_members_node.2 (Or.inr (Or.inr (Or.inl hx))))) h4
    · intro hne
      have hmem := FTree.root_mem_nodes hne
      rw [hp _ (FTree.mem_nodes_node.2 (Or.inl hmem))
        (fun e => (hdl _ (l.nodes_sub_members _ hmem)).1 e)]
      exact h5 hne
    · intro hne
      have hmem := FTree.root_mem_nodes hne
      rw [hp _ (FTree.mem_nodes_node.2 (Or.inr (Or.inr hmem)))
        (fun e => (hdr _ (r.nodes_sub_members _ hmem)).1 e)]
      exact h6 hne
    · exact ihl hl (fun x hx => hm x (ma x hx))
        (fun x hx _ => hp x (FTree.mem_nodes_node.2 (Or.inl hx))
          (fun e => (hdl _ (l.nodes_sub_members _ hx)).1 e)) h7
    · exact ihr hr (fun x hx => hm x (mr x hx))
        (fun x hx _ => hp x (FTree.mem_nodes_node.2 (Or.inr (Or.inr hx)))
          (fun e => (hdr _ (r.nodes_sub_members _ hx)).1 e)) h8

theorem Ordered_congr {w w' : Nat → Nat} {t : FTree} {lo hi : Nat}
    (hm : ∀ a ∈ t.members, szOf w' a = szOf w a) (h : Ordered w t lo hi) :
    Ordered w' t lo hi := by
  induction t generalizing lo hi with
  | nil => trivial
  | node l a reps r ihl ihr =>
    obtain ⟨h1, h2, h3, h4, h5⟩ := h
    have ea := hm a (FTree.mem_members_node.2 (Or.inr (Or.inl rfl)))
    refine ⟨ea ▸ h1, ea ▸ h2, ?_, ?_, ?_⟩
    · intro x hx
      rw [hm x (FTree.mem_members_node.2 (Or.inr (Or.inr (Or.inl hx)))), ea]
      exact h3 x hx
    · rw [ea]
      exact ihl (fun x hx => hm x (FTree.mem_members_node.2 (Or.inl hx))) h4
    · rw [ea]
      exact ihr (fun x hx => hm x (FTree.mem_members_node.2 (Or.inr (Or.inr (Or.inr hx))))) h5

theorem Ordered_mono {w : Nat → Nat} {t : FTree} {lo hi lo' hi' : Nat}
    (h : Ordered w t lo hi) (hlo : lo' ≤ lo) (hhi : hi ≤ hi') : Ordered w t lo' hi' := by
  induction t generalizing lo hi lo' hi' with
  | nil => trivial
  | node l a reps r ihl ihr =>
    obtain ⟨h1, h2, h3, h4, h5⟩ := h
    exact ⟨by omega, by omega, h3, ihl h4 hlo (le_refl _), ihr h5 (le_refl _) hhi⟩

theorem Ordered_bounds {w : Nat → Nat} {t : FTree} {lo hi : Nat} (h : Ordered w t lo hi) :
    ∀ a ∈ t.members, lo < szOf w a ∧ szOf w a < hi := by
  induction t generalizing lo hi with
  | nil => simp [FTree.members]
  | node l a reps r ihl ihr =>
    obtain ⟨h1, h2, h3, h4, h5⟩ := h
    intro x hx
    rcases FTree.mem_members_node.1 hx with hx | hx | hx | hx
    · have := ihl h4 x hx; omega
    · subst hx; exact ⟨h1, h2⟩
    · rw [h3 x hx]; exact ⟨h1, h2⟩
    · have := ihr h5 x hx; omega

theorem parent_facts {w : Nat → Nat} {t : FTree} {lo hi c : Nat} (hs : Shape w t)
    (ho : Ordered w t lo hi) (hnd : t.members.Nodup) (hc0 : c ≠ 0) (hc : c ∈ t.nodes)
    (hroot : c ≠ t.root) :
    t.parentOf c ∈ t.nodes ∧ t.parentOf c ∉ (t.subtreeAt c).members ∧
    w (c + 8) = t.parentOf c ∧
    ((w (t.parentOf c) = c ∧ szOf w c < szOf w (t.parentOf c) ∧ w (t.parentOf c + 4) ≠ c) ∨
     (w (t.parentOf c + 4) = c ∧ szOf w (t.parentOf c) < szOf w c ∧ w (t.parentOf c) ≠ c)) := by
  induction t generalizing lo hi with
  | nil => simp [FTree.nodes] at hc
  | node l a reps r ihl ihr =>
    obtain ⟨hl, hr, hreps, har, hdl, hdr⟩ := FTree.nodup_node hnd
    obtain ⟨h1, h2, h3, h4, h5, h6, h7, h8⟩ := hs
    obtain ⟨o1, o2, o3, o4, o5⟩ := ho
    have hac : a ≠ c := fun e => hroot (by simp [FTree.root, e])
    unfold FTree.parentOf FTree.subtreeAt
    rw [if_neg hac, if_neg hac]
    by_cases hlc : c ∈ l.nodes
    · rw [if_pos hlc, if_pos hlc]
      by_cases hlr : l.root = c
      · rw [if_pos hlr]
        refine ⟨FTree.mem_nodes_node.2 (Or.inr (Or.inl rfl)), ?_, ?_, Or.inl ⟨?_, ?_, ?_⟩⟩
        · intro hmem
          exact (hdl a (l.subtreeAt_members_sub c a hmem)).1 rfl
        · rw [← hlr]; exact h5 (by rw [hlr]; exact hc0)
        · rw [h1, hlr]
        · exact (Ordered_bounds o4 c (l.nodes_sub_members c hlc)).2
        · rw [h2]
          intro e
          exact (hdl c (l.nodes_sub_members c hlc)).2.2
            (e ▸ FTree.root_mem_members (e ▸ hc0))
      · rw [if_neg hlr]
        obtain ⟨p1, p2, p3, p4⟩ := ihl h7 o4 hl hlc (Ne.symm hlr)
        exact ⟨FTree.mem_nodes_node.2 (Or.inl p1), p2, p3, p4⟩
    · rw [if_neg hlc, if_neg hlc]
      have hrc : c ∈ r.nodes := by
        rcases FTree.mem_nodes_node.1 hc with h | h | h
        · exact absurd h hlc
        · exact absurd h.symm hac
        · exact h
      by_cases hrr : r.root = c
      · rw [if_pos hrr]
        refine ⟨FTree.mem_nodes_node.2 (Or.inr (Or.inl rfl)), ?_, ?_, Or.inr ⟨?_, ?_, ?_⟩⟩
        · intro hmem
          exact (hdr a (r.subtreeAt_members_sub c a hmem)).1 rfl
        · rw [← hrr]; exact h6 (by rw [hrr]; exact hc0)
        · rw [h2, hrr]
        · exact (Ordered_bounds o5 c (r.nodes_sub_members c hrc)).1
        · rw [h1]
          intro e
          exact hlc (e ▸ FTree.root_mem_nodes (e ▸ hc0))
      · rw [if_neg hrr]
        obtain ⟨p1, p2, p3, p4⟩ := ihr h8 o5 hr hrc (Ne.symm hrr)
        exact ⟨FTree.mem_nodes_node.2 (Or.inr (Or.inr p1)), p2, p3, p4⟩

theorem FTree.subtreeAt_node_left {l r : FTree} {a c : Nat} {reps : List Nat} (hac : a ≠ c)
    (hlc : c ∈ l.nodes) : (FTree.node l a reps r).subtreeAt c = l.subtreeAt c := by
  simp [FTree.subtreeAt, hac, hlc]

theorem FTree.subtreeAt_node_right {l r : FTree} {a c : Nat} {reps : List Nat} (hac : a ≠ c)
    (hlc : c ∉ l.nodes) : (FTree.node l a reps r).subtreeAt c = r.subtreeAt c := by
  simp [FTree.subtreeAt, hac, hlc]

theorem FTree.mem_right_of {l r : FTree} {a c : Nat} {reps : List Nat}
    (hc : c ∈ (FTree.node l a reps r).nodes) (hac : a ≠ c) (hlc : c ∉ l.nodes) :
    c ∈ r.nodes := by
  rcases FTree.mem_nodes_node.1 hc with h | h | h
  · exact absurd h hlc
  · exact absurd h.symm hac
  · exact h

theorem FTree.mem_subst {t s : FTree} {c x : Nat} (hnd : t.members.Nodup)
    (hc : c ∈ t.nodes) :
    x ∈ (t.subst c s).members ↔
      (x ∈ t.members ∧ x ∉ (t.subtreeAt c).members) ∨ x ∈ s.members := by
  induction t with
  | nil => simp [FTree.nodes] at hc
  | node l a reps r ihl ihr =>
    obtain ⟨hl, hr, hreps, har, hdl, hdr⟩ := FTree.nodup_node hnd
    by_cases hac : a = c
    · simp [FTree.subst, FTree.subtreeAt, hac]
    · by_cases hlc : c ∈ l.nodes
      · have hsub := l.subtreeAt_members_sub c
        rw [FTree.subtreeAt_node_left hac hlc]
        simp only [FTree.subst, if_neg hac, if_pos hlc, FTree.mem_members_node, ihl hl hlc]
        constructor
        · rintro ((⟨h1, h2⟩ | h) | h | h | h)
          · exact Or.inl ⟨Or.inl h1, h2⟩
          · exact Or.inr h
          · exact Or.inl ⟨Or.inr (Or.inl h), fun hm => (hdl x (hsub x hm)).1 h⟩
          · exact Or.inl ⟨Or.inr (Or.inr (Or.inl h)), fun hm => (hdl x (hsub x hm)).2.1 h⟩
          · exact Or.inl ⟨Or.inr (Or.inr (Or.inr h)), fun hm => (hdl x (hsub x hm)).2.2 h⟩
        · rintro (⟨h1 | h1 | h1 | h1, h2⟩ | h)
          · exact Or.inl (Or.inl ⟨h1, h2⟩)
          · exact Or.inr (Or.inl h1)
          · exact Or.inr (Or.inr (Or.inl h1))
          · exact Or.inr (Or.inr (Or.inr h1))
          · exact Or.inl (Or.inr h)
      · have hrc := FTree.mem_right_of hc hac hlc
        have hsub := r.subtreeAt_members_sub c
        rw [FTree.subtreeAt_node_right hac hlc]
        simp only [FTree.subst, if_neg hac, if_neg hlc, FTree.mem_members_node, ihr hr hrc]
        constructor
        · rintro (h | h | h | (⟨h1, h2⟩ | h))
          · exact Or.inl ⟨Or.inl h, fun hm => (hdl x h).2.2 (hsub x hm)⟩
          · exact Or.inl ⟨Or.inr (Or.inl h), fun hm => (hdr x (hsub x hm)).1 h⟩
          · exact Or.inl ⟨Or.inr (Or.inr (Or.inl h)), fun hm => (hdr x (hsub x hm)).2 h⟩
          · exact Or.inl ⟨Or.inr (Or.inr (Or.inr h1)), h2⟩
          · exact Or.inr h
        · rintro (⟨h1 | h1 | h1 | h1, h2⟩ | h)
          · exact Or.inl h1
          · exact Or.inr (Or.inl h1)
          · exact Or.inr (Or.inr (Or.inl h1))
          · exact Or.inr (Or.inr (Or.inr (Or.inl ⟨h1, h2⟩)))
          · exact Or.inr (Or.inr (Or.inr (Or.inr h)))

theorem FTree.nodup_subst {t s : FTree} {c : Nat} (hnd : t.members.Nodup)
    (hc : c ∈ t.nodes) (hs : s.members.Nodup)
    (hfresh : ∀ x ∈ s.members, x ∈ t.members → x ∈ (t.subtreeAt c).members) :
    (t.subst c s).members.Nodup := by
  induction t with
  | nil => simp [FTree.nodes] at hc
  | node l a reps r ihl ihr =>
    obtain ⟨hl, hr, hreps, har, hdl, hdr⟩ := FTree.nodup_node hnd
    by_cases hac : a = c
    · simpa [FTree.subst, hac] using hs
    · by_cases hlc : c ∈ l.nodes
      · have hsub := l.subtreeAt_members_sub c
        rw [FTree.subtreeAt_node_left hac hlc] at hfresh
        simp only [FTree.subst, if_neg hac, if_pos hlc]
        refine FTree.nodup_node_of
          (ihl hl hlc (fun x hx hx' => hfresh x hx (FTree.mem_members_node.2 (Or.inl hx'))))
          hr hreps har ?_ hdr
        intro x hx
        rcases (FTree.mem_subst hl hlc).1 hx with ⟨h1, _⟩ | h
        · exact hdl x h1
        · refine ⟨fun e => ?_, fun e => ?_, fun e => ?_⟩
          · exact (hdl x (hsub x (hfresh x h
              (FTree.mem_members_node.2 (Or.inr (Or.inl e)))))).1 e
          · exact (hdl x (hsub x (hfresh x h
              (FTree.mem_members_node.2 (Or.inr (Or.inr (Or.inl e))))))).2.1 e
          · exact (hdl x (hsub x (hfresh x h
              (FTree.mem_members_node.2 (Or.inr (Or.inr (Or.inr e))))))).2.2 e
      · have hrc := FTree.mem_right_of hc hac hlc
        have hsub := r.subtreeAt_members_sub c
        rw [FTree.subtreeAt_node_right hac hlc] at hfresh
        simp only [FTree.subst, if_neg hac, if_neg hlc]
        refine FTree.nodup_node_of hl
          (ihr hr hrc (fun x hx hx' => hfresh x hx
            (FTree.mem_members_node.2 (Or.inr (Or.inr (Or.inr hx'))))))
          hreps har ?_ ?_
        · intro x hx
          refine ⟨(hdl x hx).1, (hdl x hx).2.1, fun e => ?_⟩
          rcases (FTree.mem_subst hr hrc).1 e with ⟨h1, _⟩ | h
          · exact (hdl x hx).2.2 h1
          · exact (hdl x hx).2.2 (hsub x (hfresh x h (FTree.mem_members_node.2 (Or.inl hx))))
        · intro x hx
          rcases (FTree.mem_subst hr hrc).1 hx with ⟨h1, _⟩ | h
          · exact hdr x h1
          · refine ⟨fun e => ?_, fun e => ?_⟩
            · exact (hdr x (hsub x (hfresh x h
                (FTree.mem_members_node.2 (Or.inr (Or.inl e)))))).1 e
            · exact (hdr x (hsub x (hfresh x h
                (FTree.mem_members_node.2 (Or.inr (Or.inr (Or.inl e))))))).2 e

theorem Ordered_subtreeAt {w : Nat → Nat} {t : FTree} {lo hi c : Nat}
    (ho : Ordered w t lo hi) (hnd : t.members.Nodup) (hc : c ∈ t.nodes) :
    ∃ lo' hi', lo ≤ lo' ∧ hi' ≤ hi ∧ Ordered w (t.subtreeAt c) lo' hi' ∧
      ∀ (w' : Nat → Nat) (s : FTree),
        (∀ a ∈ t.members, a ∉ (t.subtreeAt c).members → szOf w' a = szOf w a) →
        Ordered w' s lo' hi' → Ordered w' (t.subst c s) lo hi := by
  induction t generalizing lo hi with
  | nil => simp [FTree.nodes] at hc
  | node l a reps r ihl ihr =>
    obtain ⟨hl, hr, hreps, har, hdl, hdr⟩ := FTree.nodup_node hnd
    obtain ⟨o1, o2, o3, o4, o5⟩ := ho
    by_cases hac : a = c
    · refine ⟨lo, hi, le_refl _, le_refl _, ?_, ?_⟩
      · simpa [FTree.subtreeAt, hac] using (show Ordered w (FTree.node l a reps r) lo hi from
          ⟨o1, o2, o3, o4, o5⟩)
      · intro w' s _ hs
        simpa [FTree.subst, hac] using hs
    · have ma : a ∈ (FTree.node l a reps r).members :=
        FTree.mem_members_node.2 (Or.inr (Or.inl rfl))
      by_cases hlc : c ∈ l.nodes
      · have hsub := l.subtreeAt_members_sub c
        obtain ⟨lo', hi', b1, b2, b3, b4⟩ := ihl o4 hl hlc
        rw [FTree.subtreeAt_node_left hac hlc]
        refine ⟨lo', hi', b1, by omega, b3, ?_⟩
        intro w' s hfr hs
        have ea : szOf w' a = szOf w a := hfr a ma (fun hm => (hdl a (hsub a hm)).1 rfl)
        simp only [FTree.subst, if_neg hac, if_pos hlc]
        refine ⟨ea ▸ o1, ea ▸ o2, ?_, ?_, ?_⟩
        · intro x hx
          rw [ea, hfr x (FTree.mem_members_node.2 (Or.inr (Or.inr (Or.inl hx))))
            (fun hm => (hdl x (hsub x hm)).2.1 hx)]
          exact o3 x hx
        · rw [ea]
          exact b4 w' s (fun x hx hx' => hfr x (FTree.mem_members_node.2 (Or.inl hx)) hx') hs
        · rw [ea]
          exact Ordered_congr (fun x hx => hfr x
            (FTree.mem_members_node.2 (Or.inr (Or.inr (Or.inr hx))))
            (fun hm => (hdl x (hsub x hm)).2.2 hx)) o5
      · have hrc := FTree.mem_right_of hc hac hlc
        have hsub := r.subtreeAt_members_sub c
        obtain ⟨lo', hi', b1, b2, b3, b4⟩ := ihr o5 hr hrc
        rw [FTree.subtreeAt_node_right hac hlc]
        refine ⟨lo', hi', by omega, b2, b3, ?_⟩
        intro w' s hfr hs
        have ea : szOf w' a = szOf w a := hfr a ma (fun hm => (hdr a (hsub a hm)).1 rfl)
        simp only [FTree.subst, if_neg hac, if_neg hlc]
        refine ⟨ea ▸ o1, ea ▸ o2, ?_, ?_, ?_⟩
        · intro x hx
          rw [ea, hfr x (FTree.mem_members_node.2 (Or.inr (Or.inr (Or.inl hx))))
            (fun hm => (hdr x (hsub x hm)).2 hx)]
          exact o3 x hx
        · rw [ea]
          exact Ordered_congr (fun x hx => hfr x
            (FTree.mem_members_node.2 (Or.inl hx))
            (fun hm => (hdl x hx).2.2 (hsub x hm))) o4
        · rw [ea]
          exact b4 w' s (fun x hx hx' => hfr x
            (FTree.mem_members_node.2 (Or.inr (Or.inr (Or.inr hx)))) hx') hs

theorem FTree.parentOf_mem {t : FTree} {c : Nat} (hc : c ∈ t.nodes) (hroot : c ≠ t.root) :
    t.parentOf c ∈ t.nodes := by
  induction t with
  | nil => simp [FTree.nodes] at hc
  | node l a reps r ihl ihr =>
    have hac : a ≠ c := fun e => hroot (by simp [FTree.root, e])
    unfold FTree.parentOf
    rw [if_neg hac]
    by_cases hlc : c ∈ l.nodes
    · rw [if_pos hlc]
      by_cases hlr : l.root = c
      · rw [if_pos hlr]; exact FTree.mem_nodes_node.2 (Or.inr (Or.inl rfl))
      · rw [if_neg hlr]; exact FTree.mem_nodes_node.2 (Or.inl (ihl hlc (Ne.symm hlr)))
    · rw [if_neg hlc]
      have hrc := FTree.mem_right_of hc hac hlc
      by_cases hrr : r.root = c
      · rw [if_pos hrr]; exact FTree.mem_nodes_node.2 (Or.inr (Or.inl rfl))
      · rw [if_neg hrr]; exact FTree.mem_nodes_node.2 (Or.inr (Or.inr (ihr hrc (Ne.symm hrr))))

theorem FTree.root_not_mem_subtreeAt {t : FTree} {c : Nat} (hnd : t.members.Nodup)
    (hc : c ∈ t.nodes) (hroot : c ≠ t.root) : t.root ∉ (t.subtreeAt c).members := by
  cases t with
  | nil => simp [FTree.nodes] at hc
  | node l a reps r =>
    obtain ⟨hl, hr, hreps, har, hdl, hdr⟩ := FTree.nodup_node hnd
    have hac : a ≠ c := fun e => hroot (by simp [FTree.root, e])
    by_cases hlc : c ∈ l.nodes
    · rw [FTree.subtreeAt_node_left hac hlc]
      exact fun hm => (hdl a (l.subtreeAt_members_sub c a hm)).1 rfl
    · rw [FTree.subtreeAt_node_right hac hlc]
      exact fun hm => (hdr a (r.subtreeAt_members_sub c a hm)).1 rfl

theorem Shape_subst {w w' : Nat → Nat} {t s : FTree} {c : Nat} (hs : Shape w t)
    (hnd : t.members.Nodup) (hc0 : c ≠ 0) (hc : c ∈ t.nodes)
    (hout : ∀ a ∈ t.members, a ∉ (t.subtreeAt c).members → a ≠ t.parentOf c →
      w' a = w a ∧ w' (a + 4) = w (a + 4) ∧ w' (a + 12) = w (a + 12))
    (hpar : ∀ a ∈ t.nodes, a ∉ (t.subtreeAt c).members → a ≠ t.root →
      w' (a + 8) = w (a + 8))
    (hslot : c ≠ t.root → w' (t.parentOf c + 12) = w (t.parentOf c + 12) ∧
      (w (t.parentOf c) = c →
        w' (t.parentOf c) = s.root ∧ w' (t.parentOf c + 4) = w (t.parentOf c + 4)) ∧
      (w (t.parentOf c + 4) = c → w (t.parentOf c) ≠ c →
        w' (t.parentOf c + 4) = s.root ∧ w' (t.parentOf c) = w (t.parentOf c)))
    (hs' : Shape w' s)
    (hup : s.root ≠ 0 → c ≠ t.root → w' (s.root + 8) = t.parentOf c) :
    Shape w' (t.subst c s) := by
  induction t with
  | nil => simp [FTree.nodes] at hc
  | node l a reps r ihl ihr =>
    obtain ⟨hl, hr, hreps, har, hdl, hdr⟩ := FTree.nodup_node hnd
    obtain ⟨h1, h2, h3, h4, h5, h6, h7, h8⟩ := hs
    by_cases hac : a = c
    · simpa [FTree.subst, hac] using hs'
    have hcr : c ≠ (FTree.node l a reps r).root := fun e => hac (by simp [FTree.root] at e; exact e.symm)
    have ma : a ∈ (FTree.node l a reps r).members :=
      FTree.mem_members_node.2 (Or.inr (Or.inl rfl))
    have mreps : ∀ x ∈ reps, x ∈ (FTree.node l a reps r).members :=
      fun x hx => FTree.mem_members_node.2 (Or.inr (Or.inr (Or.inl hx)))
    have ml : ∀ x ∈ l.members, x ∈ (FTree.node l a reps r).members :=
      fun x hx => FTree.mem_members_node.2 (Or.inl hx)
    have mr : ∀ x ∈ r.members, x ∈ (FTree.node l a reps r).members :=
      fun x hx => FTree.mem_members_node.2 (Or.inr (Or.inr (Or.inr hx)))
    by_cases hlc : c ∈ l.nodes
    · -- the subtree is on the left
      have hsub := l.subtreeAt_members_sub c
      have hpl : l.parentOf c ∈ l.nodes ∨ l.root = c := by
        by_cases e : l.root = c
        · exact Or.inr e
        · exact Or.inl (FTree.parentOf_mem hlc (Ne.symm e))
      rw [FTree.subtreeAt_node_left hac hlc] at hout hpar
      simp only [FTree.subst, if_neg hac, if_pos hlc]
      have hrshape : Shape w' r := by
        refine Shape_congr hr (fun x hx => hout x (mr x hx)
          (fun hm => (hdl x (hsub x hm)).2.2 hx) ?_)
          (fun x hx _ => hpar x (FTree.mem_nodes_node.2 (Or.inr (Or.inr hx)))
            (fun hm => (hdl x (hsub x hm)).2.2 (r.nodes_sub_members x hx))
            (fun e => (hdr x (r.nodes_sub_members x hx)).1 (by simpa [FTree.root] using e))) h8
        intro e
        simp only [FTree.parentOf, if_neg hac, if_pos hlc] at e
        by_cases hlr : l.root = c
        · rw [if_pos hlr] at e; exact (hdr x hx).1 e
        · rw [if_neg hlr] at e
          have := FTree.parentOf_mem hlc (Ne.symm hlr)
          rw [← e] at this
          exact (hdl x (l.nodes_sub_members x this)).2.2 hx
      have hrroot : r.root ≠ 0 → w' (r.root + 8) = a := by
        intro hne
        have hmem := FTree.root_mem_nodes hne
        rw [hpar _ (FTree.mem_nodes_node.2 (Or.inr (Or.inr hmem)))
          (fun hm => (hdl _ (hsub _ hm)).2.2 (r.nodes_sub_members _ hmem))
          (fun e => (hdr _ (r.nodes_sub_members _ hmem)).1 (by simpa [FTree.root] using e))]
        exact h6 hne
      by_cases hlr : l.root = c
      · -- `a` is the parent of `c`
        have hpa : (FTree.node l a reps r).parentOf c = a := by
          simp [FTree.parentOf, hac, hlc, hlr]
        rw [hpa] at hslot hup hout
        obtain ⟨s1, s2, -⟩ := hslot hcr
        obtain ⟨s3, s4⟩ := s2 (by rw [h1, hlr])
        have hsubst : l.subst c s = s := by
          cases l with
          | nil => simp [FTree.nodes] at hlc
          | node ll la lreps lr =>
            simp only [FTree.root] at hlr
            simp [FTree.subst, hlr]
        rw [hsubst]
        refine ⟨s3, by rw [s4, h2], by rw [s1, h3], ?_, fun hne => hup hne hcr, hrroot,
          hs', hrshape⟩
        refine ChainOK_congr a (fun x hx => hout x (mreps x hx)
          (fun hm => (hdl x (hsub x hm)).2.1 hx) (fun e => har (e ▸ hx))) h4
      · -- `a` is not the parent of `c`
        have hpa : (FTree.node l a reps r).parentOf c = l.parentOf c := by
          simp [FTree.parentOf, hac, hlc, hlr]
        rw [hpa] at hslot hup hout
        have hpm := FTree.parentOf_mem hlc (Ne.symm hlr)
        have hane : a ≠ l.parentOf c :=
          fun e => (hdl _ (l.nodes_sub_members _ hpm)).1 e.symm
        obtain ⟨e1, e2, e3⟩ := hout a ma (fun hm => (hdl a (hsub a hm)).1 rfl) hane
        have hroot' : (l.subst c s).root = l.root := by
          rw [FTree.subst_root l hc0, if_neg hlr]
        refine ⟨by rw [e1, h1, hroot'], by rw [e2, h2], by rw [e3, h3], ?_, ?_, hrroot,
          ?_, hrshape⟩
        · refine ChainOK_congr a (fun x hx => hout x (mreps x hx)
            (fun hm => (hdl x (hsub x hm)).2.1 hx) ?_) h4
          intro e
          exact (hdl _ (l.nodes_sub_members _ hpm)).2.1 (e ▸ hx)
        · rw [hroot']
          intro hne
          have hmem := FTree.root_mem_nodes hne
          rw [hpar _ (FTree.mem_nodes_node.2 (Or.inl hmem))
            (FTree.root_not_mem_subtreeAt hl hlc (Ne.symm hlr))
            (fun e => (hdl _ (l.nodes_sub_members _ hmem)).1 (by simpa [FTree.root] using e))]
          exact h5 hne
        · refine ihl h7 hl hlc (fun x hx hx' hx'' => hout x (ml x hx) hx' hx'')
            (fun x hx hx' _ => hpar x (FTree.mem_nodes_node.2 (Or.inl hx)) hx'
              (fun e => (hdl x (l.nodes_sub_members x hx)).1 (by simpa [FTree.root] using e)))
            (fun _ => hslot hcr) (fun hne _ => hup hne hcr)
    · -- the subtree is on the right
      have hrc := FTree.mem_right_of hc hac hlc
      have hsub := r.subtreeAt_members_sub c
      rw [FTree.subtreeAt_node_right hac hlc] at hout hpar
      simp only [FTree.subst, if_neg hac, if_neg hlc]
      have hlshape : Shape w' l := by
        refine Shape_congr hl (fun x hx => hout x (ml x hx)
          (fun hm => (hdl x hx).2.2 (hsub x hm)) ?_)
          (fun x hx _ => hpar x (FTree.mem_nodes_node.2 (Or.inl hx))
            (fun hm => (hdl x (l.nodes_sub_members x hx)).2.2 (hsub x hm))
            (fun e => (hdl x (l.nodes_sub_members x hx)).1 (by simpa [FTree.root] using e))) h7
        intro e
        simp only [FTree.parentOf, if_neg hac, if_neg hlc] at e
        by_cases hrr : r.root = c
        · rw [if_pos hrr] at e; exact (hdl x hx).1 e
        · rw [if_neg hrr] at e
          have := FTree.parentOf_mem hrc (Ne.symm hrr)
          rw [← e] at this
          exact (hdl x hx).2.2 (r.nodes_sub_members x this)
      have hlroot : l.root ≠ 0 → w' (l.root + 8) = a := by
        intro hne
        have hmem := FTree.root_mem_nodes hne
        rw [hpar _ (FTree.mem_nodes_node.2 (Or.inl hmem))
          (fun hm => (hdl _ (l.nodes_sub_members _ hmem)).2.2 (hsub _ hm))
          (fun e => (hdl _ (l.nodes_sub_members _ hmem)).1 (by simpa [FTree.root] using e))]
        exact h5 hne
      have hwa : w a ≠ c := by
        rw [h1]
        intro e
        exact hlc (e ▸ FTree.root_mem_nodes (e ▸ hc0))
      by_cases hrr : r.root = c
      · have hpa : (FTree.node l a reps r).parentOf c = a := by
          simp [FTree.parentOf, hac, hlc, hrr]
        rw [hpa] at hslot hup hout
        obtain ⟨s1, -, s2⟩ := hslot hcr
        obtain ⟨s3, s4⟩ := s2 (by rw [h2, hrr]) hwa
        have hsubst : r.subst c s = s := by
          cases r with
          | nil => simp [FTree.nodes] at hrc
          | node rl ra rreps rr =>
            simp only [FTree.root] at hrr
            simp [FTree.subst, hrr]
        rw [hsubst]
        refine ⟨by rw [s4, h1], s3, by rw [s1, h3], ?_, hlroot, fun hne => hup hne hcr,
          hlshape, hs'⟩
        refine ChainOK_congr a (fun x hx => hout x (mreps x hx)
          (fun hm => (hdr x (hsub x hm)).2 hx) (fun e => har (e ▸ hx))) h4
      · have hpa : (FTree.node l a reps r).parentOf c = r.parentOf c := by
          simp [FTree.parentOf, hac, hlc, hrr]
        rw [hpa] at hslot hup hout
        have hpm := FTree.parentOf_mem hrc (Ne.symm hrr)
        have hane : a ≠ r.parentOf c :=
          fun e => (hdr _ (r.nodes_sub_members _ hpm)).1 e.symm
        obtain ⟨e1, e2, e3⟩ := hout a ma (fun hm => (hdr a (hsub a hm)).1 rfl) hane
        have hroot' : (r.subst c s).root = r.root := by
          rw [FTree.subst_root r hc0, if_neg hrr]
        refine ⟨by rw [e1, h1], by rw [e2, h2, hroot'], by rw [e3, h3], ?_, hlroot, ?_,
          hlshape, ?_⟩
        · refine ChainOK_congr a (fun x hx => hout x (mreps x hx)
            (fun hm => (hdr x (hsub x hm)).2 hx) ?_) h4
          intro e
          exact (hdr _ (r.nodes_sub_members _ hpm)).2 (e ▸ hx)
        · rw [hroot']
          intro hne
          have hmem := FTree.root_mem_nodes hne
          rw [hpar _ (FTree.mem_nodes_node.2 (Or.inr (Or.inr hmem)))
            (FTree.root_not_mem_subtreeAt hr hrc (Ne.symm hrr))
            (fun e => (hdr _ (r.nodes_sub_members _ hmem)).1 (by simpa [FTree.root] using e))]
          exact h6 hne
        · refine ihr h8 hr hrc (fun x hx hx' hx'' => hout x (mr x hx) hx' hx'')
            (fun x hx hx' _ => hpar x (FTree.mem_nodes_node.2 (Or.inr (Or.inr hx))) hx'
              (fun e => (hdr x (r.nodes_sub_members x hx)).1 (by simpa [FTree.root] using e)))
            (fun _ => hslot hcr) (fun hne _ => hup hne hcr)

/-! ### Replica chains -/

theorem chain_target {w : Nat → Nat} {a b : Nat} {xs ys : List Nat}
    (h : ChainOK w a (xs ++ b :: ys)) :
    w b = (a :: xs).getLast (List.cons_ne_nil _ _) ∧ w (b + 4) = M1 ∧
    w (b + 12) = ys.headD 0 ∧ (∀ y ys', ys = y :: ys' → w y = b) := by
  induction xs generalizing a with
  | nil =>
    obtain ⟨h1, h2, h3, h4⟩ := h
    refine ⟨h1, h2, h3, ?_⟩
    rintro y ys' rfl
    exact h4.1
  | cons x xs ih =>
    obtain ⟨h1, h2, h3, h4⟩ := h
    have := ih h4
    simpa [List.getLast_cons] using this

theorem chain_splice_aux {w w' : Nat → Nat} {a b : Nat} {xs ys : List Nat}
    (h : ChainOK w a (xs ++ b :: ys)) (hnd : (a :: (xs ++ b :: ys)).Nodup)
    (hnz : ∀ y ∈ xs ++ ys, y ≠ 0)
    (hw1 : w' ((a :: xs).getLast (List.cons_ne_nil _ _) + 12) = ys.headD 0)
    (hw2 : ∀ y ys', ys = y :: ys' → w' y = (a :: xs).getLast (List.cons_ne_nil _ _))
    (hfr : ∀ x ∈ xs ++ ys, (x ≠ ys.headD 0 → w' x = w x) ∧ w' (x + 4) = w (x + 4) ∧
      (x ≠ (a :: xs).getLast (List.cons_ne_nil _ _) → w' (x + 12) = w (x + 12)))
    (ha : a ≠ (a :: xs).getLast (List.cons_ne_nil _ _) → w' (a + 12) = w (a + 12))
    (hwa : w (a + 12) = (xs ++ b :: ys).headD 0) :
    ChainOK w' a (xs ++ ys) ∧ w' (a + 12) = (xs ++ ys).headD 0 := by
  induction xs generalizing a with
  | nil =>
    simp only [List.nil_append, List.getLast_singleton] at *
    refine ⟨?_, hw1⟩
    obtain ⟨h1, h2, h3, h4⟩ := h
    cases ys with
    | nil => trivial
    | cons y ys' =>
      obtain ⟨g1, g2, g3, g4⟩ := h4
      have hnd' : a ≠ b ∧ a ≠ y ∧ a ∉ ys' ∧ b ≠ y ∧ b ∉ ys' ∧ y ∉ ys' ∧ ys'.Nodup := by
        simp only [List.nodup_cons, List.mem_cons, not_or] at hnd
        tauto
      obtain ⟨f1, f2, f3⟩ := hfr y (List.mem_cons_self _ _)
      refine ⟨hw2 y ys' rfl, f2 ▸ g2, ?_, ?_⟩
      · rw [f3 (Ne.symm hnd'.2.1)]; exact g3
      · refine ChainOK_congr y (fun x hx => ?_) g4
        obtain ⟨k1, k2, k3⟩ := hfr x (List.mem_cons_of_mem _ hx)
        refine ⟨k1 ?_, k2, k3 ?_⟩
        · simp only [List.headD_cons]; rintro rfl; exact hnd'.2.2.2.2.2.1 hx
        · rintro rfl; exact hnd'.2.2.1 hx
  | cons x xs ih =>
    obtain ⟨h1, h2, h3, h4⟩ := h
    have hlast : (a :: x :: xs).getLast (List.cons_ne_nil _ _) =
        (x :: xs).getLast (List.cons_ne_nil _ _) := by simp [List.getLast_cons]
    rw [hlast] at hw1 hw2 hfr ha
    have hnd2 : (x :: (xs ++ b :: ys)).Nodup := (List.nodup_cons.1 hnd).2
    have hax : a ∉ x :: (xs ++ b :: ys) := (List.nodup_cons.1 hnd).1
    have hxn : x ∉ xs ++ b :: ys := (List.nodup_cons.1 hnd2).1
    have hlm : (x :: xs).getLast (List.cons_ne_nil _ _) ∈ x :: xs := List.getLast_mem _
    have hale : a ≠ (x :: xs).getLast (List.cons_ne_nil _ _) := by
      intro e
      apply hax
      rw [e]
      rcases List.mem_cons.1 hlm with h | h
      · rw [h]; exact List.mem_cons_self _ _
      · exact List.mem_cons_of_mem _ (List.mem_append_left _ h)
    obtain ⟨f1, f2, f3⟩ := hfr x (List.mem_cons_self _ _)
    have hxnext : x ≠ ys.headD 0 := by
      cases ys with
      | nil => simp only [List.headD_nil]; exact hnz x (List.mem_cons_self _ _)
      | cons y ys' =>
        simp only [List.headD_cons]
        rintro rfl
        exact hxn (List.mem_append_right _ (List.mem_cons_of_mem _ (List.mem_cons_self _ _)))
    have ih' := ih h4 hnd2 (fun y hy => hnz y (List.mem_cons_of_mem _ hy)) hw1 hw2
      (fun y hy => hfr y (List.mem_cons_of_mem _ hy))
      (fun hne => f3 hne) h3
    simp only [List.cons_append, List.headD_cons] at hwa ⊢
    refine ⟨⟨by rw [f1 hxnext]; exact h1, f2 ▸ h2, ih'.2, ih'.1⟩, ?_⟩
    rw [ha hale]; exact hwa

theorem chain_splice {w w' : Nat → Nat} {a b prev next : Nat} {xs ys : List Nat}
    (h : ChainOK w a (xs ++ b :: ys)) (hnd : (a :: (xs ++ b :: ys)).Nodup)
    (hnz : ∀ y ∈ xs ++ ys, y ≠ 0)
    (hp : (a :: xs).getLast (List.cons_ne_nil _ _) = prev) (hn : ys.headD 0 = next)
    (hw1 : w' (prev + 12) = next)
    (hw2 : next ≠ 0 → w' next = prev)
    (hfr : ∀ x ∈ xs ++ ys, (x ≠ next → w' x = w x) ∧ w' (x + 4) = w (x + 4) ∧
      (x ≠ prev → w' (x + 12) = w (x + 12)))
    (ha : a ≠ prev → w' (a + 12) = w (a + 12))
    (hwa : w (a + 12) = (xs ++ b :: ys).headD 0) :
    ChainOK w' a (xs ++ ys) ∧ w' (a + 12) = (xs ++ ys).headD 0 := by
  subst hp hn
  refine chain_splice_aux h hnd hnz hw1 ?_ hfr ha hwa
  rintro y ys' rfl
  exact hw2 (hnz y (List.mem_append_right _ (List.mem_cons_self _ _)))

/-! ### The listing of a tree -/

theorem FTree.listing_mem {t : FTree} {p : Nat × List Nat} (hp : p ∈ t.listing) :
    p.1 ∈ t.nodes ∧ ∀ y ∈ p.2, y ∈ t.members := by
  induction t with
  | nil => exact absurd hp (List.not_mem_nil _)
  | node l a reps r ihl ihr =>
    simp only [FTree.listing, List.mem_append, List.mem_cons] at hp
    rcases hp with e | e | e
    · exact ⟨FTree.mem_nodes_node.2 (Or.inl (ihl e).1),
        fun y hy => FTree.mem_members_node.2 (Or.inl ((ihl e).2 y hy))⟩
    · rw [e]
      exact ⟨FTree.mem_nodes_node.2 (Or.inr (Or.inl rfl)),
        fun y hy => FTree.mem_members_node.2 (Or.inr (Or.inr (Or.inl hy)))⟩
    · exact ⟨FTree.mem_nodes_node.2 (Or.inr (Or.inr (ihr e).1)),
        fun y hy => FTree.mem_members_node.2 (Or.inr (Or.inr (Or.inr ((ihr e).2 y hy))))⟩

theorem FTree.mem_members_listing {t : FTree} {x : Nat} :
    x ∈ t.members ↔ ∃ p ∈ t.listing, x = p.1 ∨ x ∈ p.2 := by
  induction t with
  | nil => simp [FTree.members, FTree.listing]
  | node l a reps r ihl ihr =>
    rw [FTree.mem_members_node, ihl, ihr]
    simp only [FTree.listing, List.mem_append, List.mem_cons]
    constructor
    · rintro (⟨p, hp, e⟩ | e | e | ⟨p, hp, e⟩)
      · exact ⟨p, Or.inl hp, e⟩
      · exact ⟨(a, reps), Or.inr (Or.inl rfl), Or.inl e⟩
      · exact ⟨(a, reps), Or.inr (Or.inl rfl), Or.inr e⟩
      · exact ⟨p, Or.inr (Or.inr hp), e⟩
    · rintro ⟨p, hp | hp | hp, e⟩
      · exact Or.inl ⟨p, hp, e⟩
      · rw [hp] at e
        rcases e with e | e
        · exact Or.inr (Or.inl e)
        · exact Or.inr (Or.inr (Or.inl e))
      · exact Or.inr (Or.inr (Or.inr ⟨p, hp, e⟩))

theorem FTree.nodes_eq_listing (t : FTree) : t.nodes = t.listing.map Prod.fst := by
  induction t with
  | nil => rfl
  | node l a reps r ihl ihr => simp [FTree.nodes, FTree.listing, ihl, ihr]

/-- Replacing a subtree replaces its part of the listing. -/
theorem FTree.listing_subst {t : FTree} {c : Nat} (hnd : t.members.Nodup) (hc : c ∈ t.nodes) :
    ∃ pre post, t.listing = pre ++ ((t.subtreeAt c).listing ++ post) ∧
      (∀ s, (t.subst c s).listing = pre ++ (s.listing ++ post)) ∧
      (∀ p ∈ pre, ∀ x ∈ (t.subtreeAt c).members, p.1 ≠ x ∧ x ∉ p.2) := by
  induction t with
  | nil => exact absurd hc (List.not_mem_nil _)
  | node l a reps r ihl ihr =>
    obtain ⟨hl, hr, -, -, hdl, hdr⟩ := FTree.nodup_node hnd
    by_cases hac : a = c
    · subst hac
      refine ⟨[], [], by simp [FTree.subtreeAt], fun s => by simp [FTree.subst], ?_⟩
      intro p hp
      exact absurd hp (List.not_mem_nil _)
    · by_cases hlc : c ∈ l.nodes
      · obtain ⟨pre, post, i1, i2, i3⟩ := ihl hl hlc
        refine ⟨pre, post ++ (a, reps) :: r.listing, ?_, fun s => ?_, ?_⟩
        · rw [FTree.subtreeAt_node_left hac hlc]
          simp only [FTree.listing]
          rw [i1]
          simp only [List.append_assoc]
        · simp only [FTree.subst, if_neg hac, if_pos hlc, FTree.listing]
          rw [i2 s]
          simp only [List.append_assoc]
        · rw [FTree.subtreeAt_node_left hac hlc]
          exact i3
      · have hrc := FTree.mem_right_of hc hac hlc
        obtain ⟨pre, post, i1, i2, i3⟩ := ihr hr hrc
        refine ⟨l.listing ++ (a, reps) :: pre, post, ?_, fun s => ?_, ?_⟩
        · rw [FTree.subtreeAt_node_right hac hlc]
          simp only [FTree.listing]
          rw [i1]
          simp only [List.append_assoc, List.cons_append]
        · simp only [FTree.subst, if_neg hac, if_neg hlc, FTree.listing]
          rw [i2 s]
          simp only [List.append_assoc, List.cons_append]
        · rw [FTree.subtreeAt_node_right hac hlc]
          intro p hp x hx
          have hxr : x ∈ r.members := r.subtreeAt_members_sub c x hx
          rcases List.mem_append.1 hp with e | e
          · obtain ⟨m1, m2⟩ := FTree.listing_mem e
            refine ⟨fun e' => ?_, fun e' => ?_⟩
            · exact (hdl _ (l.nodes_sub_members _ m1)).2.2 (e' ▸ hxr)
            · exact (hdl _ (m2 x e')).2.2 hxr
          · rcases List.mem_cons.1 e with e | e
            · rw [e]
              exact ⟨fun e' => (hdr x hxr).1 e'.symm, (hdr x hxr).2⟩
            · exact i3 p e x hx

theorem delListing_cons (b : Nat) (f : Bool) (p : Nat × List Nat)
    (rest : List (Nat × List Nat)) :
    delListing b f (p :: rest) =
      if p.1 = b then
        (if f = true ∨ p.2 = [] then rest else (p.2.headD 0, p.2.tail) :: rest)
      else if b ∈ p.2 then (p.1, p.2.erase b) :: rest
      else p :: delListing b f rest := rfl

theorem delListing_append_left {b : Nat} {f : Bool} {pre : List (Nat × List Nat)}
    (L : List (Nat × List Nat)) (hpre : ∀ p ∈ pre, p.1 ≠ b ∧ b ∉ p.2) :
    delListing b f (pre ++ L) = pre ++ delListing b f L := by
  induction pre with
  | nil => rfl
  | cons p pre ih =>
    obtain ⟨h1, h2⟩ := hpre p (List.mem_cons_self _ _)
    rw [List.cons_append, delListing_cons, if_neg h1, if_neg h2,
      ih (fun q hq => hpre q (List.mem_cons_of_mem _ hq)), List.cons_append]

theorem delListing_append_right {b : Nat} {f : Bool} {L : List (Nat × List Nat)}
    (post : List (Nat × List Nat)) (hL : ∃ p ∈ L, b = p.1 ∨ b ∈ p.2) :
    delListing b f (L ++ post) = delListing b f L ++ post := by
  induction L with
  | nil => obtain ⟨p, hp, -⟩ := hL; exact absurd hp (List.not_mem_nil _)
  | cons q L ih =>
    rw [List.cons_append, delListing_cons, delListing_cons]
    by_cases h1 : q.1 = b
    · rw [if_pos h1, if_pos h1]
      split <;> rfl
    · rw [if_neg h1, if_neg h1]
      by_cases h2 : b ∈ q.2
      · rw [if_pos h2, if_pos h2]; rfl
      · rw [if_neg h2, if_neg h2, List.cons_append]
        congr 1
        apply ih
        obtain ⟨p, hp, e⟩ := hL
        rcases List.mem_cons.1 hp with rfl | hp'
        · rcases e with e | e
          · exact absurd e.symm h1
          · exact absurd e h2
        · exact ⟨p, hp', e⟩

/-- The listing after `deleteNode(b)`, from the listing of the subtree that changes. -/
theorem delListing_subst {t s : FTree} {b c : Nat} {f : Bool} (hnd : t.members.Nodup)
    (hc : c ∈ t.nodes) (hb : b ∈ (t.subtreeAt c).members)
    (hs : s.listing = delListing b f (t.subtreeAt c).listing) :
    (t.subst c s).listing = delListing b f t.listing := by
  obtain ⟨pre, post, i1, i2, i3⟩ := FTree.listing_subst hnd hc
  rw [i1, i2 s, hs, delListing_append_left _ (fun p hp => i3 p hp b hb),
    delListing_append_right _ (FTree.mem_members_listing.1 hb)]
theorem FTree.height_subst_le {t s : FTree} {c : Nat} (hnd : t.members.Nodup)
    (hc : c ∈ t.nodes) (hs : s.height ≤ (t.subtreeAt c).height) :
    (t.subst c s).height ≤ t.height := by
  induction t with
  | nil => exact absurd hc (List.not_mem_nil _)
  | node l a reps r ihl ihr =>
    obtain ⟨hl, hr, -, -, hdl, hdr⟩ := FTree.nodup_node hnd
    by_cases hac : a = c
    · subst hac
      simp only [FTree.subtreeAt, if_true] at hs
      simp only [FTree.subst, if_true]
      exact hs
    · by_cases hlc : c ∈ l.nodes
      · rw [FTree.subtreeAt_node_left hac hlc] at hs
        have := ihl hl hlc hs
        simp only [FTree.subst, if_neg hac, if_pos hlc, FTree.height]
        omega
      · have hrc := FTree.mem_right_of hc hac hlc
        rw [FTree.subtreeAt_node_right hac hlc] at hs
        have := ihr hr hrc hs
        simp only [FTree.subst, if_neg hac, if_neg hlc, FTree.height]
        omega

theorem FTree.listing_clean {t : FTree} {b : Nat} (hb : b ∉ t.members) :
    ∀ p ∈ t.listing, p.1 ≠ b ∧ b ∉ p.2 := by
  intro p hp
  obtain ⟨m1, m2⟩ := FTree.listing_mem hp
  exact ⟨fun e => hb (e ▸ t.nodes_sub_members _ m1), fun e => hb (m2 b e)⟩

/-- The listing of a subtree after `deleteNode(b)`, when `b` is the top node of
the subtree or one of its replicas. -/
theorem delListing_node {l r : FTree} {a b : Nat} {reps : List Nat} (f : Bool)
    (hnd : (FTree.node l a reps r).members.Nodup) (hb : b = a ∨ b ∈ reps) :
    delListing b f (FTree.node l a reps r).listing =
      l.listing ++ (if a = b then
        (if f = true ∨ reps = [] then r.listing else (reps.headD 0, reps.tail) :: r.listing)
        else (a, reps.erase b) :: r.listing) := by
  obtain ⟨-, -, -, har, hdl, -⟩ := FTree.nodup_node hnd
  have hbl : b ∉ l.members := by
    intro e
    rcases hb with e' | e'
    · exact (hdl b e).1 e'
    · exact (hdl b e).2.1 e'
  have e1 : (FTree.node l a reps r).listing = l.listing ++ (a, reps) :: r.listing := rfl
  rw [e1, delListing_append_left _ (FTree.listing_clean hbl), delListing_cons]
  by_cases hab : a = b
  · simp only [if_pos hab]
  · have hbr : b ∈ reps := hb.resolve_left (fun e => hab e.symm)
    simp only [if_neg hab, if_pos hbr]

theorem erase_middle {b : Nat} {xs ys : List Nat} (hb : b ∉ xs) :
    (xs ++ b :: ys).erase b = xs ++ ys := by
  rw [List.erase_append_right _ hb, List.erase_cons_head]

/-- The listing after a tree node without replicas, or the top node, has been
replaced by a subtree that lists its two children. -/
theorem delListing_top {t s l r : FTree} {b : Nat} {reps : List Nat} (hnd : t.members.Nodup)
    (hb : b ∈ t.nodes) (hsub : t.subtreeAt b = .node l b reps r)
    (hf : b = t.root ∨ reps = []) (hs : s.listing = l.listing ++ r.listing) :
    (t.subst b s).listing = delListing b (decide (b = t.root)) t.listing := by
  have hsnd : (FTree.node l b reps r).members.Nodup := hsub ▸ FTree.subtreeAt_nodup b hnd
  refine delListing_subst hnd hb ?_ ?_
  · rw [hsub]
    exact FTree.mem_members_node.2 (Or.inr (Or.inl rfl))
  · rw [hs, hsub, delListing_node _ hsnd (Or.inl rfl), if_pos rfl, if_pos]
    rcases hf with e | e
    · exact Or.inl (decide_eq_true e)
    · exact Or.inr e

/-! ### Frames -/

theorem Untouched.refl (w : Nat → Nat) (W : List Nat) : Untouched w w W := fun _ _ => rfl

theorem Untouched.store {w : Nat → Nat} {h' : Heap} {W : List Nat}
    (hu : Untouched w h'.words W) {m : Nat} (q v : Nat) (hm : m ∈ W)
    (hq : m ≤ q ∧ q < m + 16) : Untouched w (h'.store q v).words W := by
  intro y hy
  rw [store_words_ne _ _ (by have := hy m hm; omega)]
  exact hu y hy

theorem Untouched.setSeat {w : Nat → Nat} {h' : Heap} {W : List Nat}
    (hu : Untouched w h'.words W) (s : Nat) : Untouched w (h'.setSeat s).words W := hu

theorem Untouched.mono {w w' : Nat → Nat} {W W' : List Nat} (hu : Untouched w w' W)
    (hs : ∀ m ∈ W, m ∈ W') : Untouched w w' W' :=
  fun y hy => hu y (fun m hm => hy m (hs m hm))

theorem Untouched.trans {w w' w'' : Nat → Nat} {W : List Nat} (h1 : Untouched w w' W)
    (h2 : Untouched w' w'' W) : Untouched w w'' W :=
  fun y hy => (h2 y hy).trans (h1 y hy)

theorem Untouched.fields {w w' : Nat → Nat} {W : List Nat} (hu : Untouched w w' W) {x : Nat}
    (hx : ∀ m ∈ W, x + 24 ≤ m ∨ m + 24 ≤ x) (h4 : 4 ≤ x) :
    w' (x - 4) = w (x - 4) ∧ w' x = w x ∧ w' (x + 4) = w (x + 4) ∧ w' (x + 8) = w (x + 8) ∧
    w' (x + 12) = w (x + 12) := by
  refine ⟨hu _ ?_, hu _ ?_, hu _ ?_, hu _ ?_, hu _ ?_⟩ <;>
  · intro m hm
    have := hx m hm
    omega

theorem Untouched.header {w w' : Nat → Nat} {W : List Nat} (hu : Untouched w w' W) {x : Nat}
    (hx : ∀ m ∈ W, m ≠ x → x + 24 ≤ m ∨ m + 24 ≤ x) (h4 : 4 ≤ x) :
    w' (x - 4) = w (x - 4) := by
  refine hu _ ?_
  intro m hm
  by_cases e : m = x
  · omega
  · have := hx m hm e
    omega

/-! ### Addresses of the link words -/

theorem addr_facts {x : Nat} (h1 : 4 ≤ x) (h2 : x + 16 < 4294967296) :
    HDRP x = x - 4 ∧ RIGHT x = x + 4 ∧ PARENT x = x + 8 ∧ REPLICA x = x + 12 :=
  ⟨HDRP_eq h1 (by omega), RIGHT_eq (by omega), PARENT_eq (by omega), REPLICA_eq (by omega)⟩

theorem TreeOK.lt {h : Heap} {t : FTree} (ok : TreeOK h t) {x : Nat} (hx : x ∈ t.members) :
    24 ≤ x ∧ x + 16 < 4294967296 := by
  have := ok.range x hx
  have := ok.brk_lt
  unfold W32 at this
  omega

theorem TreeOK.valid {h : Heap} {t : FTree} (ok : TreeOK h t) {x : Nat} (hx : x ∈ t.members) :
    h.valid (x - 4) ∧ h.valid x ∧ h.valid (x + 4) ∧ h.valid (x + 8) ∧ h.valid (x + 12) := by
  have := ok.range x hx
  unfold Heap.valid
  omega

theorem TreeOK.addr {h : Heap} {t : FTree} (ok : TreeOK h t) {x : Nat} (hx : x ∈ t.members) :
    HDRP x = x - 4 ∧ RIGHT x = x + 4 ∧ PARENT x = x + 8 ∧ REPLICA x = x + 12 :=
  addr_facts (by have := ok.lt hx; omega) (ok.lt hx).2

theorem TreeOK.ne_zero {h : Heap} {t : FTree} (ok : TreeOK h t) {x : Nat}
    (hx : x ∈ t.members) : x ≠ 0 := by
  have := ok.lt hx; omega

theorem TreeOK.ne_M1 {h : Heap} {t : FTree} (ok : TreeOK h t) {x : Nat}
    (hx : x ∈ t.members) : x ≠ M1 := by
  have := ok.lt hx; unfold M1; omega

theorem TreeOK.root_ne_M1 {h : Heap} {t : FTree} (ok : TreeOK h t) (s : FTree)
    (hs : ∀ x ∈ s.members, x ∈ t.members) : s.root ≠ M1 := by
  by_cases h0 : s.root = 0
  · rw [h0]; unfold M1; omega
  · exact ok.ne_M1 (hs _ (FTree.root_mem_members h0))

theorem FTree.replica_not_node {t : FTree} (hnd : t.members.Nodup) {a b : Nat}
    {l r : FTree} {reps : List Nat} (ha : a ∈ t.nodes)
    (hsub : t.subtreeAt a = .node l a reps r) (hb : b ∈ reps) : b ∉ t.nodes := by
  induction t with
  | nil => simp [FTree.nodes] at ha
  | node l0 a0 reps0 r0 ihl ihr =>
    obtain ⟨hl, hr, hreps, har, hdl, hdr⟩ := FTree.nodup_node hnd
    by_cases hac : a0 = a
    · subst hac
      simp only [FTree.subtreeAt, if_true, FTree.node.injEq] at hsub
      obtain ⟨rfl, -, rfl, rfl⟩ := hsub
      intro hm
      rcases FTree.mem_nodes_node.1 hm with h | h | h
      · exact (hdl b (l0.nodes_sub_members b h)).2.1 hb
      · exact har (h ▸ hb)
      · exact (hdr b (r0.nodes_sub_members b h)).2 hb
    · by_cases hlc : a ∈ l0.nodes
      · rw [FTree.subtreeAt_node_left hac hlc] at hsub
        have hbl : b ∈ l0.members := by
          apply l0.subtreeAt_members_sub a
          rw [hsub]; exact FTree.mem_members_node.2 (Or.inr (Or.inr (Or.inl hb)))
        intro hm
        rcases FTree.mem_nodes_node.1 hm with h | h | h
        · exact ihl hl hlc hsub h
        · exact (hdl b hbl).1 h
        · exact (hdl b hbl).2.2 (r0.nodes_sub_members b h)
      · have hrc := FTree.mem_right_of ha hac hlc
        rw [FTree.subtreeAt_node_right hac hlc] at hsub
        have hbr : b ∈ r0.members := by
          apply r0.subtreeAt_members_sub a
          rw [hsub]; exact FTree.mem_members_node.2 (Or.inr (Or.inr (Or.inl hb)))
        intro hm
        rcases FTree.mem_nodes_node.1 hm with h | h | h
        · exact (hdl b (l0.nodes_sub_members b h)).2.2 hbr
        · exact (hdr b hbr).1 h
        · exact ihr hr hrc hsub h

/-! ### Replacing a subtree in memory -/

theorem TreeOK.subst_core {h h' : Heap} {t s' : FTree} {c : Nat} {W N : List Nat}
    (ok : TreeOK h t) (hc : c ∈ t.nodes) (har : SameArena h h')
    (hu : Untouched h.words h'.words W)
    (hW : ∀ m ∈ W, m = 0 ∨ m ∈ (t.subtreeAt c).members ∨ m ∈ N ∨
      (c ≠ t.root ∧ m = t.parentOf c))
    (hN : ∀ b ∈ N, 24 ≤ b ∧ h.lo + 4 ≤ b ∧ b + 16 ≤ h.brk ∧ b % 4 = 0 ∧
      (∀ x ∈ t.members, b + 24 ≤ x ∨ x + 24 ≤ b) ∧ ∀ b' ∈ N, b' = b)
    (hmem : ∀ x ∈ s'.members, x ∈ (t.subtreeAt c).members ∨ x ∈ N)
    (hnd : s'.members.Nodup)
    (hshape : Shape h'.words s')
    (hordT : (∀ x ∈ t.members, x ∉ (t.subtreeAt c).members →
      szOf h'.words x = szOf h.words x) → Ordered h'.words (t.subst c s') 0 W32)
    (hslot : c ≠ t.root →
      h'.words (if szOf h.words c > szOf h.words (t.parentOf c) then t.parentOf c + 4
        else t.parentOf c) = s'.root ∧
      ∀ q, t.parentOf c ≤ q → q < t.parentOf c + 16 →
        q ≠ (if szOf h.words c > szOf h.words (t.parentOf c) then t.parentOf c + 4
          else t.parentOf c) → h'.words q = h.words q)
    (hup : s'.root ≠ 0 → c ≠ t.root → h'.words (s'.root + 8) = t.parentOf c)
    (hseat : h'.seat = if t.root = c then s'.root else h.seat) :
    TreeOK h' (t.subst c s') ∧
    (∀ x, x ∈ (t.subst c s').members ↔
      (x ∈ t.members ∧ x ∉ (t.subtreeAt c).members) ∨ x ∈ s'.members) := by
  have hc0 : c ≠ 0 := ok.ne_zero (t.nodes_sub_members c hc)
  have hmemiff : ∀ x, x ∈ (t.subst c s').members ↔
      (x ∈ t.members ∧ x ∉ (t.subtreeAt c).members) ∨ x ∈ s'.members :=
    fun x => FTree.mem_subst ok.nodup hc
  have hsubm := t.subtreeAt_members_sub c
  obtain ⟨hlo, hbrk, hlim, hsp⟩ := har
  have hfields : ∀ x ∈ t.members, x ∉ (t.subtreeAt c).members →
      (c ≠ t.root → x ≠ t.parentOf c) →
      h'.words x = h.words x ∧ h'.words (x + 4) = h.words (x + 4) ∧
      h'.words (x + 8) = h.words (x + 8) ∧ h'.words (x + 12) = h.words (x + 12) := by
    intro x hx hns hnp
    have hr := ok.range x hx
    refine (hu.fields (x := x) ?_ (by omega)).2
    intro m hm
    rcases hW m hm with rfl | h | h | ⟨h1, rfl⟩
    · omega
    · exact ok.sep x hx m (hsubm m h) (fun e => hns (e ▸ h))
    · have := (hN m h).2.2.2.2.1 x hx; omega
    · exact ok.sep x hx _ (t.nodes_sub_members _ (FTree.parentOf_mem hc h1)) (hnp h1)
  have hsz : ∀ x ∈ t.members, x ∉ (t.subtreeAt c).members →
      szOf h'.words x = szOf h.words x := by
    intro x hx hns
    have hr := ok.range x hx
    unfold szOf
    rw [hu.header (x := x) ?_ (by omega)]
    intro m hm hne
    rcases hW m hm with rfl | h | h | ⟨h1, rfl⟩
    · omega
    · exact ok.sep x hx m (hsubm m h) (fun e => hns (e ▸ h))
    · have := (hN m h).2.2.2.2.1 x hx; omega
    · exact ok.sep x hx _ (t.nodes_sub_members _ (FTree.parentOf_mem hc h1)) (Ne.symm hne)
  have hshape' : Shape h'.words (t.subst c s') := by
    refine Shape_subst ok.shape ok.nodup hc0 hc ?_ ?_ ?_ hshape hup
    · intro a ha hns hnp
      obtain ⟨e1, e2, -, e4⟩ := hfields a ha hns (fun _ => hnp)
      exact ⟨e1, e2, e4⟩
    · intro a ha hns hroot
      by_cases hap : c ≠ t.root ∧ a = t.parentOf c
      · obtain ⟨h1, rfl⟩ := hap
        refine (hslot h1).2 _ (by omega) (by omega) ?_
        split <;> omega
      · exact (hfields a (t.nodes_sub_members a ha) hns
          (fun h1 e => hap ⟨h1, e⟩)).2.2.1
    · intro hroot
      obtain ⟨s1, s2⟩ := hslot hroot
      obtain ⟨p1, p2, p3, p4⟩ := parent_facts ok.shape ok.ordered ok.nodup hc0 hc hroot
      rcases p4 with ⟨q1, q2, q3⟩ | ⟨q1, q2, q3⟩
      · rw [if_neg (by omega)] at s1 s2
        refine ⟨s2 _ (by omega) (by omega) (by omega), fun _ =>
          ⟨s1, s2 _ (by omega) (by omega) (by omega)⟩, fun e => absurd e q3⟩
      · rw [if_pos (by omega)] at s1 s2
        refine ⟨s2 _ (by omega) (by omega) (by omega), fun e => absurd e q3, fun _ _ =>
          ⟨s1, s2 _ (by omega) (by omega) (by omega)⟩⟩
  have hsub' : ∀ x ∈ (t.subst c s').members, x ∈ t.members ∨ x ∈ N := by
    intro x hx
    rcases (hmemiff x).1 hx with ⟨h1, -⟩ | h1
    · exact Or.inl h1
    · rcases hmem x h1 with h2 | h2
      · exact Or.inl (hsubm x h2)
      · exact Or.inr h2
  refine ⟨⟨hshape', ?_, ?_, ?_, ?_, ?_, ?_⟩, hmemiff⟩
  · rw [FTree.subst_root t hc0, hseat, ok.root]
  · exact hordT hsz
  · refine FTree.nodup_subst ok.nodup hc hnd ?_
    intro x hx hxt
    rcases hmem x hx with h1 | h1
    · exact h1
    · have := (hN x h1).2.2.2.2.1 x hxt; omega
  · intro x hx
    rcases hsub' x hx with h1 | h1
    · have := ok.range x h1; omega
    · have := hN x h1; omega
  · intro x hx y hy hne
    rcases hsub' x hx with h1 | h1 <;> rcases hsub' y hy with h2 | h2
    · exact ok.sep x h1 y h2 hne
    · have := (hN y h2).2.2.2.2.1 x h1; omega
    · exact (hN x h1).2.2.2.2.1 y h2
    · exact absurd ((hN x h1).2.2.2.2.2 y h2).symm hne
  · rw [hbrk]; exact ok.brk_lt

theorem TreeOK.subst {h h' : Heap} {t s' : FTree} {c : Nat} {W N : List Nat}
    (ok : TreeOK h t) (hc : c ∈ t.nodes) (har : SameArena h h')
    (hu : Untouched h.words h'.words W)
    (hW : ∀ m ∈ W, m = 0 ∨ m ∈ (t.subtreeAt c).members ∨ m ∈ N ∨
      (c ≠ t.root ∧ m = t.parentOf c))
    (hN : ∀ b ∈ N, 24 ≤ b ∧ h.lo + 4 ≤ b ∧ b + 16 ≤ h.brk ∧ b % 4 = 0 ∧
      (∀ x ∈ t.members, b + 24 ≤ x ∨ x + 24 ≤ b) ∧ ∀ b' ∈ N, b' = b)
    (hmem : ∀ x ∈ s'.members, x ∈ (t.subtreeAt c).members ∨ x ∈ N)
    (hnd : s'.members.Nodup)
    (hshape : Shape h'.words s')
    (hord : ∀ lo hi, Ordered h.words (t.subtreeAt c) lo hi → Ordered h'.words s' lo hi)
    (hslot : c ≠ t.root →
      h'.words (if szOf h.words c > szOf h.words (t.parentOf c) then t.parentOf c + 4
        else t.parentOf c) = s'.root ∧
      ∀ q, t.parentOf c ≤ q → q < t.parentOf c + 16 →
        q ≠ (if szOf h.words c > szOf h.words (t.parentOf c) then t.parentOf c + 4
          else t.parentOf c) → h'.words q = h.words q)
    (hup : s'.root ≠ 0 → c ≠ t.root → h'.words (s'.root + 8) = t.parentOf c)
    (hseat : h'.seat = if t.root = c then s'.root else h.seat) :
    TreeOK h' (t.subst c s') ∧
    (∀ x, x ∈ (t.subst c s').members ↔
      (x ∈ t.members ∧ x ∉ (t.subtreeAt c).members) ∨ x ∈ s'.members) :=
  ok.subst_core hc har hu hW hN hmem hnd hshape
    (fun hsz => by
      obtain ⟨lo', hi', -, -, o, k⟩ := Ordered_subtreeAt ok.ordered ok.nodup hc
      exact k h'.words s' hsz (hord _ _ o))
    hslot hup hseat

theorem TreeOK.sub {h : Heap} {t : FTree} (ok : TreeOK h t) {c : Nat} {l r : FTree}
    {reps : List Nat} (hsub : t.subtreeAt c = .node l c reps r) :
    Shape h.words (.node l c reps r) ∧ (∀ x ∈ (FTree.node l c reps r).members, x ∈ t.members) ∧
    (FTree.node l c reps r).members.Nodup := by
  refine ⟨hsub ▸ Shape_subtreeAt c ok.shape, ?_, hsub ▸ FTree.subtreeAt_nodup c ok.nodup⟩
  intro x hx
  exact t.subtreeAt_members_sub c x (hsub ▸ hx)

theorem TreeOK.sep' {h : Heap} {t : FTree} (ok : TreeOK h t) {x y : Nat}
    (hx : x ∈ t.members) (hy : y ∈ t.members) : x = y ∨ x + 24 ≤ y ∨ y + 24 ≤ x := by
  by_cases e : x = y
  · exact Or.inl e
  · exact Or.inr (ok.sep x hx y hy e)

theorem TreeOK.slot {h : Heap} {t : FTree} (ok : TreeOK h t) {c : Nat} (hc : c ∈ t.nodes)
    (hroot : c ≠ t.root) :
    t.parentOf c ∈ t.members ∧ t.parentOf c ∉ (t.subtreeAt c).members ∧
    h.words (c + 8) = t.parentOf c ∧
    h.words (if szOf h.words c > szOf h.words (t.parentOf c) then t.parentOf c + 4
      else t.parentOf c) = c ∧
    ((if szOf h.words c > szOf h.words (t.parentOf c) then t.parentOf c + 4
      else t.parentOf c) = t.parentOf c ∨
     (if szOf h.words c > szOf h.words (t.parentOf c) then t.parentOf c + 4
      else t.parentOf c) = t.parentOf c + 4) := by
  obtain ⟨p1, p2, p3, p4⟩ := parent_facts ok.shape ok.ordered ok.nodup
    (ok.ne_zero (t.nodes_sub_members c hc)) hc hroot
  refine ⟨t.nodes_sub_members _ p1, p2, p3, ?_, ?_⟩
  · rcases p4 with ⟨q1, q2, q3⟩ | ⟨q1, q2, q3⟩
    · rw [if_neg (by omega)]; exact q1
    · rw [if_pos (by omega)]; exact q1
  · split
    · exact Or.inr rfl
    · exact Or.inl rfl

/-! ### Distinct link words -/

theorem off_ne {y m k j : Nat} (s : m = 0 ∨ y = m ∨ y + 24 ≤ m ∨ m + 24 ≤ y) (hy : 24 ≤ y)
    (hk : k < 16) (hj : j < 16) (hne : y = m → k ≠ j) : y + k ≠ m + j := by
  omega

theorem hdr_ne {y m j : Nat} (s : m = 0 ∨ y = m ∨ y + 24 ≤ m ∨ m + 24 ≤ y) (hy : 24 ≤ y)
    (hj : j < 16) : y - 4 ≠ m + j := by
  omega

theorem off_ne_slot {y p slot k : Nat} (s : y = p ∨ y + 24 ≤ p ∨ p + 24 ≤ y)
    (hs : slot = p ∨ slot = p + 4) (hk : k < 16) (hne : y = p → 8 ≤ k) : y + k ≠ slot := by
  omega

theorem hdr_ne_slot {y p slot : Nat} (s : y = p ∨ y + 24 ≤ p ∨ p + 24 ≤ y)
    (hs : slot = p ∨ slot = p + 4) (hy : 24 ≤ y) : y - 4 ≠ slot := by
  omega

theorem TreeOK.sep0 {h : Heap} {t : FTree} (ok : TreeOK h t) {y m : Nat}
    (hy : y ∈ t.members) (hm : m = 0 ∨ m ∈ t.members) :
    m = 0 ∨ y = m ∨ y + 24 ≤ m ∨ m + 24 ≤ y := by
  rcases hm with e | e
  · exact Or.inl e
  · exact Or.inr (ok.sep' hy e)

theorem FTree.root_zero_or_mem (s : FTree) : s.root = 0 ∨ s.root ∈ s.members := by
  by_cases e : s.root = 0
  · exact Or.inl e
  · exact Or.inr (FTree.root_mem_members e)

/-! ### Addresses outside the link words of a block -/

theorem unt_ne {q m : Nat} (j : Nat) (hj : j < 16) (s : q < m ∨ m + 16 ≤ q) : q ≠ m + j := by
  omega

theorem unt_ne_slot {q p slot : Nat} (hs : slot = p ∨ slot = p + 4) (s : q < p ∨ p + 16 ≤ q) :
    q ≠ slot := by
  omega

/-! ### `deleteNode` on a replica -/

theorem mem_splice {α : Type} {x b : α} {xs ys : List α} (h : x ∈ xs ++ ys) :
    x ∈ xs ++ b :: ys := by
  simp only [List.mem_append, List.mem_cons] at h ⊢
  tauto

theorem deleteNode_replica {h : Heap} {t : FTree} (ok : TreeOK h t) {a b : Nat}
    {l r : FTree} {xs ys : List Nat} (ha : a ∈ t.nodes)
    (hsub : t.subtreeAt a = .node l a (xs ++ b :: ys) r) :
    ∃ h' t', SameArena h h' ∧ Untouched h.words h'.words t.members ∧ TreeOK h' t' ∧
      (∀ x ∈ t'.members, x ∈ t.members) ∧ b ∉ t'.members ∧ DeletedExact h t b h' t' ∧
      ∀ fuel, deleteNode fuel h b = .ok h' := by
  obtain ⟨hsh, hsm, hsnd⟩ := ok.sub hsub
  obtain ⟨c1, c2, c3, c4, c5, c6, c7, c8⟩ := hsh
  obtain ⟨ndl, ndr, ndreps, ndar, nddl, nddr⟩ := FTree.nodup_node hsnd
  have hbr : b ∈ xs ++ b :: ys := by simp
  have hrepm : ∀ x ∈ xs ++ b :: ys, x ∈ t.members :=
    fun x hx => hsm x (FTree.mem_members_node.2 (Or.inr (Or.inr (Or.inl hx))))
  have hbm : b ∈ t.members := hrepm b hbr
  have ham : a ∈ t.members := t.nodes_sub_members a ha
  have hlm : ∀ x ∈ l.members, x ∈ t.members :=
    fun x hx => hsm x (FTree.mem_members_node.2 (Or.inl hx))
  have hrm : ∀ x ∈ r.members, x ∈ t.members :=
    fun x hx => hsm x (FTree.mem_members_node.2 (Or.inr (Or.inr (Or.inr hx))))
  obtain ⟨t1, t2, t3, t4⟩ := chain_target c4
  have hprev_mem : (a :: xs).getLast (List.cons_ne_nil _ _) ∈ a :: xs := List.getLast_mem _
  generalize hprev : (a :: xs).getLast (List.cons_ne_nil _ _) = prev at hprev_mem t1
  have hprevs : prev = a ∨ prev ∈ xs ++ b :: ys := by
    rcases List.mem_cons.1 hprev_mem with e | e
    · exact Or.inl e
    · exact Or.inr (List.mem_append_left _ e)
  have hprevm : prev ∈ t.members := by
    rcases hprevs with e | e
    · rw [e]; exact ham
    · exact hrepm prev e
  have hbseat : b ≠ h.seat := by
    rw [← ok.root]
    intro e
    have hroot : t.root ≠ 0 := e ▸ ok.ne_zero hbm
    exact FTree.replica_not_node ok.nodup ha hsub hbr (e ▸ FTree.root_mem_nodes hroot)
  obtain ⟨vb0, vb1, vb2, vb3, vb4⟩ := ok.valid hbm
  obtain ⟨ab0, ab1, ab2, ab3⟩ := ok.addr hbm
  obtain ⟨vp0, vp1, vp2, vp3, vp4⟩ := ok.valid hprevm
  obtain ⟨ap0, ap1, ap2, ap3⟩ := ok.addr hprevm
  have hlp := ok.lt hprevm
  have hlb := ok.lt hbm
  have hnda : (a :: (xs ++ b :: ys)).Nodup := List.nodup_cons.2 ⟨ndar, ndreps⟩
  have hnz : ∀ y ∈ xs ++ ys, y ≠ 0 := fun y hy => ok.ne_zero (hrepm y (mem_splice hy))
  have hbx : b ∉ xs ++ ys := by
    have := ndreps
    rw [List.nodup_append] at this
    obtain ⟨-, n2, n3⟩ := this
    intro e
    rcases List.mem_append.1 e with e | e
    · exact n3 e (List.mem_cons_self _ _)
    · exact (List.nodup_cons.1 n2).1 e
  have hbnot : b ∉ (FTree.node l a (xs ++ ys) r).members := by
    intro hm
    rcases FTree.mem_members_node.1 hm with e | e | e | e
    · exact (nddl b e).2.1 hbr
    · exact ndar (e ▸ hbr)
    · exact hbx e
    · exact (nddr b e).2 hbr
  have hmem' : ∀ x ∈ (FTree.node l a (xs ++ ys) r).members,
      x ∈ (t.subtreeAt a).members ∨ x ∈ ([] : List Nat) := by
    intro x hx
    left
    rw [hsub]
    rcases FTree.mem_members_node.1 hx with e | e | e | e
    · exact FTree.mem_members_node.2 (Or.inl e)
    · exact FTree.mem_members_node.2 (Or.inr (Or.inl e))
    · exact FTree.mem_members_node.2 (Or.inr (Or.inr (Or.inl (mem_splice e))))
    · exact FTree.mem_members_node.2 (Or.inr (Or.inr (Or.inr e)))
  have hnd' : (FTree.node l a (xs ++ ys) r).members.Nodup := by
    refine FTree.nodup_node_of ndl ndr ?_ (fun e => ndar (mem_splice e))
      (fun x hx => ⟨(nddl x hx).1, fun e => (nddl x hx).2.1 (mem_splice e), (nddl x hx).2.2⟩)
      (fun x hx => ⟨(nddr x hx).1, fun e => (nddr x hx).2 (mem_splice e)⟩)
    have := ndreps
    rw [List.nodup_append] at this ⊢
    obtain ⟨n1, n2, n3⟩ := this
    exact ⟨n1, (List.nodup_cons.1 n2).2, fun x hx hy => n3 hx (List.mem_cons_of_mem _ hy)⟩
  have hheadm : ys.headD 0 = 0 ∨ (ys.headD 0 ∈ ys ∧ ys.headD 0 ∈ t.members) := by
    cases ys with
    | nil => exact Or.inl rfl
    | cons y ys' =>
      exact Or.inr ⟨List.mem_cons_self _ _,
        hrepm y (List.mem_append_right _ (List.mem_cons_of_mem _ (List.mem_cons_self _ _)))⟩
  generalize hnx : ys.headD 0 = next at hheadm t3
  have hnextW : next = 0 ∨ next ∈ (t.subtreeAt a).members := by
    rcases hheadm with e | ⟨e, -⟩
    · exact Or.inl e
    · right
      rw [hsub]
      exact FTree.mem_members_node.2 (Or.inr (Or.inr (Or.inl
        (List.mem_append_right _ (List.mem_cons_of_mem _ e)))))
  have hprevW : prev ∈ (t.subtreeAt a).members := by
    rw [hsub]
    rcases hprevs with e | e
    · exact FTree.mem_members_node.2 (Or.inr (Or.inl e))
    · exact FTree.mem_members_node.2 (Or.inr (Or.inr (Or.inl e)))
  -- everything the generic replacement needs, from an abstract description of the writes
  have key : ∀ (h' : Heap), SameArena h h' → h'.seat = h.seat →
      Untouched h.words h'.words [prev, next] →
      h'.words (prev + 12) = next → (next ≠ 0 → h'.words next = prev) →
      (∀ q, q ≠ prev + 12 → q ≠ next → h'.words q = h.words q) →
      TreeOK h' (t.subst a (.node l a (xs ++ ys) r)) ∧
      (∀ x ∈ (t.subst a (.node l a (xs ++ ys) r)).members, x ∈ t.members) ∧
      b ∉ (t.subst a (.node l a (xs ++ ys) r)).members := by
    intro h' har hseat hu hw1 hw2 hfr
    have same : ∀ x ∈ t.members, ∀ k, k < 16 → (k = 12 → x ≠ prev) → (k = 0 → x ≠ next) →
        h'.words (x + k) = h.words (x + k) := by
      intro x hx k hk h12 h0
      have s1 := ok.sep' hx hprevm
      have := ok.lt hx
      refine hfr _ (by omega) ?_
      rcases hheadm with e | ⟨-, e⟩
      · omega
      · have s2 := ok.sep' hx e
        omega
    have hdr : ∀ x ∈ t.members, h'.words (x - 4) = h.words (x - 4) := by
      intro x hx
      have s1 := ok.sep' hx hprevm
      have := ok.lt hx
      refine hfr _ (by omega) ?_
      rcases hheadm with e | ⟨-, e⟩
      · omega
      · have s2 := ok.sep' hx e
        omega
    have hnl : ∀ x ∈ l.members, x ≠ prev ∧ x ≠ next := by
      intro x hx
      refine ⟨?_, ?_⟩
      · rintro rfl
        rcases hprevs with e | e
        · exact (nddl _ hx).1 e
        · exact (nddl _ hx).2.1 e
      · rintro rfl
        rcases hheadm with e | ⟨e, -⟩
        · exact ok.ne_zero (hlm _ hx) e
        · exact (nddl _ hx).2.1 (List.mem_append_right _ (List.mem_cons_of_mem _ e))
    have hnr : ∀ x ∈ r.members, x ≠ prev ∧ x ≠ next := by
      intro x hx
      refine ⟨?_, ?_⟩
      · rintro rfl
        rcases hprevs with e | e
        · exact (nddr _ hx).1 e
        · exact (nddr _ hx).2 e
      · rintro rfl
        rcases hheadm with e | ⟨e, -⟩
        · exact ok.ne_zero (hrm _ hx) e
        · exact (nddr _ hx).2 (List.mem_append_right _ (List.mem_cons_of_mem _ e))
    have hanext : a ≠ next := by
      rintro rfl
      rcases hheadm with e | ⟨e, -⟩
      · exact ok.ne_zero ham e
      · exact ndar (List.mem_append_right _ (List.mem_cons_of_mem _ e))
    have same0 : ∀ x ∈ t.members, x ≠ next → h'.words x = h.words x := by
      intro x hx hne
      simpa using same x hx 0 (by omega) (by omega) (fun _ => hne)
    obtain ⟨ch, hd⟩ := @chain_splice _ h'.words _ _ _ _ _ _ c4 hnda hnz hprev hnx hw1 hw2
      (fun x hx => ⟨same0 x (hrepm x (mem_splice hx)),
        same x (hrepm x (mem_splice hx)) 4 (by omega) (by omega) (by omega),
        fun hne => same x (hrepm x (mem_splice hx)) 12 (by omega) (fun _ => hne) (by omega)⟩)
      (fun hne => same a ham 12 (by omega) (fun _ => hne) (by omega)) c3
    have hsubres := @TreeOK.subst _ _ _ (.node l a (xs ++ ys) r) _ _ [] ok ha har hu
      (by
        intro m hm
        simp only [List.mem_cons, List.mem_singleton, List.not_mem_nil, or_false] at hm
        rcases hm with rfl | rfl
        · exact Or.inr (Or.inl hprevW)
        · rcases hnextW with e | e
          · exact Or.inl e
          · exact Or.inr (Or.inl e))
      (by simp) hmem' hnd' ?_ ?_ ?_ ?_ ?_
    · obtain ⟨tok, tmem⟩ := hsubres
      refine ⟨tok, ?_, ?_⟩
      · intro x hx
        rcases (tmem x).1 hx with ⟨e, -⟩ | e
        · exact e
        · rcases hmem' x e with e | e
          · exact t.subtreeAt_members_sub a x e
          · simp at e
      · intro hx
        rcases (tmem b).1 hx with ⟨-, e⟩ | e
        · apply e
          rw [hsub]
          exact FTree.mem_members_node.2 (Or.inr (Or.inr (Or.inl hbr)))
        · exact hbnot e
    · -- shape of the new subtree
      refine ⟨?_, ?_, hd, ch, ?_, ?_, ?_, ?_⟩
      · rw [same0 a ham hanext]; exact c1
      · rw [same a ham 4 (by omega) (by omega) (by omega)]; exact c2
      · intro hne
        have hm := FTree.root_mem_members hne
        rw [same _ (hlm _ hm) 8 (by omega) (by omega) (by omega)]; exact c5 hne
      · intro hne
        have hm := FTree.root_mem_members hne
        rw [same _ (hrm _ hm) 8 (by omega) (by omega) (by omega)]; exact c6 hne
      · refine Shape_congr ndl (fun x hx => ⟨?_, ?_, ?_⟩) (fun x hx _ => ?_) c7
        · exact same0 x (hlm x hx) (hnl x hx).2
        · exact same x (hlm x hx) 4 (by omega) (by omega) (by omega)
        · exact same x (hlm x hx) 12 (by omega) (fun _ => (hnl x hx).1) (by omega)
        · exact same x (hlm x (l.nodes_sub_members x hx)) 8 (by omega) (by omega) (by omega)
      · refine Shape_congr ndr (fun x hx => ⟨?_, ?_, ?_⟩) (fun x hx _ => ?_) c8
        · exact same0 x (hrm x hx) (hnr x hx).2
        · exact same x (hrm x hx) 4 (by omega) (by omega) (by omega)
        · exact same x (hrm x hx) 12 (by omega) (fun _ => (hnr x hx).1) (by omega)
        · exact same x (hrm x (r.nodes_sub_members x hx)) 8 (by omega) (by omega) (by omega)
    · -- order
      intro lo hi ho
      rw [hsub] at ho
      obtain ⟨o1, o2, o3, o4, o5⟩ := ho
      have ea : szOf h'.words a = szOf h.words a := by unfold szOf; rw [hdr a ham]
      refine ⟨ea ▸ o1, ea ▸ o2, ?_, ?_, ?_⟩
      · intro x hx
        rw [ea, ← o3 x (mem_splice hx)]
        unfold szOf; rw [hdr x (hrepm x (mem_splice hx))]
      · rw [ea]
        exact Ordered_congr (fun x hx => by unfold szOf; rw [hdr x (hlm x hx)]) o4
      · rw [ea]
        exact Ordered_congr (fun x hx => by unfold szOf; rw [hdr x (hrm x hx)]) o5
    · -- the slot of the parent
      intro hroot
      obtain ⟨p1, p2, p3, p4, p5⟩ := ok.slot ha hroot
      have hpp : t.parentOf a ≠ prev := fun e => p2 (e ▸ hprevW)
      have s1 := ok.sep' p1 hprevm
      have hq : ∀ q, t.parentOf a ≤ q → q < t.parentOf a + 16 → h'.words q = h.words q := by
        intro q q1 q2
        refine hfr q (by omega) ?_
        rcases hheadm with e | ⟨e1, e2⟩
        · have := ok.lt p1; omega
        · have s2 := ok.sep' p1 e2
          have : t.parentOf a ≠ next := by
            intro e
            apply p2
            rw [hsub, e]
            exact FTree.mem_members_node.2 (Or.inr (Or.inr (Or.inl
              (List.mem_append_right _ (List.mem_cons_of_mem _ e1)))))
          omega
      refine ⟨?_, fun q q1 q2 _ => hq q q1 q2⟩
      rw [hq _ (by omega) (by omega)]
      exact p4
    · intro _ hroot
      obtain ⟨p1, p2, p3, p4, p5⟩ := ok.slot ha hroot
      simp only [FTree.root]
      rw [same a ham 8 (by omega) (by omega) (by omega)]; exact p3
    · rw [hseat]
      split
      · rename_i e; rw [← ok.root, e]; rfl
      · rfl
  have hxb : b ∉ xs := fun e => hbx (List.mem_append_left _ e)
  have hab : a ≠ b := fun e => ndar (e ▸ hbr)
  have hbsub : b ∈ (t.subtreeAt a).members := by
    rw [hsub]; exact FTree.mem_members_node.2 (Or.inr (Or.inr (Or.inl hbr)))
  have hlist : (t.subst a (.node l a (xs ++ ys) r)).listing =
      delListing b (decide (b = t.root)) t.listing := by
    refine delListing_subst ok.nodup ha hbsub ?_
    rw [hsub, delListing_node _ hsnd (Or.inr hbr), if_neg hab, erase_middle hxb]
    rfl
  have hheight : (t.subst a (.node l a (xs ++ ys) r)).height ≤ t.height :=
    FTree.height_subst_le ok.nodup ha (by rw [hsub]; exact le_refl _)
  have hprevm' : prev ∈ (t.subst a (.node l a (xs ++ ys) r)).members := by
    refine (FTree.mem_subst ok.nodup ha).2 (Or.inr ?_)
    rcases List.mem_cons.1 hprev_mem with e | e
    · exact FTree.mem_members_node.2 (Or.inr (Or.inl e))
    · exact FTree.mem_members_node.2 (Or.inr (Or.inr (Or.inl (List.mem_append_left _ e))))
  by_cases hn0 : next = 0
  · subst hn0
    have hu : Untouched h.words (h.store (prev + 12) 0).words [prev, 0] :=
      (Untouched.refl _ _).store _ _ (List.mem_cons_self _ _) (by omega)
    obtain ⟨k1, k2, k3⟩ := key (h.store (prev + 12) 0) ⟨rfl, rfl, rfl, rfl⟩ rfl hu
      (store_words_eq _ _ _ (by omega)) (fun e => absurd rfl e)
      (fun q hq _ => store_words_ne _ _ hq)
    refine ⟨h.store (prev + 12) 0, t.subst a (.node l a (xs ++ ys) r), ⟨rfl, rfl, rfl, rfl⟩,
      (Untouched.refl _ _).store _ _ hprevm (by omega), k1, k2, k3,
      ⟨(Untouched.refl _ _).store _ _ hprevm' (by omega), hlist, hheight⟩, ?_⟩
    intro fuel
    simp [deleteNode, deleteNodeReplica, hbseat, GET_RIGHT, GET_LEFT, LEFT_eq, ab1, ab3, ap3,
      GET_ok vb1, GET_ok vb2, GET_ok vb4, t1, t2, t3, PUT_ok _ vp4]
  · have hnm : next ∈ ys ∧ next ∈ t.members := by
      rcases hheadm with e | e
      · exact absurd e hn0
      · exact e
    obtain ⟨vn0, vn1, vn2, vn3, vn4⟩ := ok.valid hnm.2
    have hln := ok.lt hnm.2
    have hbn : b ≠ next := fun e => hbx (List.mem_append_right _ (e ▸ hnm.1))
    have s1 := ok.sep' hbm hnm.2
    have s2 := ok.sep' hprevm hnm.2
    have hu : Untouched h.words ((h.store next prev).store (prev + 12) next).words
        [prev, next] :=
      ((Untouched.refl _ _).store _ _ (List.mem_cons_of_mem _ (List.mem_cons_self _ _))
        (by omega)).store _ _ (List.mem_cons_self _ _) (by omega)
    obtain ⟨k1, k2, k3⟩ := key ((h.store next prev).store (prev + 12) next)
      ⟨rfl, rfl, rfl, rfl⟩ rfl hu (store_words_eq _ _ _ (by omega))
      (fun _ => by
        rw [store_words_ne _ _ (by omega)]
        exact store_words_eq _ _ _ (by omega))
      (fun q hq hq' => by rw [store_words_ne _ _ hq, store_words_ne _ _ hq'])
    refine ⟨(h.store next prev).store (prev + 12) next,
      t.subst a (.node l a (xs ++ ys) r), ⟨rfl, rfl, rfl, rfl⟩,
      ((Untouched.refl _ _).store _ _ hnm.2 (by omega)).store _ _ hprevm (by omega),
      k1, k2, k3,
      ⟨((Untouched.refl _ _).store _ _ ((FTree.mem_subst ok.nodup ha).2 (Or.inr
        (FTree.mem_members_node.2 (Or.inr (Or.inr (Or.inl (List.mem_append_right _ hnm.1)))))))
        (by omega)).store _ _ hprevm' (by omega), hlist, hheight⟩, ?_⟩
    intro fuel
    have e1 : (h.store next prev).words b = prev := by
      rw [store_words_ne _ _ hbn]; exact t1
    have e2 : (h.store next prev).words (b + 12) = next := by
      rw [store_words_ne _ _ (by omega)]; exact t3
    simp [deleteNode, deleteNodeReplica, hbseat, GET_RIGHT, GET_LEFT, PUT_LEFT, LEFT_eq, ab1,
      ab3, ap3, t1, t2, t3, hn0, GET, PUT, vb1, vb2, vb4, vp4, vn1, e1, e2]

/-! ### `deleteNode` on a tree node that has a replica -/

theorem ite_PUT (c : Prop) [Decidable c] (h : Heap) (a b v : Nat) :
    (if c then PUT h a v else PUT h b v) = PUT h (if c then a else b) v := by
  split <;> rfl

theorem valid_ite {h : Heap} {c : Prop} [Decidable c] {a b : Nat} (ha : h.valid a)
    (hb : h.valid b) : h.valid (if c then a else b) := by
  split <;> assumption

theorem promote_tree {h h' : Heap} {t : FTree} (ok : TreeOK h t) {b x p slot : Nat}
    {l r : FTree} {xs : List Nat} (hb : b ∈ t.nodes) (hroot : b ≠ t.root)
    (hsub : t.subtreeAt b = .node l b (x :: xs) r) (hp : t.parentOf b = p)
    (hslot : (if szOf h.words b > szOf h.words p then p + 4 else p) = slot)
    (har : SameArena h h') (hseat : h'.seat = h.seat)
    (w1 : h'.words slot = x) (w2 : h'.words x = l.root) (w3 : h'.words (x + 4) = r.root)
    (w4 : h'.words (x + 8) = p) (w5 : l.root ≠ 0 → h'.words (l.root + 8) = x)
    (w6 : r.root ≠ 0 → h'.words (r.root + 8) = x)
    (hfr : ∀ q, q ≠ slot → q ≠ x → q ≠ x + 4 → q ≠ x + 8 → (l.root ≠ 0 → q ≠ l.root + 8) →
      (r.root ≠ 0 → q ≠ r.root + 8) → h'.words q = h.words q) :
    Untouched h.words h'.words t.members ∧
    TreeOK h' (t.subst b (.node l x xs r)) ∧
    (∀ y ∈ (t.subst b (.node l x xs r)).members, y ∈ t.members) ∧
    b ∉ (t.subst b (.node l x xs r)).members ∧
    DeletedExact h t b h' (t.subst b (.node l x xs r)) := by
  obtain ⟨hsh, hsm, hsnd⟩ := ok.sub hsub
  obtain ⟨-, -, -, ⟨-, -, d3, d4⟩, -, -, c7, c8⟩ := hsh
  obtain ⟨ndl, ndr, ndreps, ndar, nddl, nddr⟩ := FTree.nodup_node hsnd
  obtain ⟨p1, p2, -, -, p5⟩ := ok.slot hb hroot
  rw [hp] at p1 p2 p5
  rw [hslot] at p5
  have hxm : x ∈ t.members :=
    hsm x (FTree.mem_members_node.2 (Or.inr (Or.inr (Or.inl (List.mem_cons_self _ _)))))
  have hxsm : ∀ y ∈ xs, y ∈ t.members := fun y hy =>
    hsm y (FTree.mem_members_node.2 (Or.inr (Or.inr (Or.inl (List.mem_cons_of_mem _ hy)))))
  have hlm : ∀ y ∈ l.members, y ∈ t.members :=
    fun y hy => hsm y (FTree.mem_members_node.2 (Or.inl hy))
  have hrm : ∀ y ∈ r.members, y ∈ t.members :=
    fun y hy => hsm y (FTree.mem_members_node.2 (Or.inr (Or.inr (Or.inr hy))))
  have hbx : b ≠ x := fun e => ndar (e ▸ List.mem_cons_self _ _)
  have hlroot : l.root = 0 ∨ l.root ∈ t.members := by
    rcases l.root_zero_or_mem with e | e
    · exact Or.inl e
    · exact Or.inr (hlm _ e)
  have hrroot : r.root = 0 ∨ r.root ∈ t.members := by
    rcases r.root_zero_or_mem with e | e
    · exact Or.inl e
    · exact Or.inr (hrm _ e)
  have same : ∀ y ∈ t.members, ∀ k, k < 16 → (y = x → k = 12) → (y = p → 8 ≤ k) →
      (y = l.root → k ≠ 8) → (y = r.root → k ≠ 8) →
      h'.words (y + k) = h.words (y + k) := by
    intro y hy k hk hyx hyp hyl hyr
    have hy24 := (ok.lt hy).1
    exact hfr _ (off_ne_slot (ok.sep' hy p1) p5 hk hyp)
      (off_ne (j := 0) (Or.inr (ok.sep' hy hxm)) hy24 hk (by decide)
        (fun e e' => absurd ((hyx e).symm.trans e') (by decide)))
      (off_ne (Or.inr (ok.sep' hy hxm)) hy24 hk (by decide)
        (fun e e' => absurd ((hyx e).symm.trans e') (by decide)))
      (off_ne (Or.inr (ok.sep' hy hxm)) hy24 hk (by decide)
        (fun e e' => absurd ((hyx e).symm.trans e') (by decide)))
      (fun _ => off_ne (ok.sep0 hy hlroot) hy24 hk (by decide) hyl)
      (fun _ => off_ne (ok.sep0 hy hrroot) hy24 hk (by decide) hyr)
  have hdr : ∀ y ∈ t.members, h'.words (y - 4) = h.words (y - 4) := by
    intro y hy
    have hy24 := (ok.lt hy).1
    exact hfr _ (hdr_ne_slot (ok.sep' hy p1) p5 hy24)
      (hdr_ne (j := 0) (Or.inr (ok.sep' hy hxm)) hy24 (by decide))
      (hdr_ne (Or.inr (ok.sep' hy hxm)) hy24 (by decide))
      (hdr_ne (Or.inr (ok.sep' hy hxm)) hy24 (by decide))
      (fun _ => hdr_ne (ok.sep0 hy hlroot) hy24 (by decide))
      (fun _ => hdr_ne (ok.sep0 hy hrroot) hy24 (by decide))
  have hu : Untouched h.words h'.words [p, x, l.root, r.root] := by
    intro q hq
    have q1 := hq p (by simp)
    have q2 := hq x (by simp)
    have q3 := hq l.root (by simp)
    have q4 := hq r.root (by simp)
    have p5q := p5
    clear same hdr hsm hxsm hlm hrm ndl ndr ndreps ndar nddl nddr c7 c8 d3 d4 w1 w2 w3 w4 w5 w6
    exact hfr q (by omega) (by omega) (by omega) (by omega) (fun _ => by omega)
      (fun _ => by omega)
  have hroot' : b ≠ t.root := hroot
  have hpx : p ≠ x := fun e => p2 (by
    rw [hsub, e]
    exact FTree.mem_members_node.2 (Or.inr (Or.inr (Or.inl (List.mem_cons_self _ _)))))
  have hpl : ∀ y ∈ l.members, y ≠ p := fun y hy e => p2 (by
    rw [hsub, ← e]; exact FTree.mem_members_node.2 (Or.inl hy))
  have hpr : ∀ y ∈ r.members, y ≠ p := fun y hy e => p2 (by
    rw [hsub, ← e]; exact FTree.mem_members_node.2 (Or.inr (Or.inr (Or.inr hy))))
  have hpxs : ∀ y ∈ xs, y ≠ p := fun y hy e => p2 (by
    rw [hsub, ← e]
    exact FTree.mem_members_node.2 (Or.inr (Or.inr (Or.inl (List.mem_cons_of_mem _ hy)))))
  have hxl : ∀ y ∈ l.members, y ≠ x := fun y hy e =>
    (nddl y hy).2.1 (e ▸ List.mem_cons_self _ _)
  have hxr : ∀ y ∈ r.members, y ≠ x := fun y hy e =>
    (nddr y hy).2 (e ▸ List.mem_cons_self _ _)
  have hxxs : ∀ y ∈ xs, y ≠ x := fun y hy e =>
    (List.nodup_cons.1 ndreps).1 (e ▸ hy)
  have hlr : ∀ y ∈ l.members, y ≠ r.root := fun y hy e =>
    (nddl y hy).2.2 (e ▸ FTree.root_mem_members (e ▸ ok.ne_zero (hlm y hy)))
  have hrl : ∀ y ∈ r.members, y ≠ l.root := fun y hy e =>
    (nddl _ (FTree.root_mem_members (e ▸ ok.ne_zero (hrm y hy)))).2.2 (e ▸ hy)
  have hxsl : ∀ y ∈ xs, y ≠ l.root := fun y hy e =>
    (nddl _ (FTree.root_mem_members (e ▸ ok.ne_zero (hxsm y hy)))).2.1
      (e ▸ List.mem_cons_of_mem _ hy)
  have hxsr : ∀ y ∈ xs, y ≠ r.root := fun y hy e =>
    (nddr _ (FTree.root_mem_members (e ▸ ok.ne_zero (hxsm y hy)))).2
      (e ▸ List.mem_cons_of_mem _ hy)
  have hmem' : ∀ y ∈ (FTree.node l x xs r).members,
      y ∈ (t.subtreeAt b).members ∨ y ∈ ([] : List Nat) := by
    intro y hy
    left
    rw [hsub]
    rcases FTree.mem_members_node.1 hy with e | e | e | e
    · exact FTree.mem_members_node.2 (Or.inl e)
    · exact FTree.mem_members_node.2 (Or.inr (Or.inr (Or.inl (e ▸ List.mem_cons_self _ _))))
    · exact FTree.mem_members_node.2 (Or.inr (Or.inr (Or.inl (List.mem_cons_of_mem _ e))))
    · exact FTree.mem_members_node.2 (Or.inr (Or.inr (Or.inr e)))
  have hnd' : (FTree.node l x xs r).members.Nodup :=
    FTree.nodup_node_of ndl ndr (List.nodup_cons.1 ndreps).2 (List.nodup_cons.1 ndreps).1
      (fun y hy => ⟨hxl y hy, fun e => (nddl y hy).2.1 (List.mem_cons_of_mem _ e),
        (nddl y hy).2.2⟩)
      (fun y hy => ⟨hxr y hy, fun e => (nddr y hy).2 (List.mem_cons_of_mem _ e)⟩)
  have hbnot : b ∉ (FTree.node l x xs r).members := by
    intro hm
    rcases FTree.mem_members_node.1 hm with e | e | e | e
    · exact (nddl b e).1 rfl
    · exact hbx e
    · exact ndar (List.mem_cons_of_mem _ e)
    · exact (nddr b e).1 rfl
  have hsubres := @TreeOK.subst _ _ _ (.node l x xs r) _ _ [] ok hb har hu
    (by
      intro m hm
      simp only [List.mem_cons, List.mem_singleton, List.not_mem_nil, or_false] at hm
      rcases hm with rfl | rfl | rfl | rfl
      · exact Or.inr (Or.inr (Or.inr ⟨hroot, hp.symm⟩))
      · exact Or.inr (Or.inl (by
          rw [hsub]
          exact FTree.mem_members_node.2 (Or.inr (Or.inr (Or.inl (List.mem_cons_self _ _))))))
      · rcases l.root_zero_or_mem with e | e
        · exact Or.inl e
        · exact Or.inr (Or.inl (by rw [hsub]; exact FTree.mem_members_node.2 (Or.inl e)))
      · rcases r.root_zero_or_mem with e | e
        · exact Or.inl e
        · exact Or.inr (Or.inl (by
            rw [hsub]; exact FTree.mem_members_node.2 (Or.inr (Or.inr (Or.inr e))))))
    (by simp) hmem' hnd' ?_ ?_ ?_ ?_ ?_
  · obtain ⟨tok, tmem⟩ := hsubres
    have hfrM : ∀ M : List Nat, p ∈ M → x ∈ M → (l.root ≠ 0 → l.root ∈ M) →
        (r.root ≠ 0 → r.root ∈ M) → Untouched h.words h'.words M := by
      intro M m1 m2 m3 m4 q hq
      have q1 := hq p m1
      have q2 := hq x m2
      have q3 : l.root ≠ 0 → q < l.root ∨ l.root + 16 ≤ q := fun e => hq _ (m3 e)
      have q4 : r.root ≠ 0 → q < r.root ∨ r.root + 16 ≤ q := fun e => hq _ (m4 e)
      clear same hdr hsm hxsm hlm hrm ndl ndr ndreps ndar nddl nddr c7 c8 d3 d4 w1 w2 w3 w4 w5
        w6 hmem' hnd' hbnot hpl hpr hpxs hxl hxr hxxs hlr hrl hxsl hxsr hu tok tmem hq m1 m2 m3 m4
      exact hfr q (by omega) (by omega) (by omega) (by omega)
        (fun e => by have := q3 e; omega) (fun e => by have := q4 e; omega)
    have hin : ∀ y ∈ (FTree.node l x xs r).members, y ∈ (t.subst b (.node l x xs r)).members :=
      fun y hy => (tmem y).2 (Or.inr hy)
    refine ⟨?_, tok, ?_, ?_, ⟨?_, ?_, ?_⟩⟩
    · exact hfrM _ p1 hxm (fun e => hlm _ (FTree.root_mem_members e))
        (fun e => hrm _ (FTree.root_mem_members e))
    · intro y hy
      rcases (tmem y).1 hy with ⟨e, -⟩ | e
      · exact e
      · rcases hmem' y e with e | e
        · exact t.subtreeAt_members_sub b y e
        · simp at e
    · intro hy
      rcases (tmem b).1 hy with ⟨-, e⟩ | e
      · apply e
        rw [hsub]
        exact FTree.mem_members_node.2 (Or.inr (Or.inl rfl))
      · exact hbnot e
    · exact hfrM _ ((tmem p).2 (Or.inl ⟨p1, p2⟩))
        (hin x (FTree.mem_members_node.2 (Or.inr (Or.inl rfl))))
        (fun e => hin _ (FTree.mem_members_node.2 (Or.inl (FTree.root_mem_members e))))
        (fun e => hin _ (FTree.mem_members_node.2
          (Or.inr (Or.inr (Or.inr (FTree.root_mem_members e))))))
    · refine delListing_subst ok.nodup hb ?_ ?_
      · rw [hsub]
        exact FTree.mem_members_node.2 (Or.inr (Or.inl rfl))
      · rw [hsub, delListing_node _ hsnd (Or.inl rfl), if_pos rfl,
          if_neg (fun e => e.elim (fun e1 => hroot (of_decide_eq_true e1))
            (fun e2 => List.cons_ne_nil _ _ e2))]
        rfl
    · refine FTree.height_subst_le ok.nodup hb ?_
      rw [hsub]
      exact le_refl _
  · -- shape of the new subtree
    refine ⟨w2, w3, ?_, ?_, w5, w6, ?_, ?_⟩
    · rw [same x hxm 12 (by decide) (fun _ => rfl) (fun e => absurd e.symm hpx)
        (fun _ => by decide) (fun _ => by decide)]
      exact d3
    · refine ChainOK_congr x (fun y hy => ⟨?_, ?_, ?_⟩) d4
      · exact same y (hxsm y hy) 0 (by decide) (fun e => absurd e (hxxs y hy))
          (fun e => absurd e (hpxs y hy)) (fun _ => by decide) (fun _ => by decide)
      · exact same y (hxsm y hy) 4 (by decide) (fun e => absurd e (hxxs y hy))
          (fun e => absurd e (hpxs y hy)) (fun _ => by decide) (fun _ => by decide)
      · exact same y (hxsm y hy) 12 (by decide) (fun e => absurd e (hxxs y hy))
          (fun e => absurd e (hpxs y hy)) (fun _ => by decide) (fun _ => by decide)
    · refine Shape_congr ndl (fun y hy => ⟨?_, ?_, ?_⟩) (fun y hy hne => ?_) c7
      · exact same y (hlm y hy) 0 (by decide) (fun e => absurd e (hxl y hy))
          (fun e => absurd e (hpl y hy)) (fun _ => by decide) (fun _ => by decide)
      · exact same y (hlm y hy) 4 (by decide) (fun e => absurd e (hxl y hy))
          (fun e => absurd e (hpl y hy)) (fun _ => by decide) (fun _ => by decide)
      · exact same y (hlm y hy) 12 (by decide) (fun e => absurd e (hxl y hy))
          (fun e => absurd e (hpl y hy)) (fun _ => by decide) (fun _ => by decide)
      · have hym := l.nodes_sub_members y hy
        exact same y (hlm y hym) 8 (by decide) (fun e => absurd e (hxl y hym))
          (fun e => absurd e (hpl y hym)) (fun e => absurd e hne)
          (fun e => absurd e (hlr y hym))
    · refine Shape_congr ndr (fun y hy => ⟨?_, ?_, ?_⟩) (fun y hy hne => ?_) c8
      · exact same y (hrm y hy) 0 (by decide) (fun e => absurd e (hxr y hy))
          (fun e => absurd e (hpr y hy)) (fun _ => by decide) (fun _ => by decide)
      · exact same y (hrm y hy) 4 (by decide) (fun e => absurd e (hxr y hy))
          (fun e => absurd e (hpr y hy)) (fun _ => by decide) (fun _ => by decide)
      · exact same y (hrm y hy) 12 (by decide) (fun e => absurd e (hxr y hy))
          (fun e => absurd e (hpr y hy)) (fun _ => by decide) (fun _ => by decide)
      · have hym := r.nodes_sub_members y hy
        exact same y (hrm y hym) 8 (by decide) (fun e => absurd e (hxr y hym))
          (fun e => absurd e (hpr y hym)) (fun e => absurd e (hrl y hym))
          (fun e => absurd e hne)
  · -- order
    intro lo hi ho
    rw [hsub] at ho
    obtain ⟨o1, o2, o3, o4, o5⟩ := ho
    have hsz : ∀ y ∈ t.members, szOf h'.words y = szOf h.words y := fun y hy => by
      unfold szOf; rw [hdr y hy]
    have ex : szOf h'.words x = szOf h.words b := by
      rw [hsz x hxm]; exact o3 x (List.mem_cons_self _ _)
    refine ⟨ex ▸ o1, ex ▸ o2, ?_, ?_, ?_⟩
    · intro y hy
      rw [ex, hsz y (hxsm y hy)]
      exact o3 y (List.mem_cons_of_mem _ hy)
    · rw [ex]
      exact Ordered_congr (fun y hy => hsz y (hlm y hy)) o4
    · rw [ex]
      exact Ordered_congr (fun y hy => hsz y (hrm y hy)) o5
  · -- the slot of the parent
    intro _
    rw [hp, hslot]
    refine ⟨w1, ?_⟩
    intro q q1 q2 q3
    have hp24 := (ok.lt p1).1
    have sx := ok.sep' p1 hxm
    have sl := ok.sep0 p1 hlroot
    have sr := ok.sep0 p1 hrroot
    have hl0 : l.root ≠ p := fun e => by
      rcases l.root_zero_or_mem with e' | e'
      · omega
      · exact hpl _ e' e
    have hr0 : r.root ≠ p := fun e => by
      rcases r.root_zero_or_mem with e' | e'
      · omega
      · exact hpr _ e' e
    clear same hdr hsm hxsm hlm hrm ndl ndr ndreps ndar nddl nddr c7 c8 d3 d4 w1 w2 w3 w4 w5 w6
      hmem' hnd' hbnot hpl hpr hpxs hxl hxr hxxs hlr hrl hxsl hxsr hu
    exact hfr q q3 (by omega) (by omega) (by omega) (fun _ => by omega) (fun _ => by omega)
  · intro _ _
    rw [hp]
    exact w4
  · rw [hseat, if_neg (fun e => hroot e.symm)]

/-! ### Running `deleteNodePromote` -/

theorem GET_store_ne (h : Heap) {a q : Nat} (v : Nat) (hne : q ≠ a) :
    GET (h.store a v) q = GET h q := by
  simp [GET, store_words_ne _ _ hne]

theorem GET_val {h : Heap} {q v : Nat} (hv : h.valid q) (e : h.words q = v) :
    GET h q = .ok v := by
  simp [GET, hv, e]

theorem fields_ne {y m : Nat} (s : y + 24 ≤ m ∨ m + 24 ≤ y) :
    (y ≠ m ∧ y ≠ m + 4 ∧ y ≠ m + 8 ∧ y ≠ m + 12) ∧
    (y + 4 ≠ m ∧ y + 4 ≠ m + 4 ∧ y + 4 ≠ m + 8 ∧ y + 4 ≠ m + 12) ∧
    (y + 8 ≠ m ∧ y + 8 ≠ m + 4 ∧ y + 8 ≠ m + 8 ∧ y + 8 ≠ m + 12) ∧
    (y + 12 ≠ m ∧ y + 12 ≠ m + 4 ∧ y + 12 ≠ m + 8 ∧ y + 12 ≠ m + 12) := by
  omega

theorem store_valid_eq (h : Heap) (p v q : Nat) : (h.store p v).valid q = h.valid q := rfl

theorem addr_facts2 {x : Nat} (h : 24 ≤ x ∧ x + 16 < 4294967296) :
    HDRP x = x - 4 ∧ RIGHT x = x + 4 ∧ PARENT x = x + 8 ∧ REPLICA x = x + 12 :=
  addr_facts (by omega) h.2

theorem slot_ne {b p slot : Nat} (s : b + 24 ≤ p ∨ p + 24 ≤ b) (hs : slot = p ∨ slot = p + 4) :
    b ≠ slot ∧ b + 4 ≠ slot ∧ b + 8 ≠ slot ∧ b + 12 ≠ slot := by
  omega

theorem child_facts {b c : Nat} (hc : c = 0 ∨ (24 ≤ c ∧ c + 16 < 4294967296))
    (s : c = 0 ∨ b + 24 ≤ c ∨ c + 24 ≤ b) (e : c ≠ 0) :
    (b + 24 ≤ c ∨ c + 24 ≤ b) ∧ PARENT c = c + 8 :=
  ⟨by omega, PARENT_eq (by omega)⟩

theorem promote_exec {h : Heap} {b x p lr rr slot : Nat}
    (hb : 24 ≤ b ∧ b + 16 < 4294967296) (hx : 24 ≤ x ∧ x + 16 < 4294967296)
    (hp : 24 ≤ p ∧ p + 16 < 4294967296)
    (hl : lr = 0 ∨ (24 ≤ lr ∧ lr + 16 < 4294967296))
    (hr : rr = 0 ∨ (24 ≤ rr ∧ rr + 16 < 4294967296))
    (vb : h.valid (b - 4) ∧ h.valid b ∧ h.valid (b + 4) ∧ h.valid (b + 8) ∧ h.valid (b + 12))
    (vx : h.valid (x - 4) ∧ h.valid x ∧ h.valid (x + 4) ∧ h.valid (x + 8) ∧ h.valid (x + 12))
    (vp : h.valid (p - 4) ∧ h.valid p ∧ h.valid (p + 4) ∧ h.valid (p + 8) ∧ h.valid (p + 12))
    (vl : lr ≠ 0 → h.valid (lr + 8)) (vr : rr ≠ 0 → h.valid (rr + 8))
    (hs : slot = p ∨ slot = p + 4)
    (sbx : b + 24 ≤ x ∨ x + 24 ≤ b) (sbp : b + 24 ≤ p ∨ p + 24 ≤ b)
    (sbl : lr = 0 ∨ b + 24 ≤ lr ∨ lr + 24 ≤ b) (sbr : rr = 0 ∨ b + 24 ≤ rr ∨ rr + 24 ≤ b) :
    h.words b = lr → h.words (b + 4) = rr → h.words (b + 8) = p → h.words (b + 12) = x →
    (if szOf h.words b > szOf h.words p then p + 4 else p) = slot →
    deleteNodePromote h b = .ok (promoteHeap h slot x p lr rr) := by
  obtain ⟨vb0, vb1, vb2, vb3, vb4⟩ := vb
  obtain ⟨vx0, vx1, vx2, vx3, vx4⟩ := vx
  obtain ⟨vp0, vp1, vp2, vp3, vp4⟩ := vp
  obtain ⟨ab0, ab1, ab2, ab3⟩ := addr_facts2 hb
  obtain ⟨ax0, ax1, ax2, ax3⟩ := addr_facts2 hx
  obtain ⟨ap0, ap1, ap2, ap3⟩ := addr_facts2 hp
  have vs : h.valid slot := by
    rcases hs with e | e <;> rw [e] <;> assumption
  have hbs := slot_ne sbp hs
  have hl' := child_facts hl sbl
  have hr' := child_facts hr sbr
  clear hb hx hp hl hr sbl sbr hs
  intro e0 e1 e2 e3 hslot
  have g0 := GET_val vb1 e0
  have g1 := GET_val vb2 e1
  have g2 := GET_val vb3 e2
  have g3 := GET_val vb4 e3
  unfold szOf at hslot
  obtain ⟨bs0, bs4, bs8, bsc⟩ := hbs
  obtain ⟨⟨bx00, bx04, bx08, bx0c⟩, ⟨bx40, bx44, bx48, bx4c⟩, ⟨bx80, bx84, bx88, bx8c⟩,
    ⟨bxc0, bxc4, bxc8, bxcc⟩⟩ := fields_ne sbx
  unfold deleteNodePromote promoteHeap
  simp only [ab0, ab1, ab2, ab3, GET_LEFT, GET_RIGHT, PUT_LEFT, PUT_RIGHT, LEFT_eq, GET_SIZE,
    GET_val vb0 rfl, g0, g1, g2, g3, ok_bind, map_ok, ap0, ap1, GET_val vp0 rfl, ite_PUT, hslot,
    PUT_ok _ vs]
  by_cases hl0 : lr = 0 <;> by_cases hr0 : rr = 0
  · subst hl0 hr0
    simp (disch := first | assumption | (simp only [store_valid_eq]; assumption)) only
      [GET_store_ne, g0, g1, g2, g3, ok_bind, PUT_ok, ax1, ax2, ne_eq, not_true_eq_false,
        if_false, LEFT_eq]
  · subst hl0
    obtain ⟨s, ar2⟩ := hr' hr0
    have vr' := vr hr0
    obtain ⟨⟨br00, br04, br08, br0c⟩, ⟨br40, br44, br48, br4c⟩, ⟨br80, br84, br88, br8c⟩,
      ⟨brc0, brc4, brc8, brcc⟩⟩ := fields_ne s
    simp (disch := first | assumption | (simp only [store_valid_eq]; assumption)) only
      [GET_store_ne, g0, g1, g2, g3, ok_bind, PUT_ok, ax1, ax2, ar2, ne_eq, not_true_eq_false,
        if_false, hr0, not_false_eq_true, if_true, LEFT_eq]
  · subst hr0
    obtain ⟨s, al2⟩ := hl' hl0
    have vl' := vl hl0
    obtain ⟨⟨bl00, bl04, bl08, bl0c⟩, ⟨bl40, bl44, bl48, bl4c⟩, ⟨bl80, bl84, bl88, bl8c⟩,
      ⟨blc0, blc4, blc8, blcc⟩⟩ := fields_ne s
    simp (disch := first | assumption | (simp only [store_valid_eq]; assumption)) only
      [GET_store_ne, g0, g1, g2, g3, ok_bind, PUT_ok, ax1, ax2, al2, ne_eq, not_true_eq_false,
        if_false, hl0, not_false_eq_true, if_true, LEFT_eq]
  · obtain ⟨s, al2⟩ := hl' hl0
    obtain ⟨s', ar2⟩ := hr' hr0
    have vl' := vl hl0
    have vr' := vr hr0
    obtain ⟨⟨bl00, bl04, bl08, bl0c⟩, ⟨bl40, bl44, bl48, bl4c⟩, ⟨bl80, bl84, bl88, bl8c⟩,
      ⟨blc0, blc4, blc8, blcc⟩⟩ := fields_ne s
    obtain ⟨⟨br00, br04, br08, br0c⟩, ⟨br40, br44, br48, br4c⟩, ⟨br80, br84, br88, br8c⟩,
      ⟨brc0, brc4, brc8, brcc⟩⟩ := fields_ne s'
    simp (disch := first | assumption | (simp only [store_valid_eq]; assumption)) only
      [GET_store_ne, g0, g1, g2, g3, ok_bind, PUT_ok, ax1, ax2, al2, ar2, ne_eq,
        not_true_eq_false, if_false, hl0, hr0, not_false_eq_true, if_true, LEFT_eq]

theorem slot_ne2 {x p slot : Nat} (s : x + 24 ≤ p ∨ p + 24 ≤ x) (hs : slot = p ∨ slot = p + 4) :
    slot ≠ x ∧ slot ≠ x + 4 ∧ slot ≠ x + 8 ∧ slot ≠ x + 12 := by
  omega

theorem slot_ne3 {c p slot : Nat} (s : p + 24 ≤ c ∨ c + 24 ≤ p) (hs : slot = p ∨ slot = p + 4) :
    slot ≠ c + 8 := by
  omega

theorem promoteHeap_facts {h : Heap} {x p lr rr slot : Nat}
    (hx : x + 16 < 4294967296) (hp : p < 4294967296)
    (hl : lr < 4294967296) (hr : rr < 4294967296)
    (hs : slot = p ∨ slot = p + 4)
    (sxp : x + 24 ≤ p ∨ p + 24 ≤ x)
    (sxl : lr = 0 ∨ x + 24 ≤ lr ∨ lr + 24 ≤ x) (sxr : rr = 0 ∨ x + 24 ≤ rr ∨ rr + 24 ≤ x)
    (spl : lr = 0 ∨ p + 24 ≤ lr ∨ lr + 24 ≤ p) (spr : rr = 0 ∨ p + 24 ≤ rr ∨ rr + 24 ≤ p)
    (slr : lr = 0 ∨ rr = 0 ∨ lr + 24 ≤ rr ∨ rr + 24 ≤ lr) :
    (promoteHeap h slot x p lr rr).words slot = x ∧
    (promoteHeap h slot x p lr rr).words x = lr ∧
    (promoteHeap h slot x p lr rr).words (x + 4) = rr ∧
    (promoteHeap h slot x p lr rr).words (x + 8) = p ∧
    (lr ≠ 0 → (promoteHeap h slot x p lr rr).words (lr + 8) = x) ∧
    (rr ≠ 0 → (promoteHeap h slot x p lr rr).words (rr + 8) = x) ∧
    (∀ q, q ≠ slot → q ≠ x → q ≠ x + 4 → q ≠ x + 8 → (lr ≠ 0 → q ≠ lr + 8) →
      (rr ≠ 0 → q ≠ rr + 8) → (promoteHeap h slot x p lr rr).words q = h.words q) := by
  have hx' : x < 4294967296 := by omega
  have mx : x % W32 = x := Nat.mod_eq_of_lt hx'
  have mp : p % W32 = p := Nat.mod_eq_of_lt hp
  have ml : lr % W32 = lr := Nat.mod_eq_of_lt hl
  have mr : rr % W32 = rr := Nat.mod_eq_of_lt hr
  have m0 : 0 % W32 = 0 := rfl
  obtain ⟨d11, d12, d13, -⟩ := slot_ne2 sxp hs
  have e48 : x + 4 ≠ x + 8 := by clear * -; omega
  have e08 : x ≠ x + 8 := by clear * -; omega
  have e04 : x ≠ x + 4 := by clear * -; omega
  have dl : lr ≠ 0 → slot ≠ lr + 8 ∧ x ≠ lr + 8 ∧ x + 4 ≠ lr + 8 ∧ lr + 8 ≠ x + 8 := fun e =>
    have s1 := (sxl.resolve_left e)
    ⟨slot_ne3 (spl.resolve_left e) hs,
      (fields_ne s1).1.2.2.1, (fields_ne s1).2.1.2.2.1, (fields_ne s1.symm).2.2.1.2.2.1⟩
  have dr : rr ≠ 0 → slot ≠ rr + 8 ∧ x ≠ rr + 8 ∧ x + 4 ≠ rr + 8 ∧ rr + 8 ≠ x + 8 := fun e =>
    have s1 := (sxr.resolve_left e)
    ⟨slot_ne3 (spr.resolve_left e) hs,
      (fields_ne s1).1.2.2.1, (fields_ne s1).2.1.2.2.1, (fields_ne s1.symm).2.2.1.2.2.1⟩
  have dlr : lr ≠ 0 → rr ≠ 0 → lr + 8 ≠ rr + 8 := fun e1 e2 =>
    (fields_ne ((slr.resolve_left e1).resolve_left e2)).2.2.1.2.2.1
  clear hx hp hl hr hs sxp sxl sxr spl spr slr hx'
  by_cases hl0 : lr = 0 <;> by_cases hr0 : rr = 0
  · refine ⟨?_, ?_, ?_, ?_, fun e => absurd hl0 e, fun e => absurd hr0 e, ?_⟩
    all_goals try intro q q1 q2 q3 q4 _ _
    all_goals
      simp only [promoteHeap, store_words, hl0, hr0, mx, mp, ml, mr, m0, if_true, if_false, ne_eq,
        not_true_eq_false, not_false_eq_true, d11, d12, d13, e48, e08, e04, *]
  · obtain ⟨d31, d32, d33, d34⟩ := dr hr0
    refine ⟨?_, ?_, ?_, ?_, fun e => absurd hl0 e, fun _ => ?_, ?_⟩
    all_goals try intro q q1 q2 q3 q4 _ q6
    all_goals try have q6 := q6 hr0
    all_goals
      simp only [promoteHeap, store_words, hl0, hr0, mx, mp, ml, mr, m0, if_true, if_false, ne_eq,
        not_true_eq_false, not_false_eq_true, d11, d12, d13, e48, e08, e04, d31, d32, d33, d34, *]
  · obtain ⟨d21, d22, d23, d24⟩ := dl hl0
    refine ⟨?_, ?_, ?_, ?_, fun _ => ?_, fun e => absurd hr0 e, ?_⟩
    all_goals try intro q q1 q2 q3 q4 q5 _
    all_goals try have q5 := q5 hl0
    all_goals
      simp only [promoteHeap, store_words, hl0, hr0, mx, mp, ml, mr, m0, if_true, if_false, ne_eq,
        not_true_eq_false, not_false_eq_true, d11, d12, d13, e48, e08, e04, d21, d22, d23, d24, *]
  · obtain ⟨d21, d22, d23, d24⟩ := dl hl0
    obtain ⟨d31, d32, d33, d34⟩ := dr hr0
    have d41 := dlr hl0 hr0
    refine ⟨?_, ?_, ?_, ?_, fun _ => ?_, fun _ => ?_, ?_⟩
    all_goals try intro q q1 q2 q3 q4 q5 q6
    all_goals try have q5 := q5 hl0
    all_goals try have q6 := q6 hr0
    all_goals
      simp only [promoteHeap, store_words, hl0, hr0, mx, mp, ml, mr, m0, if_true, if_false, ne_eq,
        not_true_eq_false, not_false_eq_true, d11, d12, d13, e48, e08, e04, d21, d22, d23, d24,
        d31, d32, d33, d34, d41, *]

theorem promoteHeap_arena (h : Heap) (slot x p lr rr : Nat) :
    SameArena h (promoteHeap h slot x p lr rr) ∧ (promoteHeap h slot x p lr rr).seat = h.seat := by
  unfold promoteHeap SameArena
  by_cases hl0 : lr = 0 <;> by_cases hr0 : rr = 0 <;> simp [hl0, hr0]

/-! ### `deleteNode` on a tree node that has a replica: the result -/

theorem TreeOK.lt0 {h : Heap} {t : FTree} (ok : TreeOK h t) {m : Nat}
    (hm : m = 0 ∨ m ∈ t.members) : m = 0 ∨ (24 ≤ m ∧ m + 16 < 4294967296) :=
  hm.imp id (fun e => ok.lt e)

theorem TreeOK.lt1 {h : Heap} {t : FTree} (ok : TreeOK h t) {m : Nat}
    (hm : m = 0 ∨ m ∈ t.members) : m < 4294967296 := by
  rcases ok.lt0 hm with e | e <;> omega

theorem TreeOK.sepne {h : Heap} {t : FTree} (ok : TreeOK h t) {y m : Nat}
    (hy : y ∈ t.members) (hm : m = 0 ∨ m ∈ t.members) (hne : y ≠ m) :
    m = 0 ∨ y + 24 ≤ m ∨ m + 24 ≤ y :=
  hm.imp id (fun e => ok.sep y hy m e hne)

theorem TreeOK.sepne2 {h : Heap} {t : FTree} (ok : TreeOK h t) {y m : Nat}
    (hy : y = 0 ∨ y ∈ t.members) (hm : m = 0 ∨ m ∈ t.members) (hne : y ≠ 0 → m ≠ 0 → y ≠ m) :
    y = 0 ∨ m = 0 ∨ y + 24 ≤ m ∨ m + 24 ≤ y := by
  rcases hy with e | e
  · exact Or.inl e
  · rcases hm with e' | e'
    · exact Or.inr (Or.inl e')
    · exact Or.inr (Or.inr (ok.sep y e m e' (hne (ok.ne_zero e) (ok.ne_zero e'))))

theorem TreeOK.valid8 {h : Heap} {t : FTree} (ok : TreeOK h t) {m : Nat}
    (hm : m = 0 ∨ m ∈ t.members) (hne : m ≠ 0) : h.valid (m + 8) :=
  (ok.valid (hm.resolve_left hne)).2.2.2.1

theorem deleteNode_promote {h : Heap} {t : FTree} (ok : TreeOK h t) {b x : Nat}
    {l r : FTree} {xs : List Nat} (hb : b ∈ t.nodes) (hroot : b ≠ t.root)
    (hsub : t.subtreeAt b = .node l b (x :: xs) r) :
    ∃ h' t', Deleted h t b h' t' ∧ DeletedExact h t b h' t' ∧
      ∀ fuel, deleteNode fuel h b = .ok h' := by
  obtain ⟨hsh, hsm, hsnd⟩ := ok.sub hsub
  obtain ⟨c1, c2, c3, ⟨-, -, -, -⟩, -, -, -, -⟩ := hsh
  obtain ⟨-, -, ndreps, ndar, nddl, nddr⟩ := FTree.nodup_node hsnd
  obtain ⟨p1, p2, p3, -, p5⟩ := ok.slot hb hroot
  have hbm : b ∈ t.members := t.nodes_sub_members b hb
  have hxm : x ∈ t.members :=
    hsm x (FTree.mem_members_node.2 (Or.inr (Or.inr (Or.inl (List.mem_cons_self _ _)))))
  have hlm : ∀ y ∈ l.members, y ∈ t.members :=
    fun y hy => hsm y (FTree.mem_members_node.2 (Or.inl hy))
  have hrm : ∀ y ∈ r.members, y ∈ t.members :=
    fun y hy => hsm y (FTree.mem_members_node.2 (Or.inr (Or.inr (Or.inr hy))))
  have hlroot : l.root = 0 ∨ l.root ∈ t.members := l.root_zero_or_mem.imp id (hlm _)
  have hrroot : r.root = 0 ∨ r.root ∈ t.members := r.root_zero_or_mem.imp id (hrm _)
  have hbx : b ≠ x := fun e => ndar (e ▸ List.mem_cons_self _ _)
  have hbp : b ≠ t.parentOf b := fun e => p2 (by
    rw [← e, hsub]; exact FTree.mem_members_node.2 (Or.inr (Or.inl rfl)))
  have hxp : x ≠ t.parentOf b := fun e => p2 (by
    rw [← e, hsub]
    exact FTree.mem_members_node.2 (Or.inr (Or.inr (Or.inl (List.mem_cons_self _ _)))))
  have hlp : l.root ≠ 0 → t.parentOf b ≠ l.root := fun e0 e => p2 (by
    rw [e, hsub]; exact FTree.mem_members_node.2 (Or.inl (FTree.root_mem_members e0)))
  have hrp : r.root ≠ 0 → t.parentOf b ≠ r.root := fun e0 e => p2 (by
    rw [e, hsub]
    exact FTree.mem_members_node.2 (Or.inr (Or.inr (Or.inr (FTree.root_mem_members e0)))))
  have hbl : l.root ≠ 0 → b ≠ l.root := fun e0 e =>
    (nddl _ (FTree.root_mem_members e0)).1 e.symm
  have hbr : r.root ≠ 0 → b ≠ r.root := fun e0 e =>
    (nddr _ (FTree.root_mem_members e0)).1 e.symm
  have hxl : l.root ≠ 0 → x ≠ l.root := fun e0 e =>
    (nddl _ (FTree.root_mem_members e0)).2.1 (e ▸ List.mem_cons_self _ _)
  have hxr : r.root ≠ 0 → x ≠ r.root := fun e0 e =>
    (nddr _ (FTree.root_mem_members e0)).2 (e ▸ List.mem_cons_self _ _)
  have hlr : l.root ≠ 0 → r.root ≠ 0 → l.root ≠ r.root := fun e0 e1 e =>
    (nddl _ (FTree.root_mem_members e0)).2.2 (e ▸ FTree.root_mem_members e1)
  have sepz : ∀ {y m : Nat}, y ∈ t.members → (m = 0 ∨ m ∈ t.members) → (m ≠ 0 → y ≠ m) →
      m = 0 ∨ y + 24 ≤ m ∨ m + 24 ≤ y := by
    intro y m hy hm hne
    rcases hm with e | e
    · exact Or.inl e
    · exact Or.inr (ok.sep y hy m e (hne (ok.ne_zero e)))
  have hex := promote_exec (ok.lt hbm) (ok.lt hxm) (ok.lt p1) (ok.lt0 hlroot) (ok.lt0 hrroot)
    (ok.valid hbm) (ok.valid hxm) (ok.valid p1) (ok.valid8 hlroot) (ok.valid8 hrroot) p5
    (ok.sep b hbm x hxm hbx) (ok.sep b hbm _ p1 hbp) (sepz hbm hlroot hbl) (sepz hbm hrroot hbr)
    c1 c2 p3 c3 rfl
  obtain ⟨w1, w2, w3, w4, w5, w6, hfr⟩ := promoteHeap_facts (h := h) (ok.lt hxm).2
    (ok.lt1 (Or.inr p1)) (ok.lt1 hlroot) (ok.lt1 hrroot) p5 (ok.sep x hxm _ p1 hxp)
    (sepz hxm hlroot hxl) (sepz hxm hrroot hxr) (sepz p1 hlroot hlp) (sepz p1 hrroot hrp)
    (ok.sepne2 hlroot hrroot hlr)
  obtain ⟨har, hseat⟩ := promoteHeap_arena h
    (if szOf h.words b > szOf h.words (t.parentOf b) then t.parentOf b + 4 else t.parentOf b)
    x (t.parentOf b) l.root r.root
  obtain ⟨k1, k2, k3, k4, k5⟩ :=
    promote_tree ok hb hroot hsub rfl rfl har hseat w1 w2 w3 w4 w5 w6 hfr
  refine ⟨_, _, ⟨har, k1, k2, k3, k4⟩, k5, fun fuel => ?_⟩
  have hbseat : b ≠ h.seat := ok.root ▸ hroot
  have hrM : r.root ≠ M1 := ok.root_ne_M1 r hrm
  have hx0 : x ≠ 0 := ok.ne_zero hxm
  obtain ⟨-, vb1, vb2, -, vb4⟩ := ok.valid hbm
  obtain ⟨-, ab1, -, ab3⟩ := ok.addr hbm
  have g1 := GET_val vb2 c2
  have g3 : GET h (b + 12) = .ok x := GET_val vb4 c3
  simp only [deleteNode, hbseat, ne_eq, not_false_eq_true, if_true, GET_RIGHT, ab1, ab3, g1, g3,
    ok_bind, hrM, map_ok, hx0, decide_False, Bool.false_eq_true, if_false, hex]

/-! ### Deleting a tree node by lifting one of its children -/

theorem FTree.parentOf_root (t : FTree) : t.parentOf t.root = 0 := by
  cases t with
  | nil => rfl
  | node l a reps r => simp [FTree.parentOf, FTree.root]

/-- A subtree whose top pointer is NULL is empty. -/
theorem TreeOK.eq_nil {h : Heap} {t s : FTree} (ok : TreeOK h t)
    (hs : ∀ y ∈ s.members, y ∈ t.members) (h0 : s.root = 0) : s = .nil := by
  cases s with
  | nil => rfl
  | node l a reps r =>
    exact absurd h0 (ok.ne_zero (hs a (FTree.mem_members_node.2 (Or.inr (Or.inl rfl)))))

theorem lift_tree {h h' : Heap} {t : FTree} (ok : TreeOK h t) {b slot : Nat}
    {l r s : FTree} {reps : List Nat} (hb : b ∈ t.nodes)
    (hsub : t.subtreeAt b = .node l b reps r) (hs : s = l ∨ s = r)
    (hslot : (if szOf h.words b > szOf h.words (t.parentOf b) then t.parentOf b + 4
      else t.parentOf b) = slot)
    (har : SameArena h h') (hseat : h'.seat = if t.root = b then s.root else h.seat)
    (w1 : b ≠ t.root → h'.words slot = s.root)
    (w2 : b ≠ t.root → s.root ≠ 0 → h'.words (s.root + 8) = t.parentOf b)
    (hfr : ∀ q, (b ≠ t.root → q ≠ slot) → (b ≠ t.root → s.root ≠ 0 → q ≠ s.root + 8) →
      h'.words q = h.words q) :
    Untouched h.words h'.words t.members ∧ TreeOK h' (t.subst b s) ∧
    (∀ y ∈ (t.subst b s).members, y ∈ t.members) ∧ b ∉ (t.subst b s).members ∧
    ((b = t.root ∨ reps = []) → l.listing ++ r.listing = s.listing →
      DeletedExact h t b h' (t.subst b s)) := by
  obtain ⟨hsh, hsm, hsnd⟩ := ok.sub hsub
  obtain ⟨-, -, -, -, -, -, c7, c8⟩ := hsh
  obtain ⟨ndl, ndr, -, -, nddl, nddr⟩ := FTree.nodup_node hsnd
  have hlm : ∀ y ∈ l.members, y ∈ t.members :=
    fun y hy => hsm y (FTree.mem_members_node.2 (Or.inl hy))
  have hrm : ∀ y ∈ r.members, y ∈ t.members :=
    fun y hy => hsm y (FTree.mem_members_node.2 (Or.inr (Or.inr (Or.inr hy))))
  have hssub : ∀ y ∈ s.members, y ∈ (FTree.node l b reps r).members := by
    intro y hy
    rcases hs with e | e
    · exact FTree.mem_members_node.2 (Or.inl (e ▸ hy))
    · exact FTree.mem_members_node.2 (Or.inr (Or.inr (Or.inr (e ▸ hy))))
  have hsmem : ∀ y ∈ s.members, y ∈ t.members := fun y hy => hsm y (hssub y hy)
  have hsnd' : s.members.Nodup := by
    rcases hs with e | e
    · exact e ▸ ndl
    · exact e ▸ ndr
  have hsshape : Shape h.words s := by
    rcases hs with e | e
    · exact e ▸ c7
    · exact e ▸ c8
  have hbs : b ∉ s.members := by
    intro hm
    rcases hs with e | e
    · exact (nddl b (e ▸ hm)).1 rfl
    · exact (nddr b (e ▸ hm)).1 rfl
  have hsroot : s.root = 0 ∨ s.root ∈ t.members := s.root_zero_or_mem.imp id (hsmem _)
  -- facts about the slot, when `b` is not the top node
  have hpar : b ≠ t.root → t.parentOf b ∈ t.members ∧
      t.parentOf b ∉ (t.subtreeAt b).members ∧ (slot = t.parentOf b ∨ slot = t.parentOf b + 4) :=
    fun e => by
      obtain ⟨p1, p2, -, -, p5⟩ := ok.slot hb e
      rw [hslot] at p5
      exact ⟨p1, p2, p5⟩
  have hps : b ≠ t.root → ∀ y ∈ s.members, y ≠ t.parentOf b := fun e y hy e' =>
    (hpar e).2.1 (by rw [hsub, ← e']; exact hssub y hy)
  have same : ∀ y ∈ t.members, ∀ k, k < 16 → (b ≠ t.root → y = t.parentOf b → 8 ≤ k) →
      (y = s.root → k ≠ 8) → h'.words (y + k) = h.words (y + k) := by
    intro y hy k hk hyp hys
    have hy24 := (ok.lt hy).1
    exact hfr _ (fun e => off_ne_slot (ok.sep' hy (hpar e).1) (hpar e).2.2 hk (hyp e))
      (fun _ _ => off_ne (ok.sep0 hy hsroot) hy24 hk (by decide) hys)
  have hdr : ∀ y ∈ t.members, h'.words (y - 4) = h.words (y - 4) := by
    intro y hy
    have hy24 := (ok.lt hy).1
    exact hfr _ (fun e => hdr_ne_slot (ok.sep' hy (hpar e).1) (hpar e).2.2 hy24)
      (fun _ _ => hdr_ne (ok.sep0 hy hsroot) hy24 (by decide))
  have hfrU : Untouched h.words h'.words t.members := by
    intro q hq
    refine hfr q (fun e => ?_) (fun _ e0 => ?_)
    · have q1 := hq _ (hpar e).1
      have q2 := (hpar e).2.2
      clear hfr same hdr hq hpar hps w1 w2
      omega
    · have q1 := hq _ (hsroot.resolve_left e0)
      clear hfr same hdr hq hpar hps w1 w2
      omega
  have hu : Untouched h.words h'.words [t.parentOf b, s.root] := by
    intro q hq
    have q1 := hq (t.parentOf b) (by simp)
    have q2 := hq s.root (by simp)
    refine hfr q (fun e => ?_) (fun _ e0 => ?_)
    · have q3 := (hpar e).2.2
      clear hfr same hdr hq hpar hps w1 w2
      omega
    · clear hfr same hdr hq hpar hps w1 w2
      omega
  have hmem' : ∀ y ∈ s.members, y ∈ (t.subtreeAt b).members ∨ y ∈ ([] : List Nat) :=
    fun y hy => Or.inl (hsub ▸ hssub y hy)
  have hsubres := @TreeOK.subst _ _ _ s _ _ [] ok hb har hu
    (by
      intro m hm
      simp only [List.mem_cons, List.mem_singleton, List.not_mem_nil, or_false] at hm
      rcases hm with rfl | rfl
      · by_cases e : b = t.root
        · left; rw [e]; exact t.parentOf_root
        · exact Or.inr (Or.inr (Or.inr ⟨e, rfl⟩))
      · rcases s.root_zero_or_mem with e | e
        · exact Or.inl e
        · exact Or.inr (Or.inl (hsub ▸ hssub _ e)))
    (by simp) hmem' hsnd' ?_ ?_ ?_ ?_ ?_
  · obtain ⟨tok, tmem⟩ := hsubres
    refine ⟨hfrU, tok, ?_, ?_, ?_⟩
    · intro y hy
      rcases (tmem y).1 hy with ⟨e, -⟩ | e
      · exact e
      · exact hsmem y e
    · intro hy
      rcases (tmem b).1 hy with ⟨-, e⟩ | e
      · apply e
        rw [hsub]
        exact FTree.mem_members_node.2 (Or.inr (Or.inl rfl))
      · exact hbs e
    · intro hf hl
      refine ⟨?_, ?_, ?_⟩
      · intro q hq
        refine hfr q (fun e => ?_) (fun _ e0 => ?_)
        · exact unt_ne_slot (hpar e).2.2
            (hq _ ((tmem _).2 (Or.inl ⟨(hpar e).1, (hpar e).2.1⟩)))
        · exact unt_ne 8 (by decide) (hq _ ((tmem _).2 (Or.inr (FTree.root_mem_members e0))))
      · exact delListing_top ok.nodup hb hsub hf hl.symm
      · refine FTree.height_subst_le ok.nodup hb ?_
        rw [hsub]
        rcases hs with e | e
        · rw [e]
          show l.height ≤ max l.height r.height + 1
          exact le_trans (le_max_left _ _) (Nat.le_succ _)
        · rw [e]
          show r.height ≤ max l.height r.height + 1
          exact le_trans (le_max_right _ _) (Nat.le_succ _)
  · -- shape of the lifted subtree
    refine Shape_congr hsnd' (fun y hy => ⟨?_, ?_, ?_⟩) (fun y hy hne => ?_) hsshape
    · exact same y (hsmem y hy) 0 (by decide) (fun e e' => absurd e' (hps e y hy))
        (fun _ => by decide)
    · exact same y (hsmem y hy) 4 (by decide) (fun e e' => absurd e' (hps e y hy))
        (fun _ => by decide)
    · exact same y (hsmem y hy) 12 (by decide) (fun e e' => absurd e' (hps e y hy))
        (fun _ => by decide)
    · have hym := s.nodes_sub_members y hy
      exact same y (hsmem y hym) 8 (by decide) (fun e e' => absurd e' (hps e y hym))
        (fun e => absurd e hne)
  · -- order
    intro lo hi ho
    rw [hsub] at ho
    obtain ⟨o1, o2, o3, o4, o5⟩ := ho
    have hsz : ∀ y ∈ s.members, szOf h'.words y = szOf h.words y := fun y hy => by
      unfold szOf; rw [hdr y (hsmem y hy)]
    refine Ordered_congr hsz ?_
    rcases hs with e | e
    · rw [e]; exact Ordered_mono o4 (le_refl _) (le_of_lt o2)
    · rw [e]; exact Ordered_mono o5 (le_of_lt o1) (le_refl _)
  · -- the slot of the parent
    intro e
    rw [hslot]
    refine ⟨w1 e, ?_⟩
    intro q q1 q2 q3
    refine hfr q (fun _ => q3) (fun _ e0 => ?_)
    have hm := hsroot.resolve_left e0
    have hne : s.root ≠ t.parentOf b := hps e _ (FTree.root_mem_members e0)
    have sp := ok.sep _ hm _ (hpar e).1 hne
    clear hfr same hdr hpar hps w1 w2 hu hfrU
    omega
  · intro e0 e
    exact w2 e e0
  · exact hseat

/-! ### Running the branches of `deleteNode` that lift a child -/

theorem plainLeftHeap_arena (h : Heap) (slot p lr : Nat) :
    SameArena h (plainLeftHeap h slot p lr) ∧ (plainLeftHeap h slot p lr).seat = h.seat := by
  unfold plainLeftHeap SameArena
  by_cases hl0 : lr = 0 <;> simp [hl0]

theorem plainLeft_exec {h : Heap} {b p lr slot : Nat}
    (hb : 24 ≤ b ∧ b + 16 < 4294967296) (hp : 24 ≤ p ∧ p + 16 < 4294967296)
    (hl : lr = 0 ∨ (24 ≤ lr ∧ lr + 16 < 4294967296))
    (vb : h.valid (b - 4) ∧ h.valid b ∧ h.valid (b + 4) ∧ h.valid (b + 8) ∧ h.valid (b + 12))
    (vp : h.valid (p - 4) ∧ h.valid p ∧ h.valid (p + 4) ∧ h.valid (p + 8) ∧ h.valid (p + 12))
    (vl : lr ≠ 0 → h.valid (lr + 8))
    (hs : slot = p ∨ slot = p + 4)
    (sbp : b + 24 ≤ p ∨ p + 24 ≤ b)
    (sbl : lr = 0 ∨ b + 24 ≤ lr ∨ lr + 24 ≤ b) (fuel : Nat) :
    h.words b = lr → h.words (b + 4) = 0 → h.words (b + 8) = p →
    (if szOf h.words b > szOf h.words p then p + 4 else p) = slot →
    deleteNodePlain fuel h b = .ok (plainLeftHeap h slot p lr) := by
  obtain ⟨vb0, vb1, vb2, vb3, vb4⟩ := vb
  obtain ⟨vp0, vp1, vp2, vp3, vp4⟩ := vp
  obtain ⟨ab0, ab1, ab2, ab3⟩ := addr_facts2 hb
  obtain ⟨ap0, ap1, ap2, ap3⟩ := addr_facts2 hp
  have vs : h.valid slot := by
    rcases hs with e | e <;> rw [e] <;> assumption
  obtain ⟨bs0, bs4, bs8, bsc⟩ := slot_ne sbp hs
  have hl' := child_facts hl sbl
  have p0 : p ≠ 0 := by omega
  clear hb hp hl sbl hs sbp
  intro e0 e1 e2 hslot
  have g0 := GET_val vb1 e0
  have g1 := GET_val vb2 e1
  have g2 := GET_val vb3 e2
  unfold szOf at hslot
  unfold deleteNodePlain plainLeftHeap
  simp only [ab0, ab1, ab2, ab3, GET_LEFT, GET_RIGHT, PUT_LEFT, PUT_RIGHT, LEFT_eq, GET_SIZE,
    GET_val vb0 rfl, g0, g1, g2, ok_bind, map_ok, ap0, ap1, GET_val vp0 rfl, ite_PUT, hslot,
    PUT_ok _ vs, ne_eq, not_true_eq_false, if_false]
  by_cases hl0 : lr = 0
  · subst hl0
    simp (disch := first | assumption | (simp only [store_valid_eq]; assumption)) only
      [GET_store_ne, g0, g1, g2, ok_bind, PUT_ok, ne_eq, not_true_eq_false, if_false, LEFT_eq]
  · obtain ⟨s, al2⟩ := hl' hl0
    have vl' := vl hl0
    simp (disch := first | assumption | (simp only [store_valid_eq]; assumption)) only
      [GET_store_ne, g0, g1, g2, ok_bind, PUT_ok, al2, ne_eq, not_true_eq_false, if_false, hl0,
        p0, not_false_eq_true, if_true, LEFT_eq]

theorem plainLeft_facts {h : Heap} {p lr slot : Nat} (hp : p < 4294967296)
    (hl : lr < 4294967296) (hs : slot = p ∨ slot = p + 4)
    (spl : lr = 0 ∨ p + 24 ≤ lr ∨ lr + 24 ≤ p) :
    (plainLeftHeap h slot p lr).words slot = lr ∧
    (lr ≠ 0 → (plainLeftHeap h slot p lr).words (lr + 8) = p) ∧
    (∀ q, q ≠ slot → (lr ≠ 0 → q ≠ lr + 8) →
      (plainLeftHeap h slot p lr).words q = h.words q) := by
  have mp : p % W32 = p := Nat.mod_eq_of_lt hp
  have ml : lr % W32 = lr := Nat.mod_eq_of_lt hl
  have dl : lr ≠ 0 → slot ≠ lr + 8 := fun e => slot_ne3 (spl.resolve_left e) hs
  clear hp hl hs spl
  by_cases hl0 : lr = 0
  · refine ⟨?_, fun e => absurd hl0 e, ?_⟩
    all_goals try intro q q1 _
    all_goals
      simp only [plainLeftHeap, store_words, hl0, mp, ml, if_true, if_false, ne_eq,
        not_true_eq_false, not_false_eq_true, *]
    rfl
  · have d := dl hl0
    refine ⟨?_, fun _ => ?_, ?_⟩
    all_goals try intro q q1 q2
    all_goals try have q2 := q2 hl0
    all_goals
      simp only [plainLeftHeap, store_words, hl0, mp, ml, if_true, if_false, ne_eq,
        not_true_eq_false, not_false_eq_true, d, *]

theorem deleteNode_plain_left {h : Heap} {t : FTree} (ok : TreeOK h t) {b : Nat}
    {l : FTree} (hb : b ∈ t.nodes) (hroot : b ≠ t.root)
    (hsub : t.subtreeAt b = .node l b [] .nil) :
    ∃ h' t', Deleted h t b h' t' ∧ DeletedExact h t b h' t' ∧
      ∀ fuel, deleteNode fuel h b = .ok h' := by
  obtain ⟨hsh, hsm, hsnd⟩ := ok.sub hsub
  obtain ⟨c1, c2, c3, -, -, -, -, -⟩ := hsh
  obtain ⟨-, -, -, -, nddl, -⟩ := FTree.nodup_node hsnd
  obtain ⟨p1, p2, p3, -, p5⟩ := ok.slot hb hroot
  have hbm : b ∈ t.members := t.nodes_sub_members b hb
  have hlm : ∀ y ∈ l.members, y ∈ t.members :=
    fun y hy => hsm y (FTree.mem_members_node.2 (Or.inl hy))
  have hlroot : l.root = 0 ∨ l.root ∈ t.members := l.root_zero_or_mem.imp id (hlm _)
  have hbp : b ≠ t.parentOf b := fun e => p2 (by
    rw [← e, hsub]; exact FTree.mem_members_node.2 (Or.inr (Or.inl rfl)))
  have hlp : l.root ≠ 0 → t.parentOf b ≠ l.root := fun e0 e => p2 (by
    rw [e, hsub]; exact FTree.mem_members_node.2 (Or.inl (FTree.root_mem_members e0)))
  have hbl : l.root ≠ 0 → b ≠ l.root := fun e0 e =>
    (nddl _ (FTree.root_mem_members e0)).1 e.symm
  have sepz : ∀ {y m : Nat}, y ∈ t.members → (m = 0 ∨ m ∈ t.members) → (m ≠ 0 → y ≠ m) →
      m = 0 ∨ y + 24 ≤ m ∨ m + 24 ≤ y := by
    intro y m hy hm hne
    rcases hm with e | e
    · exact Or.inl e
    · exact Or.inr (ok.sep y hy m e (hne (ok.ne_zero e)))
  have hex := fun fuel => plainLeft_exec (ok.lt hbm) (ok.lt p1) (ok.lt0 hlroot)
    (ok.valid hbm) (ok.valid p1) (ok.valid8 hlroot) p5
    (ok.sep b hbm _ p1 hbp) (sepz hbm hlroot hbl) fuel c1 c2 p3 rfl
  obtain ⟨w1, w2, hfr⟩ := plainLeft_facts (h := h) (ok.lt1 (Or.inr p1)) (ok.lt1 hlroot) p5
    (sepz p1 hlroot hlp)
  obtain ⟨har, hseat⟩ := plainLeftHeap_arena h
    (if szOf h.words b > szOf h.words (t.parentOf b) then t.parentOf b + 4 else t.parentOf b)
    (t.parentOf b) l.root
  obtain ⟨k1, k2, k3, k4, k5⟩ := lift_tree ok hb hsub (Or.inl rfl) rfl har
    (by rw [hseat, if_neg (fun e => hroot e.symm)])
    (fun _ => w1) (fun _ => w2) (fun q q1 q2 => hfr q (q1 hroot) (q2 hroot))
  refine ⟨_, _, ⟨har, k1, k2, k3, k4⟩, k5 (Or.inr rfl) (List.append_nil _), fun fuel => ?_⟩
  have hbseat : b ≠ h.seat := ok.root ▸ hroot
  obtain ⟨-, vb1, vb2, -, vb4⟩ := ok.valid hbm
  obtain ⟨-, ab1, -, ab3⟩ := ok.addr hbm
  have g1 := GET_val vb2 c2
  have g3 : GET h (b + 12) = .ok 0 := GET_val vb4 c3
  have hM : (0 : Nat) ≠ M1 := by decide
  simp only [deleteNode, hbseat, ne_eq, not_false_eq_true, if_true, GET_RIGHT, ab1, ab3, g1, g3,
    ok_bind, FTree.root, hM, map_ok, decide_True, hex fuel]

theorem deleteNode_root_one {h : Heap} {t : FTree} (ok : TreeOK h t) {b : Nat}
    {l r : FTree} {reps : List Nat} (hb : b ∈ t.nodes) (hroot : b = t.root)
    (hsub : t.subtreeAt b = .node l b reps r) (hone : l.root = 0 ∨ r.root = 0) :
    ∃ h' t', Deleted h t b h' t' ∧ DeletedExact h t b h' t' ∧
      ∀ fuel, deleteNode fuel h b = .ok h' := by
  obtain ⟨hsh, hsm, hsnd⟩ := ok.sub hsub
  obtain ⟨c1, c2, -, -, -, -, -, -⟩ := hsh
  have hbm : b ∈ t.members := t.nodes_sub_members b hb
  have hbseat : b = h.seat := ok.root ▸ hroot
  obtain ⟨-, vb1, vb2, -, -⟩ := ok.valid hbm
  obtain ⟨-, ab1, -, -⟩ := ok.addr hbm
  have g0 := GET_val vb1 c1
  have g1 := GET_val vb2 c2
  by_cases hl0 : l.root = 0
  · obtain ⟨k1, k2, k3, k4, k5⟩ := @lift_tree _ (h.setSeat r.root) _ ok _ _ _ _ r _ hb hsub
      (Or.inr rfl) rfl ⟨rfl, rfl, rfl, rfl⟩ (by rw [if_pos hroot.symm]; rfl)
      (fun e => absurd hroot e) (fun e => absurd hroot e) (fun q _ _ => rfl)
    have hln : l = .nil :=
      ok.eq_nil (fun y hy => hsm y (FTree.mem_members_node.2 (Or.inl hy))) hl0
    refine ⟨h.setSeat r.root, _, ⟨⟨rfl, rfl, rfl, rfl⟩, k1, k2, k3, k4⟩,
      k5 (Or.inl hroot) (by rw [hln]; rfl), fun fuel => ?_⟩
    simp only [deleteNode, eq_true hbseat, ne_eq, not_true_eq_false, if_false, deleteNodeRoot,
      GET_LEFT, GET_RIGHT, LEFT_eq, ab1, g0, g1, ok_bind, hl0, Bool.false_eq_true, if_true]
  · have hr0 : r.root = 0 := hone.resolve_left hl0
    obtain ⟨k1, k2, k3, k4, k5⟩ := @lift_tree _ (h.setSeat l.root) _ ok _ _ _ _ l _ hb hsub
      (Or.inl rfl) rfl ⟨rfl, rfl, rfl, rfl⟩ (by rw [if_pos hroot.symm]; rfl)
      (fun e => absurd hroot e) (fun e => absurd hroot e) (fun q _ _ => rfl)
    have hrn : r = .nil :=
      ok.eq_nil (fun y hy => hsm y (FTree.mem_members_node.2 (Or.inr (Or.inr (Or.inr hy))))) hr0
    refine ⟨h.setSeat l.root, _, ⟨⟨rfl, rfl, rfl, rfl⟩, k1, k2, k3, k4⟩,
      k5 (Or.inl hroot) (by rw [hrn]; exact List.append_nil _), fun fuel => ?_⟩
    simp only [deleteNode, eq_true hbseat, ne_eq, not_true_eq_false, if_false, deleteNodeRoot,
      GET_LEFT, GET_RIGHT, LEFT_eq, ab1, g0, g1, ok_bind, hl0, hr0, not_false_eq_true, if_true,
      map_ok, decide_False, Bool.false_eq_true]

/-! ### The leftmost node of a subtree -/

theorem FTree.leftAddr_facts {r : FTree} (hnd : r.members.Nodup) (hr : r ≠ .nil) :
    r.leftAddr ∈ r.nodes ∧
    ∃ creps cr, r.subtreeAt r.leftAddr = .node .nil r.leftAddr creps cr := by
  induction r with
  | nil => exact absurd rfl hr
  | node l a reps rr ihl _ =>
    obtain ⟨hl, -, -, -, hdl, -⟩ := FTree.nodup_node hnd
    cases l with
    | nil =>
      refine ⟨by simp [FTree.leftAddr, FTree.nodes], reps, rr, ?_⟩
      simp [FTree.leftAddr, FTree.subtreeAt]
    | node l1 b rs r1 =>
      obtain ⟨i1, creps, cr, i2⟩ := ihl hl (by simp)
      have e : (FTree.node (FTree.node l1 b rs r1) a reps rr).leftAddr
          = (FTree.node l1 b rs r1).leftAddr := rfl
      have hac : a ≠ (FTree.node l1 b rs r1).leftAddr := fun e' =>
        (hdl _ (FTree.nodes_sub_members _ _ i1)).1 e'.symm
      rw [e]
      refine ⟨FTree.mem_nodes_node.2 (Or.inl i1), creps, cr, ?_⟩
      rw [FTree.subtreeAt_node_left hac i1]
      exact i2

theorem FTree.leftAddr_parent {w : Nat → Nat} {r : FTree} (hs : Shape w r)
    (hnd : r.members.Nodup) (hne : r.leftAddr ≠ r.root) :
    w (r.parentOf r.leftAddr) = r.leftAddr := by
  induction r with
  | nil => exact absurd rfl hne
  | node l a reps rr ihl _ =>
    obtain ⟨hl, -, -, -, hdl, -⟩ := FTree.nodup_node hnd
    obtain ⟨h1, -, -, -, -, -, h7, -⟩ := hs
    cases l with
    | nil => exact absurd rfl hne
    | node l1 b rs r1 =>
      obtain ⟨i1, -⟩ := FTree.leftAddr_facts hl (by simp)
      have e : (FTree.node (FTree.node l1 b rs r1) a reps rr).leftAddr
          = (FTree.node l1 b rs r1).leftAddr := rfl
      have hac : a ≠ (FTree.node l1 b rs r1).leftAddr := fun e' =>
        (hdl _ (FTree.nodes_sub_members _ _ i1)).1 e'.symm
      rw [e]
      simp only [FTree.parentOf, if_neg hac, if_pos i1]
      by_cases hroot : (FTree.node l1 b rs r1).root = (FTree.node l1 b rs r1).leftAddr
      · rw [if_pos hroot, h1, hroot]
      · rw [if_neg hroot]
        exact ihl h7 hl (Ne.symm hroot)

theorem Ordered_popLeft {w : Nat → Nat} {r cr : FTree} {lo hi : Nat} {creps : List Nat}
    (ho : Ordered w r lo hi) (hnd : r.members.Nodup)
    (hsub : r.subtreeAt r.leftAddr = .node .nil r.leftAddr creps cr) (hr : r ≠ .nil) :
    lo < szOf w r.leftAddr ∧ szOf w r.leftAddr < hi ∧
    (∀ x ∈ creps, szOf w x = szOf w r.leftAddr) ∧
    Ordered w (r.subst r.leftAddr cr) (szOf w r.leftAddr) hi := by
  induction r generalizing lo hi with
  | nil => exact absurd rfl hr
  | node l a reps rr ihl _ =>
    obtain ⟨hl, -, -, -, hdl, -⟩ := FTree.nodup_node hnd
    obtain ⟨o1, o2, o3, o4, o5⟩ := ho
    cases l with
    | nil =>
      have e : (FTree.node .nil a reps rr).leftAddr = a := rfl
      rw [e] at hsub ⊢
      simp only [FTree.subtreeAt, if_true, FTree.node.injEq, true_and] at hsub
      obtain ⟨e1, e2⟩ := hsub
      subst e1 e2
      refine ⟨o1, o2, o3, ?_⟩
      simp only [FTree.subst, if_true]
      exact o5
    | node l1 b rs r1 =>
      obtain ⟨i1, -⟩ := FTree.leftAddr_facts hl (by simp)
      have e : (FTree.node (FTree.node l1 b rs r1) a reps rr).leftAddr
          = (FTree.node l1 b rs r1).leftAddr := rfl
      have hac : a ≠ (FTree.node l1 b rs r1).leftAddr := fun e' =>
        (hdl _ (FTree.nodes_sub_members _ _ i1)).1 e'.symm
      rw [e] at hsub ⊢
      rw [FTree.subtreeAt_node_left hac i1] at hsub
      obtain ⟨j1, j2, j3, j4⟩ := ihl o4 hl hsub (by simp)
      refine ⟨j1, by omega, j3, ?_⟩
      simp only [FTree.subst, if_neg hac, if_pos i1]
      exact ⟨j2, o2, o3, j4, Ordered_mono o5 (le_refl _) (le_refl _)⟩

theorem leftmost_spec {h : Heap} {r : FTree} (hs : Shape h.words r)
    (hv : ∀ a ∈ r.nodes, a ≠ 0 ∧ h.valid a) (hr : r ≠ .nil) :
    ∀ fuel, r.height ≤ fuel → leftmost fuel h r.root = .ok r.leftAddr := by
  induction r with
  | nil => exact absurd rfl hr
  | node l a reps rr ihl _ =>
    intro fuel hf
    obtain ⟨h1, -, -, -, -, -, h7, -⟩ := hs
    have va := (hv a (FTree.mem_nodes_node.2 (Or.inr (Or.inl rfl)))).2
    cases fuel with
    | zero => simp [FTree.height] at hf
    | succ fuel =>
      simp only [FTree.height, Nat.add_le_add_iff_right] at hf
      cases l with
      | nil =>
        simp only [leftmost, FTree.root, GET_LEFT, LEFT_eq, GET_val va h1, ok_bind, ne_eq,
          not_true_eq_false, if_false, FTree.leftAddr]
      | node l1 b rs r1 =>
        have hb := (hv b (FTree.mem_nodes_node.2 (Or.inl
          (FTree.mem_nodes_node.2 (Or.inr (Or.inl rfl)))))).1
        have i := ihl h7 (fun x hx => hv x (FTree.mem_nodes_node.2 (Or.inl hx))) (by simp) fuel
          (le_trans (le_max_left _ _) hf)
        simp only [FTree.root] at i h1
        simp only [leftmost, FTree.root, GET_LEFT, LEFT_eq, GET_val va h1, ok_bind, ne_eq, hb,
          not_false_eq_true, if_true, i]
        rfl

theorem FTree.listing_popLeft {r cr : FTree} {creps : List Nat} (hnd : r.members.Nodup)
    (hsub : r.subtreeAt r.leftAddr = .node .nil r.leftAddr creps cr) (hr : r ≠ .nil) :
    r.listing = (r.leftAddr, creps) :: (r.subst r.leftAddr cr).listing := by
  induction r with
  | nil => exact absurd rfl hr
  | node l a reps rr ihl _ =>
    obtain ⟨hl, -, -, -, hdl, -⟩ := FTree.nodup_node hnd
    cases l with
    | nil =>
      have e : (FTree.node .nil a reps rr).leftAddr = a := rfl
      rw [e] at hsub ⊢
      simp only [FTree.subtreeAt, if_true, FTree.node.injEq, true_and] at hsub
      obtain ⟨rfl, rfl⟩ := hsub
      simp [FTree.subst, FTree.listing]
    | node l1 b rs r1 =>
      obtain ⟨i1, -⟩ := FTree.leftAddr_facts hl (by simp)
      have e : (FTree.node (FTree.node l1 b rs r1) a reps rr).leftAddr
          = (FTree.node l1 b rs r1).leftAddr := rfl
      have hac : a ≠ (FTree.node l1 b rs r1).leftAddr := fun e' =>
        (hdl _ (FTree.nodes_sub_members _ _ i1)).1 e'.symm
      rw [e] at hsub ⊢
      rw [FTree.subtreeAt_node_left hac i1] at hsub
      have ih := ihl hl hsub (by simp)
      generalize FTree.node l1 b rs r1 = L at ih hac i1 ⊢
      have e2 : (FTree.node L a reps rr).subst L.leftAddr cr =
          .node (L.subst L.leftAddr cr) a reps rr := by
        simp only [FTree.subst, if_neg hac, if_pos i1]
      have e3 : ∀ x y : FTree, (FTree.node x a reps rr).listing =
          x.listing ++ (a, reps) :: rr.listing := fun _ _ => rfl
      rw [e2, e3 _ L, e3 _ L, ih, List.cons_append]

/-! ### Deleting a tree node by moving its successor into its place -/

theorem range_ne_slot {q p c j : Nat} (q1 : p ≤ q) (q2 : q < p + 16) (hj : j < 16)
    (s : c + 24 ≤ p ∨ p + 24 ≤ c) : q ≠ c + j := by
  omega

theorem succ_tree {h h' : Heap} {t : FTree} (ok : TreeOK h t) {b c slot : Nat}
    {l r cr : FTree} {reps creps : List Nat} (hb : b ∈ t.nodes)
    (hsub : t.subtreeAt b = .node l b reps r) (hr : r ≠ .nil) (hcdef : r.leftAddr = c)
    (hcsub : r.subtreeAt c = .node .nil c creps cr)
    (hslot : (if szOf h.words b > szOf h.words (t.parentOf b) then t.parentOf b + 4
      else t.parentOf b) = slot)
    (har : SameArena h h') (hseat : h'.seat = if t.root = b then c else h.seat)
    (wL : h'.words c = l.root)
    (wR : c ≠ r.root → h'.words (c + 4) = r.root)
    (wRP : c ≠ r.root → h'.words (r.root + 8) = c)
    (wLP : l.root ≠ 0 → h'.words (l.root + 8) = c)
    (wCP : c ≠ r.root → h'.words (r.parentOf c) = cr.root)
    (wCRP : c ≠ r.root → cr.root ≠ 0 → h'.words (cr.root + 8) = r.parentOf c)
    (wS : b ≠ t.root → h'.words slot = c)
    (wUP : b ≠ t.root → h'.words (c + 8) = t.parentOf b)
    (hfr : ∀ q, q ≠ c →
      (c ≠ r.root → q ≠ c + 4 ∧ q ≠ r.root + 8 ∧ q ≠ r.parentOf c ∧
        (cr.root ≠ 0 → q ≠ cr.root + 8)) →
      (l.root ≠ 0 → q ≠ l.root + 8) → (b ≠ t.root → q ≠ slot ∧ q ≠ c + 8) →
      h'.words q = h.words q) :
    Untouched h.words h'.words t.members ∧
    TreeOK h' (t.subst b (.node l c creps (r.subst c cr))) ∧
    (∀ y ∈ (t.subst b (.node l c creps (r.subst c cr))).members, y ∈ t.members) ∧
    b ∉ (t.subst b (.node l c creps (r.subst c cr))).members ∧
    ((b = t.root ∨ reps = []) →
      DeletedExact h t b h' (t.subst b (.node l c creps (r.subst c cr)))) := by
  obtain ⟨hsh, hsm, hsnd⟩ := ok.sub hsub
  obtain ⟨-, -, -, -, -, -, c7, c8⟩ := hsh
  obtain ⟨ndl, ndr, -, -, nddl, nddr⟩ := FTree.nodup_node hsnd
  subst hcdef
  obtain ⟨hcn, -⟩ := FTree.leftAddr_facts ndr hr
  have hcshape : Shape h.words (.node .nil r.leftAddr creps cr) :=
    hcsub ▸ Shape_subtreeAt r.leftAddr c8
  obtain ⟨-, s2, s3, s4, -, s6, -, s8⟩ := hcshape
  have hcnd : (FTree.node .nil r.leftAddr creps cr).members.Nodup :=
    hcsub ▸ FTree.subtreeAt_nodup r.leftAddr ndr
  obtain ⟨-, ndcr, ndcreps, ndcar, -, nddcr⟩ := FTree.nodup_node hcnd
  have hcsubm : ∀ y ∈ (FTree.node .nil r.leftAddr creps cr).members, y ∈ r.members :=
    fun y hy => r.subtreeAt_members_sub r.leftAddr y (hcsub ▸ hy)
  -- memberships
  have hlm : ∀ y ∈ l.members, y ∈ t.members :=
    fun y hy => hsm y (FTree.mem_members_node.2 (Or.inl hy))
  have hrm : ∀ y ∈ r.members, y ∈ t.members :=
    fun y hy => hsm y (FTree.mem_members_node.2 (Or.inr (Or.inr (Or.inr hy))))
  have hcr : r.leftAddr ∈ r.members := r.nodes_sub_members _ hcn
  have hcm : r.leftAddr ∈ t.members := hrm _ hcr
  have hcrepsr : ∀ y ∈ creps, y ∈ r.members :=
    fun y hy => hcsubm y (FTree.mem_members_node.2 (Or.inr (Or.inr (Or.inl hy))))
  have hcrr : ∀ y ∈ cr.members, y ∈ r.members :=
    fun y hy => hcsubm y (FTree.mem_members_node.2 (Or.inr (Or.inr (Or.inr hy))))
  have hrne : r.root ≠ 0 := by
    cases r with
    | nil => exact absurd rfl hr
    | node l1 a rs r1 =>
      exact ok.ne_zero (hrm a (FTree.mem_members_node.2 (Or.inr (Or.inl rfl))))
  have hrrootr : r.root ∈ r.members := FTree.root_mem_members hrne
  have hrrootm : r.root ∈ t.members := hrm _ hrrootr
  have hlroot : l.root = 0 ∨ l.root ∈ t.members := l.root_zero_or_mem.imp id (hlm _)
  have hcrroot : cr.root = 0 ∨ cr.root ∈ t.members :=
    cr.root_zero_or_mem.imp id (fun e => hrm _ (hcrr _ e))
  -- the parent of the successor
  have hcpf : r.leftAddr ≠ r.root → r.parentOf r.leftAddr ∈ r.nodes ∧
      r.parentOf r.leftAddr ∉ (r.subtreeAt r.leftAddr).members ∧
      h.words (r.leftAddr + 8) = r.parentOf r.leftAddr := fun e => by
    obtain ⟨lo', hi', -, -, oo, -⟩ := Ordered_subtreeAt ok.ordered ok.nodup hb
    rw [hsub] at oo
    obtain ⟨q1, q2, q3, -⟩ := parent_facts c8 oo.2.2.2.2 ndr (ok.ne_zero hcm) hcn e
    exact ⟨q1, q2, q3⟩
  have hcpm : r.leftAddr ≠ r.root → r.parentOf r.leftAddr ∈ t.members := fun e =>
    hrm _ (r.nodes_sub_members _ (hcpf e).1)
  have hcpv : r.leftAddr ≠ r.root → h.words (r.parentOf r.leftAddr) = r.leftAddr := fun e =>
    FTree.leftAddr_parent c8 ndr e
  have hcpsub : r.leftAddr ≠ r.root → ∀ y ∈ (FTree.node .nil r.leftAddr creps cr).members,
      y ≠ r.parentOf r.leftAddr := fun e y hy e' => (hcpf e).2.1 (by rw [hcsub, ← e']; exact hy)
  -- the parent of the deleted node
  have hpar : b ≠ t.root → t.parentOf b ∈ t.members ∧
      (∀ y ∈ (FTree.node l b reps r).members, y ≠ t.parentOf b) ∧
      (slot = t.parentOf b ∨ slot = t.parentOf b + 4) :=
    fun e => by
      obtain ⟨p1, p2, -, -, p5⟩ := ok.slot hb e
      rw [hslot] at p5
      exact ⟨p1, fun y hy e' => p2 (by rw [hsub, ← e']; exact hy), p5⟩
  have hinl : ∀ y ∈ l.members, y ∈ (FTree.node l b reps r).members :=
    fun y hy => FTree.mem_members_node.2 (Or.inl hy)
  have hinr : ∀ y ∈ r.members, y ∈ (FTree.node l b reps r).members :=
    fun y hy => FTree.mem_members_node.2 (Or.inr (Or.inr (Or.inr hy)))
  -- what stays in place
  have same : ∀ y ∈ t.members, ∀ k, k < 16 → (y = r.leftAddr → k = 12) →
      (r.leftAddr ≠ r.root → y = r.root → k ≠ 8) →
      (r.leftAddr ≠ r.root → y = r.parentOf r.leftAddr → k ≠ 0) →
      (r.leftAddr ≠ r.root → y = cr.root → k ≠ 8) →
      (y = l.root → k ≠ 8) → (b ≠ t.root → y = t.parentOf b → 8 ≤ k) →
      h'.words (y + k) = h.words (y + k) := by
    intro y hy k hk hyc hyr hycp hycr hyl hyp
    have hy24 := (ok.lt hy).1
    have hc12 : y = r.leftAddr → ∀ j, j < 12 → k ≠ j := fun e j hj e' => by
      have := hyc e; omega
    refine hfr _ ?_ (fun e => ⟨?_, ?_, ?_, fun e0 => ?_⟩) (fun e0 => ?_) (fun e => ⟨?_, ?_⟩)
    · exact off_ne (j := 0) (Or.inr (ok.sep' hy hcm)) hy24 hk (by decide)
        (fun e => hc12 e 0 (by decide))
    · exact off_ne (Or.inr (ok.sep' hy hcm)) hy24 hk (by decide) (fun e => hc12 e 4 (by decide))
    · exact off_ne (Or.inr (ok.sep' hy hrrootm)) hy24 hk (by decide) (hyr e)
    · exact off_ne (j := 0) (Or.inr (ok.sep' hy (hcpm e))) hy24 hk (by decide) (hycp e)
    · exact off_ne (ok.sep0 hy hcrroot) hy24 hk (by decide) (hycr e)
    · exact off_ne (ok.sep0 hy hlroot) hy24 hk (by decide) hyl
    · exact off_ne_slot (ok.sep' hy (hpar e).1) (hpar e).2.2 hk (hyp e)
    · exact off_ne (Or.inr (ok.sep' hy hcm)) hy24 hk (by decide) (fun e => hc12 e 8 (by decide))
  have hdr : ∀ y ∈ t.members, h'.words (y - 4) = h.words (y - 4) := by
    intro y hy
    have hy24 := (ok.lt hy).1
    refine hfr _ ?_ (fun e => ⟨?_, ?_, ?_, fun e0 => ?_⟩) (fun e0 => ?_) (fun e => ⟨?_, ?_⟩)
    · exact hdr_ne (j := 0) (Or.inr (ok.sep' hy hcm)) hy24 (by decide)
    · exact hdr_ne (Or.inr (ok.sep' hy hcm)) hy24 (by decide)
    · exact hdr_ne (Or.inr (ok.sep' hy hrrootm)) hy24 (by decide)
    · exact hdr_ne (j := 0) (Or.inr (ok.sep' hy (hcpm e))) hy24 (by decide)
    · exact hdr_ne (ok.sep0 hy hcrroot) hy24 (by decide)
    · exact hdr_ne (ok.sep0 hy hlroot) hy24 (by decide)
    · exact hdr_ne_slot (ok.sep' hy (hpar e).1) (hpar e).2.2 hy24
    · exact hdr_ne (Or.inr (ok.sep' hy hcm)) hy24 (by decide)
  have hsz : ∀ y ∈ t.members, szOf h'.words y = szOf h.words y := fun y hy => by
    unfold szOf; rw [hdr y hy]
  have same0 : ∀ y ∈ t.members, y ≠ r.leftAddr →
      (r.leftAddr ≠ r.root → y ≠ r.parentOf r.leftAddr) → (b ≠ t.root → y ≠ t.parentOf b) →
      h'.words y = h.words y := fun y hy n1 n2 n3 =>
    same y hy 0 (by decide) (fun e => absurd e n1) (fun _ _ => by decide)
      (fun e e' => absurd e' (n2 e)) (fun _ _ => by decide) (fun _ => by decide)
      (fun e e' => absurd e' (n3 e))
  have same4 : ∀ y ∈ t.members, y ≠ r.leftAddr → (b ≠ t.root → y ≠ t.parentOf b) →
      h'.words (y + 4) = h.words (y + 4) := fun y hy n1 n3 =>
    same y hy 4 (by decide) (fun e => absurd e n1) (fun _ _ => by decide)
      (fun _ _ => by decide) (fun _ _ => by decide) (fun _ => by decide)
      (fun e e' => absurd e' (n3 e))
  have same12 : ∀ y ∈ t.members, (b ≠ t.root → y ≠ t.parentOf b) →
      h'.words (y + 12) = h.words (y + 12) := fun y hy n3 =>
    same y hy 12 (by decide) (fun _ => rfl) (fun _ _ => by decide)
      (fun _ _ => by decide) (fun _ _ => by decide) (fun _ => by decide)
      (fun e e' => absurd e' (n3 e))
  have same8 : ∀ y ∈ t.members, y ≠ r.leftAddr → (r.leftAddr ≠ r.root → y ≠ r.root) →
      (r.leftAddr ≠ r.root → y ≠ cr.root) → y ≠ l.root →
      h'.words (y + 8) = h.words (y + 8) := fun y hy n1 n2 n3 n4 =>
    same y hy 8 (by decide) (fun e => absurd e n1) (fun e e' => absurd e' (n2 e))
      (fun _ _ => by decide) (fun e e' => absurd e' (n3 e)) (fun e => absurd e n4)
      (fun _ _ => le_refl _)
  -- distinctness inside the subtree
  have hlc : ∀ y ∈ l.members, y ≠ r.leftAddr := fun y hy e => (nddl y hy).2.2 (e ▸ hcr)
  have hl_r : ∀ y ∈ l.members, ∀ z ∈ r.members, y ≠ z := fun y hy z hz e =>
    (nddl y hy).2.2 (e ▸ hz)
  have hrootsub : r.leftAddr ≠ r.root → r.root ∉ (FTree.node .nil r.leftAddr creps cr).members :=
    fun e => hcsub ▸ FTree.root_not_mem_subtreeAt ndr hcn e
  have hmemr' : ∀ y, y ∈ (r.subst r.leftAddr cr).members ↔
      (y ∈ r.members ∧ y ∉ (FTree.node .nil r.leftAddr creps cr).members) ∨ y ∈ cr.members :=
    fun y => hcsub ▸ FTree.mem_subst ndr hcn
  have hr'r : ∀ y ∈ (r.subst r.leftAddr cr).members, y ∈ r.members := fun y hy => by
    rcases (hmemr' y).1 hy with ⟨e, -⟩ | e
    · exact e
    · exact hcrr y e
  have hr'c : ∀ y ∈ (r.subst r.leftAddr cr).members, y ≠ r.leftAddr ∧ y ∉ creps := fun y hy => by
    rcases (hmemr' y).1 hy with ⟨-, e⟩ | e
    · exact ⟨fun e' => e (FTree.mem_members_node.2 (Or.inr (Or.inl e'))),
        fun e' => e (FTree.mem_members_node.2 (Or.inr (Or.inr (Or.inl e'))))⟩
    · exact nddcr y e
  have hnd' : (FTree.node l r.leftAddr creps (r.subst r.leftAddr cr)).members.Nodup := by
    refine FTree.nodup_node_of ndl ?_ ndcreps ndcar
      (fun y hy => ⟨hlc y hy, fun e => hl_r y hy y (hcrepsr y e) rfl,
        fun e => hl_r y hy y (hr'r y e) rfl⟩)
      (fun y hy => hr'c y hy)
    exact FTree.nodup_subst ndr hcn ndcr (fun y hy _ => by
      rw [hcsub]; exact FTree.mem_members_node.2 (Or.inr (Or.inr (Or.inr hy))))
  have hs'sub : ∀ y ∈ (FTree.node l r.leftAddr creps (r.subst r.leftAddr cr)).members,
      y ∈ (FTree.node l b reps r).members := by
    intro y hy
    rcases FTree.mem_members_node.1 hy with e | e | e | e
    · exact hinl y e
    · exact hinr y (e ▸ hcr)
    · exact hinr y (hcrepsr y e)
    · exact hinr y (hr'r y e)
  have hbnot : b ∉ (FTree.node l r.leftAddr creps (r.subst r.leftAddr cr)).members := by
    intro hm
    rcases FTree.mem_members_node.1 hm with e | e | e | e
    · exact (nddl b e).1 rfl
    · exact (nddr _ hcr).1 e.symm
    · exact (nddr b (hcrepsr b e)).1 rfl
    · exact (nddr b (hr'r b e)).1 rfl
  have hnp : b ≠ t.root → ∀ y ∈ (FTree.node l b reps r).members, y ≠ t.parentOf b :=
    fun e => (hpar e).2.1
  -- the frame
  have hfrU : Untouched h.words h'.words t.members := by
    intro q hq
    have q1 := hq _ hcm
    have q2 := hq _ hrrootm
    refine hfr q (unt_ne 0 (by decide) q1)
      (fun e => ⟨unt_ne 4 (by decide) q1, unt_ne 8 (by decide) q2,
        unt_ne 0 (by decide) (hq _ (hcpm e)),
        fun e0 => unt_ne 8 (by decide) (hq _ (hcrroot.resolve_left e0))⟩)
      (fun e0 => unt_ne 8 (by decide) (hq _ (hlroot.resolve_left e0)))
      (fun e => ⟨unt_ne_slot (hpar e).2.2 (hq _ (hpar e).1), unt_ne 8 (by decide) q1⟩)
  have hu : Untouched h.words h'.words
      [t.parentOf b, r.leftAddr, l.root, r.root, r.parentOf r.leftAddr, cr.root] := by
    intro q hq
    have q1 := hq r.leftAddr (by simp)
    have q2 := hq r.root (by simp)
    refine hfr q (unt_ne 0 (by decide) q1)
      (fun e => ⟨unt_ne 4 (by decide) q1, unt_ne 8 (by decide) q2,
        unt_ne 0 (by decide) (hq _ (by simp)),
        fun e0 => unt_ne 8 (by decide) (hq _ (by simp))⟩)
      (fun e0 => unt_ne 8 (by decide) (hq _ (by simp)))
      (fun e => ⟨unt_ne_slot (hpar e).2.2 (hq _ (by simp)), unt_ne 8 (by decide) q1⟩)
  have hmem' : ∀ y ∈ (FTree.node l r.leftAddr creps (r.subst r.leftAddr cr)).members,
      y ∈ (t.subtreeAt b).members ∨ y ∈ ([] : List Nat) :=
    fun y hy => Or.inl (hsub ▸ hs'sub y hy)
  have hsubres := @TreeOK.subst _ _ _ (.node l r.leftAddr creps (r.subst r.leftAddr cr)) _ _ [] ok
    hb har hu
    (by
      intro m hm
      simp only [List.mem_cons, List.mem_singleton, List.not_mem_nil, or_false] at hm
      rcases hm with rfl | rfl | rfl | rfl | rfl | rfl
      · by_cases e : b = t.root
        · left; rw [e]; exact t.parentOf_root
        · exact Or.inr (Or.inr (Or.inr ⟨e, rfl⟩))
      · exact Or.inr (Or.inl (hsub ▸ hinr _ hcr))
      · rcases l.root_zero_or_mem with e | e
        · exact Or.inl e
        · exact Or.inr (Or.inl (hsub ▸ hinl _ e))
      · exact Or.inr (Or.inl (hsub ▸ hinr _ hrrootr))
      · by_cases e : r.leftAddr = r.root
        · left; rw [e]; exact r.parentOf_root
        · exact Or.inr (Or.inl (hsub ▸ hinr _ (r.nodes_sub_members _ (hcpf e).1)))
      · rcases cr.root_zero_or_mem with e | e
        · exact Or.inl e
        · exact Or.inr (Or.inl (hsub ▸ hinr _ (hcrr _ e))))
    (by simp) hmem' hnd' ?_ ?_ ?_ ?_ ?_
  · obtain ⟨tok, tmem⟩ := hsubres
    refine ⟨hfrU, tok, ?_, ?_, ?_⟩
    · intro y hy
      rcases (tmem y).1 hy with ⟨e, -⟩ | e
      · exact e
      · exact hsm y (hs'sub y e)
    · intro hy
      rcases (tmem b).1 hy with ⟨-, e⟩ | e
      · apply e
        rw [hsub]
        exact FTree.mem_members_node.2 (Or.inr (Or.inl rfl))
      · exact hbnot e
    · intro hf
      refine ⟨?_, ?_, ?_⟩
      · intro q hq
        have mS : ∀ y ∈ (FTree.node l r.leftAddr creps (r.subst r.leftAddr cr)).members,
            q < y ∨ y + 16 ≤ q := fun y hy => hq y ((tmem y).2 (Or.inr hy))
        have mR : ∀ y ∈ (r.subst r.leftAddr cr).members, q < y ∨ y + 16 ≤ q :=
          fun y hy => mS y (FTree.mem_members_node.2 (Or.inr (Or.inr (Or.inr hy))))
        have q1 := mS r.leftAddr (FTree.mem_members_node.2 (Or.inr (Or.inl rfl)))
        refine hfr q (unt_ne 0 (by decide) q1)
          (fun e => ⟨unt_ne 4 (by decide) q1,
            unt_ne 8 (by decide) (mR _ ((hmemr' _).2 (Or.inl ⟨hrrootr, hrootsub e⟩))),
            unt_ne 0 (by decide) (mR _ ((hmemr' _).2 (Or.inl
              ⟨r.nodes_sub_members _ (hcpf e).1,
                fun hm => (hcpf e).2.1 (by rw [hcsub]; exact hm)⟩))),
            fun e0 => unt_ne 8 (by decide)
              (mR _ ((hmemr' _).2 (Or.inr (FTree.root_mem_members e0))))⟩)
          (fun e0 => unt_ne 8 (by decide)
            (mS _ (FTree.mem_members_node.2 (Or.inl (FTree.root_mem_members e0)))))
          (fun e => ⟨unt_ne_slot (hpar e).2.2 (hq _ ((tmem _).2 (Or.inl
            ⟨(hpar e).1, fun hm => (hpar e).2.1 _ (by rw [← hsub]; exact hm) rfl⟩))),
            unt_ne 8 (by decide) q1⟩)
      · refine delListing_top ok.nodup hb hsub hf ?_
        show l.listing ++ (r.leftAddr, creps) :: (r.subst r.leftAddr cr).listing =
          l.listing ++ r.listing
        rw [← FTree.listing_popLeft ndr hcsub hr]
      · refine FTree.height_subst_le ok.nodup hb ?_
        rw [hsub]
        have h1 : (r.subst r.leftAddr cr).height ≤ r.height :=
          FTree.height_subst_le ndr hcn (by
            rw [hcsub]
            show cr.height ≤ max FTree.nil.height cr.height + 1
            exact le_trans (le_max_right _ _) (Nat.le_succ _))
        show max l.height (r.subst r.leftAddr cr).height + 1 ≤ max l.height r.height + 1
        exact Nat.succ_le_succ (max_le_max (le_refl _) h1)
  · -- shape of the new subtree
    have hroot' : (r.subst r.leftAddr cr).root
        = if r.root = r.leftAddr then cr.root else r.root :=
      r.subst_root (ok.ne_zero hcm) cr
    have hcrshape : Shape h'.words cr := by
      refine Shape_congr ndcr (fun y hy => ⟨?_, ?_, ?_⟩) (fun y hy hne => ?_) s8
      · exact same0 y (hrm y (hcrr y hy)) (nddcr y hy).1
          (fun e => hcpsub e y (FTree.mem_members_node.2 (Or.inr (Or.inr (Or.inr hy)))))
          (fun e => hnp e y (hinr y (hcrr y hy)))
      · exact same4 y (hrm y (hcrr y hy)) (nddcr y hy).1
          (fun e => hnp e y (hinr y (hcrr y hy)))
      · exact same12 y (hrm y (hcrr y hy)) (fun e => hnp e y (hinr y (hcrr y hy)))
      · have hym := cr.nodes_sub_members y hy
        exact same8 y (hrm y (hcrr y hym)) (nddcr y hym).1
          (fun e e' => hrootsub e (e' ▸ FTree.mem_members_node.2 (Or.inr (Or.inr (Or.inr hym)))))
          (fun _ => hne) (fun e => hl_r _ (FTree.root_mem_members
            (e ▸ ok.ne_zero (hrm y (hcrr y hym)))) y (hcrr y hym) e.symm)
    refine ⟨wL, ?_, ?_, ?_, wLP, ?_, ?_, ?_⟩
    · rw [hroot']
      by_cases e : r.root = r.leftAddr
      · rw [if_pos e, ← s2]
        refine hfr _ (by omega) (fun e' => absurd e.symm e') (fun e0 => ?_) (fun e' => ⟨?_, by omega⟩)
        · have := ok.sep0 hcm hlroot
          have := hlc _ (FTree.root_mem_members e0)
          clear hfr same hdr hsz same0 same4 same12 same8 hpar hcpf hcpm hcpv hcpsub
          omega
        · have := (hpar e').2.2
          have := ok.sep' hcm (hpar e').1
          have := hnp e' _ (hinr _ hcr)
          clear hfr same hdr hsz same0 same4 same12 same8 hpar hcpf hcpm hcpv hcpsub
          omega
      · rw [if_neg e]; exact wR (Ne.symm e)
    · rw [same12 _ hcm (fun e => hnp e _ (hinr _ hcr))]; exact s3
    · refine ChainOK_congr _ (fun y hy => ⟨?_, ?_, ?_⟩) s4
      · exact same0 y (hrm y (hcrepsr y hy)) (fun e => ndcar (e ▸ hy))
          (fun e => hcpsub e y (FTree.mem_members_node.2 (Or.inr (Or.inr (Or.inl hy)))))
          (fun e => hnp e y (hinr y (hcrepsr y hy)))
      · exact same4 y (hrm y (hcrepsr y hy)) (fun e => ndcar (e ▸ hy))
          (fun e => hnp e y (hinr y (hcrepsr y hy)))
      · exact same12 y (hrm y (hcrepsr y hy)) (fun e => hnp e y (hinr y (hcrepsr y hy)))
    · rw [hroot']
      by_cases e : r.root = r.leftAddr
      · rw [if_pos e]
        intro e0
        have hm := FTree.root_mem_members e0
        rw [same8 _ (hrm _ (hcrr _ hm)) (nddcr _ hm).1 (fun e' => absurd e.symm e')
          (fun e' => absurd e.symm e')
          (fun e' => hl_r _ (FTree.root_mem_members (e' ▸ e0)) _ (hcrr _ hm) e'.symm)]
        exact s6 e0
      · rw [if_neg e]; exact fun _ => wRP (Ne.symm e)
    · refine Shape_congr ndl (fun y hy => ⟨?_, ?_, ?_⟩) (fun y hy hne => ?_) c7
      · exact same0 y (hlm y hy) (hlc y hy)
          (fun e => hl_r y hy _ (r.nodes_sub_members _ (hcpf e).1))
          (fun e => hnp e y (hinl y hy))
      · exact same4 y (hlm y hy) (hlc y hy) (fun e => hnp e y (hinl y hy))
      · exact same12 y (hlm y hy) (fun e => hnp e y (hinl y hy))
      · have hym := l.nodes_sub_members y hy
        exact same8 y (hlm y hym) (hlc y hym) (fun _ => hl_r y hym _ hrrootr)
          (fun _ e' => hl_r y hym _ (hcrr _ (FTree.root_mem_members
            (e' ▸ ok.ne_zero (hlm y hym)))) e') hne
    · refine Shape_subst c8 ndr (ok.ne_zero hcm) hcn ?_ ?_ ?_ hcrshape
        (fun e0 e => wCRP e e0)
      · intro a ha hns hnp'
        rw [hcsub] at hns
        have hac : a ≠ r.leftAddr := fun e =>
          hns (e ▸ FTree.mem_members_node.2 (Or.inr (Or.inl rfl)))
        exact ⟨same0 a (hrm a ha) hac (fun _ => hnp') (fun e => hnp e a (hinr a ha)),
          same4 a (hrm a ha) hac (fun e => hnp e a (hinr a ha)),
          same12 a (hrm a ha) (fun e => hnp e a (hinr a ha))⟩
      · intro a ha hns hnr
        rw [hcsub] at hns
        have ham := r.nodes_sub_members a ha
        exact same8 a (hrm a ham)
          (fun e => hns (e ▸ FTree.mem_members_node.2 (Or.inr (Or.inl rfl))))
          (fun _ => hnr)
          (fun _ e' => hns (e' ▸ FTree.mem_members_node.2 (Or.inr (Or.inr (Or.inr
            (FTree.root_mem_members (e' ▸ ok.ne_zero (hrm a ham))))))))
          (fun e' => hl_r _ (FTree.root_mem_members (e' ▸ ok.ne_zero (hrm a ham))) a ham e'.symm)
      · intro e
        have hcpne : r.parentOf r.leftAddr ≠ r.leftAddr := fun e' =>
          hcpsub e _ (FTree.mem_members_node.2 (Or.inr (Or.inl rfl))) e'.symm
        have hcpp : b ≠ t.root → r.parentOf r.leftAddr ≠ t.parentOf b := fun e' =>
          hnp e' _ (hinr _ (r.nodes_sub_members _ (hcpf e).1))
        refine ⟨same12 _ (hcpm e) hcpp, fun _ => ⟨wCP e, same4 _ (hcpm e) hcpne hcpp⟩,
          fun _ hn => absurd (hcpv e) hn⟩
  · -- order
    intro lo hi ho
    rw [hsub] at ho
    obtain ⟨o1, o2, o3, o4, o5⟩ := ho
    obtain ⟨j1, j2, j3, j4⟩ := Ordered_popLeft o5 ndr hcsub hr
    have ec : szOf h'.words r.leftAddr = szOf h.words r.leftAddr := hsz _ hcm
    refine ⟨?_, ?_, ?_, ?_, ?_⟩
    · rw [ec]; exact lt_trans o1 j1
    · rw [ec]; exact j2
    · intro y hy
      rw [ec, hsz y (hrm y (hcrepsr y hy))]
      exact j3 y hy
    · rw [ec]
      exact Ordered_congr (fun y hy => hsz y (hlm y hy)) (Ordered_mono o4 (le_refl _) (le_of_lt j1))
    · rw [ec]
      exact Ordered_congr (fun y hy => hsz y (hrm y (hr'r y hy))) j4
  · -- the slot of the parent
    intro e
    rw [hslot]
    refine ⟨wS e, ?_⟩
    intro q q1 q2 q3
    have hp24 := (ok.lt (hpar e).1).1
    have sub : ∀ y ∈ (FTree.node l b reps r).members, ∀ j, j < 16 → q ≠ y + j := fun y hy j hj =>
      range_ne_slot q1 q2 hj (ok.sep y (hsm y hy) _ (hpar e).1 (hnp e y hy))
    refine hfr q (sub _ (hinr _ hcr) 0 (by decide))
      (fun e' => ⟨sub _ (hinr _ hcr) 4 (by decide), sub _ (hinr _ hrrootr) 8 (by decide),
        sub _ (hinr _ (r.nodes_sub_members _ (hcpf e').1)) 0 (by decide),
        fun e0 => sub _ (hinr _ (hcrr _ (FTree.root_mem_members e0))) 8 (by decide)⟩)
      (fun e0 => sub _ (hinl _ (FTree.root_mem_members e0)) 8 (by decide))
      (fun _ => ⟨q3, sub _ (hinr _ hcr) 8 (by decide)⟩)
  · intro _ e
    exact wUP e
  · exact hseat

/-! ### Running `deleteNodeRoot` on a root with two children -/

theorem GET_setSeat (h : Heap) (s q : Nat) : GET (h.setSeat s) q = GET h q := rfl

theorem setSeat_valid_eq (h : Heap) (s q : Nat) : (h.setSeat s).valid q = h.valid q := rfl

theorem rootNear_exec {h : Heap} {b c lr : Nat} {fuel : Nat}
    (hb : 24 ≤ b ∧ b + 16 < 4294967296) (hc : 24 ≤ c ∧ c + 16 < 4294967296)
    (hl : 24 ≤ lr ∧ lr + 16 < 4294967296)
    (vb : h.valid (b - 4) ∧ h.valid b ∧ h.valid (b + 4) ∧ h.valid (b + 8) ∧ h.valid (b + 12))
    (vc : h.valid (c - 4) ∧ h.valid c ∧ h.valid (c + 4) ∧ h.valid (c + 8) ∧ h.valid (c + 12))
    (vl : h.valid (lr - 4) ∧ h.valid lr ∧ h.valid (lr + 4) ∧ h.valid (lr + 8) ∧
      h.valid (lr + 12))
    (sbc : b + 24 ≤ c ∨ c + 24 ≤ b) (sbl : b + 24 ≤ lr ∨ lr + 24 ≤ b) :
    h.words b = lr → h.words (b + 4) = c → leftmost fuel h c = .ok c →
    deleteNodeRoot fuel h b = .ok (rootNearHeap h c lr) := by
  obtain ⟨vb0, vb1, vb2, vb3, vb4⟩ := vb
  obtain ⟨vc0, vc1, vc2, vc3, vc4⟩ := vc
  obtain ⟨vl0, vl1, vl2, vl3, vl4⟩ := vl
  obtain ⟨ab0, ab1, ab2, ab3⟩ := addr_facts2 hb
  obtain ⟨al0, al1, al2, al3⟩ := addr_facts2 hl
  have l0 : lr ≠ 0 := by omega
  have c0 : c ≠ 0 := by omega
  clear hb hc hl
  obtain ⟨⟨bc00, bc04, bc08, bc0c⟩, ⟨bc40, bc44, bc48, bc4c⟩, ⟨bc80, bc84, bc88, bc8c⟩,
    ⟨bcc0, bcc4, bcc8, bccc⟩⟩ := fields_ne sbc
  obtain ⟨⟨bl00, bl04, bl08, bl0c⟩, ⟨bl40, bl44, bl48, bl4c⟩, ⟨bl80, bl84, bl88, bl8c⟩,
    ⟨blc0, blc4, blc8, blcc⟩⟩ := fields_ne sbl
  intro e0 e1 hlm
  have g0 := GET_val vb1 e0
  have g1 := GET_val vb2 e1
  unfold deleteNodeRoot rootNearHeap
  simp (disch := first | assumption | (simp only [store_valid_eq, setSeat_valid_eq]; assumption))
    only [ab1, al2, GET_LEFT, GET_RIGHT, PUT_LEFT, PUT_RIGHT, LEFT_eq, g0, g1, ok_bind, map_ok,
      l0, c0, ne_eq, not_false_eq_true, if_true, decide_True, hlm, GET_setSeat, GET_store_ne,
      PUT_ok, not_true_eq_false, if_false]

theorem rootFar_exec {h : Heap} {b c lr rr cp crr : Nat} {fuel : Nat}
    (hb : 24 ≤ b ∧ b + 16 < 4294967296) (hc : 24 ≤ c ∧ c + 16 < 4294967296)
    (hl : 24 ≤ lr ∧ lr + 16 < 4294967296) (hr : 24 ≤ rr ∧ rr + 16 < 4294967296)
    (hcr : crr = 0 ∨ (24 ≤ crr ∧ crr + 16 < 4294967296))
    (vb : h.valid (b - 4) ∧ h.valid b ∧ h.valid (b + 4) ∧ h.valid (b + 8) ∧ h.valid (b + 12))
    (vc : h.valid (c - 4) ∧ h.valid c ∧ h.valid (c + 4) ∧ h.valid (c + 8) ∧ h.valid (c + 12))
    (vl : h.valid (lr - 4) ∧ h.valid lr ∧ h.valid (lr + 4) ∧ h.valid (lr + 8) ∧
      h.valid (lr + 12))
    (vr : h.valid (rr - 4) ∧ h.valid rr ∧ h.valid (rr + 4) ∧ h.valid (rr + 8) ∧
      h.valid (rr + 12))
    (vcp : h.valid cp) (vcr : crr ≠ 0 → h.valid (crr + 8))
    (sbc : b + 24 ≤ c ∨ c + 24 ≤ b) (sbl : b + 24 ≤ lr ∨ lr + 24 ≤ b)
    (sbr : b + 24 ≤ rr ∨ rr + 24 ≤ b) (sbcp : b + 24 ≤ cp ∨ cp + 24 ≤ b)
    (sbcr : crr = 0 ∨ b + 24 ≤ crr ∨ crr + 24 ≤ b)
    (scl : c + 24 ≤ lr ∨ lr + 24 ≤ c) (sccp : c + 24 ≤ cp ∨ cp + 24 ≤ c)
    (sccr : crr = 0 ∨ c + 24 ≤ crr ∨ crr + 24 ≤ c) (hcrr : c ≠ rr) :
    h.words b = lr → h.words (b + 4) = rr → h.words (c + 4) = crr → h.words (c + 8) = cp →
    leftmost fuel h rr = .ok c →
    deleteNodeRoot fuel h b = .ok (rootFarHeap h c lr rr cp crr) := by
  obtain ⟨vb0, vb1, vb2, vb3, vb4⟩ := vb
  obtain ⟨vc0, vc1, vc2, vc3, vc4⟩ := vc
  obtain ⟨vl0, vl1, vl2, vl3, vl4⟩ := vl
  obtain ⟨vr0, vr1, vr2, vr3, vr4⟩ := vr
  obtain ⟨ab0, ab1, ab2, ab3⟩ := addr_facts2 hb
  obtain ⟨ac0, ac1, ac2, ac3⟩ := addr_facts2 hc
  obtain ⟨al0, al1, al2, al3⟩ := addr_facts2 hl
  obtain ⟨ar0, ar1, ar2, ar3⟩ := addr_facts2 hr
  have l0 : lr ≠ 0 := by omega
  have r0 : rr ≠ 0 := by omega
  have hcr1 := child_facts hcr sbcr
  have hcr2 := child_facts hcr sccr
  clear hb hc hl hr hcr sbcr sccr
  obtain ⟨⟨bc00, bc04, bc08, bc0c⟩, ⟨bc40, bc44, bc48, bc4c⟩, ⟨bc80, bc84, bc88, bc8c⟩,
    ⟨bcc0, bcc4, bcc8, bccc⟩⟩ := fields_ne sbc
  obtain ⟨⟨bl00, bl04, bl08, bl0c⟩, ⟨bl40, bl44, bl48, bl4c⟩, ⟨bl80, bl84, bl88, bl8c⟩,
    ⟨blc0, blc4, blc8, blcc⟩⟩ := fields_ne sbl
  obtain ⟨⟨br00, br04, br08, br0c⟩, ⟨br40, br44, br48, br4c⟩, ⟨br80, br84, br88, br8c⟩,
    ⟨brc0, brc4, brc8, brcc⟩⟩ := fields_ne sbr
  obtain ⟨⟨bp00, bp04, bp08, bp0c⟩, ⟨bp40, bp44, bp48, bp4c⟩, ⟨bp80, bp84, bp88, bp8c⟩,
    ⟨bpc0, bpc4, bpc8, bpcc⟩⟩ := fields_ne sbcp
  obtain ⟨⟨cl00, cl04, cl08, cl0c⟩, ⟨cl40, cl44, cl48, cl4c⟩, ⟨cl80, cl84, cl88, cl8c⟩,
    ⟨clc0, clc4, clc8, clcc⟩⟩ := fields_ne scl
  obtain ⟨⟨cp00, cp04, cp08, cp0c⟩, ⟨cp40, cp44, cp48, cp4c⟩, ⟨cp80, cp84, cp88, cp8c⟩,
    ⟨cpc0, cpc4, cpc8, cpcc⟩⟩ := fields_ne sccp
  intro e0 e1 e2 e3 hlm
  have g0 := GET_val vb1 e0
  have g1 := GET_val vb2 e1
  have g2 := GET_val vc2 e2
  have g3 := GET_val vc3 e3
  unfold deleteNodeRoot rootFarHeap
  by_cases hcr0 : crr = 0
  · subst hcr0
    simp (disch := first | assumption | (simp only [store_valid_eq, setSeat_valid_eq]; assumption))
      only [ab1, al2, ac1, ac2, ar2, GET_LEFT, GET_RIGHT, PUT_LEFT, PUT_RIGHT, LEFT_eq, g0, g1,
        g2, g3, ok_bind, map_ok, l0, r0, hcrr, ne_eq, not_false_eq_true, if_true, decide_True,
        hlm, GET_setSeat, GET_store_ne, PUT_ok, not_true_eq_false, if_false]
  · obtain ⟨s1, acr2⟩ := hcr1 hcr0
    obtain ⟨s2, -⟩ := hcr2 hcr0
    have vcr' := vcr hcr0
    obtain ⟨⟨bq00, bq04, bq08, bq0c⟩, ⟨bq40, bq44, bq48, bq4c⟩, ⟨bq80, bq84, bq88, bq8c⟩,
      ⟨bqc0, bqc4, bqc8, bqcc⟩⟩ := fields_ne s1
    obtain ⟨⟨cq00, cq04, cq08, cq0c⟩, ⟨cq40, cq44, cq48, cq4c⟩, ⟨cq80, cq84, cq88, cq8c⟩,
      ⟨cqc0, cqc4, cqc8, cqcc⟩⟩ := fields_ne s2
    simp (disch := first | assumption | (simp only [store_valid_eq, setSeat_valid_eq]; assumption))
      only [ab1, al2, ac1, ac2, ar2, acr2, GET_LEFT, GET_RIGHT, PUT_LEFT, PUT_RIGHT, LEFT_eq, g0,
        g1, g2, g3, ok_bind, map_ok, l0, r0, hcrr, hcr0, ne_eq, not_false_eq_true, if_true,
        decide_True, hlm, GET_setSeat, GET_store_ne, PUT_ok, not_true_eq_false, if_false]

/-! ### The words after `deleteNodeRoot` on a root with two children -/

theorem plus8_ne {y m : Nat} (s : y + 24 ≤ m ∨ m + 24 ≤ y) :
    y + 8 ≠ m + 8 ∧ y + 8 ≠ m ∧ y + 8 ≠ m + 4 ∧ y ≠ m + 8 ∧ y + 4 ≠ m + 8 ∧ y ≠ m ∧
    y ≠ m + 4 ∧ y + 4 ≠ m := by
  omega

theorem self_ne (c : Nat) : c ≠ c + 4 ∧ c ≠ c + 8 ∧ c + 4 ≠ c ∧ c + 4 ≠ c + 8 ∧ c + 8 ≠ c ∧
    c + 8 ≠ c + 4 := by
  omega

theorem same_or_ne {cp rr : Nat} (s : cp = rr ∨ cp + 24 ≤ rr ∨ rr + 24 ≤ cp) :
    cp ≠ rr + 8 ∧ rr + 8 ≠ cp := by
  omega

theorem rootNear_facts {h : Heap} {c lr : Nat} (hc : c < 4294967296) (hl : lr < 4294967296)
    (scl : c + 24 ≤ lr ∨ lr + 24 ≤ c) :
    (rootNearHeap h c lr).words c = lr ∧ (rootNearHeap h c lr).words (lr + 8) = c ∧
    (∀ q, q ≠ c → q ≠ lr + 8 → (rootNearHeap h c lr).words q = h.words q) ∧
    SameArena h (rootNearHeap h c lr) ∧ (rootNearHeap h c lr).seat = c := by
  have mc : c % W32 = c := Nat.mod_eq_of_lt hc
  have ml : lr % W32 = lr := Nat.mod_eq_of_lt hl
  obtain ⟨-, -, -, -, -, -, -, -⟩ := plus8_ne scl
  obtain ⟨-, d2, -, -, -, -, -, -⟩ := plus8_ne scl.symm
  refine ⟨?_, ?_, ?_, ⟨rfl, rfl, rfl, rfl⟩, rfl⟩
  all_goals try intro q q1 q2
  all_goals
    simp only [rootNearHeap, store_words, setSeat_words, mc, ml, if_true, if_false, d2, *]

theorem rootFar_facts {h : Heap} {c lr rr cp crr : Nat} (hc : c < 4294967296)
    (hl : lr < 4294967296) (hr : rr < 4294967296) (hcp : cp < 4294967296)
    (hcr : crr < 4294967296)
    (scl : c + 24 ≤ lr ∨ lr + 24 ≤ c) (scr : c + 24 ≤ rr ∨ rr + 24 ≤ c)
    (sccp : c + 24 ≤ cp ∨ cp + 24 ≤ c) (sccr : crr = 0 ∨ c + 24 ≤ crr ∨ crr + 24 ≤ c)
    (slr : lr + 24 ≤ rr ∨ rr + 24 ≤ lr) (slcp : lr + 24 ≤ cp ∨ cp + 24 ≤ lr)
    (slcr : crr = 0 ∨ lr + 24 ≤ crr ∨ crr + 24 ≤ lr)
    (srcr : crr = 0 ∨ rr + 24 ≤ crr ∨ crr + 24 ≤ rr)
    (spcr : crr = 0 ∨ cp + 24 ≤ crr ∨ crr + 24 ≤ cp)
    (spr : cp = rr ∨ cp + 24 ≤ rr ∨ rr + 24 ≤ cp) :
    (rootFarHeap h c lr rr cp crr).words c = lr ∧
    (rootFarHeap h c lr rr cp crr).words (c + 4) = rr ∧
    (rootFarHeap h c lr rr cp crr).words (rr + 8) = c ∧
    (rootFarHeap h c lr rr cp crr).words (lr + 8) = c ∧
    (rootFarHeap h c lr rr cp crr).words cp = crr ∧
    (crr ≠ 0 → (rootFarHeap h c lr rr cp crr).words (crr + 8) = cp) ∧
    (∀ q, q ≠ c → q ≠ c + 4 → q ≠ rr + 8 → q ≠ cp → (crr ≠ 0 → q ≠ crr + 8) → q ≠ lr + 8 →
      (rootFarHeap h c lr rr cp crr).words q = h.words q) ∧
    SameArena h (rootFarHeap h c lr rr cp crr) ∧ (rootFarHeap h c lr rr cp crr).seat = c := by
  have mc : c % W32 = c := Nat.mod_eq_of_lt hc
  have ml : lr % W32 = lr := Nat.mod_eq_of_lt hl
  have mr : rr % W32 = rr := Nat.mod_eq_of_lt hr
  have mp : cp % W32 = cp := Nat.mod_eq_of_lt hcp
  have mq : crr % W32 = crr := Nat.mod_eq_of_lt hcr
  obtain ⟨a1, a2, a3, a4, a5, a6, a7, a8⟩ := plus8_ne scl
  obtain ⟨b1, b2, b3, b4, b5, b6, b7, b8⟩ := plus8_ne scl.symm
  obtain ⟨c1, c2, c3, c4, c5, c6, c7, c8⟩ := plus8_ne scr
  obtain ⟨d1, d2, d3, d4, d5, d6, d7, d8⟩ := plus8_ne scr.symm
  obtain ⟨e1, e2, e3, e4, e5, e6, e7, e8⟩ := plus8_ne sccp
  obtain ⟨f1, f2, f3, f4, f5, f6, f7, f8⟩ := plus8_ne sccp.symm
  obtain ⟨g1, g2, g3, g4, g5, g6, g7, g8⟩ := plus8_ne slr
  obtain ⟨i1, i2, i3, i4, i5, i6, i7, i8⟩ := plus8_ne slr.symm
  obtain ⟨j1, j2, j3, j4, j5, j6, j7, j8⟩ := plus8_ne slcp
  obtain ⟨k1, k2, k3, k4, k5, k6, k7, k8⟩ := plus8_ne slcp.symm
  obtain ⟨n1, n2⟩ := same_or_ne spr
  obtain ⟨z1, z2, z3, z4, z5, z6⟩ := self_ne c
  have hsr := (rootFarHeap h c lr rr cp crr)
  by_cases hq0 : crr = 0
  · refine ⟨?_, ?_, ?_, ?_, ?_, fun e => absurd hq0 e, ?_, ?_, ?_⟩
    all_goals try intro q q1 q2 q3 q4 _ q6
    all_goals
      try simp only [rootFarHeap, store_words, setSeat_words, mc, ml, mr, mp, mq, hq0, if_true,
        if_false, ne_eq, not_true_eq_false, not_false_eq_true, *]
    · rfl
    · exact ⟨rfl, rfl, rfl, rfl⟩
    · rfl
  · obtain ⟨o1, o2, o3, o4, o5, o6, o7, o8⟩ := plus8_ne (sccr.resolve_left hq0)
    obtain ⟨p1, p2, p3, p4, p5, p6, p7, p8⟩ := plus8_ne (sccr.resolve_left hq0).symm
    obtain ⟨r1, r2, r3, r4, r5, r6, r7, r8⟩ := plus8_ne (slcr.resolve_left hq0)
    obtain ⟨s1, s2, s3, s4, s5, s6, s7, s8⟩ := plus8_ne (slcr.resolve_left hq0).symm
    obtain ⟨t1, t2, t3, t4, t5, t6, t7, t8⟩ := plus8_ne (srcr.resolve_left hq0)
    obtain ⟨u1, u2, u3, u4, u5, u6, u7, u8⟩ := plus8_ne (srcr.resolve_left hq0).symm
    obtain ⟨v1, v2, v3, v4, v5, v6, v7, v8⟩ := plus8_ne (spcr.resolve_left hq0)
    obtain ⟨w1, w2, w3, w4, w5, w6, w7, w8⟩ := plus8_ne (spcr.resolve_left hq0).symm
    refine ⟨?_, ?_, ?_, ?_, ?_, fun _ => ?_, ?_, ?_, ?_⟩
    all_goals try intro q q1 q2 q3 q4 q5 q6
    all_goals try have q5 := q5 hq0
    all_goals
      try simp only [rootFarHeap, store_words, setSeat_words, mc, ml, mr, mp, mq, hq0, if_true,
        if_false, ne_eq, not_true_eq_false, not_false_eq_true, *]
    · exact ⟨rfl, rfl, rfl, rfl⟩
    · rfl

/-! ### `deleteNode` on a root with two children -/

theorem FTree.ne_nil_of_root {r : FTree} (h : r.root ≠ 0) : r ≠ .nil := by
  intro e; rw [e] at h; exact h rfl

theorem FTree.height_sub {t : FTree} {b : Nat} {l r : FTree} {reps : List Nat}
    (hsub : t.subtreeAt b = .node l b reps r) : l.height < t.height ∧ r.height < t.height := by
  have := t.subtreeAt_height_le b
  rw [hsub] at this
  simp only [FTree.height] at this
  omega

theorem TreeOK.sepor {h : Heap} {t : FTree} (ok : TreeOK h t) {y m : Nat}
    (hy : y ∈ t.members) (hm : m ∈ t.members) : y = m ∨ y + 24 ≤ m ∨ m + 24 ≤ y :=
  ok.sep' hy hm

/-- The facts about the successor `c` of a node with right subtree `r` that the
branches of `deleteNode` use. -/
theorem TreeOK.succ_facts {h : Heap} {t : FTree} (ok : TreeOK h t) {b : Nat}
    {l r : FTree} {reps : List Nat} (hb : b ∈ t.nodes)
    (hsub : t.subtreeAt b = .node l b reps r) (hr : r.root ≠ 0) :
    ∃ creps cr, r.subtreeAt r.leftAddr = .node .nil r.leftAddr creps cr ∧
      r.leftAddr ∈ r.members ∧ h.words (r.leftAddr + 4) = cr.root ∧
      (∀ y ∈ cr.members, y ∈ r.members ∧ y ≠ r.leftAddr) ∧
      (∀ fuel, t.height ≤ fuel → leftmost fuel h r.root = .ok r.leftAddr) ∧
      (r.leftAddr ≠ r.root → r.parentOf r.leftAddr ∈ r.members ∧
        r.parentOf r.leftAddr ≠ r.leftAddr ∧
        (∀ y ∈ cr.members, y ≠ r.parentOf r.leftAddr) ∧
        (∀ y ∈ cr.members, y ≠ r.root) ∧
        h.words (r.leftAddr + 8) = r.parentOf r.leftAddr) := by
  obtain ⟨hsh, hsm, hsnd⟩ := ok.sub hsub
  obtain ⟨-, -, -, -, -, -, -, c8⟩ := hsh
  obtain ⟨-, ndr, -, -, -, -⟩ := FTree.nodup_node hsnd
  have hrn := FTree.ne_nil_of_root hr
  obtain ⟨hcn, creps, cr, hcsub⟩ := FTree.leftAddr_facts ndr hrn
  have hrm : ∀ y ∈ r.members, y ∈ t.members :=
    fun y hy => hsm y (FTree.mem_members_node.2 (Or.inr (Or.inr (Or.inr hy))))
  have hcshape : Shape h.words (.node .nil r.leftAddr creps cr) :=
    hcsub ▸ Shape_subtreeAt r.leftAddr c8
  have hcnd : (FTree.node .nil r.leftAddr creps cr).members.Nodup :=
    hcsub ▸ FTree.subtreeAt_nodup r.leftAddr ndr
  obtain ⟨-, -, -, -, -, nddcr⟩ := FTree.nodup_node hcnd
  have hcrr : ∀ y ∈ cr.members, y ∈ r.members := fun y hy =>
    r.subtreeAt_members_sub r.leftAddr y
      (hcsub ▸ FTree.mem_members_node.2 (Or.inr (Or.inr (Or.inr hy))))
  refine ⟨creps, cr, hcsub, r.nodes_sub_members _ hcn, hcshape.2.1,
    fun y hy => ⟨hcrr y hy, (nddcr y hy).1⟩, ?_, ?_⟩
  · intro fuel hf
    exact leftmost_spec c8
      (fun a ha => ⟨ok.ne_zero (hrm a (r.nodes_sub_members a ha)),
        (ok.valid (hrm a (r.nodes_sub_members a ha))).2.1⟩) hrn fuel
      (le_trans (le_of_lt (FTree.height_sub hsub).2) hf)
  · intro e
    obtain ⟨lo', hi', -, -, oo, -⟩ := Ordered_subtreeAt ok.ordered ok.nodup hb
    rw [hsub] at oo
    obtain ⟨q1, q2, q3, -⟩ := parent_facts c8 oo.2.2.2.2 ndr
      (ok.ne_zero (hrm _ (r.nodes_sub_members _ hcn))) hcn e
    rw [hcsub] at q2
    refine ⟨r.nodes_sub_members _ q1,
      fun e' => q2 (FTree.mem_members_node.2 (Or.inr (Or.inl e'))),
      fun y hy e' => q2 (e' ▸ FTree.mem_members_node.2 (Or.inr (Or.inr (Or.inr hy)))),
      fun y hy e' => ?_, q3⟩
    have := FTree.root_not_mem_subtreeAt ndr hcn e
    rw [hcsub] at this
    exact this (e' ▸ FTree.mem_members_node.2 (Or.inr (Or.inr (Or.inr hy))))

theorem deleteNode_root_both {h : Heap} {t : FTree} (ok : TreeOK h t) {b : Nat}
    {l r : FTree} {reps : List Nat} (hb : b ∈ t.nodes) (hroot : b = t.root)
    (hsub : t.subtreeAt b = .node l b reps r) (hl : l.root ≠ 0) (hr : r.root ≠ 0) :
    ∃ h' t', Deleted h t b h' t' ∧ DeletedExact h t b h' t' ∧
      ∀ fuel, t.height ≤ fuel → deleteNode fuel h b = .ok h' := by
  obtain ⟨hsh, hsm, hsnd⟩ := ok.sub hsub
  obtain ⟨c1, c2, -, -, -, -, -, -⟩ := hsh
  obtain ⟨-, -, -, -, nddl, nddr⟩ := FTree.nodup_node hsnd
  obtain ⟨creps, cr, hcsub, hcr, hcv, hcrm, hlmost, hfar⟩ := ok.succ_facts hb hsub hr
  have hbm : b ∈ t.members := t.nodes_sub_members b hb
  have hlm : ∀ y ∈ l.members, y ∈ t.members :=
    fun y hy => hsm y (FTree.mem_members_node.2 (Or.inl hy))
  have hrm : ∀ y ∈ r.members, y ∈ t.members :=
    fun y hy => hsm y (FTree.mem_members_node.2 (Or.inr (Or.inr (Or.inr hy))))
  have hlr' : l.root ∈ l.members := FTree.root_mem_members hl
  have hrr' : r.root ∈ r.members := FTree.root_mem_members hr
  have hcm := hrm _ hcr
  have hbseat : b = h.seat := ok.root ▸ hroot
  have hl_r : ∀ y ∈ l.members, ∀ z ∈ r.members, y ≠ z := fun y hy z hz e =>
    (nddl y hy).2.2 (e ▸ hz)
  have hb_l : ∀ y ∈ l.members, b ≠ y := fun y hy e => (nddl y hy).1 e.symm
  have hb_r : ∀ y ∈ r.members, b ≠ y := fun y hy e => (nddr y hy).1 e.symm
  have hcrroot : cr.root = 0 ∨ cr.root ∈ cr.members := cr.root_zero_or_mem
  have sepz : ∀ {y m : Nat}, y ∈ t.members → (m = 0 ∨ m ∈ t.members) → (m ≠ 0 → y ≠ m) →
      m = 0 ∨ y + 24 ≤ m ∨ m + 24 ≤ y := by
    intro y m hy hm hne
    rcases hm with e | e
    · exact Or.inl e
    · exact Or.inr (ok.sep y hy m e (hne (ok.ne_zero e)))
  by_cases hnear : r.leftAddr = r.root
  · have hex := fun fuel (hf : t.height ≤ fuel) =>
      @rootNear_exec _ _ _ _ fuel (ok.lt hbm) (ok.lt hcm) (ok.lt (hlm _ hlr')) (ok.valid hbm)
        (ok.valid hcm) (ok.valid (hlm _ hlr')) (ok.sep b hbm _ hcm (hb_r _ hcr))
        (ok.sep b hbm _ (hlm _ hlr') (hb_l _ hlr')) c1 (hnear ▸ c2)
        (by have := hlmost fuel hf; rw [← hnear] at this; exact this)
    obtain ⟨w1, w2, hfr, har, hseat⟩ := rootNear_facts (h := h) (ok.lt1 (Or.inr hcm))
      (ok.lt1 (Or.inr (hlm _ hlr')))
      (ok.sep _ hcm _ (hlm _ hlr') (fun e => hl_r _ hlr' _ hcr e.symm))
    obtain ⟨k1, k2, k3, k4, k5⟩ := succ_tree ok hb hsub (FTree.ne_nil_of_root hr) rfl hcsub rfl har
      (by rw [hseat, if_pos hroot.symm])
      w1 (fun e => absurd hnear e) (fun e => absurd hnear e) (fun _ => w2)
      (fun e => absurd hnear e) (fun e => absurd hnear e)
      (fun e => absurd hroot e) (fun e => absurd hroot e)
      (fun q q1 _ q3 _ => hfr q q1 (q3 hl))
    refine ⟨_, _, ⟨har, k1, k2, k3, k4⟩, k5 (Or.inl hroot), fun fuel hf => ?_⟩
    simp only [deleteNode, eq_true hbseat, ne_eq, not_true_eq_false, if_false, hex fuel hf]
  · obtain ⟨f1, f2, f3, f4, f5⟩ := hfar hnear
    have hcpm := hrm _ f1
    have hcrt : cr.root = 0 ∨ cr.root ∈ t.members :=
      hcrroot.imp id (fun e => hrm _ (hcrm _ e).1)
    have hex := fun fuel (hf : t.height ≤ fuel) =>
      @rootFar_exec _ _ _ _ _ (r.parentOf r.leftAddr) cr.root fuel
        (ok.lt hbm) (ok.lt hcm) (ok.lt (hlm _ hlr')) (ok.lt (hrm _ hrr')) (ok.lt0 hcrt)
        (ok.valid hbm) (ok.valid hcm) (ok.valid (hlm _ hlr')) (ok.valid (hrm _ hrr'))
        (ok.valid hcpm).2.1 (ok.valid8 hcrt)
        (ok.sep b hbm _ hcm (hb_r _ hcr)) (ok.sep b hbm _ (hlm _ hlr') (hb_l _ hlr'))
        (ok.sep b hbm _ (hrm _ hrr') (hb_r _ hrr')) (ok.sep b hbm _ hcpm (hb_r _ f1))
        (sepz hbm hcrt (fun e => hb_r _ (hcrm _ (hcrroot.resolve_left e)).1))
        (ok.sep _ hcm _ (hlm _ hlr') (fun e => hl_r _ hlr' _ hcr e.symm))
        (ok.sep _ hcm _ hcpm (Ne.symm f2))
        (sepz hcm hcrt (fun e => (hcrm _ (hcrroot.resolve_left e)).2.symm))
        hnear c1 c2 hcv f5 (hlmost fuel hf)
    obtain ⟨w1, w2, w3, w4, w5, w6, hfr, har, hseat⟩ := @rootFar_facts h
      r.leftAddr l.root r.root (r.parentOf r.leftAddr) cr.root
      (ok.lt1 (Or.inr hcm)) (ok.lt1 (Or.inr (hlm _ hlr'))) (ok.lt1 (Or.inr (hrm _ hrr')))
      (ok.lt1 (Or.inr hcpm)) (ok.lt1 hcrt)
      (ok.sep _ hcm _ (hlm _ hlr') (fun e => hl_r _ hlr' _ hcr e.symm))
      (ok.sep _ hcm _ (hrm _ hrr') hnear)
      (ok.sep _ hcm _ hcpm (Ne.symm f2))
      (sepz hcm hcrt (fun e => (hcrm _ (hcrroot.resolve_left e)).2.symm))
      (ok.sep _ (hlm _ hlr') _ (hrm _ hrr') (hl_r _ hlr' _ hrr'))
      (ok.sep _ (hlm _ hlr') _ hcpm (hl_r _ hlr' _ f1))
      (sepz (hlm _ hlr') hcrt (fun e => hl_r _ hlr' _ (hcrm _ (hcrroot.resolve_left e)).1))
      (sepz (hrm _ hrr') hcrt (fun e => (f4 _ (hcrroot.resolve_left e)).symm))
      (sepz hcpm hcrt (fun e => (f3 _ (hcrroot.resolve_left e)).symm))
      (ok.sepor hcpm (hrm _ hrr'))
    obtain ⟨k1, k2, k3, k4, k5⟩ := succ_tree ok hb hsub (FTree.ne_nil_of_root hr) rfl hcsub rfl har
      (by rw [hseat, if_pos hroot.symm])
      w1 (fun _ => w2) (fun _ => w3) (fun _ => w4) (fun _ => w5) (fun _ => w6)
      (fun e => absurd hroot e) (fun e => absurd hroot e)
      (fun q q1 q2 q3 _ => hfr q q1 (q2 hnear).1 (q2 hnear).2.1 (q2 hnear).2.2.1
        (q2 hnear).2.2.2 (q3 hl))
    refine ⟨_, _, ⟨har, k1, k2, k3, k4⟩, k5 (Or.inl hroot), fun fuel hf => ?_⟩
    simp only [deleteNode, eq_true hbseat, ne_eq, not_true_eq_false, if_false, hex fuel hf]

/-! ### Running `deleteNodePlain` on a node with a right child -/

theorem plainNear_exec {h : Heap} {b c p lr slot : Nat} {fuel : Nat}
    (hb : 24 ≤ b ∧ b + 16 < 4294967296) (hc : 24 ≤ c ∧ c + 16 < 4294967296)
    (hp : 24 ≤ p ∧ p + 16 < 4294967296)
    (hl : lr = 0 ∨ (24 ≤ lr ∧ lr + 16 < 4294967296))
    (vb : h.valid (b - 4) ∧ h.valid b ∧ h.valid (b + 4) ∧ h.valid (b + 8) ∧ h.valid (b + 12))
    (vc : h.valid (c - 4) ∧ h.valid c ∧ h.valid (c + 4) ∧ h.valid (c + 8) ∧ h.valid (c + 12))
    (vp : h.valid (p - 4) ∧ h.valid p ∧ h.valid (p + 4) ∧ h.valid (p + 8) ∧ h.valid (p + 12))
    (vl : lr ≠ 0 → h.valid (lr + 8))
    (hs : slot = p ∨ slot = p + 4)
    (sbc : b + 24 ≤ c ∨ c + 24 ≤ b) (sbp : b + 24 ≤ p ∨ p + 24 ≤ b)
    (sbl : lr = 0 ∨ b + 24 ≤ lr ∨ lr + 24 ≤ b) :
    h.words b = lr → h.words (b + 4) = c → h.words (b + 8) = p →
    (if szOf h.words b > szOf h.words p then p + 4 else p) = slot →
    leftmost fuel h c = .ok c →
    deleteNodePlain fuel h b = .ok (plainNearHeap h slot c p lr) := by
  obtain ⟨vb0, vb1, vb2, vb3, vb4⟩ := vb
  obtain ⟨vc0, vc1, vc2, vc3, vc4⟩ := vc
  obtain ⟨vp0, vp1, vp2, vp3, vp4⟩ := vp
  obtain ⟨ab0, ab1, ab2, ab3⟩ := addr_facts2 hb
  obtain ⟨ac0, ac1, ac2, ac3⟩ := addr_facts2 hc
  obtain ⟨ap0, ap1, ap2, ap3⟩ := addr_facts2 hp
  have vs : h.valid slot := by
    rcases hs with e | e <;> rw [e] <;> assumption
  obtain ⟨bs0, bs4, bs8, bsc⟩ := slot_ne sbp hs
  have hl' := child_facts hl sbl
  have c0 : c ≠ 0 := by omega
  clear hb hp hl sbl hs sbp hc
  obtain ⟨⟨bc00, bc04, bc08, bc0c⟩, ⟨bc40, bc44, bc48, bc4c⟩, ⟨bc80, bc84, bc88, bc8c⟩, -⟩ :=
    fields_ne sbc
  intro e0 e1 e2 hslot hlm
  have g0 := GET_val vb1 e0
  have g1 := GET_val vb2 e1
  have g2 := GET_val vb3 e2
  unfold szOf at hslot
  unfold deleteNodePlain plainNearHeap
  simp only [ab0, ab1, ab2, ab3, GET_LEFT, GET_RIGHT, PUT_LEFT, PUT_RIGHT, LEFT_eq, GET_SIZE,
    GET_val vb0 rfl, g0, g1, g2, ok_bind, map_ok, ap0, ap1, GET_val vp0 rfl, ite_PUT, hslot,
    PUT_ok _ vs, ne_eq, c0, not_false_eq_true, if_true, hlm]
  by_cases hl0 : lr = 0
  · subst hl0
    simp (disch := first | assumption | (simp only [store_valid_eq]; assumption)) only
      [GET_store_ne, g0, g1, g2, ok_bind, PUT_ok, ne_eq, not_true_eq_false, if_false, LEFT_eq,
        ac2]
  · obtain ⟨s, al2⟩ := hl' hl0
    have vl' := vl hl0
    simp (disch := first | assumption | (simp only [store_valid_eq]; assumption)) only
      [GET_store_ne, g0, g1, g2, ok_bind, PUT_ok, al2, ne_eq, not_true_eq_false, if_false, hl0,
        not_false_eq_true, if_true, LEFT_eq, ac2]

theorem plainFar_exec {h : Heap} {b c p lr rr cp crr slot : Nat} {fuel : Nat}
    (hb : 24 ≤ b ∧ b + 16 < 4294967296) (hc : 24 ≤ c ∧ c + 16 < 4294967296)
    (hp : 24 ≤ p ∧ p + 16 < 4294967296)
    (hl : lr = 0 ∨ (24 ≤ lr ∧ lr + 16 < 4294967296)) (hr : 24 ≤ rr ∧ rr + 16 < 4294967296)
    (hcr : crr = 0 ∨ (24 ≤ crr ∧ crr + 16 < 4294967296))
    (vb : h.valid (b - 4) ∧ h.valid b ∧ h.valid (b + 4) ∧ h.valid (b + 8) ∧ h.valid (b + 12))
    (vc : h.valid (c - 4) ∧ h.valid c ∧ h.valid (c + 4) ∧ h.valid (c + 8) ∧ h.valid (c + 12))
    (vp : h.valid (p - 4) ∧ h.valid p ∧ h.valid (p + 4) ∧ h.valid (p + 8) ∧ h.valid (p + 12))
    (vr : h.valid (rr - 4) ∧ h.valid rr ∧ h.valid (rr + 4) ∧ h.valid (rr + 8) ∧
      h.valid (rr + 12))
    (vl : lr ≠ 0 → h.valid (lr + 8)) (vcp : h.valid cp) (vcr : crr ≠ 0 → h.valid (crr + 8))
    (hs : slot = p ∨ slot = p + 4)
    (sbc : b + 24 ≤ c ∨ c + 24 ≤ b) (sbp : b + 24 ≤ p ∨ p + 24 ≤ b)
    (sbl : lr = 0 ∨ b + 24 ≤ lr ∨ lr + 24 ≤ b)
    (sbr : b + 24 ≤ rr ∨ rr + 24 ≤ b) (sbcp : b + 24 ≤ cp ∨ cp + 24 ≤ b)
    (sbcr : crr = 0 ∨ b + 24 ≤ crr ∨ crr + 24 ≤ b)
    (scp : c + 24 ≤ p ∨ p + 24 ≤ c) (sccp : c + 24 ≤ cp ∨ cp + 24 ≤ c)
    (sccr : crr = 0 ∨ c + 24 ≤ crr ∨ crr + 24 ≤ c) (hcrr : c ≠ rr) :
    h.words b = lr → h.words (b + 4) = rr → h.words (b + 8) = p →
    h.words (c + 4) = crr → h.words (c + 8) = cp →
    (if szOf h.words b > szOf h.words p then p + 4 else p) = slot →
    leftmost fuel h rr = .ok c →
    deleteNodePlain fuel h b = .ok (plainFarHeap h slot c p lr rr cp crr) := by
  obtain ⟨vb0, vb1, vb2, vb3, vb4⟩ := vb
  obtain ⟨vc0, vc1, vc2, vc3, vc4⟩ := vc
  obtain ⟨vp0, vp1, vp2, vp3, vp4⟩ := vp
  obtain ⟨vr0, vr1, vr2, vr3, vr4⟩ := vr
  obtain ⟨ab0, ab1, ab2, ab3⟩ := addr_facts2 hb
  obtain ⟨ac0, ac1, ac2, ac3⟩ := addr_facts2 hc
  obtain ⟨ap0, ap1, ap2, ap3⟩ := addr_facts2 hp
  obtain ⟨ar0, ar1, ar2, ar3⟩ := addr_facts2 hr
  have vs : h.valid slot := by
    rcases hs with e | e <;> rw [e] <;> assumption
  obtain ⟨bs0, bs4, bs8, bsc⟩ := slot_ne sbp hs
  obtain ⟨cs0, cs4, cs8, csc⟩ := slot_ne scp hs
  have hl' := child_facts hl sbl
  have hcr1 := child_facts hcr sbcr
  have hcr2 := child_facts hcr sccr
  have r0 : rr ≠ 0 := by omega
  clear hb hp hl sbl hs sbp hc hr hcr sbcr sccr scp
  obtain ⟨⟨bc00, bc04, bc08, bc0c⟩, ⟨bc40, bc44, bc48, bc4c⟩, ⟨bc80, bc84, bc88, bc8c⟩, -⟩ :=
    fields_ne sbc
  obtain ⟨⟨br00, br04, br08, br0c⟩, ⟨br40, br44, br48, br4c⟩, ⟨br80, br84, br88, br8c⟩, -⟩ :=
    fields_ne sbr
  obtain ⟨⟨bp00, bp04, bp08, bp0c⟩, ⟨bp40, bp44, bp48, bp4c⟩, ⟨bp80, bp84, bp88, bp8c⟩, -⟩ :=
    fields_ne sbcp
  obtain ⟨-, ⟨cp40, cp44, cp48, cp4c⟩, ⟨cp80, cp84, cp88, cp8c⟩, -⟩ := fields_ne sccp
  intro e0 e1 e2 e3 e4 hslot hlm
  have g0 := GET_val vb1 e0
  have g1 := GET_val vb2 e1
  have g2 := GET_val vb3 e2
  have g3 := GET_val vc2 e3
  have g4 := GET_val vc3 e4
  unfold szOf at hslot
  unfold deleteNodePlain plainFarHeap
  simp only [ab0, ab1, ab2, ab3, GET_LEFT, GET_RIGHT, PUT_LEFT, PUT_RIGHT, LEFT_eq, GET_SIZE,
    GET_val vb0 rfl, g0, g1, g2, ok_bind, map_ok, ap0, ap1, GET_val vp0 rfl, ite_PUT, hslot,
    PUT_ok _ vs, ne_eq, r0, not_false_eq_true, if_true, hlm]
  by_cases hl0 : lr = 0 <;> by_cases hcr0 : crr = 0
  · subst hl0 hcr0
    simp (disch := first | assumption | (simp only [store_valid_eq]; assumption)) only
      [GET_store_ne, g0, g1, g2, g3, g4, ok_bind, PUT_ok, ne_eq, not_true_eq_false, if_false,
        LEFT_eq, ac1, ac2, ar2, hcrr, not_false_eq_true, if_true]
  · subst hl0
    obtain ⟨s1, acr2⟩ := hcr1 hcr0
    obtain ⟨s2, -⟩ := hcr2 hcr0
    have vcr' := vcr hcr0
    obtain ⟨⟨bq00, bq04, bq08, bq0c⟩, ⟨bq40, bq44, bq48, bq4c⟩, ⟨bq80, bq84, bq88, bq8c⟩, -⟩ :=
      fields_ne s1
    simp (disch := first | assumption | (simp only [store_valid_eq]; assumption)) only
      [GET_store_ne, g0, g1, g2, g3, g4, ok_bind, PUT_ok, ne_eq, not_true_eq_false, if_false,
        LEFT_eq, ac1, ac2, ar2, acr2, hcrr, hcr0, not_false_eq_true, if_true]
  · subst hcr0
    obtain ⟨s, al2⟩ := hl' hl0
    have vl' := vl hl0
    simp (disch := first | assumption | (simp only [store_valid_eq]; assumption)) only
      [GET_store_ne, g0, g1, g2, g3, g4, ok_bind, PUT_ok, ne_eq, not_true_eq_false, if_false,
        LEFT_eq, ac1, ac2, ar2, al2, hcrr, hl0, not_false_eq_true, if_true]
  · obtain ⟨s, al2⟩ := hl' hl0
    have vl' := vl hl0
    obtain ⟨s1, acr2⟩ := hcr1 hcr0
    obtain ⟨s2, -⟩ := hcr2 hcr0
    have vcr' := vcr hcr0
    obtain ⟨⟨bq00, bq04, bq08, bq0c⟩, ⟨bq40, bq44, bq48, bq4c⟩, ⟨bq80, bq84, bq88, bq8c⟩, -⟩ :=
      fields_ne s1
    simp (disch := first | assumption | (simp only [store_valid_eq]; assumption)) only
      [GET_store_ne, g0, g1, g2, g3, g4, ok_bind, PUT_ok, ne_eq, not_true_eq_false, if_false,
        LEFT_eq, ac1, ac2, ar2, al2, acr2, hcrr, hl0, hcr0, not_false_eq_true, if_true]

/-! ### The words after `deleteNodePlain` on a node with a right child -/

theorem plainNear_facts {h : Heap} {c p lr slot : Nat} (hc : c + 16 < 4294967296)
    (hp : p < 4294967296) (hl : lr < 4294967296) (hs : slot = p ∨ slot = p + 4)
    (scp : c + 24 ≤ p ∨ p + 24 ≤ c)
    (scl : lr = 0 ∨ c + 24 ≤ lr ∨ lr + 24 ≤ c)
    (spl : lr = 0 ∨ p + 24 ≤ lr ∨ lr + 24 ≤ p) :
    (plainNearHeap h slot c p lr).words c = lr ∧
    (lr ≠ 0 → (plainNearHeap h slot c p lr).words (lr + 8) = c) ∧
    (plainNearHeap h slot c p lr).words slot = c ∧
    (plainNearHeap h slot c p lr).words (c + 8) = p ∧
    (∀ q, q ≠ c → (lr ≠ 0 → q ≠ lr + 8) → q ≠ slot → q ≠ c + 8 →
      (plainNearHeap h slot c p lr).words q = h.words q) ∧
    SameArena h (plainNearHeap h slot c p lr) ∧ (plainNearHeap h slot c p lr).seat = h.seat := by
  have hc' : c < 4294967296 := by omega
  have mc : c % W32 = c := Nat.mod_eq_of_lt hc'
  have mp : p % W32 = p := Nat.mod_eq_of_lt hp
  have ml : lr % W32 = lr := Nat.mod_eq_of_lt hl
  obtain ⟨d11, d12, d13, -⟩ := slot_ne2 scp hs
  obtain ⟨z1, z2, z3, z4, z5, z6⟩ := self_ne c
  have dl : lr ≠ 0 → slot ≠ lr + 8 := fun e => slot_ne3 (spl.resolve_left e) hs
  clear hc hc' hp hl hs scp spl
  by_cases hl0 : lr = 0
  · refine ⟨?_, fun e => absurd hl0 e, ?_, ?_, ?_, ?_, ?_⟩
    all_goals try intro q q1 _ q3 q4
    all_goals
      try simp only [plainNearHeap, store_words, mc, mp, ml, hl0, if_true, if_false, ne_eq,
        not_true_eq_false, not_false_eq_true, *]
    · rfl
    · exact ⟨rfl, rfl, rfl, rfl⟩
    · rfl
  · obtain ⟨a1, a2, a3, a4, a5, a6, a7, a8⟩ := plus8_ne (scl.resolve_left hl0)
    obtain ⟨b1, b2, b3, b4, b5, b6, b7, b8⟩ := plus8_ne (scl.resolve_left hl0).symm
    have d := dl hl0
    refine ⟨?_, fun _ => ?_, ?_, ?_, ?_, ?_, ?_⟩
    all_goals try intro q q1 q2 q3 q4
    all_goals try have q2 := q2 hl0
    all_goals
      try simp only [plainNearHeap, store_words, mc, mp, ml, hl0, if_true, if_false, ne_eq,
        not_true_eq_false, not_false_eq_true, *]
    · exact ⟨rfl, rfl, rfl, rfl⟩
    · rfl

theorem plainFar_facts {h : Heap} {c p lr rr cp crr slot : Nat} (hc : c + 16 < 4294967296)
    (hp : p < 4294967296) (hl : lr < 4294967296) (hr : rr < 4294967296)
    (hcp : cp < 4294967296) (hcr : crr < 4294967296) (hs : slot = p ∨ slot = p + 4)
    (scp : c + 24 ≤ p ∨ p + 24 ≤ c)
    (scl : lr = 0 ∨ c + 24 ≤ lr ∨ lr + 24 ≤ c) (scr : c + 24 ≤ rr ∨ rr + 24 ≤ c)
    (sccp : c + 24 ≤ cp ∨ cp + 24 ≤ c) (sccr : crr = 0 ∨ c + 24 ≤ crr ∨ crr + 24 ≤ c)
    (slr : lr = 0 ∨ lr + 24 ≤ rr ∨ rr + 24 ≤ lr) (slcp : lr = 0 ∨ lr + 24 ≤ cp ∨ cp + 24 ≤ lr)
    (slcr : lr = 0 ∨ crr = 0 ∨ lr + 24 ≤ crr ∨ crr + 24 ≤ lr)
    (srcr : crr = 0 ∨ rr + 24 ≤ crr ∨ crr + 24 ≤ rr)
    (spcr : crr = 0 ∨ cp + 24 ≤ crr ∨ crr + 24 ≤ cp)
    (spr : cp = rr ∨ cp + 24 ≤ rr ∨ rr + 24 ≤ cp)
    (spl : lr = 0 ∨ p + 24 ≤ lr ∨ lr + 24 ≤ p) (sprr : p + 24 ≤ rr ∨ rr + 24 ≤ p)
    (spcp : cp + 24 ≤ p ∨ p + 24 ≤ cp) (spcrr : crr = 0 ∨ p + 24 ≤ crr ∨ crr + 24 ≤ p) :
    (plainFarHeap h slot c p lr rr cp crr).words c = lr ∧
    (plainFarHeap h slot c p lr rr cp crr).words (c + 4) = rr ∧
    (plainFarHeap h slot c p lr rr cp crr).words (rr + 8) = c ∧
    (lr ≠ 0 → (plainFarHeap h slot c p lr rr cp crr).words (lr + 8) = c) ∧
    (plainFarHeap h slot c p lr rr cp crr).words cp = crr ∧
    (crr ≠ 0 → (plainFarHeap h slot c p lr rr cp crr).words (crr + 8) = cp) ∧
    (plainFarHeap h slot c p lr rr cp crr).words slot = c ∧
    (plainFarHeap h slot c p lr rr cp crr).words (c + 8) = p ∧
    (∀ q, q ≠ c → q ≠ c + 4 → q ≠ rr + 8 → q ≠ cp → (crr ≠ 0 → q ≠ crr + 8) →
      (lr ≠ 0 → q ≠ lr + 8) → q ≠ slot → q ≠ c + 8 →
      (plainFarHeap h slot c p lr rr cp crr).words q = h.words q) ∧
    SameArena h (plainFarHeap h slot c p lr rr cp crr) ∧
    (plainFarHeap h slot c p lr rr cp crr).seat = h.seat := by
  have hc' : c < 4294967296 := by omega
  have mc : c % W32 = c := Nat.mod_eq_of_lt hc'
  have mp : p % W32 = p := Nat.mod_eq_of_lt hp
  have ml : lr % W32 = lr := Nat.mod_eq_of_lt hl
  have mr : rr % W32 = rr := Nat.mod_eq_of_lt hr
  have mcp : cp % W32 = cp := Nat.mod_eq_of_lt hcp
  have mq : crr % W32 = crr := Nat.mod_eq_of_lt hcr
  have m0 : 0 % W32 = 0 := rfl
  obtain ⟨d11, d12, d13, -⟩ := slot_ne2 scp hs
  obtain ⟨d21, -, -, -⟩ := slot_ne2 spcp hs
  have d3 := slot_ne3 sprr hs
  have dl : lr ≠ 0 → slot ≠ lr + 8 := fun e => slot_ne3 (spl.resolve_left e) hs
  have dq : crr ≠ 0 → slot ≠ crr + 8 := fun e => slot_ne3 (spcrr.resolve_left e) hs
  obtain ⟨z1, z2, z3, z4, z5, z6⟩ := self_ne c
  obtain ⟨c1, c2, c3, c4, c5, c6, c7, c8⟩ := plus8_ne scr
  obtain ⟨d1, d2, d3', d4, d5, d6, d7, d8⟩ := plus8_ne scr.symm
  obtain ⟨e1, e2, e3, e4, e5, e6, e7, e8⟩ := plus8_ne sccp
  obtain ⟨f1, f2, f3, f4, f5, f6, f7, f8⟩ := plus8_ne sccp.symm
  obtain ⟨n1, n2⟩ := same_or_ne spr
  clear hc hc' hp hl hr hcp hcr hs scp spl sprr spcp spcrr scr sccp spr
  by_cases hl0 : lr = 0 <;> by_cases hq0 : crr = 0
  · refine ⟨?_, ?_, ?_, fun e => absurd hl0 e, ?_, fun e => absurd hq0 e, ?_, ?_, ?_, ?_, ?_⟩
    all_goals try intro q q1 q2 q3 q4 _ _ q7 q8
    all_goals
      try simp only [plainFarHeap, store_words, mc, mp, ml, mr, mcp, mq, m0, hl0, hq0, if_true,
        if_false, ne_eq, not_true_eq_false, not_false_eq_true, *]
    all_goals first | rfl | exact ⟨rfl, rfl, rfl, rfl⟩
  · obtain ⟨o1, o2, o3, o4, o5, o6, o7, o8⟩ := plus8_ne (sccr.resolve_left hq0)
    obtain ⟨p1, p2, p3, p4, p5, p6, p7, p8⟩ := plus8_ne (sccr.resolve_left hq0).symm
    obtain ⟨t1, t2, t3, t4, t5, t6, t7, t8⟩ := plus8_ne (srcr.resolve_left hq0)
    obtain ⟨u1, u2, u3, u4, u5, u6, u7, u8⟩ := plus8_ne (srcr.resolve_left hq0).symm
    obtain ⟨v1, v2, v3, v4, v5, v6, v7, v8⟩ := plus8_ne (spcr.resolve_left hq0)
    obtain ⟨w1, w2, w3, w4, w5, w6, w7, w8⟩ := plus8_ne (spcr.resolve_left hq0).symm
    have dq' := dq hq0
    refine ⟨?_, ?_, ?_, fun e => absurd hl0 e, ?_, fun _ => ?_, ?_, ?_, ?_, ?_, ?_⟩
    all_goals try intro q q1 q2 q3 q4 q5 _ q7 q8
    all_goals try have q5 := q5 hq0
    all_goals
      try simp only [plainFarHeap, store_words, mc, mp, ml, mr, mcp, mq, m0, hl0, hq0, if_true,
        if_false, ne_eq, not_true_eq_false, not_false_eq_true, *]
    all_goals first | rfl | exact ⟨rfl, rfl, rfl, rfl⟩
  · obtain ⟨a1, a2, a3, a4, a5, a6, a7, a8⟩ := plus8_ne (scl.resolve_left hl0)
    obtain ⟨b1, b2, b3, b4, b5, b6, b7, b8⟩ := plus8_ne (scl.resolve_left hl0).symm
    obtain ⟨g1, g2, g3, g4, g5, g6, g7, g8⟩ := plus8_ne (slr.resolve_left hl0)
    obtain ⟨i1, i2, i3, i4, i5, i6, i7, i8⟩ := plus8_ne (slr.resolve_left hl0).symm
    obtain ⟨j1, j2, j3, j4, j5, j6, j7, j8⟩ := plus8_ne (slcp.resolve_left hl0)
    obtain ⟨k1, k2, k3, k4, k5, k6, k7, k8⟩ := plus8_ne (slcp.resolve_left hl0).symm
    have dl' := dl hl0
    refine ⟨?_, ?_, ?_, fun _ => ?_, ?_, fun e => absurd hq0 e, ?_, ?_, ?_, ?_, ?_⟩
    all_goals try intro q q1 q2 q3 q4 _ q6 q7 q8
    all_goals try have q6 := q6 hl0
    all_goals
      try simp only [plainFarHeap, store_words, mc, mp, ml, mr, mcp, mq, m0, hl0, hq0, if_true,
        if_false, ne_eq, not_true_eq_false, not_false_eq_true, *]
    all_goals first | rfl | exact ⟨rfl, rfl, rfl, rfl⟩
  · obtain ⟨a1, a2, a3, a4, a5, a6, a7, a8⟩ := plus8_ne (scl.resolve_left hl0)
    obtain ⟨b1, b2, b3, b4, b5, b6, b7, b8⟩ := plus8_ne (scl.resolve_left hl0).symm
    obtain ⟨g1, g2, g3, g4, g5, g6, g7, g8⟩ := plus8_ne (slr.resolve_left hl0)
    obtain ⟨i1, i2, i3, i4, i5, i6, i7, i8⟩ := plus8_ne (slr.resolve_left hl0).symm
    obtain ⟨j1, j2, j3, j4, j5, j6, j7, j8⟩ := plus8_ne (slcp.resolve_left hl0)
    obtain ⟨k1, k2, k3, k4, k5, k6, k7, k8⟩ := plus8_ne (slcp.resolve_left hl0).symm
    obtain ⟨o1, o2, o3, o4, o5, o6, o7, o8⟩ := plus8_ne (sccr.resolve_left hq0)
    obtain ⟨p1, p2, p3, p4, p5, p6, p7, p8⟩ := plus8_ne (sccr.resolve_left hq0).symm
    obtain ⟨r1, r2, r3, r4, r5, r6, r7, r8⟩ := plus8_ne ((slcr.resolve_left hl0).resolve_left hq0)
    obtain ⟨s1, s2, s3, s4, s5, s6, s7, s8⟩ :=
      plus8_ne ((slcr.resolve_left hl0).resolve_left hq0).symm
    obtain ⟨t1, t2, t3, t4, t5, t6, t7, t8⟩ := plus8_ne (srcr.resolve_left hq0)
    obtain ⟨u1, u2, u3, u4, u5, u6, u7, u8⟩ := plus8_ne (srcr.resolve_left hq0).symm
    obtain ⟨v1, v2, v3, v4, v5, v6, v7, v8⟩ := plus8_ne (spcr.resolve_left hq0)
    obtain ⟨w1, w2, w3, w4, w5, w6, w7, w8⟩ := plus8_ne (spcr.resolve_left hq0).symm
    have dl' := dl hl0
    have dq' := dq hq0
    refine ⟨?_, ?_, ?_, fun _ => ?_, ?_, fun _ => ?_, ?_, ?_, ?_, ?_, ?_⟩
    all_goals try intro q q1 q2 q3 q4 q5 q6 q7 q8
    all_goals try have q5 := q5 hq0
    all_goals try have q6 := q6 hl0
    all_goals
      try simp only [plainFarHeap, store_words, mc, mp, ml, mr, mcp, mq, m0, hl0, hq0, if_true,
        if_false, ne_eq, not_true_eq_false, not_false_eq_true, *]
    all_goals first | rfl | exact ⟨rfl, rfl, rfl, rfl⟩

/-! ### `deleteNode` on a plain node with a right child -/

theorem deleteNode_plain_right {h : Heap} {t : FTree} (ok : TreeOK h t) {b : Nat}
    {l r : FTree} (hb : b ∈ t.nodes) (hroot : b ≠ t.root)
    (hsub : t.subtreeAt b = .node l b [] r) (hr : r.root ≠ 0) :
    ∃ h' t', Deleted h t b h' t' ∧ DeletedExact h t b h' t' ∧
      ∀ fuel, t.height ≤ fuel → deleteNode fuel h b = .ok h' := by
  obtain ⟨hsh, hsm, hsnd⟩ := ok.sub hsub
  obtain ⟨c1, c2, c3, -, -, -, -, -⟩ := hsh
  obtain ⟨-, -, -, -, nddl, nddr⟩ := FTree.nodup_node hsnd
  obtain ⟨creps, cr, hcsub, hcr, hcv, hcrm, hlmost, hfar⟩ := ok.succ_facts hb hsub hr
  obtain ⟨p1, p2, p3, -, p5⟩ := ok.slot hb hroot
  have hbm : b ∈ t.members := t.nodes_sub_members b hb
  have hlm : ∀ y ∈ l.members, y ∈ t.members :=
    fun y hy => hsm y (FTree.mem_members_node.2 (Or.inl hy))
  have hrm : ∀ y ∈ r.members, y ∈ t.members :=
    fun y hy => hsm y (FTree.mem_members_node.2 (Or.inr (Or.inr (Or.inr hy))))
  have hrr' : r.root ∈ r.members := FTree.root_mem_members hr
  have hcm := hrm _ hcr
  have hbseat : b ≠ h.seat := ok.root ▸ hroot
  have hl_r : ∀ y ∈ l.members, ∀ z ∈ r.members, y ≠ z := fun y hy z hz e =>
    (nddl y hy).2.2 (e ▸ hz)
  have hb_l : ∀ y ∈ l.members, b ≠ y := fun y hy e => (nddl y hy).1 e.symm
  have hb_r : ∀ y ∈ r.members, b ≠ y := fun y hy e => (nddr y hy).1 e.symm
  have hp_l : ∀ y ∈ l.members, t.parentOf b ≠ y := fun y hy e => p2 (by
    rw [e, hsub]; exact FTree.mem_members_node.2 (Or.inl hy))
  have hp_r : ∀ y ∈ r.members, t.parentOf b ≠ y := fun y hy e => p2 (by
    rw [e, hsub]; exact FTree.mem_members_node.2 (Or.inr (Or.inr (Or.inr hy))))
  have hbp : b ≠ t.parentOf b := fun e => p2 (by
    rw [← e, hsub]; exact FTree.mem_members_node.2 (Or.inr (Or.inl rfl)))
  have hlroot : l.root = 0 ∨ l.root ∈ l.members := l.root_zero_or_mem
  have hlt : l.root = 0 ∨ l.root ∈ t.members := hlroot.imp id (hlm _)
  have hcrroot : cr.root = 0 ∨ cr.root ∈ cr.members := cr.root_zero_or_mem
  have hcrt : cr.root = 0 ∨ cr.root ∈ t.members :=
    hcrroot.imp id (fun e => hrm _ (hcrm _ e).1)
  have sepz : ∀ {y m : Nat}, y ∈ t.members → (m = 0 ∨ m ∈ t.members) → (m ≠ 0 → y ≠ m) →
      m = 0 ∨ y + 24 ≤ m ∨ m + 24 ≤ y := by
    intro y m hy hm hne
    rcases hm with e | e
    · exact Or.inl e
    · exact Or.inr (ok.sep y hy m e (hne (ok.ne_zero e)))
  obtain ⟨-, vb1, vb2, -, vb4⟩ := ok.valid hbm
  obtain ⟨-, ab1, -, ab3⟩ := ok.addr hbm
  have g1 := GET_val vb2 c2
  have g3 : GET h (b + 12) = .ok 0 := GET_val vb4 c3
  have hrM : r.root ≠ M1 := ok.root_ne_M1 r hrm
  by_cases hnear : r.leftAddr = r.root
  · have hex := fun fuel (hf : t.height ≤ fuel) =>
      @plainNear_exec _ _ _ _ _ _ fuel (ok.lt hbm) (ok.lt hcm) (ok.lt p1) (ok.lt0 hlt)
        (ok.valid hbm) (ok.valid hcm) (ok.valid p1) (ok.valid8 hlt) p5
        (ok.sep b hbm _ hcm (hb_r _ hcr)) (ok.sep b hbm _ p1 hbp)
        (sepz hbm hlt (fun e => hb_l _ (hlroot.resolve_left e)))
        c1 (hnear ▸ c2) p3 rfl
        (by have := hlmost fuel hf; rw [← hnear] at this; exact this)
    obtain ⟨w1, w2, w3, w4, hfr, har, hseat⟩ := plainNear_facts (h := h) (ok.lt hcm).2
      (ok.lt1 (Or.inr p1)) (ok.lt1 hlt) p5
      (ok.sep _ hcm _ p1 (fun e => hp_r _ hcr e.symm))
      (sepz hcm hlt (fun e e' => hl_r _ (hlroot.resolve_left e) _ hcr e'.symm))
      (sepz p1 hlt (fun e => hp_l _ (hlroot.resolve_left e)))
    obtain ⟨k1, k2, k3, k4, k5⟩ := succ_tree ok hb hsub (FTree.ne_nil_of_root hr) rfl hcsub rfl har
      (by rw [hseat, if_neg (fun e => hroot e.symm)])
      w1 (fun e => absurd hnear e) (fun e => absurd hnear e) w2
      (fun e => absurd hnear e) (fun e => absurd hnear e)
      (fun _ => w3) (fun _ => w4)
      (fun q q1 _ q3 q4 => hfr q q1 q3 (q4 hroot).1 (q4 hroot).2)
    refine ⟨_, _, ⟨har, k1, k2, k3, k4⟩, k5 (Or.inr rfl), fun fuel hf => ?_⟩
    simp only [deleteNode, hbseat, ne_eq, not_false_eq_true, if_true, GET_RIGHT, ab1, ab3, g1,
      g3, ok_bind, hrM, map_ok, decide_True, hex fuel hf]
  · obtain ⟨f1, f2, f3, f4, f5⟩ := hfar hnear
    have hcpm := hrm _ f1
    have hex := fun fuel (hf : t.height ≤ fuel) =>
      @plainFar_exec _ _ _ _ _ _ (r.parentOf r.leftAddr) cr.root _ fuel
        (ok.lt hbm) (ok.lt hcm) (ok.lt p1) (ok.lt0 hlt) (ok.lt (hrm _ hrr')) (ok.lt0 hcrt)
        (ok.valid hbm) (ok.valid hcm) (ok.valid p1) (ok.valid (hrm _ hrr'))
        (ok.valid8 hlt) (ok.valid hcpm).2.1 (ok.valid8 hcrt) p5
        (ok.sep b hbm _ hcm (hb_r _ hcr)) (ok.sep b hbm _ p1 hbp)
        (sepz hbm hlt (fun e => hb_l _ (hlroot.resolve_left e)))
        (ok.sep b hbm _ (hrm _ hrr') (hb_r _ hrr')) (ok.sep b hbm _ hcpm (hb_r _ f1))
        (sepz hbm hcrt (fun e => hb_r _ (hcrm _ (hcrroot.resolve_left e)).1))
        (ok.sep _ hcm _ p1 (fun e => hp_r _ hcr e.symm))
        (ok.sep _ hcm _ hcpm (Ne.symm f2))
        (sepz hcm hcrt (fun e => (hcrm _ (hcrroot.resolve_left e)).2.symm))
        hnear c1 c2 p3 hcv f5 rfl (hlmost fuel hf)
    obtain ⟨w1, w2, w3, w4, w5, w6, w7, w8, hfr, har, hseat⟩ := @plainFar_facts h
      r.leftAddr (t.parentOf b) l.root r.root
      (r.parentOf r.leftAddr) cr.root _
      (ok.lt hcm).2 (ok.lt1 (Or.inr p1)) (ok.lt1 hlt) (ok.lt1 (Or.inr (hrm _ hrr')))
      (ok.lt1 (Or.inr hcpm)) (ok.lt1 hcrt) p5
      (ok.sep _ hcm _ p1 (fun e => hp_r _ hcr e.symm))
      (sepz hcm hlt (fun e e' => hl_r _ (hlroot.resolve_left e) _ hcr e'.symm))
      (ok.sep _ hcm _ (hrm _ hrr') hnear)
      (ok.sep _ hcm _ hcpm (Ne.symm f2))
      (sepz hcm hcrt (fun e => (hcrm _ (hcrroot.resolve_left e)).2.symm))
      (hlt.imp id (fun e => ok.sep _ e _ (hrm _ hrr')
        (hl_r _ (hlroot.resolve_left (ok.ne_zero e)) _ hrr')))
      (hlt.imp id (fun e => ok.sep _ e _ hcpm
        (hl_r _ (hlroot.resolve_left (ok.ne_zero e)) _ f1)))
      (ok.sepne2 hlt hcrt (fun e e' => hl_r _ (hlroot.resolve_left e) _
        (hcrm _ (hcrroot.resolve_left e')).1))
      (sepz (hrm _ hrr') hcrt (fun e => (f4 _ (hcrroot.resolve_left e)).symm))
      (sepz hcpm hcrt (fun e => (f3 _ (hcrroot.resolve_left e)).symm))
      (ok.sepor hcpm (hrm _ hrr'))
      (sepz p1 hlt (fun e => hp_l _ (hlroot.resolve_left e)))
      (ok.sep _ p1 _ (hrm _ hrr') (hp_r _ hrr'))
      (ok.sep _ hcpm _ p1 (fun e => hp_r _ f1 e.symm))
      (sepz p1 hcrt (fun e => hp_r _ (hcrm _ (hcrroot.resolve_left e)).1))
    obtain ⟨k1, k2, k3, k4, k5⟩ := succ_tree ok hb hsub (FTree.ne_nil_of_root hr) rfl hcsub rfl har
      (by rw [hseat, if_neg (fun e => hroot e.symm)])
      w1 (fun _ => w2) (fun _ => w3) w4 (fun _ => w5) (fun _ => w6)
      (fun _ => w7) (fun _ => w8)
      (fun q q1 q2 q3 q4 => hfr q q1 (q2 hnear).1 (q2 hnear).2.1 (q2 hnear).2.2.1
        (q2 hnear).2.2.2 q3 (q4 hroot).1 (q4 hroot).2)
    refine ⟨_, _, ⟨har, k1, k2, k3, k4⟩, k5 (Or.inr rfl), fun fuel hf => ?_⟩
    simp only [deleteNode, hbseat, ne_eq, not_false_eq_true, if_true, GET_RIGHT, ab1, ab3, g1,
      g3, ok_bind, hrM, map_ok, decide_True, hex fuel hf]

/-! ### `deleteNode` on any member of the tree -/

theorem FTree.member_cases {t : FTree} {b : Nat} (hb : b ∈ t.members) (hnd : t.members.Nodup) :
    b ∈ t.nodes ∨ ∃ a ∈ t.nodes, ∃ l reps r, t.subtreeAt a = .node l a reps r ∧ b ∈ reps := by
  induction t with
  | nil => simp [FTree.members] at hb
  | node l a reps r ihl ihr =>
    obtain ⟨hl, hr, -, -, hdl, hdr⟩ := FTree.nodup_node hnd
    rcases FTree.mem_members_node.1 hb with e | e | e | e
    · rcases ihl e hl with i | ⟨a', ha', l', reps', r', hs, hm⟩
      · exact Or.inl (FTree.mem_nodes_node.2 (Or.inl i))
      · have hne : a ≠ a' := fun e' => (hdl a' (l.nodes_sub_members a' ha')).1 e'.symm
        exact Or.inr ⟨a', FTree.mem_nodes_node.2 (Or.inl ha'), l', reps', r',
          by rw [FTree.subtreeAt_node_left hne ha']; exact hs, hm⟩
    · exact Or.inl (FTree.mem_nodes_node.2 (Or.inr (Or.inl e)))
    · exact Or.inr ⟨a, FTree.mem_nodes_node.2 (Or.inr (Or.inl rfl)), l, reps, r,
        by simp [FTree.subtreeAt], e⟩
    · rcases ihr e hr with i | ⟨a', ha', l', reps', r', hs, hm⟩
      · exact Or.inl (FTree.mem_nodes_node.2 (Or.inr (Or.inr i)))
      · have hne : a ≠ a' := fun e' => (hdr a' (r.nodes_sub_members a' ha')).1 e'.symm
        have hnl : a' ∉ l.nodes := fun e' =>
          (hdl a' (l.nodes_sub_members a' e')).2.2 (r.nodes_sub_members a' ha')
        exact Or.inr ⟨a', FTree.mem_nodes_node.2 (Or.inr (Or.inr ha')), l', reps', r',
          by rw [FTree.subtreeAt_node_right hne hnl]; exact hs, hm⟩

theorem deleteNode_spec {h : Heap} {t : FTree} (ok : TreeOK h t) {b : Nat}
    (hb : b ∈ t.members) :
    ∃ h' t', Deleted h t b h' t' ∧ DeletedExact h t b h' t' ∧
      ∀ fuel, t.height ≤ fuel → deleteNode fuel h b = .ok h' := by
  rcases FTree.member_cases hb ok.nodup with hn | ⟨a, ha, l, reps, r, hs, hm⟩
  · obtain ⟨l, reps, r, hsub⟩ := FTree.subtreeAt_eq hn
    by_cases hroot : b = t.root
    · by_cases hone : l.root = 0 ∨ r.root = 0
      · obtain ⟨h', t', hd, he, hex⟩ := deleteNode_root_one ok hn hroot hsub hone
        exact ⟨h', t', hd, he, fun fuel _ => hex fuel⟩
      · have h1 : l.root ≠ 0 := fun e => hone (Or.inl e)
        have h2 : r.root ≠ 0 := fun e => hone (Or.inr e)
        exact deleteNode_root_both ok hn hroot hsub h1 h2
    · cases reps with
      | cons x xs =>
        obtain ⟨h', t', hd, he, hex⟩ := deleteNode_promote ok hn hroot hsub
        exact ⟨h', t', hd, he, fun fuel _ => hex fuel⟩
      | nil =>
        by_cases hr : r.root = 0
        · have hrn : r = .nil := by
            cases r with
            | nil => rfl
            | node l1 a1 rs r1 =>
              exfalso
              obtain ⟨-, hsm, -⟩ := ok.sub hsub
              exact ok.ne_zero (hsm a1 (FTree.mem_members_node.2 (Or.inr (Or.inr (Or.inr
                (FTree.mem_members_node.2 (Or.inr (Or.inl rfl)))))))) hr
          subst hrn
          obtain ⟨h', t', hd, he, hex⟩ := deleteNode_plain_left ok hn hroot hsub
          exact ⟨h', t', hd, he, fun fuel _ => hex fuel⟩
        · exact deleteNode_plain_right ok hn hroot hsub hr
  · obtain ⟨xs, ys, e⟩ := List.append_of_mem hm
    subst e
    obtain ⟨h', t', g1, g2, g3, g4, g5, he, hex⟩ := deleteNode_replica ok ha hs
    exact ⟨h', t', ⟨g1, g2, g3, g4, g5⟩, he, fun fuel _ => hex fuel⟩

/-! ### The best-fit search -/

theorem FTree.fit_cases (w : Nat → Nat) (t : FTree) (k best : Nat) :
    t.fit w k best = best ∨ (t.fit w k best ∈ t.nodes ∧ k ≤ szOf w (t.fit w k best)) := by
  induction t generalizing best with
  | nil => exact Or.inl rfl
  | node l a reps r ihl ihr =>
    unfold FTree.fit
    by_cases h1 : k = szOf w a
    · rw [if_pos h1]
      exact Or.inr ⟨FTree.mem_nodes_node.2 (Or.inr (Or.inl rfl)), le_of_eq h1⟩
    · rw [if_neg h1]
      by_cases h2 : k < szOf w a
      · rw [if_pos h2]
        rcases ihl a with e | ⟨e1, e2⟩
        · rw [e]
          exact Or.inr ⟨FTree.mem_nodes_node.2 (Or.inr (Or.inl rfl)), le_of_lt h2⟩
        · exact Or.inr ⟨FTree.mem_nodes_node.2 (Or.inl e1), e2⟩
      · rw [if_neg h2]
        rcases ihr best with e | ⟨e1, e2⟩
        · exact Or.inl e
        · exact Or.inr ⟨FTree.mem_nodes_node.2 (Or.inr (Or.inr e1)), e2⟩

theorem FTree.fit_found {w : Nat → Nat} {t : FTree} {lo hi : Nat} (ho : Ordered w t lo hi)
    {k : Nat} (best : Nat) (hex : ∃ a ∈ t.members, k ≤ szOf w a) :
    t.fit w k best ∈ t.nodes ∧ k ≤ szOf w (t.fit w k best) := by
  induction t generalizing lo hi best with
  | nil => obtain ⟨a, ha, -⟩ := hex; simp [FTree.members] at ha
  | node l a reps r ihl ihr =>
    obtain ⟨o1, o2, o3, o4, o5⟩ := ho
    unfold FTree.fit
    by_cases h1 : k = szOf w a
    · rw [if_pos h1]
      exact ⟨FTree.mem_nodes_node.2 (Or.inr (Or.inl rfl)), le_of_eq h1⟩
    · rw [if_neg h1]
      by_cases h2 : k < szOf w a
      · rw [if_pos h2]
        rcases l.fit_cases w k a with e | ⟨e1, e2⟩
        · rw [e]
          exact ⟨FTree.mem_nodes_node.2 (Or.inr (Or.inl rfl)), le_of_lt h2⟩
        · exact ⟨FTree.mem_nodes_node.2 (Or.inl e1), e2⟩
      · rw [if_neg h2]
        obtain ⟨x, hx, hk⟩ := hex
        have hxr : x ∈ r.members := by
          rcases FTree.mem_members_node.1 hx with e | e | e | e
          · have := (Ordered_bounds o4 x e).2; omega
          · rw [e] at hk; omega
          · rw [o3 x e] at hk; omega
          · exact e
        obtain ⟨i1, i2⟩ := ihr o5 best ⟨x, hxr, hk⟩
        exact ⟨FTree.mem_nodes_node.2 (Or.inr (Or.inr i1)), i2⟩

theorem FTree.fit_none {w : Nat → Nat} {t : FTree} {k : Nat} (best : Nat)
    (hno : ∀ a ∈ t.members, szOf w a < k) : t.fit w k best = best := by
  rcases t.fit_cases w k best with e | ⟨e1, e2⟩
  · exact e
  · have := hno _ (t.nodes_sub_members _ e1); omega

theorem findFitLoop_spec {h : Heap} {t : FTree} (hs : Shape h.words t)
    (hv : ∀ a ∈ t.nodes, a ≠ 0 ∧ HDRP a = a - 4 ∧ RIGHT a = a + 4 ∧ h.valid (a - 4) ∧
      h.valid a ∧ h.valid (a + 4)) (k best : Nat) :
    ∀ fuel, t.height < fuel → findFitLoop fuel h k t.root best = .ok (t.fit h.words k best) := by
  induction t generalizing best with
  | nil =>
    intro fuel hf
    cases fuel with
    | zero => omega
    | succ fuel => simp [findFitLoop, FTree.root, FTree.fit]
  | node l a reps r ihl ihr =>
    intro fuel hf
    obtain ⟨h1, h2, -, -, -, -, h7, h8⟩ := hs
    obtain ⟨a0, aa0, aa1, va0, va1, va2⟩ := hv a (FTree.mem_nodes_node.2 (Or.inr (Or.inl rfl)))
    cases fuel with
    | zero => omega
    | succ fuel =>
      simp only [FTree.height] at hf
      have il := ihl h7 (fun x hx => hv x (FTree.mem_nodes_node.2 (Or.inl hx))) a fuel
        (by have := le_max_left l.height r.height; omega)
      have ir := ihr h8 (fun x hx => hv x (FTree.mem_nodes_node.2 (Or.inr (Or.inr hx)))) best fuel
        (by have := le_max_right l.height r.height; omega)
      have hroot : (FTree.node l a reps r).root = a := rfl
      rw [hroot]
      unfold FTree.fit szOf
      simp only [findFitLoop, ne_eq, a0, not_false_eq_true, if_true, GET_SIZE, aa0,
        GET_val va0 rfl, map_ok, ok_bind, GET_LEFT, GET_RIGHT, LEFT_eq, aa1, GET_val va1 h1,
        GET_val va2 h2, il, ir]
      split
      · rfl
      · split <;> rfl

theorem findFit_spec {h : Heap} {t : FTree} (ok : TreeOK h t) (k : Nat) :
    ∀ fuel, t.height < fuel → findFit fuel h k = .ok (t.fit h.words k 0) := by
  intro fuel hf
  unfold findFit
  rw [← ok.root]
  exact findFitLoop_spec ok.shape (fun a ha => by
    have hm := t.nodes_sub_members a ha
    obtain ⟨v0, v1, v2, -, -⟩ := ok.valid hm
    obtain ⟨a0, a1, -, -⟩ := ok.addr hm
    exact ⟨ok.ne_zero hm, a0, a1, v0, v1, v2⟩) k 0 fuel hf

theorem FTree.fit_min {w : Nat → Nat} {t : FTree} {lo hi : Nat} (ho : Ordered w t lo hi)
    {k : Nat} (best : Nat) :
    ∀ x ∈ t.members, k ≤ szOf w x → szOf w (t.fit w k best) ≤ szOf w x := by
  induction t generalizing lo hi best with
  | nil => intro x hx; simp [FTree.members] at hx
  | node l a reps r ihl ihr =>
    obtain ⟨o1, o2, o3, o4, o5⟩ := ho
    intro x hx hk
    unfold FTree.fit
    by_cases h1 : k = szOf w a
    · rw [if_pos h1, ← h1]; exact hk
    · rw [if_neg h1]
      by_cases h2 : k < szOf w a
      · rw [if_pos h2]
        have hle : szOf w (l.fit w k a) ≤ szOf w a := by
          rcases l.fit_cases w k a with e | ⟨e1, -⟩
          · rw [e]
          · exact le_of_lt (Ordered_bounds o4 _ (l.nodes_sub_members _ e1)).2
        rcases FTree.mem_members_node.1 hx with e | e | e | e
        · exact ihl o4 a x e hk
        · rw [e]; exact hle
        · rw [o3 x e]; exact hle
        · exact le_trans hle (le_of_lt (Ordered_bounds o5 x e).1)
      · rw [if_neg h2]
        have hxr : x ∈ r.members := by
          rcases FTree.mem_members_node.1 hx with e | e | e | e
          · have := (Ordered_bounds o4 x e).2; omega
          · rw [e] at hk; omega
          · rw [o3 x e] at hk; omega
          · exact e
        exact ihr o5 best x hxr hk

/-- The result of `findFit` on a tree that is laid out in memory and ordered by
size: a tree node of least sufficient size, or NULL exactly when no member is
large enough. -/
theorem findFit_best {h : Heap} {t : FTree} (ok : TreeOK h t) (k : Nat) :
    ∀ fuel, t.height < fuel → ∃ bp, findFit fuel h k = .ok bp ∧
      (bp = 0 ↔ ∀ a ∈ t.members, szOf h.words a < k) ∧
      (bp ≠ 0 → bp ∈ t.nodes ∧ k ≤ szOf h.words bp ∧
        ∀ a ∈ t.members, k ≤ szOf h.words a → szOf h.words bp ≤ szOf h.words a) := by
  intro fuel hf
  refine ⟨_, findFit_spec ok k fuel hf, ?_, ?_⟩
  · constructor
    · intro e a ha
      by_contra hlt
      obtain ⟨f1, -⟩ := FTree.fit_found ok.ordered (k := k) 0 ⟨a, ha, Nat.le_of_not_lt hlt⟩
      exact ok.ne_zero (t.nodes_sub_members _ f1) e
    · exact fun hno => FTree.fit_none 0 hno
  · intro hne
    rcases t.fit_cases h.words k 0 with e | ⟨e1, e2⟩
    · exact absurd e hne
    · exact ⟨e1, e2, FTree.fit_min ok.ordered 0⟩

/-! ## Initial state, root deletion, request sizes -/

/-- C11 (as the code behaves): on an arena that can grow by 8192 bytes
`mm_init` returns 0 and leaves one free block, the root of the free tree, with
agreeing header and footer, but its size is 1024 bytes (`CHUNKSIZE / WSIZE`), not
`CHUNKSIZE = 4096`; the arena is 16 + 1024 bytes long. -/
theorem init_block_is_1024_bytes :
    initRun = .ok (0, 65552, (1024, 0), (1024, 0), 1040) ∧ CHUNKSIZE = 4096 := by
  decide!

/-- C16 (as the code behaves): when the root `C` of the free tree has the
replica `A`, `deleteNode(C)` leaves the tree empty (`seat` is NULL) instead of
promoting `A`; `A` is still marked free (header `24 | 0`) and still points back
to `C`. -/
theorem root_delete_drops_replica :
    rootReplicaRun = .ok ((65552, 65600), (65600, 65552), (0, 24, 65600)) := by
  decide!

/-- C20: for a request of `size` bytes with `0 < size` and `size + 15 < 2^32`
the block size that `mm_malloc` computes is `max(24, roundup8(size + 8))`; it is
a multiple of 8, at least `size + 8`, below `size + 16` when `size > 8`, and at
least 24, the two tags plus the four link words. -/
theorem adjust_spec (size : Nat) (h0 : 0 < size) (h1 : size + 15 < 4294967296) :
    adjust size = max 24 ((size + 8 + 7) / 8 * 8) ∧ adjust size % 8 = 0 ∧
    size + 8 ≤ adjust size ∧ (8 < size → adjust size < size + 16) ∧
    24 ≤ adjust size ∧ 24 = 2 * WSIZE + 4 * WSIZE ∧
    REPLICA 0 + WSIZE = 4 * WSIZE := by
  unfold adjust add32 W32 DSIZE OVERHEAD
  refine ⟨?_, ?_, ?_, ?_, ?_, by decide, by decide⟩
  all_goals
    split
    · omega
    · omega

theorem adjust_spec_witness :
    adjust 100 = max 24 ((100 + 8 + 7) / 8 * 8) ∧ adjust 100 % 8 = 0 ∧
    100 + 8 ≤ adjust 100 ∧ (8 < 100 → adjust 100 < 100 + 16) ∧
    24 ≤ adjust 100 ∧ 24 = 2 * WSIZE + 4 * WSIZE ∧
    REPLICA 0 + WSIZE = 4 * WSIZE :=
  adjust_spec 100 (by decide) (by decide)

/-! ## The demonstration state -/

theorem demo_treeOK : TreeOK demoHeap demoTree := by decide!

/-- C13: on a free tree that is laid out in memory and ordered by size,
`findFit(asize)` returns (given fuel above the height of the tree) a tree node
whose size is at least `asize` and least among the sizes of all members that are
at least `asize`, and NULL exactly when no member is that large; so a member of
size exactly `asize` makes the returned size exactly `asize`. -/
theorem findFit_is_best_fit (h : Heap) (t : FTree) (ok : TreeOK h t) (asize fuel : Nat)
    (hf : t.height < fuel) :
    ∃ bp, findFit fuel h asize = .ok bp ∧
      (bp = 0 ↔ ∀ a ∈ t.members, szOf h.words a < asize) ∧
      (bp ≠ 0 → bp ∈ t.nodes ∧ asize ≤ szOf h.words bp ∧
        (∀ a ∈ t.members, asize ≤ szOf h.words a → szOf h.words bp ≤ szOf h.words a) ∧
        ((∃ a ∈ t.members, szOf h.words a = asize) → szOf h.words bp = asize)) := by
  obtain ⟨bp, h1, h2, h3⟩ := findFit_best ok asize fuel hf
  refine ⟨bp, h1, h2, fun hne => ?_⟩
  obtain ⟨m1, m2, m3⟩ := h3 hne
  refine ⟨m1, m2, m3, ?_⟩
  rintro ⟨a, ha, e⟩
  exact le_antisymm (e ▸ m3 a ha (le_of_eq e.symm)) m2

theorem findFit_is_best_fit_witness :
    ∃ bp, findFit 10 demoHeap 48 = .ok bp ∧
      (bp = 0 ↔ ∀ a ∈ demoTree.members, szOf demoHeap.words a < 48) ∧
      (bp ≠ 0 → bp ∈ demoTree.nodes ∧ 48 ≤ szOf demoHeap.words bp ∧
        (∀ a ∈ demoTree.members, 48 ≤ szOf demoHeap.words a →
          szOf demoHeap.words bp ≤ szOf demoHeap.words a) ∧
        ((∃ a ∈ demoTree.members, szOf demoHeap.words a = 48) →
          szOf demoHeap.words bp = 48)) :=
  findFit_is_best_fit demoHeap demoTree (by decide!) 48 10 (by decide)

/-! ### Insertion on the tree value -/

theorem FTree.stopAt_node (w : Nat → Nat) (l r : FTree) (a k : Nat) (reps : List Nat) :
    (FTree.node l a reps r).stopAt w k =
      if k < szOf w a then (if l.root ≠ 0 then l.stopAt w k else a)
      else if k > szOf w a then (if r.root ≠ 0 then r.stopAt w k else a)
      else a := rfl

theorem FTree.ins_node (w : Nat → Nat) (l r : FTree) (a b k : Nat) (reps : List Nat) :
    (FTree.node l a reps r).ins w b k =
      if k < szOf w a then .node (l.ins w b k) a reps r
      else if k > szOf w a then .node l a reps (r.ins w b k)
      else .node l b (a :: reps) r := rfl

theorem FTree.eq_nil_of_root {t : FTree} (hnz : ∀ a ∈ t.nodes, a ≠ 0) (h : t.root = 0) :
    t = .nil := by
  cases t with
  | nil => rfl
  | node l a reps r => exact absurd h (hnz a (FTree.mem_nodes_node.2 (Or.inr (Or.inl rfl))))

theorem FTree.subtreeAt_self (l r : FTree) (a : Nat) (reps : List Nat) :
    (FTree.node l a reps r).subtreeAt a = .node l a reps r := by
  simp [FTree.subtreeAt]

theorem FTree.subst_self (l r s : FTree) (a : Nat) (reps : List Nat) :
    (FTree.node l a reps r).subst a s = s := by
  simp [FTree.subst]

theorem FTree.subst_node_left {l r : FTree} {a c : Nat} {reps : List Nat} (s : FTree)
    (hac : a ≠ c) (hc : c ∈ l.nodes) :
    (FTree.node l a reps r).subst c s = .node (l.subst c s) a reps r := by
  simp [FTree.subst, hac, hc]

theorem FTree.subst_node_right {l r : FTree} {a c : Nat} {reps : List Nat} (s : FTree)
    (hac : a ≠ c) (hc : c ∉ l.nodes) :
    (FTree.node l a reps r).subst c s = .node l a reps (r.subst c s) := by
  simp [FTree.subst, hac, hc]

/-- Insertion replaces the subtree under the node at which the loop stops. -/
theorem FTree.ins_eq_subst {w : Nat → Nat} {t : FTree} (hnz : ∀ a ∈ t.nodes, a ≠ 0)
    (hnd : t.members.Nodup) (hne : t.root ≠ 0) (b k : Nat) :
    t.stopAt w k ∈ t.nodes ∧
    t.ins w b k = t.subst (t.stopAt w k) ((t.subtreeAt (t.stopAt w k)).ins w b k) ∧
    ∃ l reps r, t.subtreeAt (t.stopAt w k) = .node l (t.stopAt w k) reps r ∧
      (k < szOf w (t.stopAt w k) → l = .nil) ∧ (k > szOf w (t.stopAt w k) → r = .nil) := by
  induction t with
  | nil => exact absurd rfl hne
  | node l a reps r ihl ihr =>
    obtain ⟨hl, hr, -, -, hdl, hdr⟩ := FTree.nodup_node hnd
    have hhere : a ∈ (FTree.node l a reps r).nodes :=
      FTree.mem_nodes_node.2 (Or.inr (Or.inl rfl))
    have hnzl : ∀ x ∈ l.nodes, x ≠ 0 := fun x hx => hnz x (FTree.mem_nodes_node.2 (Or.inl hx))
    have hnzr : ∀ x ∈ r.nodes, x ≠ 0 :=
      fun x hx => hnz x (FTree.mem_nodes_node.2 (Or.inr (Or.inr hx)))
    rw [FTree.stopAt_node]
    by_cases h1 : k < szOf w a
    · rw [if_pos h1]
      by_cases h2 : l.root ≠ 0
      · rw [if_pos h2]
        obtain ⟨i1, i2, l', reps', r', i3, i4, i5⟩ := ihl hnzl hl h2
        have hac : a ≠ l.stopAt w k := fun e => (hdl _ (l.nodes_sub_members _ i1)).1 e.symm
        refine ⟨FTree.mem_nodes_node.2 (Or.inl i1), ?_, l', reps', r', ?_, i4, i5⟩
        · rw [FTree.subtreeAt_node_left hac i1, FTree.ins_node, if_pos h1,
            FTree.subst_node_left _ hac i1, ← i2]
        · rw [FTree.subtreeAt_node_left hac i1]; exact i3
      · rw [if_neg h2]
        have hln : l = .nil := FTree.eq_nil_of_root hnzl (not_not.1 h2)
        refine ⟨hhere, ?_, l, reps, r, FTree.subtreeAt_self _ _ _ _, fun _ => hln,
          fun h3 => absurd h1 (by omega)⟩
        rw [FTree.subtreeAt_self, FTree.subst_self]
    · rw [if_neg h1]
      by_cases h3 : k > szOf w a
      · rw [if_pos h3]
        by_cases h2 : r.root ≠ 0
        · rw [if_pos h2]
          obtain ⟨i1, i2, l', reps', r', i3, i4, i5⟩ := ihr hnzr hr h2
          have hac : a ≠ r.stopAt w k := fun e => (hdr _ (r.nodes_sub_members _ i1)).1 e.symm
          have hnl : r.stopAt w k ∉ l.nodes := fun e =>
            (hdl _ (l.nodes_sub_members _ e)).2.2 (r.nodes_sub_members _ i1)
          refine ⟨FTree.mem_nodes_node.2 (Or.inr (Or.inr i1)), ?_, l', reps', r', ?_, i4, i5⟩
          · rw [FTree.subtreeAt_node_right hac hnl, FTree.ins_node, if_neg h1, if_pos h3,
              FTree.subst_node_right _ hac hnl, ← i2]
          · rw [FTree.subtreeAt_node_right hac hnl]; exact i3
        · rw [if_neg h2]
          have hrn : r = .nil := FTree.eq_nil_of_root hnzr (not_not.1 h2)
          refine ⟨hhere, ?_, l, reps, r, FTree.subtreeAt_self _ _ _ _,
            fun h4 => absurd h4 h1, fun _ => hrn⟩
          rw [FTree.subtreeAt_self, FTree.subst_self]
      · rw [if_neg h3]
        refine ⟨hhere, ?_, l, reps, r, FTree.subtreeAt_self _ _ _ _,
          fun h4 => absurd h4 h1, fun h4 => absurd h4 h3⟩
        rw [FTree.subtreeAt_self, FTree.subst_self]

/-- Insertion of a block whose size lies between the bounds keeps the size order. -/
theorem Ordered_ins {w w' : Nat → Nat} {t : FTree} {lo hi b k : Nat} (ho : Ordered w t lo hi)
    (hsz : ∀ x ∈ t.members, szOf w' x = szOf w x) (hb : szOf w' b = k) (h1 : lo < k)
    (h2 : k < hi) : Ordered w' (t.ins w b k) lo hi := by
  induction t generalizing lo hi with
  | nil =>
    exact ⟨hb ▸ h1, hb ▸ h2, fun x hx => absurd hx (List.not_mem_nil _), trivial, trivial⟩
  | node l a reps r ihl ihr =>
    obtain ⟨o1, o2, o3, o4, o5⟩ := ho
    have ha := hsz a (FTree.mem_members_node.2 (Or.inr (Or.inl rfl)))
    have hl' : ∀ x ∈ l.members, szOf w' x = szOf w x :=
      fun x hx => hsz x (FTree.mem_members_node.2 (Or.inl hx))
    have hr' : ∀ x ∈ r.members, szOf w' x = szOf w x :=
      fun x hx => hsz x (FTree.mem_members_node.2 (Or.inr (Or.inr (Or.inr hx))))
    have hreps : ∀ x ∈ reps, szOf w' x = szOf w x :=
      fun x hx => hsz x (FTree.mem_members_node.2 (Or.inr (Or.inr (Or.inl hx))))
    rw [FTree.ins_node]
    by_cases c1 : k < szOf w a
    · rw [if_pos c1]
      refine ⟨ha ▸ o1, ha ▸ o2, fun x hx => by rw [hreps x hx, ha]; exact o3 x hx, ?_, ?_⟩
      · rw [ha]; exact ihl o4 hl' h1 c1
      · rw [ha]; exact Ordered_congr hr' o5
    · rw [if_neg c1]
      by_cases c2 : k > szOf w a
      · rw [if_pos c2]
        refine ⟨ha ▸ o1, ha ▸ o2, fun x hx => by rw [hreps x hx, ha]; exact o3 x hx, ?_, ?_⟩
        · rw [ha]; exact Ordered_congr hl' o4
        · rw [ha]; exact ihr o5 hr' c2 h2
      · rw [if_neg c2]
        have hka : k = szOf w a := by omega
        refine ⟨hb ▸ h1, hb ▸ h2, ?_, ?_, ?_⟩
        · intro x hx
          rcases List.mem_cons.1 hx with e | e
          · rw [e, ha, hb, hka]
          · rw [hreps x e, hb, hka]; exact o3 x e
        · rw [hb, hka]; exact Ordered_congr hl' o4
        · rw [hb, hka]; exact Ordered_congr hr' o5

theorem FTree.mem_ins {w : Nat → Nat} {t : FTree} {b k x : Nat} :
    x ∈ (t.ins w b k).members ↔ x = b ∨ x ∈ t.members := by
  induction t with
  | nil => simp [FTree.ins, FTree.members]
  | node l a reps r ihl ihr =>
    rw [FTree.ins_node]
    split
    · simp only [FTree.mem_members_node, ihl]; tauto
    · split
      · simp only [FTree.mem_members_node, ihr]; tauto
      · simp only [FTree.mem_members_node, List.mem_cons]; tauto

theorem FTree.height_ins_le (w : Nat → Nat) (t : FTree) (b k : Nat) :
    (t.ins w b k).height ≤ t.height + 1 := by
  induction t with
  | nil => simp [FTree.ins, FTree.height]
  | node l a reps r ihl ihr =>
    rw [FTree.ins_node]
    split
    · simp only [FTree.height]; omega
    · split
      · simp only [FTree.height]; omega
      · simp only [FTree.height]; omega

/-! ### Running the loop of `addNode` -/

theorem addNodeLoop_step {h : Heap} {b a lr rr : Nat} (hb : HDRP b = b - 4)
    (vb : h.valid (b - 4)) (ha : HDRP a = a - 4) (ra : RIGHT a = a + 4)
    (va0 : h.valid (a - 4)) (va1 : h.valid a) (va2 : h.valid (a + 4))
    (e1 : h.words a = lr) (e2 : h.words (a + 4) = rr) (n : Nat) :
    addNodeLoop (n + 1) h b a =
      if szOf h.words b < szOf h.words a then
        (if lr ≠ 0 then addNodeLoop n h b lr else addNodeLeaf h b a true)
      else if szOf h.words b > szOf h.words a then
        (if rr ≠ 0 then addNodeLoop n h b rr else addNodeLeaf h b a false)
      else addNodeExact h b a := by
  simp only [addNodeLoop, GET_SIZE, hb, ha, GET_val vb rfl, GET_val va0 rfl, map_ok, ok_bind,
    GET_LEFT, GET_RIGHT, LEFT_eq, ra, GET_val va1 e1, GET_val va2 e2, szOf]

theorem addNodeLoop_spec {h : Heap} {t : FTree} (hs : Shape h.words t)
    (hv : ∀ a ∈ t.nodes, a ≠ 0 ∧ HDRP a = a - 4 ∧ RIGHT a = a + 4 ∧ h.valid (a - 4) ∧
      h.valid a ∧ h.valid (a + 4))
    {b : Nat} (hb : HDRP b = b - 4) (vb : h.valid (b - 4)) (hne : t.root ≠ 0) :
    ∀ fuel, t.height ≤ fuel →
      addNodeLoop fuel h b t.root = addNodeLoop 1 h b (t.stopAt h.words (szOf h.words b)) := by
  induction t with
  | nil => exact absurd rfl hne
  | node l a reps r ihl ihr =>
    intro fuel hf
    obtain ⟨h1, h2, -, -, -, -, h7, h8⟩ := hs
    obtain ⟨a0, aa0, aa1, va0, va1, va2⟩ := hv a (FTree.mem_nodes_node.2 (Or.inr (Or.inl rfl)))
    simp only [FTree.height] at hf
    cases fuel with
    | zero => omega
    | succ fuel =>
      have il := fun e => ihl h7 (fun x hx => hv x (FTree.mem_nodes_node.2 (Or.inl hx))) e fuel
        (by have := le_max_left l.height r.height; omega)
      have ir := fun e => ihr h8
        (fun x hx => hv x (FTree.mem_nodes_node.2 (Or.inr (Or.inr hx)))) e fuel
        (by have := le_max_right l.height r.height; omega)
      have hroot : (FTree.node l a reps r).root = a := rfl
      rw [hroot, FTree.stopAt_node, addNodeLoop_step hb vb aa0 aa1 va0 va1 va2 h1 h2]
      by_cases c1 : szOf h.words b < szOf h.words a
      · rw [if_pos c1, if_pos c1]
        by_cases c2 : l.root ≠ 0
        · rw [if_pos c2, if_pos c2, il c2]
        · rw [if_neg c2, if_neg c2, addNodeLoop_step hb vb aa0 aa1 va0 va1 va2 h1 h2, if_pos c1,
            if_neg c2]
      · rw [if_neg c1, if_neg c1]
        by_cases c3 : szOf h.words b > szOf h.words a
        · rw [if_pos c3, if_pos c3]
          by_cases c2 : r.root ≠ 0
          · rw [if_pos c2, if_pos c2, ir c2]
          · rw [if_neg c2, if_neg c2, addNodeLoop_step hb vb aa0 aa1 va0 va1 va2 h1 h2,
              if_neg c1, if_pos c3, if_neg c2]
        · rw [if_neg c3, if_neg c3, addNodeLoop_step hb vb aa0 aa1 va0 va1 va2 h1 h2,
            if_neg c1, if_neg c3]

/-! ### A new leaf -/

theorem leaf_exec {h : Heap} {b c : Nat} ( left : Bool)
    (hb : 24 ≤ b ∧ b + 16 < 4294967296) (hc : 24 ≤ c ∧ c + 16 < 4294967296)
    (vb : h.valid b ∧ h.valid (b + 4) ∧ h.valid (b + 8) ∧ h.valid (b + 12))
    (vc : h.valid c ∧ h.valid (c + 4)) :
    addNodeLeaf h b c left = .ok (leafHeap h (if left then c else c + 4) b c) := by
  obtain ⟨vb1, vb2, vb3, vb4⟩ := vb
  obtain ⟨vc1, vc2⟩ := vc
  obtain ⟨ab0, ab1, ab2, ab3⟩ := addr_facts2 hb
  obtain ⟨ac0, ac1, ac2, ac3⟩ := addr_facts2 hc
  unfold addNodeLeaf leafHeap
  cases left
  · simp (disch := first | assumption | (simp only [store_valid_eq]; assumption)) only
      [PUT_LEFT, PUT_RIGHT, LEFT_eq, ab1, ab2, ab3, ac1, PUT_ok, ok_bind, if_false,
        Bool.false_eq_true]
  · simp (disch := first | assumption | (simp only [store_valid_eq]; assumption)) only
      [PUT_LEFT, PUT_RIGHT, LEFT_eq, ab1, ab2, ab3, ac1, PUT_ok, ok_bind, if_true]

theorem leafHeap_facts {h : Heap} {b c slot : Nat} (hb : b < 4294967296)
    (hc : c < 4294967296) (hs : slot = c ∨ slot = c + 4) (s : b + 24 ≤ c ∨ c + 24 ≤ b) :
    (leafHeap h slot b c).words slot = b ∧ (leafHeap h slot b c).words b = 0 ∧
    (leafHeap h slot b c).words (b + 4) = 0 ∧ (leafHeap h slot b c).words (b + 8) = c ∧
    (leafHeap h slot b c).words (b + 12) = 0 ∧
    (∀ q, q ≠ slot → q ≠ b → q ≠ b + 4 → q ≠ b + 8 → q ≠ b + 12 →
      (leafHeap h slot b c).words q = h.words q) ∧
    SameArena h (leafHeap h slot b c) ∧ (leafHeap h slot b c).seat = h.seat := by
  have mb : b % W32 = b := Nat.mod_eq_of_lt hb
  have mc : c % W32 = c := Nat.mod_eq_of_lt hc
  have m0 : 0 % W32 = 0 := rfl
  obtain ⟨d1, d2, d3, d4⟩ := slot_ne2 s hs
  have e04 : b ≠ b + 4 := by clear * -; omega
  have e08 : b ≠ b + 8 := by clear * -; omega
  have e0c : b ≠ b + 12 := by clear * -; omega
  have e48 : b + 4 ≠ b + 8 := by clear * -; omega
  have e4c : b + 4 ≠ b + 12 := by clear * -; omega
  have e8c : b + 8 ≠ b + 12 := by clear * -; omega
  have e40 := e04.symm
  have e80 := e08.symm
  have ec0 := e0c.symm
  have e84 := e48.symm
  have ec4 := e4c.symm
  have ec8 := e8c.symm
  clear hb hc hs s
  refine ⟨?_, ?_, ?_, ?_, ?_, ?_, ⟨rfl, rfl, rfl, rfl⟩, rfl⟩
  all_goals try intro q q1 q2 q3 q4 q5
  all_goals
    simp only [leafHeap, store_words, mb, mc, m0, if_true, if_false, ne_eq,
      not_true_eq_false, not_false_eq_true, d1, d2, d3, d4, e04, e08, e0c, e48, e4c, e8c,
      e40, e80, ec0, e84, ec4, ec8, *]

/-! ### The first block of an empty tree -/

theorem first_exec {h : Heap} {b : Nat} (hb : 24 ≤ b ∧ b + 16 < 4294967296)
    (vb : h.valid b ∧ h.valid (b + 4) ∧ h.valid (b + 8) ∧ h.valid (b + 12))
    (hseat : h.seat = 0) (fuel : Nat) : addNode fuel h b = .ok (firstHeap h b) := by
  obtain ⟨vb1, vb2, vb3, vb4⟩ := vb
  obtain ⟨ab0, ab1, ab2, ab3⟩ := addr_facts2 hb
  have v1 : (h.setSeat b).valid b := vb1
  have v2 : (h.setSeat b).valid (b + 4) := vb2
  have v3 : (h.setSeat b).valid (b + 8) := vb3
  have v4 : (h.setSeat b).valid (b + 12) := vb4
  unfold addNode firstHeap
  simp (disch := first | assumption | (simp only [store_valid_eq]; assumption)) only
    [hseat, if_true, PUT_LEFT, PUT_RIGHT, LEFT_eq, ab1, ab2, ab3, PUT_ok, ok_bind]

theorem firstHeap_facts (h : Heap) (b : Nat) :
    (firstHeap h b).words b = 0 ∧ (firstHeap h b).words (b + 4) = 0 ∧
    (firstHeap h b).words (b + 12) = 0 ∧
    (∀ q, q ≠ b → q ≠ b + 4 → q ≠ b + 8 → q ≠ b + 12 →
      (firstHeap h b).words q = h.words q) ∧
    SameArena h (firstHeap h b) ∧ (firstHeap h b).seat = b := by
  have m0 : 0 % W32 = 0 := rfl
  have e04 : b ≠ b + 4 := by clear * -; omega
  have e08 : b ≠ b + 8 := by clear * -; omega
  have e0c : b ≠ b + 12 := by clear * -; omega
  have e48 : b + 4 ≠ b + 8 := by clear * -; omega
  have e4c : b + 4 ≠ b + 12 := by clear * -; omega
  have e8c : b + 8 ≠ b + 12 := by clear * -; omega
  have e40 := e04.symm
  have e80 := e08.symm
  have ec0 := e0c.symm
  have e84 := e48.symm
  have ec4 := e4c.symm
  have ec8 := e8c.symm
  refine ⟨?_, ?_, ?_, ?_, ⟨rfl, rfl, rfl, rfl⟩, rfl⟩
  all_goals try intro q q1 q2 q3 q4
  all_goals
    simp only [firstHeap, store_words, setSeat_words, m0, if_true, if_false, ne_eq,
      not_true_eq_false, not_false_eq_true, e04, e08, e0c, e48, e4c, e8c, e40, e80, ec0, e84,
      ec4, ec8, *]

/-! ### The tree after a new leaf -/

theorem fresh_ne {y b k : Nat} (s : b + 24 ≤ y ∨ y + 24 ≤ b) (hk : k < 16) :
    y + k ≠ b ∧ y + k ≠ b + 4 ∧ y + k ≠ b + 8 ∧ y + k ≠ b + 12 := by
  omega

theorem fresh_hdr_ne {y b : Nat} (s : b + 24 ≤ y ∨ y + 24 ≤ b) (hy : 24 ≤ y) :
    y - 4 ≠ b ∧ y - 4 ≠ b + 4 ∧ y - 4 ≠ b + 8 ∧ y - 4 ≠ b + 12 := by
  omega

theorem fresh_range {q b c slot : Nat} (hs : slot = c ∨ slot = c + 4)
    (q1 : q < c ∨ c + 16 ≤ q) (q2 : q < b ∨ b + 16 ≤ q) :
    q ≠ slot ∧ q ≠ b ∧ q ≠ b + 4 ∧ q ≠ b + 8 ∧ q ≠ b + 12 := by
  omega

theorem other_block {q p b c slot : Nat} (q1 : p ≤ q) (q2 : q < p + 16)
    (hs : slot = c ∨ slot = c + 4) (spc : p + 24 ≤ c ∨ c + 24 ≤ p)
    (spb : b + 24 ≤ p ∨ p + 24 ≤ b) :
    q ≠ slot ∧ q ≠ b ∧ q ≠ b + 4 ∧ q ≠ b + 8 ∧ q ≠ b + 12 := by
  omega

theorem leaf_tree {h h' : Heap} {t s' : FTree} (ok : TreeOK h t) {b c slot : Nat}
    {l r : FTree} {reps : List Nat} (hc : c ∈ t.nodes)
    (hsub : t.subtreeAt c = .node l c reps r)
    (hbr : 24 ≤ b ∧ h.lo + 4 ≤ b ∧ b + 16 ≤ h.brk ∧ b % 4 = 0)
    (hsep : ∀ x ∈ t.members, b + 24 ≤ x ∨ x + 24 ≤ b)
    (hcase : (l = .nil ∧ slot = c ∧ s' = .node (.node .nil b [] .nil) c reps r) ∨
      (r = .nil ∧ slot = c + 4 ∧ s' = .node l c reps (.node .nil b [] .nil)))
    (hord : Ordered h'.words (t.subst c s') 0 W32)
    (har : SameArena h h') (hseat : h'.seat = h.seat)
    (w1 : h'.words slot = b) (w2 : h'.words b = 0) (w3 : h'.words (b + 4) = 0)
    (w4 : h'.words (b + 8) = c) (w5 : h'.words (b + 12) = 0)
    (hfr : ∀ q, q ≠ slot → q ≠ b → q ≠ b + 4 → q ≠ b + 8 → q ≠ b + 12 →
      h'.words q = h.words q) :
    TreeOK h' (t.subst c s') ∧ Untouched h.words h'.words (b :: t.members) := by
  obtain ⟨hsh, hsm, hsnd⟩ := ok.sub hsub
  obtain ⟨c1, c2, c3, c4, c5, c6, c7, c8⟩ := hsh
  obtain ⟨ndl, ndr, ndreps, ndar, nddl, nddr⟩ := FTree.nodup_node hsnd
  have hcm : c ∈ t.members := t.nodes_sub_members c hc
  have hs : slot = c ∨ slot = c + 4 := by
    rcases hcase with ⟨-, e, -⟩ | ⟨-, e, -⟩
    · exact Or.inl e
    · exact Or.inr e
  have hrepm : ∀ y ∈ reps, y ∈ t.members := fun y hy =>
    hsm y (FTree.mem_members_node.2 (Or.inr (Or.inr (Or.inl hy))))
  have hlm : ∀ y ∈ l.members, y ∈ t.members :=
    fun y hy => hsm y (FTree.mem_members_node.2 (Or.inl hy))
  have hrm : ∀ y ∈ r.members, y ∈ t.members :=
    fun y hy => hsm y (FTree.mem_members_node.2 (Or.inr (Or.inr (Or.inr hy))))
  have same : ∀ y ∈ t.members, ∀ k, k < 16 → (y = c → 8 ≤ k) →
      h'.words (y + k) = h.words (y + k) := by
    intro y hy k hk hyc
    obtain ⟨f1, f2, f3, f4⟩ := fresh_ne (hsep y hy) hk
    exact hfr _ (off_ne_slot (ok.sep' hy hcm) hs hk hyc) f1 f2 f3 f4
  have hdr : ∀ y ∈ t.members, h'.words (y - 4) = h.words (y - 4) := by
    intro y hy
    have hy24 := (ok.lt hy).1
    obtain ⟨f1, f2, f3, f4⟩ := fresh_hdr_ne (hsep y hy) hy24
    exact hfr _ (hdr_ne_slot (ok.sep' hy hcm) hs hy24) f1 f2 f3 f4
  have hu : Untouched h.words h'.words [c, b] := by
    intro q hq
    obtain ⟨f0, f1, f2, f3, f4⟩ := fresh_range hs (hq c (by simp)) (hq b (by simp))
    exact hfr q f0 f1 f2 f3 f4
  have hchain : ChainOK h'.words c reps := by
    refine ChainOK_congr c (fun y hy => ⟨?_, ?_, ?_⟩) c4
    · exact same y (hrepm y hy) 0 (by decide) (fun e => absurd (e ▸ hy) ndar)
    · exact same y (hrepm y hy) 4 (by decide) (fun e => absurd (e ▸ hy) ndar)
    · exact same y (hrepm y hy) 12 (by decide) (fun e => absurd (e ▸ hy) ndar)
  have hshl : Shape h'.words l := by
    refine Shape_congr ndl (fun y hy => ⟨?_, ?_, ?_⟩) (fun y hy _ => ?_) c7
    · exact same y (hlm y hy) 0 (by decide) (fun e => absurd e (nddl y hy).1)
    · exact same y (hlm y hy) 4 (by decide) (fun e => absurd e (nddl y hy).1)
    · exact same y (hlm y hy) 12 (by decide) (fun e => absurd e (nddl y hy).1)
    · exact same y (hlm y (l.nodes_sub_members y hy)) 8 (by decide) (fun _ => by decide)
  have hshr : Shape h'.words r := by
    refine Shape_congr ndr (fun y hy => ⟨?_, ?_, ?_⟩) (fun y hy _ => ?_) c8
    · exact same y (hrm y hy) 0 (by decide) (fun e => absurd e (nddr y hy).1)
    · exact same y (hrm y hy) 4 (by decide) (fun e => absurd e (nddr y hy).1)
    · exact same y (hrm y hy) 12 (by decide) (fun e => absurd e (nddr y hy).1)
    · exact same y (hrm y (r.nodes_sub_members y hy)) 8 (by decide) (fun _ => by decide)
  have hshb : Shape h'.words (.node .nil b [] .nil) :=
    ⟨w2, w3, w5, trivial, fun e => absurd rfl e, fun e => absurd rfl e, trivial, trivial⟩
  have hc8 : h'.words (c + 8) = h.words (c + 8) := same c hcm 8 (by decide) (fun _ => by decide)
  have hc12 : h'.words (c + 12) = h.words (c + 12) :=
    same c hcm 12 (by decide) (fun _ => by decide)
  have hl8 : l.root ≠ 0 → h'.words (l.root + 8) = c := fun e => by
    rw [same _ (hlm _ (FTree.root_mem_members e)) 8 (by decide) (fun _ => by decide)]
    exact c5 e
  have hr8 : r.root ≠ 0 → h'.words (r.root + 8) = c := fun e => by
    rw [same _ (hrm _ (FTree.root_mem_members e)) 8 (by decide) (fun _ => by decide)]
    exact c6 e
  have hbnew : b ∉ (FTree.node l c reps r).members := fun e => by
    have := hsep b (hsm b e); omega
  have hroots : s'.root = c := by
    rcases hcase with ⟨-, -, e⟩ | ⟨-, -, e⟩ <;> rw [e] <;> rfl
  have hshape : Shape h'.words s' := by
    rcases hcase with ⟨e1, e2, e3⟩ | ⟨e1, e2, e3⟩
    · rw [e3]
      rw [e2] at w1
      refine ⟨w1, ?_, hc12.trans c3, hchain, fun _ => w4, hr8, hshb, hshr⟩
      obtain ⟨f1, f2, f3, f4⟩ := fresh_ne (hsep c hcm) (k := 4) (by decide)
      exact (hfr (c + 4) (by rw [e2]; clear * -; omega) f1 f2 f3 f4).trans c2
    · rw [e3]
      rw [e2] at w1
      refine ⟨?_, w1, hc12.trans c3, hchain, hl8, fun _ => w4, hshl, hshb⟩
      obtain ⟨f1, f2, f3, f4⟩ := fresh_ne (hsep c hcm) (k := 0) (by decide)
      exact (hfr c (by rw [e2]; clear * -; omega) f1 f2 f3 f4).trans c1
  have hmem' : ∀ y ∈ s'.members, y ∈ (t.subtreeAt c).members ∨ y ∈ [b] := by
    intro y hy
    rw [hsub]
    rcases hcase with ⟨e1, e2, e3⟩ | ⟨e1, e2, e3⟩
    · subst e3
      rcases FTree.mem_members_node.1 hy with e | e | e | e
      · simp only [FTree.members, List.nil_append, List.append_nil, List.mem_singleton] at e
        exact Or.inr (List.mem_singleton.2 e)
      · exact Or.inl (FTree.mem_members_node.2 (Or.inr (Or.inl e)))
      · exact Or.inl (FTree.mem_members_node.2 (Or.inr (Or.inr (Or.inl e))))
      · exact Or.inl (FTree.mem_members_node.2 (Or.inr (Or.inr (Or.inr e))))
    · subst e3
      rcases FTree.mem_members_node.1 hy with e | e | e | e
      · exact Or.inl (FTree.mem_members_node.2 (Or.inl e))
      · exact Or.inl (FTree.mem_members_node.2 (Or.inr (Or.inl e)))
      · exact Or.inl (FTree.mem_members_node.2 (Or.inr (Or.inr (Or.inl e))))
      · simp only [FTree.members, List.nil_append, List.append_nil, List.mem_singleton] at e
        exact Or.inr (List.mem_singleton.2 e)
  have hbl : b ∉ l.members := fun e => hbnew (FTree.mem_members_node.2 (Or.inl e))
  have hbrm : b ∉ r.members := fun e =>
    hbnew (FTree.mem_members_node.2 (Or.inr (Or.inr (Or.inr e))))
  have hbreps : b ∉ reps := fun e =>
    hbnew (FTree.mem_members_node.2 (Or.inr (Or.inr (Or.inl e))))
  have hbc : b ≠ c := fun e => hbnew (FTree.mem_members_node.2 (Or.inr (Or.inl e)))
  have hleafm : ∀ y, y ∈ (FTree.node .nil b [] .nil).members ↔ y = b := by
    intro y
    simp [FTree.members]
  have hndb : (FTree.node .nil b [] .nil).members.Nodup := by
    simp [FTree.members]
  have hnd' : s'.members.Nodup := by
    rcases hcase with ⟨e1, e2, e3⟩ | ⟨e1, e2, e3⟩
    · subst e3
      refine FTree.nodup_node_of hndb ndr ndreps ndar ?_ nddr
      intro y hy
      rw [(hleafm y).1 hy]
      exact ⟨hbc, hbreps, hbrm⟩
    · subst e3
      refine FTree.nodup_node_of ndl hndb ndreps ndar ?_ ?_
      · intro y hy
        refine ⟨(nddl y hy).1, (nddl y hy).2.1, fun e => ?_⟩
        rw [(hleafm y).1 e] at hy
        exact hbl hy
      · intro y hy
        rw [(hleafm y).1 hy]
        exact ⟨hbc, hbreps⟩
  have hsubres := @TreeOK.subst_core _ _ _ s' _ _ [b] ok hc har hu
    (by
      intro m hm
      simp only [List.mem_cons, List.mem_singleton, List.not_mem_nil, or_false] at hm
      rcases hm with rfl | rfl
      · exact Or.inr (Or.inl (by
          rw [hsub]; exact FTree.mem_members_node.2 (Or.inr (Or.inl rfl))))
      · exact Or.inr (Or.inr (Or.inl (List.mem_singleton.2 rfl))))
    (by
      intro x hx
      rw [List.mem_singleton.1 hx]
      exact ⟨hbr.1, hbr.2.1, hbr.2.2.1, hbr.2.2.2, hsep,
        fun y hy => List.mem_singleton.1 hy⟩)
    hmem' hnd' hshape (fun _ => hord) ?_ ?_ ?_
  · refine ⟨hsubres.1, ?_⟩
    intro q hq
    have q1 := hq c (List.mem_cons_of_mem _ hcm)
    have q2 := hq b (List.mem_cons_self _ _)
    obtain ⟨f0, f1, f2, f3, f4⟩ := fresh_range hs q1 q2
    exact hfr q f0 f1 f2 f3 f4
  · intro hroot
    obtain ⟨p1, p2, p3, p4, p5⟩ := ok.slot hc hroot
    have hpc : t.parentOf c ≠ c := fun e => p2 (by
      rw [e, hsub]; exact FTree.mem_members_node.2 (Or.inr (Or.inl rfl)))
    have hp24 := (ok.lt p1).1
    have spc := ok.sep _ p1 _ hcm hpc
    have spb := hsep _ p1
    rw [hroots]
    have key : ∀ q, t.parentOf c ≤ q → q < t.parentOf c + 16 → h'.words q = h.words q := by
      intro q q1 q2
      obtain ⟨f0, f1, f2, f3, f4⟩ := other_block q1 q2 hs spc spb
      exact hfr q f0 f1 f2 f3 f4
    refine ⟨?_, fun q q1 q2 _ => key q q1 q2⟩
    rcases p5 with e | e
    · rw [e] at p4 ⊢
      exact (key _ (le_refl _) (Nat.lt_add_of_pos_right (by decide))).trans p4
    · rw [e] at p4 ⊢
      exact (key _ (Nat.le_add_right _ _) (Nat.add_lt_add_left (by decide) _)).trans p4
  · intro _ hroot
    obtain ⟨p1, p2, p3, p4, p5⟩ := ok.slot hc hroot
    rw [hroots, hc8]
    exact p3
  · rw [hseat, hroots]
    split
    · rename_i e; rw [← e]; exact ok.root.symm
    · rfl

/-! ### The tree after the insertion of a block of a size that is present -/

theorem exact_range {q p b c slot : Nat} (hs : slot = p ∨ slot = p + 4)
    (q0 : q < p ∨ p + 16 ≤ q) (q1 : q < b ∨ b + 16 ≤ q) (q2 : q < c ∨ c + 16 ≤ q) :
    q ≠ slot ∧ q ≠ b ∧ q ≠ b + 4 ∧ q ≠ b + 8 ∧ q ≠ b + 12 ∧ q ≠ c ∧ q ≠ c + 4 := by
  omega

theorem range_ne8 {q m : Nat} (q0 : q < m ∨ m + 16 ≤ q) : q ≠ m + 8 := by
  omega

theorem exact_hdr {b c : Nat} (hb : 24 ≤ b) (sc : b + 24 ≤ c ∨ c + 24 ≤ b) :
    b - 4 ≠ b ∧ b - 4 ≠ b + 4 ∧ b - 4 ≠ b + 8 ∧ b - 4 ≠ b + 12 ∧ b - 4 ≠ c ∧ b - 4 ≠ c + 4 := by
  omega

theorem exact_hdr_slot {b p slot : Nat} (hb : 24 ≤ b) (hs : slot = p ∨ slot = p + 4)
    (sp : b + 24 ≤ p ∨ p + 24 ≤ b) : b - 4 ≠ slot := by
  omega

theorem hdr_ne8 {b m : Nat} (hb : 24 ≤ b) (s : b + 24 ≤ m ∨ m + 24 ≤ b) : b - 4 ≠ m + 8 := by
  omega

theorem block_ne8 {q p m : Nat} (q1 : p ≤ q) (q2 : q < p + 16)
    (s : p + 24 ≤ m ∨ m + 24 ≤ p) : q ≠ m + 8 := by
  omega

theorem exact_tree {h h' : Heap} {t : FTree} (ok : TreeOK h t) {b c slot : Nat}
    {l r : FTree} {reps : List Nat} (hc : c ∈ t.nodes)
    (hsub : t.subtreeAt c = .node l c reps r)
    (hbr : 24 ≤ b ∧ h.lo + 4 ≤ b ∧ b + 16 ≤ h.brk ∧ b % 4 = 0)
    (hsep : ∀ x ∈ t.members, b + 24 ≤ x ∨ x + 24 ≤ b)
    (hsz : szOf h.words b = szOf h.words c)
    (hslot : c ≠ t.root → (if szOf h.words c > szOf h.words (t.parentOf c)
      then t.parentOf c + 4 else t.parentOf c) = slot)
    (har : SameArena h h') (hseat : h'.seat = if t.root = c then b else h.seat)
    (w1 : c ≠ t.root → h'.words slot = b) (w2 : h'.words b = l.root)
    (w3 : h'.words (b + 4) = r.root) (w4 : c ≠ t.root → h'.words (b + 8) = t.parentOf c)
    (w5 : h'.words (b + 12) = c) (w6 : h'.words c = b) (w7 : h'.words (c + 4) = M1)
    (w8 : l.root ≠ 0 → h'.words (l.root + 8) = b)
    (w9 : r.root ≠ 0 → h'.words (r.root + 8) = b)
    (hfr : ∀ q, (c ≠ t.root → q ≠ slot) → q ≠ b → q ≠ b + 4 → q ≠ b + 8 → q ≠ b + 12 →
      q ≠ c → q ≠ c + 4 → (l.root ≠ 0 → q ≠ l.root + 8) → (r.root ≠ 0 → q ≠ r.root + 8) →
      h'.words q = h.words q) :
    TreeOK h' (t.subst c (.node l b (c :: reps) r)) ∧
    Untouched h.words h'.words (b :: t.members) ∧
    Untouched h.words h'.words [t.parentOf c, b, c, l.root, r.root] ∧
    Shape h'.words (.node l b (c :: reps) r) := by
  obtain ⟨hsh, hsm, hsnd⟩ := ok.sub hsub
  obtain ⟨c1, c2, c3, c4, c5, c6, c7, c8⟩ := hsh
  obtain ⟨ndl, ndr, ndreps, ndar, nddl, nddr⟩ := FTree.nodup_node hsnd
  have hcm : c ∈ t.members := t.nodes_sub_members c hc
  have hrepm : ∀ y ∈ reps, y ∈ t.members := fun y hy =>
    hsm y (FTree.mem_members_node.2 (Or.inr (Or.inr (Or.inl hy))))
  have hlm : ∀ y ∈ l.members, y ∈ t.members :=
    fun y hy => hsm y (FTree.mem_members_node.2 (Or.inl hy))
  have hrm : ∀ y ∈ r.members, y ∈ t.members :=
    fun y hy => hsm y (FTree.mem_members_node.2 (Or.inr (Or.inr (Or.inr hy))))
  have hlroot : l.root = 0 ∨ l.root ∈ t.members := l.root_zero_or_mem.imp id (hlm _)
  have hrroot : r.root = 0 ∨ r.root ∈ t.members := r.root_zero_or_mem.imp id (hrm _)
  have hps : ∀ hroot : c ≠ t.root, t.parentOf c ∈ t.members ∧
      t.parentOf c ∉ (t.subtreeAt c).members ∧ (slot = t.parentOf c ∨ slot = t.parentOf c + 4) :=
    fun hroot => ⟨(ok.slot hc hroot).1, (ok.slot hc hroot).2.1,
      hslot hroot ▸ (ok.slot hc hroot).2.2.2.2⟩
  have same : ∀ y ∈ t.members, ∀ k, k < 16 → (y = c → 8 ≤ k) →
      (c ≠ t.root → y = t.parentOf c → 8 ≤ k) → (y = l.root → k ≠ 8) → (y = r.root → k ≠ 8) →
      h'.words (y + k) = h.words (y + k) := by
    intro y hy k hk hyc hyp hyl hyr
    have hy24 := (ok.lt hy).1
    obtain ⟨f1, f2, f3, f4⟩ := fresh_ne (hsep y hy) hk
    exact hfr _ (fun hroot => off_ne_slot (ok.sep' hy (hps hroot).1) (hps hroot).2.2 hk
        (hyp hroot)) f1 f2 f3 f4
      (off_ne (j := 0) (Or.inr (ok.sep' hy hcm)) hy24 hk (by decide)
        (fun e e' => absurd (e' ▸ hyc e) (by decide)))
      (off_ne (Or.inr (ok.sep' hy hcm)) hy24 hk (by decide)
        (fun e e' => absurd (e' ▸ hyc e) (by decide)))
      (fun _ => off_ne (ok.sep0 hy hlroot) hy24 hk (by decide) hyl)
      (fun _ => off_ne (ok.sep0 hy hrroot) hy24 hk (by decide) hyr)
  have hdr : ∀ y ∈ t.members, h'.words (y - 4) = h.words (y - 4) := by
    intro y hy
    have hy24 := (ok.lt hy).1
    obtain ⟨f1, f2, f3, f4⟩ := fresh_hdr_ne (hsep y hy) hy24
    exact hfr _ (fun hroot => hdr_ne_slot (ok.sep' hy (hps hroot).1) (hps hroot).2.2 hy24)
      f1 f2 f3 f4
      (hdr_ne (j := 0) (Or.inr (ok.sep' hy hcm)) hy24 (by decide))
      (hdr_ne (Or.inr (ok.sep' hy hcm)) hy24 (by decide))
      (fun _ => hdr_ne (ok.sep0 hy hlroot) hy24 (by decide))
      (fun _ => hdr_ne (ok.sep0 hy hrroot) hy24 (by decide))
  have hbh : h'.words (b - 4) = h.words (b - 4) := by
    obtain ⟨f1, f2, f3, f4, f5, f6⟩ := exact_hdr hbr.1 (hsep c hcm)
    exact hfr _ (fun hroot => exact_hdr_slot hbr.1 (hps hroot).2.2 (hsep _ (hps hroot).1))
      f1 f2 f3 f4 f5 f6
      (fun e => hdr_ne8 hbr.1 (hsep _ (hlroot.resolve_left e)))
      (fun e => hdr_ne8 hbr.1 (hsep _ (hrroot.resolve_left e)))
  have hp0 : c = t.root → t.parentOf c = 0 := fun e => e ▸ t.parentOf_root
  have hu : Untouched h.words h'.words [t.parentOf c, b, c, l.root, r.root] := by
    intro q hq
    have q0 := hq (t.parentOf c) (by simp)
    have q1 := hq b (by simp)
    have q2 := hq c (by simp)
    have q3 := hq l.root (by simp)
    have q4 := hq r.root (by simp)
    have key : ∀ p, (c ≠ t.root → slot = p ∨ slot = p + 4) → (q < p ∨ p + 16 ≤ q) →
        (c ≠ t.root → q ≠ slot) ∧ q ≠ b ∧ q ≠ b + 4 ∧ q ≠ b + 8 ∧ q ≠ b + 12 ∧ q ≠ c ∧
        q ≠ c + 4 := by
      intro p hs q0
      refine ⟨fun hroot => (exact_range (hs hroot) q0 q1 q2).1, ?_⟩
      exact (@exact_range _ _ _ _ p (Or.inl rfl) q0 q1 q2).2
    obtain ⟨f0, f1, f2, f3, f4, f5, f6⟩ := key _ (fun hroot => (hps hroot).2.2) q0
    exact hfr q f0 f1 f2 f3 f4 f5 f6 (fun _ => range_ne8 q3) (fun _ => range_ne8 q4)
  have hbnew : b ∉ t.members := fun e => by
    have := hsep b e; omega
  have hbsub : b ∉ (FTree.node l c reps r).members := fun e => hbnew (hsm b e)
  have hbl : b ∉ l.members := fun e => hbsub (FTree.mem_members_node.2 (Or.inl e))
  have hbrm : b ∉ r.members := fun e =>
    hbsub (FTree.mem_members_node.2 (Or.inr (Or.inr (Or.inr e))))
  have hbreps : b ∉ reps := fun e =>
    hbsub (FTree.mem_members_node.2 (Or.inr (Or.inr (Or.inl e))))
  have hbc : b ≠ c := fun e => hbsub (FTree.mem_members_node.2 (Or.inr (Or.inl e)))
  have hpsub : ∀ y ∈ (FTree.node l c reps r).members, c ≠ t.root → y = t.parentOf c → False :=
    fun y hy hroot e => (hps hroot).2.1 (by rw [hsub, ← e]; exact hy)
  have hlr : ∀ y ∈ l.members, y ≠ r.root := fun y hy e =>
    (nddl y hy).2.2 (e ▸ FTree.root_mem_members (e ▸ ok.ne_zero (hlm y hy)))
  have hrl : ∀ y ∈ r.members, y ≠ l.root := fun y hy e =>
    (nddl _ (FTree.root_mem_members (e ▸ ok.ne_zero (hrm y hy)))).2.2 (e ▸ hy)
  have hrepl : ∀ y ∈ reps, y ≠ l.root := fun y hy e =>
    (nddl _ (FTree.root_mem_members (e ▸ ok.ne_zero (hrepm y hy)))).2.1 (e ▸ hy)
  have hrepr : ∀ y ∈ reps, y ≠ r.root := fun y hy e =>
    (nddr _ (FTree.root_mem_members (e ▸ ok.ne_zero (hrepm y hy)))).2 (e ▸ hy)
  have hcl : c ≠ l.root := fun e =>
    (nddl _ (FTree.root_mem_members (e ▸ ok.ne_zero hcm))).1 e.symm
  have hcr : c ≠ r.root := fun e =>
    (nddr _ (FTree.root_mem_members (e ▸ ok.ne_zero hcm))).1 e.symm
  have hmem' : ∀ y ∈ (FTree.node l b (c :: reps) r).members,
      y ∈ (t.subtreeAt c).members ∨ y ∈ [b] := by
    intro y hy
    rw [hsub]
    rcases FTree.mem_members_node.1 hy with e | e | e | e
    · exact Or.inl (FTree.mem_members_node.2 (Or.inl e))
    · exact Or.inr (List.mem_singleton.2 e)
    · rcases List.mem_cons.1 e with e | e
      · exact Or.inl (FTree.mem_members_node.2 (Or.inr (Or.inl e)))
      · exact Or.inl (FTree.mem_members_node.2 (Or.inr (Or.inr (Or.inl e))))
    · exact Or.inl (FTree.mem_members_node.2 (Or.inr (Or.inr (Or.inr e))))
  have hnd' : (FTree.node l b (c :: reps) r).members.Nodup := by
    refine FTree.nodup_node_of ndl ndr (List.nodup_cons.2 ⟨ndar, ndreps⟩) ?_ ?_ ?_
    · intro e
      rcases List.mem_cons.1 e with e | e
      · exact hbc e
      · exact hbreps e
    · intro y hy
      refine ⟨fun e => hbl (e ▸ hy), fun e => ?_, (nddl y hy).2.2⟩
      rcases List.mem_cons.1 e with e | e
      · exact (nddl y hy).1 e
      · exact (nddl y hy).2.1 e
    · intro y hy
      refine ⟨fun e => hbrm (e ▸ hy), fun e => ?_⟩
      rcases List.mem_cons.1 e with e | e
      · exact (nddr y hy).1 e
      · exact (nddr y hy).2 e
  have hshape : Shape h'.words (.node l b (c :: reps) r) := by
    refine ⟨w2, w3, w5, ⟨w6, w7, ?_, ?_⟩, w8, w9, ?_, ?_⟩
    · rw [same c hcm 12 (by decide) (fun _ => by decide)
        (fun hroot e => absurd e (fun e => hpsub c (FTree.mem_members_node.2 (Or.inr (Or.inl rfl)))
          hroot e)) (fun _ => by decide) (fun _ => by decide)]
      exact c3
    · refine ChainOK_congr c (fun y hy => ?_) c4
      have hyc : y ≠ c := fun e => ndar (e ▸ hy)
      have hyp : c ≠ t.root → y = t.parentOf c → False := fun hroot e =>
        hpsub y (FTree.mem_members_node.2 (Or.inr (Or.inr (Or.inl hy)))) hroot e
      exact ⟨same y (hrepm y hy) 0 (by decide) (fun e => absurd e hyc)
          (fun hroot e => (hyp hroot e).elim) (fun _ => by decide) (fun _ => by decide),
        same y (hrepm y hy) 4 (by decide) (fun e => absurd e hyc)
          (fun hroot e => ((hyp hroot e).elim)) (fun _ => by decide) (fun _ => by decide),
        same y (hrepm y hy) 12 (by decide) (fun e => absurd e hyc)
          (fun hroot e => ((hyp hroot e).elim)) (fun _ => by decide) (fun _ => by decide)⟩
    · refine Shape_congr ndl (fun y hy => ?_) (fun y hy hne => ?_) c7
      · have hyc : y ≠ c := (nddl y hy).1
        have hyp : c ≠ t.root → y = t.parentOf c → False := fun hroot e =>
          hpsub y (FTree.mem_members_node.2 (Or.inl hy)) hroot e
        exact ⟨same y (hlm y hy) 0 (by decide) (fun e => absurd e hyc)
            (fun hroot e => (hyp hroot e).elim) (fun _ => by decide) (fun _ => by decide),
          same y (hlm y hy) 4 (by decide) (fun e => absurd e hyc)
            (fun hroot e => ((hyp hroot e).elim)) (fun _ => by decide) (fun _ => by decide),
          same y (hlm y hy) 12 (by decide) (fun e => absurd e hyc)
            (fun hroot e => ((hyp hroot e).elim)) (fun _ => by decide) (fun _ => by decide)⟩
      · have hym := l.nodes_sub_members y hy
        exact same y (hlm y hym) 8 (by decide) (fun e => absurd e (nddl y hym).1)
          (fun hroot e => (hpsub y (FTree.mem_members_node.2 (Or.inl hym)) hroot e).elim)
          (fun e => absurd e hne) (fun e => absurd e (hlr y hym))
    · refine Shape_congr ndr (fun y hy => ?_) (fun y hy hne => ?_) c8
      · have hyc : y ≠ c := (nddr y hy).1
        have hyp : c ≠ t.root → y = t.parentOf c → False := fun hroot e =>
          hpsub y (FTree.mem_members_node.2 (Or.inr (Or.inr (Or.inr hy)))) hroot e
        exact ⟨same y (hrm y hy) 0 (by decide) (fun e => absurd e hyc)
            (fun hroot e => (hyp hroot e).elim) (fun _ => by decide) (fun _ => by decide),
          same y (hrm y hy) 4 (by decide) (fun e => absurd e hyc)
            (fun hroot e => ((hyp hroot e).elim)) (fun _ => by decide) (fun _ => by decide),
          same y (hrm y hy) 12 (by decide) (fun e => absurd e hyc)
            (fun hroot e => ((hyp hroot e).elim)) (fun _ => by decide) (fun _ => by decide)⟩
      · have hym := r.nodes_sub_members y hy
        exact same y (hrm y hym) 8 (by decide) (fun e => absurd e (nddr y hym).1)
          (fun hroot e => (hpsub y (FTree.mem_members_node.2 (Or.inr (Or.inr (Or.inr hym))))
            hroot e).elim)
          (fun e => absurd e (hrl y hym)) (fun e => absurd e hne)
  have hsubres := @TreeOK.subst _ _ _ (.node l b (c :: reps) r) _ _ [b] ok hc har hu
    (by
      intro m hm
      simp only [List.mem_cons, List.mem_singleton, List.not_mem_nil, or_false] at hm
      rcases hm with rfl | rfl | rfl | rfl | rfl
      · by_cases hroot : c = t.root
        · exact Or.inl (hp0 hroot)
        · exact Or.inr (Or.inr (Or.inr ⟨hroot, rfl⟩))
      · exact Or.inr (Or.inr (Or.inl (List.mem_singleton.2 rfl)))
      · exact Or.inr (Or.inl (by
          rw [hsub]; exact FTree.mem_members_node.2 (Or.inr (Or.inl rfl))))
      · rcases l.root_zero_or_mem with e | e
        · exact Or.inl e
        · exact Or.inr (Or.inl (by rw [hsub]; exact FTree.mem_members_node.2 (Or.inl e)))
      · rcases r.root_zero_or_mem with e | e
        · exact Or.inl e
        · exact Or.inr (Or.inl (by
            rw [hsub]; exact FTree.mem_members_node.2 (Or.inr (Or.inr (Or.inr e))))))
    (by
      intro x hx
      rw [List.mem_singleton.1 hx]
      exact ⟨hbr.1, hbr.2.1, hbr.2.2.1, hbr.2.2.2, hsep,
        fun y hy => List.mem_singleton.1 hy⟩)
    hmem' hnd' hshape ?_ ?_ ?_ ?_
  · refine ⟨hsubres.1, ?_, hu, hshape⟩
    intro q hq
    have q1 := hq b (List.mem_cons_self _ _)
    have q2 := hq c (List.mem_cons_of_mem _ hcm)
    have q3 : l.root ≠ 0 → q < l.root ∨ l.root + 16 ≤ q := fun e =>
      hq _ (List.mem_cons_of_mem _ (hlroot.resolve_left e))
    have q4 : r.root ≠ 0 → q < r.root ∨ r.root + 16 ≤ q := fun e =>
      hq _ (List.mem_cons_of_mem _ (hrroot.resolve_left e))
    have q0 : c ≠ t.root → q ≠ slot := fun hroot =>
      (exact_range (hps hroot).2.2 (hq _ (List.mem_cons_of_mem _ (hps hroot).1)) q1 q2).1
    obtain ⟨-, f1, f2, f3, f4, f5, f6⟩ :=
      @exact_range _ b _ _ b (Or.inl rfl) q1 q1 q2
    exact hfr q q0 f1 f2 f3 f4 f5 f6 (fun e => range_ne8 (q3 e)) (fun e => range_ne8 (q4 e))
  · -- order
    intro lo hi ho
    rw [hsub] at ho
    obtain ⟨o1, o2, o3, o4, o5⟩ := ho
    have hsz' : ∀ y ∈ t.members, szOf h'.words y = szOf h.words y := fun y hy => by
      unfold szOf; rw [hdr y hy]
    have ex : szOf h'.words b = szOf h.words c := by
      rw [← hsz]; unfold szOf; rw [hbh]
    refine ⟨ex ▸ o1, ex ▸ o2, ?_, ?_, ?_⟩
    · intro y hy
      rw [ex]
      rcases List.mem_cons.1 hy with e | e
      · rw [e]; exact hsz' c hcm
      · rw [hsz' y (hrepm y e)]; exact o3 y e
    · rw [ex]
      exact Ordered_congr (fun y hy => hsz' y (hlm y hy)) o4
    · rw [ex]
      exact Ordered_congr (fun y hy => hsz' y (hrm y hy)) o5
  · -- the slot of the parent
    intro hroot
    obtain ⟨p1, p2, p5⟩ := hps hroot
    rw [hslot hroot]
    refine ⟨w1 hroot, ?_⟩
    intro q q1 q2 q3
    have hp24 := (ok.lt p1).1
    have hpc : t.parentOf c ≠ c := fun e =>
      hpsub c (FTree.mem_members_node.2 (Or.inr (Or.inl rfl))) hroot e.symm
    have spc := ok.sep _ p1 _ hcm hpc
    have spb := hsep _ p1
    have sl : l.root ≠ 0 → t.parentOf c + 24 ≤ l.root ∨ l.root + 24 ≤ t.parentOf c :=
      fun e => ok.sep _ p1 _ (hlroot.resolve_left e) (fun e' =>
        hpsub _ (FTree.mem_members_node.2 (Or.inl (FTree.root_mem_members e))) hroot e'.symm)
    have sr : r.root ≠ 0 → t.parentOf c + 24 ≤ r.root ∨ r.root + 24 ≤ t.parentOf c :=
      fun e => ok.sep _ p1 _ (hrroot.resolve_left e) (fun e' =>
        hpsub _ (FTree.mem_members_node.2 (Or.inr (Or.inr (Or.inr
          (FTree.root_mem_members e))))) hroot e'.symm)
    obtain ⟨-, f1, f2, f3, f4⟩ := @other_block _ _ _ _ c q1 q2 (Or.inl rfl) spc spb
    obtain ⟨f5, -⟩ := @other_block _ _ _ _ c q1 q2 (Or.inl rfl) spc spb
    obtain ⟨f6, -⟩ := @other_block _ _ _ _ (c + 4) q1 q2 (Or.inr rfl) spc spb
    exact hfr q (fun _ => q3) f1 f2 f3 f4 f5 f6
      (fun e => block_ne8 q1 q2 (sl e)) (fun e => block_ne8 q1 q2 (sr e))
  · intro _ hroot
    exact w4 hroot
  · exact hseat

/-! ### Running `addNodeExact` -/

theorem cond_PUT (h : Heap) {m : Nat} (v : Nat) (hv : m ≠ 0 → h.valid (m + 8))
    (ha : m ≠ 0 → PARENT m = m + 8) :
    (if m ≠ 0 then PUT h (PARENT m) v else .ok h) =
      .ok (if m ≠ 0 then h.store (m + 8) v else h) := by
  by_cases e : m ≠ 0
  · rw [if_pos e, if_pos e, ha e, PUT_ok _ (hv e)]
  · rw [if_neg e, if_neg e]

theorem GET_ite_store (h : Heap) {m a q : Nat} (v : Nat) (hne : m ≠ 0 → q ≠ a) :
    GET (if m ≠ 0 then h.store a v else h) q = GET h q := by
  by_cases e : m ≠ 0
  · rw [if_pos e, GET_store_ne _ _ (hne e)]
  · rw [if_neg e]

theorem valid_ite_store (h : Heap) (m a v q : Nat) :
    (if m ≠ 0 then h.store a v else h).valid q = h.valid q := by
  by_cases e : m ≠ 0
  · rw [if_pos e]; rfl
  · rw [if_neg e]

theorem exact_exec {h : Heap} {b c p lr rr slot : Nat}
    (hb : 24 ≤ b ∧ b + 16 < 4294967296) (hc : 24 ≤ c ∧ c + 16 < 4294967296)
    (hp : c ≠ h.seat → 24 ≤ p ∧ p + 16 < 4294967296)
    (hl : lr = 0 ∨ (24 ≤ lr ∧ lr + 16 < 4294967296))
    (hr : rr = 0 ∨ (24 ≤ rr ∧ rr + 16 < 4294967296))
    (vb : h.valid b ∧ h.valid (b + 4) ∧ h.valid (b + 8) ∧ h.valid (b + 12))
    (vc : h.valid (c - 4) ∧ h.valid c ∧ h.valid (c + 4) ∧ h.valid (c + 8) ∧ h.valid (c + 12))
    (vp : c ≠ h.seat → h.valid (p - 4) ∧ h.valid p ∧ h.valid (p + 4))
    (vl : lr ≠ 0 → h.valid (lr + 8)) (vr : rr ≠ 0 → h.valid (rr + 8))
    (hs : slot = p ∨ slot = p + 4)
    (sbc : b + 24 ≤ c ∨ c + 24 ≤ b) (scp : c ≠ h.seat → c + 24 ≤ p ∨ p + 24 ≤ c)
    (scl : lr = 0 ∨ c + 24 ≤ lr ∨ lr + 24 ≤ c) (scr : rr = 0 ∨ c + 24 ≤ rr ∨ rr + 24 ≤ c) :
    h.words c = lr → h.words (c + 4) = rr → (c ≠ h.seat → h.words (c + 8) = p) →
    (if szOf h.words p > szOf h.words c then p else p + 4) = slot →
    addNodeExact h b c = .ok (exactHeap h b c p slot lr rr) := by
  obtain ⟨vb1, vb2, vb3, vb4⟩ := vb
  obtain ⟨vc0, vc1, vc2, vc3, vc4⟩ := vc
  obtain ⟨ab0, ab1, ab2, ab3⟩ := addr_facts2 hb
  obtain ⟨ac0, ac1, ac2, ac3⟩ := addr_facts2 hc
  have al2 : lr ≠ 0 → PARENT lr = lr + 8 := fun e => PARENT_eq (by
    have := hl.resolve_left e; omega)
  have ar2 : rr ≠ 0 → PARENT rr = rr + 8 := fun e => PARENT_eq (by
    have := hr.resolve_left e; omega)
  obtain ⟨⟨cb00, cb04, cb08, cb0c⟩, ⟨cb40, cb44, cb48, cb4c⟩, ⟨cb80, cb84, cb88, cb8c⟩,
    ⟨cbc0, cbc4, cbc8, cbcc⟩⟩ := fields_ne sbc.symm
  have cl0 : lr ≠ 0 → c ≠ lr + 8 := fun e => (fields_ne (scl.resolve_left e)).1.2.2.1
  have cl4 : lr ≠ 0 → c + 4 ≠ lr + 8 := fun e => (fields_ne (scl.resolve_left e)).2.1.2.2.1
  have cr0 : rr ≠ 0 → c ≠ rr + 8 := fun e => (fields_ne (scr.resolve_left e)).1.2.2.1
  have cr4 : rr ≠ 0 → c + 4 ≠ rr + 8 := fun e => (fields_ne (scr.resolve_left e)).2.1.2.2.1
  clear hb hc hl hr sbc scl scr
  intro e0 e1 e2 hslot
  have g0 := GET_val vc1 e0
  have g1 := GET_val vc2 e1
  unfold szOf at hslot
  unfold addNodeExact exactHeap
  by_cases hroot : c = h.seat
  · have v3 : (h.setSeat b).valid (b + 8) := vb3
    simp (disch := first | assumption | (simp only [store_valid_eq, valid_ite_store, setSeat_valid_eq]; assumption)) only
      [if_pos hroot, ab1, ab2, ab3, ac1, GET_LEFT, GET_RIGHT, PUT_LEFT, PUT_RIGHT, LEFT_eq,
        PUT_ok, ok_bind, GET_store_ne, GET_ite_store, GET_setSeat, g0, g1, cond_PUT]
  · obtain ⟨vp0, vp1, vp2⟩ := vp hroot
    obtain ⟨ap0, ap1, ap2, ap3⟩ := addr_facts2 (hp hroot)
    have g2 := GET_val vc3 (e2 hroot)
    have vs : h.valid slot := by
      rcases hs with e | e <;> rw [e] <;> assumption
    obtain ⟨cs0, cs4, cs8, csc⟩ := slot_ne (scp hroot) hs
    clear hp scp hs vp
    simp (disch := first | assumption | (simp only [store_valid_eq, valid_ite_store]; assumption)) only
      [if_neg hroot, ab1, ab2, ab3, ac0, ac1, ac2, ap0, ap1, GET_LEFT, GET_RIGHT, PUT_LEFT,
        PUT_RIGHT, LEFT_eq, GET_SIZE, GET_val vp0 rfl, GET_val vc0 rfl, map_ok, ite_PUT, hslot,
        PUT_ok, ok_bind, GET_store_ne, GET_ite_store, g0, g1, g2, cond_PUT]

/-! ### The words of the heap after `addNodeExact` -/

theorem self_fields (b : Nat) :
    (b ≠ b + 4 ∧ b ≠ b + 8 ∧ b ≠ b + 12 ∧ b + 4 ≠ b ∧ b + 4 ≠ b + 8 ∧ b + 4 ≠ b + 12) ∧
    (b + 8 ≠ b ∧ b + 8 ≠ b + 4 ∧ b + 8 ≠ b + 12 ∧ b + 12 ≠ b ∧ b + 12 ≠ b + 4 ∧
      b + 12 ≠ b + 8) := by
  omega

theorem exactHeap_arena (h : Heap) (b c p slot lr rr : Nat) :
    SameArena h (exactHeap h b c p slot lr rr) ∧
    (exactHeap h b c p slot lr rr).seat = if c = h.seat then b else h.seat := by
  unfold exactHeap SameArena
  by_cases hroot : c = h.seat <;> by_cases hl0 : lr = 0 <;> by_cases hr0 : rr = 0 <;>
    simp [hroot, hl0, hr0, Heap.store, Heap.setSeat]

theorem exactHeap_facts {h : Heap} {b c p lr rr slot : Nat}
    (hb : b + 16 < 4294967296) (hc : c + 16 < 4294967296) (hp : p < 4294967296)
    (hl : lr < 4294967296) (hr : rr < 4294967296)
    (hs : slot = p ∨ slot = p + 4)
    (sbc : b + 24 ≤ c ∨ c + 24 ≤ b)
    (sbp : c ≠ h.seat → b + 24 ≤ p ∨ p + 24 ≤ b)
    (scp : c ≠ h.seat → c + 24 ≤ p ∨ p + 24 ≤ c)
    (sbl : lr = 0 ∨ b + 24 ≤ lr ∨ lr + 24 ≤ b) (sbr : rr = 0 ∨ b + 24 ≤ rr ∨ rr + 24 ≤ b)
    (scl : lr = 0 ∨ c + 24 ≤ lr ∨ lr + 24 ≤ c) (scr : rr = 0 ∨ c + 24 ≤ rr ∨ rr + 24 ≤ c)
    (spl : c ≠ h.seat → lr = 0 ∨ p + 24 ≤ lr ∨ lr + 24 ≤ p)
    (spr : c ≠ h.seat → rr = 0 ∨ p + 24 ≤ rr ∨ rr + 24 ≤ p)
    (slr : lr = 0 ∨ rr = 0 ∨ lr + 24 ≤ rr ∨ rr + 24 ≤ lr) :
    (c ≠ h.seat → (exactHeap h b c p slot lr rr).words slot = b) ∧
    (exactHeap h b c p slot lr rr).words b = lr ∧
    (exactHeap h b c p slot lr rr).words (b + 4) = rr ∧
    (c ≠ h.seat → (exactHeap h b c p slot lr rr).words (b + 8) = p) ∧
    (exactHeap h b c p slot lr rr).words (b + 12) = c ∧
    (exactHeap h b c p slot lr rr).words c = b ∧
    (exactHeap h b c p slot lr rr).words (c + 4) = M1 ∧
    (lr ≠ 0 → (exactHeap h b c p slot lr rr).words (lr + 8) = b) ∧
    (rr ≠ 0 → (exactHeap h b c p slot lr rr).words (rr + 8) = b) ∧
    (∀ q, (c ≠ h.seat → q ≠ slot) → q ≠ b → q ≠ b + 4 → q ≠ b + 8 → q ≠ b + 12 → q ≠ c →
      q ≠ c + 4 → (lr ≠ 0 → q ≠ lr + 8) → (rr ≠ 0 → q ≠ rr + 8) →
      (exactHeap h b c p slot lr rr).words q = h.words q) := by
  have hb' : b < 4294967296 := by omega
  have hc' : c < 4294967296 := by omega
  have mb : b % W32 = b := Nat.mod_eq_of_lt hb'
  have mc : c % W32 = c := Nat.mod_eq_of_lt hc'
  have mp : p % W32 = p := Nat.mod_eq_of_lt hp
  have ml : lr % W32 = lr := Nat.mod_eq_of_lt hl
  have mr : rr % W32 = rr := Nat.mod_eq_of_lt hr
  have m0 : 0 % W32 = 0 := rfl
  have m1 : M1 % W32 = M1 := rfl
  obtain ⟨⟨i1, i2, i3, i4, i5, i6⟩, ⟨i7, i8, i9, i10, i11, i12⟩⟩ := self_fields b
  have j1 : c ≠ c + 4 := (self_fields c).1.1
  have j2 : c + 4 ≠ c := (self_fields c).1.2.2.2.1
  obtain ⟨⟨bc00, bc04, -, -⟩, ⟨bc40, bc44, -, -⟩, ⟨bc80, bc84, -, -⟩,
    ⟨bcc0, bcc4, -, -⟩⟩ := fields_ne sbc
  obtain ⟨⟨cb00, cb04, cb08, cb0c⟩, ⟨cb40, cb44, cb48, cb4c⟩, -, -⟩ := fields_ne sbc.symm
  have ds : c ≠ h.seat → (slot ≠ b ∧ slot ≠ b + 4 ∧ slot ≠ b + 8 ∧ slot ≠ b + 12) ∧
      (slot ≠ c ∧ slot ≠ c + 4) ∧ (b ≠ slot ∧ b + 4 ≠ slot ∧ b + 8 ≠ slot ∧ b + 12 ≠ slot) ∧
      (c ≠ slot ∧ c + 4 ≠ slot) := fun e =>
    ⟨slot_ne2 (sbp e) hs, ⟨(slot_ne2 (scp e) hs).1, (slot_ne2 (scp e) hs).2.1⟩,
      slot_ne (sbp e) hs, ⟨(slot_ne (scp e) hs).1, (slot_ne (scp e) hs).2.1⟩⟩
  have dl : lr ≠ 0 → (b ≠ lr + 8 ∧ b + 4 ≠ lr + 8 ∧ b + 8 ≠ lr + 8 ∧ b + 12 ≠ lr + 8) ∧
      (c ≠ lr + 8 ∧ c + 4 ≠ lr + 8) ∧
      (lr + 8 ≠ b ∧ lr + 8 ≠ b + 4 ∧ lr + 8 ≠ b + 8 ∧ lr + 8 ≠ b + 12) ∧
      (lr + 8 ≠ c ∧ lr + 8 ≠ c + 4) := fun e =>
    have s1 := sbl.resolve_left e
    have s2 := scl.resolve_left e
    ⟨⟨(fields_ne s1).1.2.2.1, (fields_ne s1).2.1.2.2.1, (fields_ne s1).2.2.1.2.2.1,
      (fields_ne s1).2.2.2.2.2.1⟩, ⟨(fields_ne s2).1.2.2.1, (fields_ne s2).2.1.2.2.1⟩,
      (fields_ne s1.symm).2.2.1, ⟨(fields_ne s2.symm).2.2.1.1, (fields_ne s2.symm).2.2.1.2.1⟩⟩
  have dr : rr ≠ 0 → (b ≠ rr + 8 ∧ b + 4 ≠ rr + 8 ∧ b + 8 ≠ rr + 8 ∧ b + 12 ≠ rr + 8) ∧
      (c ≠ rr + 8 ∧ c + 4 ≠ rr + 8) ∧
      (rr + 8 ≠ b ∧ rr + 8 ≠ b + 4 ∧ rr + 8 ≠ b + 8 ∧ rr + 8 ≠ b + 12) ∧
      (rr + 8 ≠ c ∧ rr + 8 ≠ c + 4) := fun e =>
    have s1 := sbr.resolve_left e
    have s2 := scr.resolve_left e
    ⟨⟨(fields_ne s1).1.2.2.1, (fields_ne s1).2.1.2.2.1, (fields_ne s1).2.2.1.2.2.1,
      (fields_ne s1).2.2.2.2.2.1⟩, ⟨(fields_ne s2).1.2.2.1, (fields_ne s2).2.1.2.2.1⟩,
      (fields_ne s1.symm).2.2.1, ⟨(fields_ne s2.symm).2.2.1.1, (fields_ne s2.symm).2.2.1.2.1⟩⟩
  have dsl : c ≠ h.seat → lr ≠ 0 → slot ≠ lr + 8 ∧ lr + 8 ≠ slot := fun e e' =>
    ⟨slot_ne3 ((spl e).resolve_left e') hs, (slot_ne3 ((spl e).resolve_left e') hs).symm⟩
  have dsr : c ≠ h.seat → rr ≠ 0 → slot ≠ rr + 8 ∧ rr + 8 ≠ slot := fun e e' =>
    ⟨slot_ne3 ((spr e).resolve_left e') hs, (slot_ne3 ((spr e).resolve_left e') hs).symm⟩
  have dlr : lr ≠ 0 → rr ≠ 0 → lr + 8 ≠ rr + 8 ∧ rr + 8 ≠ lr + 8 := fun e1 e2 =>
    ⟨(fields_ne ((slr.resolve_left e1).resolve_left e2)).2.2.1.2.2.1,
      (fields_ne ((slr.resolve_left e1).resolve_left e2).symm).2.2.1.2.2.1⟩
  clear hb hc hp hl hr hs sbc sbp scp sbl sbr scl scr spl spr slr hb' hc'
  by_cases hroot : c = h.seat
  · clear ds dsl dsr
    by_cases hl0 : lr = 0 <;> by_cases hr0 : rr = 0
    · clear dl dr dlr
      refine ⟨fun e => absurd hroot e, ?_, ?_, fun e => absurd hroot e, ?_, ?_, ?_,
        fun e => absurd hl0 e, fun e => absurd hr0 e, ?_⟩
      all_goals try intro q _ q2 q3 q4 q5 q6 q7 _ _
      all_goals simp only [exactHeap, if_pos hroot]
      all_goals clear hroot
      all_goals
        simp only [store_words, setSeat_words, hl0, hr0, mb, mc, mp,
          ml, mr, m0, m1, if_true, if_false, ne_eq, not_true_eq_false, not_false_eq_true, *]
    · obtain ⟨⟨r1, r2, r3, r4⟩, ⟨r5, r6⟩, ⟨r7, r8, r9, r10⟩, ⟨r11, r12⟩⟩ := dr hr0
      clear dl dr dlr
      refine ⟨fun e => absurd hroot e, ?_, ?_, fun e => absurd hroot e, ?_, ?_, ?_,
        fun e => absurd hl0 e, fun _ => ?_, ?_⟩
      all_goals try intro q _ q2 q3 q4 q5 q6 q7 _ q9
      all_goals try have q9 := q9 hr0
      all_goals simp only [exactHeap, if_pos hroot]
      all_goals clear hroot
      all_goals
        simp only [store_words, setSeat_words, hl0, hr0, mb, mc, mp,
          ml, mr, m0, m1, if_true, if_false, ne_eq, not_true_eq_false, not_false_eq_true, *]
    · obtain ⟨⟨l1, l2, l3, l4⟩, ⟨l5, l6⟩, ⟨l7, l8, l9, l10⟩, ⟨l11, l12⟩⟩ := dl hl0
      clear dl dr dlr
      refine ⟨fun e => absurd hroot e, ?_, ?_, fun e => absurd hroot e, ?_, ?_, ?_,
        fun _ => ?_, fun e => absurd hr0 e, ?_⟩
      all_goals try intro q _ q2 q3 q4 q5 q6 q7 q8 _
      all_goals try have q8 := q8 hl0
      all_goals simp only [exactHeap, if_pos hroot]
      all_goals clear hroot
      all_goals
        simp only [store_words, setSeat_words, hl0, hr0, mb, mc, mp,
          ml, mr, m0, m1, if_true, if_false, ne_eq, not_true_eq_false, not_false_eq_true, *]
    · obtain ⟨⟨l1, l2, l3, l4⟩, ⟨l5, l6⟩, ⟨l7, l8, l9, l10⟩, ⟨l11, l12⟩⟩ := dl hl0
      obtain ⟨⟨r1, r2, r3, r4⟩, ⟨r5, r6⟩, ⟨r7, r8, r9, r10⟩, ⟨r11, r12⟩⟩ := dr hr0
      obtain ⟨lr1, lr2⟩ := dlr hl0 hr0
      clear dl dr dlr
      refine ⟨fun e => absurd hroot e, ?_, ?_, fun e => absurd hroot e, ?_, ?_, ?_,
        fun _ => ?_, fun _ => ?_, ?_⟩
      all_goals try intro q _ q2 q3 q4 q5 q6 q7 q8 q9
      all_goals try have q8 := q8 hl0
      all_goals try have q9 := q9 hr0
      all_goals simp only [exactHeap, if_pos hroot]
      all_goals clear hroot
      all_goals
        simp only [store_words, setSeat_words, hl0, hr0, mb, mc, mp,
          ml, mr, m0, m1, if_true, if_false, ne_eq, not_true_eq_false, not_false_eq_true, *]
  · obtain ⟨⟨s1, s2, s3, s4⟩, ⟨s5, s6⟩, ⟨s7, s8, s9, s10⟩, ⟨s11, s12⟩⟩ := ds hroot
    have dsl := dsl hroot
    have dsr := dsr hroot
    clear ds
    by_cases hl0 : lr = 0 <;> by_cases hr0 : rr = 0
    · clear dl dr dlr dsl dsr
      refine ⟨fun _ => ?_, ?_, ?_, fun _ => ?_, ?_, ?_, ?_,
        fun e => absurd hl0 e, fun e => absurd hr0 e, ?_⟩
      all_goals try intro q q1 q2 q3 q4 q5 q6 q7 _ _
      all_goals try have q1 := q1 hroot
      all_goals
        simp only [exactHeap, store_words, setSeat_words, if_neg hroot, hl0, hr0, mb, mc, mp,
          ml, mr, m0, m1, if_true, if_false, ne_eq, not_true_eq_false, not_false_eq_true, *]
    · obtain ⟨⟨r1, r2, r3, r4⟩, ⟨r5, r6⟩, ⟨r7, r8, r9, r10⟩, ⟨r11, r12⟩⟩ := dr hr0
      obtain ⟨sr1, sr2⟩ := dsr hr0
      clear dl dr dlr dsl dsr
      refine ⟨fun _ => ?_, ?_, ?_, fun _ => ?_, ?_, ?_, ?_,
        fun e => absurd hl0 e, fun _ => ?_, ?_⟩
      all_goals try intro q q1 q2 q3 q4 q5 q6 q7 _ q9
      all_goals try have q1 := q1 hroot
      all_goals try have q9 := q9 hr0
      all_goals
        simp only [exactHeap, store_words, setSeat_words, if_neg hroot, hl0, hr0, mb, mc, mp,
          ml, mr, m0, m1, if_true, if_false, ne_eq, not_true_eq_false, not_false_eq_true, *]
    · obtain ⟨⟨l1, l2, l3, l4⟩, ⟨l5, l6⟩, ⟨l7, l8, l9, l10⟩, ⟨l11, l12⟩⟩ := dl hl0
      obtain ⟨sl1, sl2⟩ := dsl hl0
      clear dl dr dlr dsl dsr
      refine ⟨fun _ => ?_, ?_, ?_, fun _ => ?_, ?_, ?_, ?_,
        fun _ => ?_, fun e => absurd hr0 e, ?_⟩
      all_goals try intro q q1 q2 q3 q4 q5 q6 q7 q8 _
      all_goals try have q1 := q1 hroot
      all_goals try have q8 := q8 hl0
      all_goals
        simp only [exactHeap, store_words, setSeat_words, if_neg hroot, hl0, hr0, mb, mc, mp,
          ml, mr, m0, m1, if_true, if_false, ne_eq, not_true_eq_false, not_false_eq_true, *]
    · obtain ⟨⟨l1, l2, l3, l4⟩, ⟨l5, l6⟩, ⟨l7, l8, l9, l10⟩, ⟨l11, l12⟩⟩ := dl hl0
      obtain ⟨⟨r1, r2, r3, r4⟩, ⟨r5, r6⟩, ⟨r7, r8, r9, r10⟩, ⟨r11, r12⟩⟩ := dr hr0
      obtain ⟨lr1, lr2⟩ := dlr hl0 hr0
      obtain ⟨sl1, sl2⟩ := dsl hl0
      obtain ⟨sr1, sr2⟩ := dsr hr0
      clear dl dr dlr dsl dsr
      refine ⟨fun _ => ?_, ?_, ?_, fun _ => ?_, ?_, ?_, ?_,
        fun _ => ?_, fun _ => ?_, ?_⟩
      all_goals try intro q q1 q2 q3 q4 q5 q6 q7 q8 q9
      all_goals try have q1 := q1 hroot
      all_goals try have q8 := q8 hl0
      all_goals try have q9 := q9 hr0
      all_goals
        simp only [exactHeap, store_words, setSeat_words, if_neg hroot, hl0, hr0, mb, mc, mp,
          ml, mr, m0, m1, if_true, if_false, ne_eq, not_true_eq_false, not_false_eq_true, *]

/-! ### `addNode` on any tree -/

theorem szOf_lt (w : Nat → Nat) (a : Nat) : szOf w a < W32 := by
  unfold szOf W32
  rw [sizeOf_eq]
  omega

theorem TreeOK.first {h : Heap} {t : FTree} (ok : TreeOK h t) (hroot : h.seat = 0) {b : Nat}
    (hbr : 24 ≤ b ∧ h.lo + 4 ≤ b ∧ b + 16 ≤ h.brk ∧ b % 4 = 0)
    (hk : 0 < szOf h.words b) :
    TreeOK (firstHeap h b) (.node .nil b [] .nil) ∧
    Untouched h.words (firstHeap h b).words [b] := by
  obtain ⟨w1, w2, w3, hfr, har, hseat⟩ := firstHeap_facts h b
  have hbh : (firstHeap h b).words (b - 4) = h.words (b - 4) := by
    obtain ⟨f1, f2, f3, f4, -, -⟩ := exact_hdr (c := b + 24) hbr.1 (Or.inl (le_refl _))
    exact hfr _ f1 f2 f3 f4
  refine ⟨⟨⟨w1, w2, w3, trivial, fun e => absurd rfl e, fun e => absurd rfl e, trivial,
    trivial⟩, hseat.symm, ⟨?_, ?_, fun x hx => absurd hx (List.not_mem_nil _), trivial,
    trivial⟩, by simp [FTree.members], ?_, ?_, ?_⟩, ?_⟩
  · unfold szOf; rw [hbh]; exact hk
  · exact szOf_lt _ _
  · intro a ha
    simp only [FTree.members, List.nil_append, List.append_nil, List.mem_singleton] at ha
    rw [ha, har.1, har.2.1]
    exact hbr
  · intro a ha x hx hne
    simp only [FTree.members, List.nil_append, List.append_nil, List.mem_singleton] at ha hx
    exact absurd (ha.trans hx.symm) hne
  · rw [har.2.1]; exact ok.brk_lt
  · intro q hq
    have q1 := hq b (List.mem_singleton.2 rfl)
    obtain ⟨-, f1, f2, f3, f4, -, -⟩ := @exact_range _ b _ b b (Or.inl rfl)
      q1 q1 q1
    exact hfr q f1 f2 f3 f4

/-- The branch of `addNode` for a block `b` whose size is that of the tree node
`c`: `b` takes the place of `c` in the tree, and `c` becomes the head of the
replica chain of `b`. -/
theorem exact_spec {h : Heap} {t : FTree} (ok : TreeOK h t) {b c : Nat} {l r : FTree}
    {reps : List Nat}
    (hbr : 24 ≤ b ∧ h.lo + 4 ≤ b ∧ b + 16 ≤ h.brk ∧ b % 4 = 0)
    (hsep : ∀ x ∈ t.members, b + 24 ≤ x ∨ x + 24 ≤ b)
    (hc : c ∈ t.nodes) (hsub : t.subtreeAt c = .node l c reps r)
    (k3 : szOf h.words b = szOf h.words c) :
    ∃ h' slot, addNodeExact h b c = .ok h' ∧ SameArena h h' ∧
      Untouched h.words h'.words (b :: t.members) ∧
      TreeOK h' (t.subst c (.node l b (c :: reps) r)) ∧
      Untouched h.words h'.words [t.parentOf c, b, c, l.root, r.root] ∧
      h'.seat = (if c = h.seat then b else h.seat) ∧
      (c ≠ h.seat → h'.words slot = b) ∧ h'.words b = l.root ∧ h'.words (b + 4) = r.root ∧
      (c ≠ h.seat → h'.words (b + 8) = t.parentOf c) ∧ h'.words (b + 12) = c ∧
      h'.words c = b ∧ h'.words (c + 4) = M1 ∧ (l.root ≠ 0 → h'.words (l.root + 8) = b) ∧
      (r.root ≠ 0 → h'.words (r.root + 8) = b) ∧
      (slot = t.parentOf c ∨ slot = t.parentOf c + 4) ∧ (c ≠ h.seat → h.words slot = c) ∧
      Shape h'.words (.node l b (c :: reps) r) := by
  have hb24 : 24 ≤ b ∧ b + 16 < 4294967296 := by
    have := ok.brk_lt; unfold W32 at this; omega
  have vb : h.valid (b - 4) ∧ h.valid b ∧ h.valid (b + 4) ∧ h.valid (b + 8) ∧
      h.valid (b + 12) := by
    unfold Heap.valid; omega
  have hcm : c ∈ t.members := t.nodes_sub_members c hc
  obtain ⟨hsh, hsm, hsnd⟩ := ok.sub hsub
  obtain ⟨c1, c2, c3, c4, c5, c6, c7, c8⟩ := hsh
  obtain ⟨ndl, ndr, ndreps, ndar, nddl, nddr⟩ := FTree.nodup_node hsnd
  have hlm : ∀ y ∈ l.members, y ∈ t.members :=
    fun y hy => hsm y (FTree.mem_members_node.2 (Or.inl hy))
  have hrm : ∀ y ∈ r.members, y ∈ t.members :=
    fun y hy => hsm y (FTree.mem_members_node.2 (Or.inr (Or.inr (Or.inr hy))))
  have hlroot : l.root = 0 ∨ l.root ∈ t.members := l.root_zero_or_mem.imp id (hlm _)
  have hrroot : r.root = 0 ∨ r.root ∈ t.members := r.root_zero_or_mem.imp id (hrm _)
  have hrt : c ≠ h.seat → c ≠ t.root := fun e e' => e (e'.trans ok.root)
  have hcl : c ≠ l.root := fun e =>
    (nddl _ (FTree.root_mem_members (e ▸ ok.ne_zero hcm))).1 e.symm
  have hcr : c ≠ r.root := fun e =>
    (nddr _ (FTree.root_mem_members (e ▸ ok.ne_zero hcm))).1 e.symm
  have hlr : l.root ≠ 0 → r.root ≠ 0 → l.root ≠ r.root := fun e1 e2 e =>
    (nddl _ (FTree.root_mem_members e1)).2.2 (e ▸ FTree.root_mem_members e2)
  have hpm : c ≠ h.seat → t.parentOf c ∈ t.members := fun e => (ok.slot hc (hrt e)).1
  have hpsub : ∀ y ∈ (FTree.node l c reps r).members, c ≠ h.seat → t.parentOf c ≠ y :=
    fun y hy e e' => (ok.slot hc (hrt e)).2.1 (by rw [hsub, e']; exact hy)
  have hpc : c ≠ h.seat → c ≠ t.parentOf c := fun e e' =>
    hpsub c (FTree.mem_members_node.2 (Or.inr (Or.inl rfl))) e e'.symm
  have hp0 : t.parentOf c = 0 ∨ t.parentOf c ∈ t.members := by
    by_cases e : c = h.seat
    · left; rw [e, ← ok.root]; exact t.parentOf_root
    · exact Or.inr (hpm e)
  have hs : (if szOf h.words (t.parentOf c) > szOf h.words c then t.parentOf c
      else t.parentOf c + 4) = t.parentOf c ∨
      (if szOf h.words (t.parentOf c) > szOf h.words c then t.parentOf c
      else t.parentOf c + 4) = t.parentOf c + 4 := by
    split
    · exact Or.inl rfl
    · exact Or.inr rfl
  have hslot : c ≠ t.root → (if szOf h.words c > szOf h.words (t.parentOf c)
      then t.parentOf c + 4 else t.parentOf c) =
      (if szOf h.words (t.parentOf c) > szOf h.words c then t.parentOf c
      else t.parentOf c + 4) := by
    intro hroot
    obtain ⟨-, -, -, p4⟩ := parent_facts ok.shape ok.ordered ok.nodup
      (ok.ne_zero hcm) hc hroot
    rcases p4 with ⟨-, q2, -⟩ | ⟨-, q2, -⟩
    · rw [if_neg (by omega), if_pos (by omega)]
    · rw [if_pos (by omega), if_neg (by omega)]
  generalize hsl : (if szOf h.words (t.parentOf c) > szOf h.words c then t.parentOf c
      else t.parentOf c + 4) = slot at hs hslot
  have hex := @exact_exec h b c (t.parentOf c) _ _ slot
    hb24 (ok.lt hcm) (fun e => ok.lt (hpm e)) (ok.lt0 hlroot) (ok.lt0 hrroot) vb.2
    (ok.valid hcm)
    (fun e => ⟨(ok.valid (hpm e)).1, (ok.valid (hpm e)).2.1, (ok.valid (hpm e)).2.2.1⟩)
    (ok.valid8 hlroot) (ok.valid8 hrroot) hs (hsep c hcm)
    (fun e => ok.sep _ hcm _ (hpm e) (hpc e))
    (ok.sepne hcm hlroot hcl) (ok.sepne hcm hrroot hcr) c1 c2
    (fun e => (ok.slot hc (hrt e)).2.2.1) hsl
  obtain ⟨w1, w2, w3, w4, w5, w6, w7, w8, w9, hfr⟩ :=
    @exactHeap_facts h b c (t.parentOf c) l.root
      r.root slot hb24.2 (ok.lt hcm).2 (ok.lt1 hp0) (ok.lt1 hlroot)
      (ok.lt1 hrroot) hs (hsep c hcm) (fun e => hsep _ (hpm e))
      (fun e => ok.sep _ hcm _ (hpm e) (hpc e))
      (hlroot.imp id (hsep _)) (hrroot.imp id (hsep _))
      (ok.sepne hcm hlroot hcl) (ok.sepne hcm hrroot hcr)
      (fun e => ok.sepne (hpm e) hlroot (fun e' => by
        rcases l.root_zero_or_mem with z | z
        · exact ok.ne_zero (hpm e) (e'.trans z)
        · exact hpsub _ (FTree.mem_members_node.2 (Or.inl z)) e e'))
      (fun e => ok.sepne (hpm e) hrroot (fun e' => by
        rcases r.root_zero_or_mem with z | z
        · exact ok.ne_zero (hpm e) (e'.trans z)
        · exact hpsub _ (FTree.mem_members_node.2 (Or.inr (Or.inr (Or.inr z)))) e e'))
      (ok.sepne2 hlroot hrroot hlr)
  obtain ⟨har, hst⟩ := exactHeap_arena h b c (t.parentOf c) slot l.root r.root
  have hrt' : c ≠ t.root → c ≠ h.seat := fun e e' => e (e'.trans ok.root.symm)
  obtain ⟨t1, t2, t3, t4⟩ := exact_tree ok hc hsub hbr hsep k3 hslot har
    (by
      rw [hst]
      by_cases e : c = h.seat
      · rw [if_pos e, if_pos (ok.root.trans e.symm)]
      · rw [if_neg e, if_neg (fun e' => hrt e e'.symm)])
    (fun e => w1 (hrt' e)) w2 w3 (fun e => w4 (hrt' e)) w5 w6 w7 w8 w9
    (fun q q1 => hfr q (fun e => q1 (hrt e)))
  exact ⟨_, slot, hex, har, t2, t1, t3, hst, w1, w2, w3, w4, w5, w6, w7, w8, w9, hs,
    fun e => (hslot (hrt e)) ▸ (ok.slot hc (hrt e)).2.2.2.1, t4⟩

theorem addNode_spec {h : Heap} {t : FTree} (ok : TreeOK h t) {b : Nat}
    (hbr : 24 ≤ b ∧ h.lo + 4 ≤ b ∧ b + 16 ≤ h.brk ∧ b % 4 = 0)
    (hsep : ∀ x ∈ t.members, b + 24 ≤ x ∨ x + 24 ≤ b)
    (hk : 0 < szOf h.words b) :
    ∃ h', (∀ fuel, t.height ≤ fuel → addNode fuel h b = .ok h') ∧ SameArena h h' ∧
      Untouched h.words h'.words (b :: t.members) ∧
      TreeOK h' (t.ins h.words b (szOf h.words b)) := by
  have hb24 : 24 ≤ b ∧ b + 16 < 4294967296 := by
    have := ok.brk_lt; unfold W32 at this; omega
  have vb : h.valid (b - 4) ∧ h.valid b ∧ h.valid (b + 4) ∧ h.valid (b + 8) ∧
      h.valid (b + 12) := by
    unfold Heap.valid; omega
  obtain ⟨ab0, ab1, ab2, ab3⟩ := addr_facts2 hb24
  by_cases hseat0 : h.seat = 0
  · have htn : t = .nil := FTree.eq_nil_of_root
      (fun a ha => ok.ne_zero (t.nodes_sub_members a ha)) (ok.root.trans hseat0)
    subst htn
    obtain ⟨t1, t2⟩ := ok.first hseat0 hbr hk
    exact ⟨firstHeap h b, fun fuel _ => first_exec hb24 vb.2 hseat0 fuel,
      (firstHeap_facts h b).2.2.2.2.1, t2, t1⟩
  · have hne : t.root ≠ 0 := fun e => hseat0 (ok.root ▸ e)
    obtain ⟨hc, hins, l, reps, r, hsub, hln, hrn⟩ := FTree.ins_eq_subst (w := h.words)
      (fun a ha => ok.ne_zero (t.nodes_sub_members a ha)) ok.nodup hne b (szOf h.words b)
    generalize hcdef : t.stopAt h.words (szOf h.words b) = c at hc hins hsub hln hrn
    have hcm : c ∈ t.members := t.nodes_sub_members c hc
    obtain ⟨hsh, hsm, hsnd⟩ := ok.sub hsub
    obtain ⟨c1, c2, c3, c4, c5, c6, c7, c8⟩ := hsh
    obtain ⟨vc0, vc1, vc2, vc3, vc4⟩ := ok.valid hcm
    obtain ⟨ac0, ac1, ac2, ac3⟩ := ok.addr hcm
    have hloop : ∀ fuel, t.height ≤ fuel → addNode fuel h b = addNodeLoop 1 h b c := by
      intro fuel hf
      unfold addNode
      rw [if_neg hseat0, ← ok.root, ← hcdef]
      exact addNodeLoop_spec ok.shape (fun a ha => by
        have hm := t.nodes_sub_members a ha
        obtain ⟨v0, v1, v2, -, -⟩ := ok.valid hm
        obtain ⟨a0, a1, -, -⟩ := ok.addr hm
        exact ⟨ok.ne_zero hm, a0, a1, v0, v1, v2⟩) ab0 vb.1 hne fuel hf
    have hstep := addNodeLoop_step (n := 0) ab0 vb.1 ac0 ac1 vc0 vc1 vc2 c1 c2
    have hszfr : ∀ h' : Heap, (∀ y ∈ t.members, h'.words (y - 4) = h.words (y - 4)) →
        h'.words (b - 4) = h.words (b - 4) →
        Ordered h'.words (t.ins h.words b (szOf h.words b)) 0 W32 := by
      intro h' hd hbh
      refine Ordered_ins ok.ordered (fun y hy => ?_) ?_ hk (szOf_lt _ _)
      · unfold szOf; rw [hd y hy]
      · unfold szOf; rw [hbh]
    have hleaf : ∀ slot, (slot = c ∨ slot = c + 4) →
        (∀ y ∈ t.members, (leafHeap h slot b c).words (y - 4) = h.words (y - 4)) ∧
        (leafHeap h slot b c).words (b - 4) = h.words (b - 4) := by
      intro slot hs
      obtain ⟨-, -, -, -, -, hfr, -, -⟩ := leafHeap_facts (h := h) (by omega : b < 4294967296)
        (by have := ok.lt hcm; omega : c < 4294967296) hs (hsep c hcm)
      refine ⟨fun y hy => ?_, ?_⟩
      · have hy24 := (ok.lt hy).1
        obtain ⟨f1, f2, f3, f4⟩ := fresh_hdr_ne (hsep y hy) hy24
        exact hfr _ (hdr_ne_slot (ok.sep' hy hcm) hs hy24) f1 f2 f3 f4
      · obtain ⟨f1, f2, f3, f4, -, -⟩ := exact_hdr hbr.1 (hsep c hcm)
        exact hfr _ (exact_hdr_slot hbr.1 hs (hsep c hcm)) f1 f2 f3 f4
    by_cases k1 : szOf h.words b < szOf h.words c
    · -- a new leaf on the left
      have hl := hln k1
      subst hl
      have hs : c = c ∨ c = c + 4 := Or.inl rfl
      obtain ⟨w1, w2, w3, w4, w5, hfr, har, hst⟩ :=
        leafHeap_facts (h := h) (by omega : b < 4294967296)
          (by have := ok.lt hcm; omega : c < 4294967296) hs (hsep c hcm)
      have hinsc : (FTree.node .nil c reps r).ins h.words b (szOf h.words b) =
          .node (.node .nil b [] .nil) c reps r := by
        rw [FTree.ins_node, if_pos k1]; rfl
      rw [hsub, hinsc] at hins
      have hord := hszfr _ (hleaf c hs).1 (hleaf c hs).2
      rw [hins] at hord ⊢
      obtain ⟨t1, t2⟩ := leaf_tree ok hc hsub hbr hsep (Or.inl ⟨rfl, rfl, rfl⟩) hord har hst
        w1 w2 w3 w4 w5 hfr
      refine ⟨_, fun fuel hf => ?_, har, t2, t1⟩
      rw [hloop fuel hf, hstep, if_pos k1,
        if_neg (show ¬ (FTree.nil.root ≠ 0) from fun e => e rfl)]
      exact leaf_exec true hb24 (ok.lt hcm) vb.2 ⟨vc1, vc2⟩
    · by_cases k2 : szOf h.words b > szOf h.words c
      · -- a new leaf on the right
        have hr := hrn k2
        subst hr
        have hs : c + 4 = c ∨ c + 4 = c + 4 := Or.inr rfl
        obtain ⟨w1, w2, w3, w4, w5, hfr, har, hst⟩ :=
          leafHeap_facts (h := h) (by omega : b < 4294967296)
            (by have := ok.lt hcm; omega : c < 4294967296) hs (hsep c hcm)
        have hinsc : (FTree.node l c reps .nil).ins h.words b (szOf h.words b) =
            .node l c reps (.node .nil b [] .nil) := by
          rw [FTree.ins_node, if_neg k1, if_pos k2]; rfl
        rw [hsub, hinsc] at hins
        have hord := hszfr _ (hleaf _ hs).1 (hleaf _ hs).2
        rw [hins] at hord ⊢
        obtain ⟨t1, t2⟩ := leaf_tree ok hc hsub hbr hsep (Or.inr ⟨rfl, rfl, rfl⟩) hord har hst
          w1 w2 w3 w4 w5 hfr
        refine ⟨_, fun fuel hf => ?_, har, t2, t1⟩
        rw [hloop fuel hf, hstep, if_neg k1, if_pos k2,
          if_neg (show ¬ (FTree.nil.root ≠ 0) from fun e => e rfl)]
        exact leaf_exec false hb24 (ok.lt hcm) vb.2 ⟨vc1, vc2⟩
      · -- a block of the size of the tree node `c`
        have k3 : szOf h.words b = szOf h.words c := by omega
        have hinsc : (FTree.node l c reps r).ins h.words b (szOf h.words b) =
            .node l b (c :: reps) r := by
          rw [FTree.ins_node, if_neg k1, if_neg k2]
        rw [hsub, hinsc] at hins
        rw [hins]
        obtain ⟨h', -, hex, har, t2, t1, -⟩ := exact_spec ok hbr hsep hc hsub k3
        refine ⟨h', fun fuel hf => ?_, har, t2, t1⟩
        rw [hloop fuel hf, hstep, if_neg k1, if_neg k2]
        exact hex

/-! ### What a tree in memory says about the index -/

theorem FTree.root_ne_zero_of_mem {t : FTree} (hnz : ∀ a ∈ t.nodes, a ≠ 0) {c : Nat}
    (hc : c ∈ t.nodes) : t.root ≠ 0 := by
  cases t with
  | nil => exact absurd hc (List.not_mem_nil _)
  | node l a reps r => exact hnz a (FTree.mem_nodes_node.2 (Or.inr (Or.inl rfl)))

/-- The loop of `addNode` stops at the tree node of the size of the block, when there is one. -/
theorem FTree.stopAt_of_size {w : Nat → Nat} {t : FTree} {lo hi c : Nat}
    (ho : Ordered w t lo hi) (hnz : ∀ a ∈ t.nodes, a ≠ 0) (hc : c ∈ t.nodes) :
    t.stopAt w (szOf w c) = c := by
  induction t generalizing lo hi with
  | nil => exact absurd hc (List.not_mem_nil _)
  | node l a reps r ihl ihr =>
    obtain ⟨o1, o2, o3, o4, o5⟩ := ho
    rw [FTree.stopAt_node]
    have hnzl : ∀ x ∈ l.nodes, x ≠ 0 := fun x hx => hnz x (FTree.mem_nodes_node.2 (Or.inl hx))
    have hnzr : ∀ x ∈ r.nodes, x ≠ 0 :=
      fun x hx => hnz x (FTree.mem_nodes_node.2 (Or.inr (Or.inr hx)))
    rcases FTree.mem_nodes_node.1 hc with e | e | e
    · have := (Ordered_bounds o4 c (l.nodes_sub_members c e)).2
      rw [if_pos this, if_pos (FTree.root_ne_zero_of_mem hnzl e)]
      exact ihl o4 hnzl e
    · rw [e, if_neg (lt_irrefl _), if_neg (lt_irrefl _)]
    · have := (Ordered_bounds o5 c (r.nodes_sub_members c e)).1
      rw [if_neg (by omega), if_pos this, if_pos (FTree.root_ne_zero_of_mem hnzr e)]
      exact ihr o5 hnzr e

theorem FTree.height_subst {t s : FTree} {c : Nat} (hnd : t.members.Nodup) (hc : c ∈ t.nodes)
    (hs : s.height = (t.subtreeAt c).height) : (t.subst c s).height = t.height := by
  induction t with
  | nil => exact absurd hc (List.not_mem_nil _)
  | node l a reps r ihl ihr =>
    obtain ⟨hl, hr, -, -, hdl, hdr⟩ := FTree.nodup_node hnd
    by_cases hac : a = c
    · subst hac
      rw [FTree.subst_self, hs, FTree.subtreeAt_self]
    · by_cases hlc : c ∈ l.nodes
      · rw [FTree.subtreeAt_node_left hac hlc] at hs
        rw [FTree.subst_node_left _ hac hlc]
        simp only [FTree.height, ihl hl hlc hs]
      · have hrc := FTree.mem_right_of hc hac hlc
        rw [FTree.subtreeAt_node_right hac hlc] at hs
        rw [FTree.subst_node_right _ hac hlc]
        simp only [FTree.height, ihr hr hrc hs]

/-- The sizes of the tree nodes, read in order, increase strictly. -/
theorem Ordered_sorted {w : Nat → Nat} {t : FTree} {lo hi : Nat} (ho : Ordered w t lo hi) :
    (t.nodes.map (szOf w)).Pairwise (fun x y => x < y) := by
  induction t generalizing lo hi with
  | nil => exact List.Pairwise.nil
  | node l a reps r ihl ihr =>
    obtain ⟨o1, o2, o3, o4, o5⟩ := ho
    simp only [FTree.nodes, List.map_append, List.map_cons]
    refine List.pairwise_append.2 ⟨ihl o4, List.pairwise_cons.2 ⟨?_, ihr o5⟩, ?_⟩
    · intro y hy
      obtain ⟨x, hx, rfl⟩ := List.mem_map.1 hy
      exact (Ordered_bounds o5 x (r.nodes_sub_members x hx)).1
    · intro x hx y hy
      obtain ⟨x', hx', rfl⟩ := List.mem_map.1 hx
      have h1 := (Ordered_bounds o4 x' (l.nodes_sub_members x' hx')).2
      rcases List.mem_cons.1 hy with e | e
      · rw [e]; exact h1
      · obtain ⟨y', hy', rfl⟩ := List.mem_map.1 e
        have h2 := (Ordered_bounds o5 y' (r.nodes_sub_members y' hy')).1
        omega

/-- No two tree nodes have the same size. -/
theorem Ordered_inj {w : Nat → Nat} {t : FTree} {lo hi : Nat} (ho : Ordered w t lo hi) :
    ∀ a ∈ t.nodes, ∀ b ∈ t.nodes, szOf w a = szOf w b → a = b := by
  induction t generalizing lo hi with
  | nil => intro a ha; exact absurd ha (List.not_mem_nil _)
  | node l x reps r ihl ihr =>
    obtain ⟨o1, o2, o3, o4, o5⟩ := ho
    have bl := fun y hy => (Ordered_bounds o4 y (l.nodes_sub_members y hy)).2
    have br := fun y hy => (Ordered_bounds o5 y (r.nodes_sub_members y hy)).1
    intro a ha b hb e
    rcases FTree.mem_nodes_node.1 ha with h1 | h1 | h1 <;>
      rcases FTree.mem_nodes_node.1 hb with h2 | h2 | h2
    · exact ihl o4 a h1 b h2 e
    · have := bl a h1; rw [h2] at e; omega
    · have := bl a h1; have := br b h2; omega
    · have := bl b h2; rw [h1] at e; omega
    · rw [h1, h2]
    · have := br b h2; rw [h1] at e; omega
    · have := br a h1; have := bl b h2; omega
    · have := br a h1; rw [h2] at e; omega
    · exact ihr o5 a h1 b h2 e

theorem ChainOK_marked {w : Nat → Nat} {p : Nat} {xs : List Nat} (h : ChainOK w p xs) :
    ∀ x ∈ xs, w (x + 4) = M1 := by
  induction xs generalizing p with
  | nil => intro x hx; exact absurd hx (List.not_mem_nil _)
  | cons y ys ih =>
    obtain ⟨-, h2, -, h4⟩ := h
    intro x hx
    rcases List.mem_cons.1 hx with e | e
    · rw [e]; exact h2
    · exact ih h4 x e

/-- Every replica has the size of its tree node, carries the marker `-1` in
`RIGHT`, and is not a tree node. -/
theorem listing_facts {w : Nat → Nat} {t : FTree} {lo hi : Nat} (hs : Shape w t)
    (ho : Ordered w t lo hi) (hnd : t.members.Nodup) :
    ∀ p ∈ t.listing, p.1 ∈ t.nodes ∧ ChainOK w p.1 p.2 ∧ w (p.1 + 12) = p.2.headD 0 ∧
      ∀ x ∈ p.2, szOf w x = szOf w p.1 ∧ w (x + 4) = M1 ∧ x ∉ t.nodes ∧ x ∈ t.members := by
  induction t generalizing lo hi with
  | nil => intro p hp; exact absurd hp (List.not_mem_nil _)
  | node l a reps r ihl ihr =>
    obtain ⟨hl, hr, hreps, har, hdl, hdr⟩ := FTree.nodup_node hnd
    obtain ⟨h1, h2, h3, h4, h5, h6, h7, h8⟩ := hs
    obtain ⟨o1, o2, o3, o4, o5⟩ := ho
    intro p hp
    simp only [FTree.listing, List.mem_append, List.mem_cons] at hp
    rcases hp with e | e | e
    · obtain ⟨i1, i2, i3, i4⟩ := ihl h7 o4 hl p e
      refine ⟨FTree.mem_nodes_node.2 (Or.inl i1), i2, i3, fun x hx => ?_⟩
      obtain ⟨j1, j2, j3, j4⟩ := i4 x hx
      refine ⟨j1, j2, fun hm => ?_, FTree.mem_members_node.2 (Or.inl j4)⟩
      rcases FTree.mem_nodes_node.1 hm with k | k | k
      · exact j3 k
      · exact (hdl x j4).1 k
      · exact (hdl x j4).2.2 (r.nodes_sub_members x k)
    · rw [e]
      refine ⟨FTree.mem_nodes_node.2 (Or.inr (Or.inl rfl)), h4, h3, fun x hx => ?_⟩
      refine ⟨o3 x hx, ChainOK_marked h4 x hx, fun hm => ?_,
        FTree.mem_members_node.2 (Or.inr (Or.inr (Or.inl hx)))⟩
      rcases FTree.mem_nodes_node.1 hm with k | k | k
      · exact (hdl x (l.nodes_sub_members x k)).2.1 hx
      · exact har (k ▸ hx)
      · exact (hdr x (r.nodes_sub_members x k)).2 hx
    · obtain ⟨i1, i2, i3, i4⟩ := ihr h8 o5 hr p e
      refine ⟨FTree.mem_nodes_node.2 (Or.inr (Or.inr i1)), i2, i3, fun x hx => ?_⟩
      obtain ⟨j1, j2, j3, j4⟩ := i4 x hx
      refine ⟨j1, j2, fun hm => ?_, FTree.mem_members_node.2 (Or.inr (Or.inr (Or.inr j4)))⟩
      rcases FTree.mem_nodes_node.1 hm with k | k | k
      · exact (hdl x (l.nodes_sub_members x k)).2.2 j4
      · exact (hdr x j4).1 k
      · exact j3 k

/-- The invariant of the free index, read off a tree that is laid out in memory. -/
theorem TreeOK.index {h : Heap} {t : FTree} (ok : TreeOK h t) :
    (t.nodes.map (szOf h.words)).Pairwise (fun x y => x < y) ∧
    (∀ a ∈ t.nodes, ∀ b ∈ t.nodes, szOf h.words a = szOf h.words b → a = b) ∧
    (∀ p ∈ t.listing, ∀ x ∈ p.2,
      szOf h.words x = szOf h.words p.1 ∧ h.words (x + 4) = M1 ∧ x ∉ t.nodes) ∧
    (∀ a ∈ t.nodes, a ≠ t.root → h.words (a + 8) ∈ t.nodes ∧
      (h.words (h.words (a + 8)) = a ∨ h.words (h.words (a + 8) + 4) = a)) := by
  refine ⟨Ordered_sorted ok.ordered, Ordered_inj ok.ordered, ?_, ?_⟩
  · intro p hp x hx
    obtain ⟨-, -, -, i4⟩ := listing_facts ok.shape ok.ordered ok.nodup p hp
    exact ⟨(i4 x hx).1, (i4 x hx).2.1, (i4 x hx).2.2.1⟩
  · intro a ha hroot
    obtain ⟨p1, -, p3, p4⟩ := parent_facts ok.shape ok.ordered ok.nodup
      (ok.ne_zero (t.nodes_sub_members a ha)) ha hroot
    rw [p3]
    refine ⟨p1, ?_⟩
    rcases p4 with ⟨q, -, -⟩ | ⟨q, -, -⟩
    · exact Or.inl q
    · exact Or.inr q

theorem addNode_loop_eq {h : Heap} {t : FTree} (ok : TreeOK h t) {b : Nat}
    (hbr : 24 ≤ b ∧ h.lo + 4 ≤ b ∧ b + 16 ≤ h.brk ∧ b % 4 = 0) (hne : t.root ≠ 0) :
    ∀ fuel, t.height ≤ fuel →
      addNode fuel h b = addNodeLoop 1 h b (t.stopAt h.words (szOf h.words b)) := by
  have hb24 : 24 ≤ b ∧ b + 16 < 4294967296 := by
    have := ok.brk_lt; unfold W32 at this; omega
  have vb : h.valid (b - 4) := by
    unfold Heap.valid; omega
  obtain ⟨ab0, -, -, -⟩ := addr_facts2 hb24
  intro fuel hf
  unfold addNode
  rw [if_neg (fun e => hne (ok.root.trans e)), ← ok.root]
  exact addNodeLoop_spec ok.shape (fun a ha => by
    have hm := t.nodes_sub_members a ha
    obtain ⟨v0, v1, v2, -, -⟩ := ok.valid hm
    obtain ⟨a0, a1, -, -⟩ := ok.addr hm
    exact ⟨ok.ne_zero hm, a0, a1, v0, v1, v2⟩) ab0 vb hne fuel hf

/-! ## Insertion: the claims -/

theorem sizes_kept {h h' : Heap} {t : FTree} (ok : TreeOK h t) {b : Nat} (hb : 4 ≤ b)
    (hsep : ∀ x ∈ t.members, b + 24 ≤ x ∨ x + 24 ≤ b)
    (hu : Untouched h.words h'.words (b :: t.members)) :
    ∀ x ∈ b :: t.members, szOf h'.words x = szOf h.words x := by
  intro x hx
  unfold szOf
  have hx4 : 4 ≤ x := by
    rcases List.mem_cons.1 hx with e | e
    · rw [e]; exact hb
    · have := (ok.lt e).1; omega
  rw [hu.header (x := x) ?_ hx4]
  intro m hm hne
  rcases List.mem_cons.1 hx with e | e <;> rcases List.mem_cons.1 hm with e' | e'
  · exact absurd (e'.trans e.symm) hne
  · rw [e]; exact hsep m e'
  · rw [e']; exact (hsep x e).symm
  · exact (ok.sep m e' x e hne).symm

/-- C14: let the free tree `t` be laid out in memory and ordered by size, and let
`b` be a block outside the tree (its link words lie in the arena, at least 24
bytes from every member, and its header holds a size above zero). Then
`addNode(b)` (with fuel for the height of the tree) ends with a tree `t'` that
is again laid out in memory and ordered, in which: the sizes of the tree nodes
read in order increase strictly; no two tree nodes have the same size; every
replica has the size of its tree node, carries the replica marker in `RIGHT`
and is not a tree node; `PARENT` of every tree node but the root names the tree
node whose `LEFT` or `RIGHT` names it; and the members are the members of `t`
and `b`. No size changes. -/
theorem addNode_preserves_index (h : Heap) (t : FTree) (ok : TreeOK h t) (b : Nat)
    (hbr : 24 ≤ b ∧ h.lo + 4 ≤ b ∧ b + 16 ≤ h.brk ∧ b % 4 = 0)
    (hsep : ∀ x ∈ t.members, b + 24 ≤ x ∨ x + 24 ≤ b)
    (hk : 0 < szOf h.words b) (fuel : Nat) (hf : t.height ≤ fuel) :
    ∃ h' t', addNode fuel h b = .ok h' ∧ TreeOK h' t' ∧
      (t'.nodes.map (szOf h'.words)).Pairwise (fun x y => x < y) ∧
      (∀ a ∈ t'.nodes, ∀ c ∈ t'.nodes, szOf h'.words a = szOf h'.words c → a = c) ∧
      (∀ p ∈ t'.listing, ∀ x ∈ p.2,
        szOf h'.words x = szOf h'.words p.1 ∧ h'.words (x + 4) = M1 ∧ x ∉ t'.nodes) ∧
      (∀ a ∈ t'.nodes, a ≠ t'.root → h'.words (a + 8) ∈ t'.nodes ∧
        (h'.words (h'.words (a + 8)) = a ∨ h'.words (h'.words (a + 8) + 4) = a)) ∧
      (∀ x, x ∈ t'.members ↔ x = b ∨ x ∈ t.members) ∧
      (∀ x ∈ b :: t.members, szOf h'.words x = szOf h.words x) := by
  obtain ⟨h', hex, -, hu, tok⟩ := addNode_spec ok hbr hsep hk
  obtain ⟨i1, i2, i3, i4⟩ := tok.index
  exact ⟨h', _, hex fuel hf, tok, i1, i2, i3, i4, fun x => FTree.mem_ins,
    sizes_kept ok (by omega) hsep hu⟩

theorem addNode_preserves_index_witness :
    ∃ h' t', addNode 10 demoHeap 65576 = .ok h' ∧ TreeOK h' t' ∧
      (t'.nodes.map (szOf h'.words)).Pairwise (fun x y => x < y) ∧
      (∀ a ∈ t'.nodes, ∀ c ∈ t'.nodes, szOf h'.words a = szOf h'.words c → a = c) ∧
      (∀ p ∈ t'.listing, ∀ x ∈ p.2,
        szOf h'.words x = szOf h'.words p.1 ∧ h'.words (x + 4) = M1 ∧ x ∉ t'.nodes) ∧
      (∀ a ∈ t'.nodes, a ≠ t'.root → h'.words (a + 8) ∈ t'.nodes ∧
        (h'.words (h'.words (a + 8)) = a ∨ h'.words (h'.words (a + 8) + 4) = a)) ∧
      (∀ x, x ∈ t'.members ↔ x = 65576 ∨ x ∈ demoTree.members) ∧
      (∀ x ∈ 65576 :: demoTree.members, szOf h'.words x = szOf demoHeap.words x) :=
  addNode_preserves_index demoHeap demoTree (by decide!) 65576 (by decide!) (by decide!)
    (by decide!) 10 (by decide)

/-- C15: let `c` be a tree node (the root or not) of the free tree `t`, with the
children `l` and `r` and the replica chain `reps`, and let `b` be a block
outside the tree of the size of `c`. Then `addNode(b)` ends with the tree in
which `b` stands where `c` stood: `LEFT` and `RIGHT` of `b` name the roots of
`l` and `r`, whose `PARENT` names `b`; the word of the parent of `c` that named
`c` names `b` and `PARENT` of `b` names that parent, or, when `c` was the root,
`seat` is `b`; the replica chain of `b` is `c` followed by `reps`; the height of
the tree is the same, and no word outside the link words of `b`, `c`, the two
children and the parent changes. -/
theorem addNode_equal_size_replaces (h : Heap) (t : FTree) (ok : TreeOK h t) (b c : Nat)
    (l r : FTree) (reps : List Nat)
    (hbr : 24 ≤ b ∧ h.lo + 4 ≤ b ∧ b + 16 ≤ h.brk ∧ b % 4 = 0)
    (hsep : ∀ x ∈ t.members, b + 24 ≤ x ∨ x + 24 ≤ b)
    (hc : c ∈ t.nodes) (hsub : t.subtreeAt c = .node l c reps r)
    (hsz : szOf h.words b = szOf h.words c) (fuel : Nat) (hf : t.height ≤ fuel) :
    ∃ h', addNode fuel h b = .ok h' ∧
      TreeOK h' (t.subst c (.node l b (c :: reps) r)) ∧
      h'.words b = l.root ∧ h'.words (b + 4) = r.root ∧
      (l.root ≠ 0 → h'.words (l.root + 8) = b) ∧ (r.root ≠ 0 → h'.words (r.root + 8) = b) ∧
      (c ≠ t.root → h'.seat = h.seat ∧ h'.words (b + 8) = t.parentOf c ∧
        ∃ slot, (slot = t.parentOf c ∨ slot = t.parentOf c + 4) ∧ h.words slot = c ∧
          h'.words slot = b) ∧
      (c = t.root → h'.seat = b) ∧
      h'.words (b + 12) = c ∧ ChainOK h'.words b (c :: reps) ∧
      (t.subst c (.node l b (c :: reps) r)).height = t.height ∧
      Untouched h.words h'.words [t.parentOf c, b, c, l.root, r.root] ∧
      (∀ x ∈ b :: t.members, szOf h'.words x = szOf h.words x) := by
  have hcm := t.nodes_sub_members c hc
  have hnz : ∀ a ∈ t.nodes, a ≠ 0 := fun a ha => ok.ne_zero (t.nodes_sub_members a ha)
  have hne : t.root ≠ 0 := FTree.root_ne_zero_of_mem hnz hc
  obtain ⟨h', slot, hex, har, t2, t1, t3, hst, w1, w2, w3, w4, w5, w6, w7, w8, w9, hs, hsl,
    hshape⟩ := exact_spec ok hbr hsep hc hsub hsz
  have hb24 : 24 ≤ b ∧ b + 16 < 4294967296 := by
    have := ok.brk_lt; unfold W32 at this; omega
  have vb : h.valid (b - 4) := by
    unfold Heap.valid; omega
  obtain ⟨vc0, vc1, vc2, -, -⟩ := ok.valid hcm
  obtain ⟨ac0, ac1, -, -⟩ := ok.addr hcm
  obtain ⟨c1, c2, -⟩ := (ok.sub hsub).1
  have hrun : addNode fuel h b = .ok h' := by
    rw [addNode_loop_eq ok hbr hne fuel hf, hsz, FTree.stopAt_of_size ok.ordered hnz hc,
      addNodeLoop_step (addr_facts2 hb24).1 vb ac0 ac1 vc0 vc1 vc2 c1 c2, hsz,
      if_neg (lt_irrefl _), if_neg (lt_irrefl _)]
    exact hex
  have hrt : c ≠ t.root → c ≠ h.seat := fun e e' => e (e'.trans ok.root.symm)
  refine ⟨h', hrun, t1, w2, w3, w8, w9, fun e => ⟨?_, w4 (hrt e), slot, hs, hsl (hrt e),
    w1 (hrt e)⟩, fun e => ?_, w5, hshape.2.2.2.1, ?_, t3, sizes_kept ok (by omega) hsep t2⟩
  · rw [hst, if_neg (hrt e)]
  · rw [hst, if_pos (e.trans ok.root)]
  · refine FTree.height_subst ok.nodup hc ?_
    rw [hsub]; rfl

theorem addNode_equal_size_replaces_witness :
    ∃ h', addNode 10 demoHeap 65576 = .ok h' ∧
      TreeOK h' (demoTree.subst 65744 (.node .nil 65576 (65744 :: [65552]) .nil)) ∧
      h'.words 65576 = FTree.nil.root ∧ h'.words (65576 + 4) = FTree.nil.root ∧
      (FTree.nil.root ≠ 0 → h'.words (FTree.nil.root + 8) = 65576) ∧
      (FTree.nil.root ≠ 0 → h'.words (FTree.nil.root + 8) = 65576) ∧
      (65744 ≠ demoTree.root → h'.seat = demoHeap.seat ∧
        h'.words (65576 + 8) = demoTree.parentOf 65744 ∧
        ∃ slot, (slot = demoTree.parentOf 65744 ∨ slot = demoTree.parentOf 65744 + 4) ∧
          demoHeap.words slot = 65744 ∧ h'.words slot = 65576) ∧
      (65744 = demoTree.root → h'.seat = 65576) ∧
      h'.words (65576 + 12) = 65744 ∧ ChainOK h'.words 65576 (65744 :: [65552]) ∧
      (demoTree.subst 65744 (.node .nil 65576 (65744 :: [65552]) .nil)).height =
        demoTree.height ∧
      Untouched demoHeap.words h'.words
        [demoTree.parentOf 65744, 65576, 65744, FTree.nil.root, FTree.nil.root] ∧
      (∀ x ∈ 65576 :: demoTree.members, szOf h'.words x = szOf demoHeap.words x) :=
  addNode_equal_size_replaces demoHeap demoTree (by decide!) 65576 65744 .nil .nil [65552]
    (by decide!) (by decide!) (by decide!) rfl (by decide!) 10 (by decide)

end MM

namespace Bloom

/-! ## The Bloom filter has no false negatives -/

theorem byte_set (b : Nat) (hb : b < 256) (k : Nat) (hk : k < 8) :
    ((promote ((promote b ||| 2 ^ k) % 256) &&& 2 ^ k) != 0) = true := by
  revert b k
  decide!

theorem byte_keep (b : Nat) (hb : b < 256) (k : Nat) (hk : k < 8) (j : Nat) (hj : j < 8) :
    ((promote b &&& 2 ^ j) != 0) = true →
    ((promote ((promote b ||| 2 ^ k) % 256) &&& 2 ^ j) != 0) = true := by
  revert b k j
  decide!

theorem shr3 (N : Nat) : ((N : Int) >>> (3 : Nat)) = ((N / 8 : Nat) : Int) := by
  rw [Int.shiftRight_eq_div_pow]
  norm_num

theorem mask_nat (N : Nat) : mask (N : Int) = 2 ^ (7 - N % 8) := by
  unfold mask
  have h8 : (N : Int).tmod 8 = ((N % 8 : Nat) : Int) := by
    rw [Int.tmod_eq_emod (by omega) (by decide)]; omega
  have h : ((7 : Int) - ((N % 8 : Nat) : Int)).toNat = 7 - N % 8 := by omega
  rw [h8, h, Nat.one_shiftLeft]
  apply Nat.mod_eq_of_lt
  calc 2 ^ (7 - N % 8) ≤ 2 ^ 7 := Nat.pow_le_pow_right (by decide) (by omega)
    _ < 4294967296 := by decide

theorem setBit_nat (buf : List Nat) (N : Nat) :
    setBit buf (N : Int) =
      if N / 8 < buf.length then
        some (buf.set (N / 8) ((promote (buf.getD (N / 8) 0) ||| 2 ^ (7 - N % 8)) % 256))
      else none := by
  unfold setBit
  rw [shr3, mask_nat, Int.toNat_ofNat]
  simp only [Int.natCast_nonneg, true_and]

theorem testBit_nat (buf : List Nat) (N : Nat) :
    testBit buf (N : Int) =
      if N / 8 < buf.length then
        some (promote (buf.getD (N / 8) 0) &&& 2 ^ (7 - N % 8) != 0)
      else none := by
  unfold testBit
  rw [shr3, mask_nat, Int.toNat_ofNat]
  simp only [Int.natCast_nonneg, true_and]

theorem hash_range (i : Nat) (hi : i < 10) (e : Int) (he : 0 ≤ e) :
    0 ≤ hash_i i e ∧ hash_i i e < 33860446 := by
  unfold hash_i toInt32 toInt64
  rw [Int.tmod_eq_emod he (by decide), Int.tmod_eq_emod he (by decide)]
  have h1 := Int.emod_nonneg e (show H1PRIME ≠ 0 by decide)
  have h2 := Int.emod_lt_of_pos e (show 0 < H1PRIME by decide)
  have h3 := Int.emod_nonneg e (show H2PRIME ≠ 0 by decide)
  have h4 := Int.emod_lt_of_pos e (show 0 < H2PRIME by decide)
  generalize e % H1PRIME = a at *
  generalize e % H2PRIME = b at *
  unfold H1PRIME at h2
  unfold H2PRIME at h4
  have hi' : (i : Int) < 10 := by omega
  have hi0 : (0 : Int) ≤ i := by omega
  have hp : 0 ≤ (i : Int) * b := Int.mul_nonneg hi0 h3
  have hq : (i : Int) * b ≤ 9 * 3296730 := by nlinarith
  have hr : 0 ≤ (i : Int) * i := Int.mul_nonneg hi0 hi0
  have hs : (i : Int) * i ≤ 81 := by nlinarith
  generalize (i : Int) * b = u at *
  generalize (i : Int) * i = v at *
  omega

/-- The bit that hash number `i` selects for `e` in a filter of `B` bits. -/
theorem bit_nat (i : Nat) (hi : i < 10) (e : Int) (he : 0 ≤ e) (B : Nat) (hB : 0 < B) :
    ∃ N : Nat, (hash_i i e).tmod (B : Int) = (N : Int) ∧ N < B := by
  obtain ⟨h1, -⟩ := hash_range i hi e he
  refine ⟨((hash_i i e).tmod (B : Int)).toNat, ?_, ?_⟩
  · rw [Int.tmod_eq_emod h1 (by omega)]
    have := Int.emod_nonneg (hash_i i e) (show (B : Int) ≠ 0 by omega)
    omega
  · rw [Int.tmod_eq_emod h1 (by omega)]
    have := Int.emod_nonneg (hash_i i e) (show (B : Int) ≠ 0 by omega)
    have := Int.emod_lt_of_pos (hash_i i e) (show (0 : Int) < B by omega)
    omega

/-! ### The loops of `bloom_add` and `bloom_query` -/

theorem getD_lt (buf : List Nat) (hb : ∀ x ∈ buf, x < 256) (i : Nat) : buf.getD i 0 < 256 := by
  rw [List.getD_eq_getElem?_getD]
  by_cases h : i < buf.length
  · rw [List.getElem?_eq_getElem h]
    exact hb _ (List.getElem_mem h)
  · rw [List.getElem?_eq_none (by omega)]
    decide

theorem setBit_spec (buf : List Nat) (hb : ∀ x ∈ buf, x < 256) (N : Nat)
    (hN : N / 8 < buf.length) :
    ∃ buf', setBit buf (N : Int) = some buf' ∧ buf'.length = buf.length ∧
      (∀ x ∈ buf', x < 256) ∧ testBit buf' (N : Int) = some true ∧
      ∀ M : Nat, testBit buf (M : Int) = some true → testBit buf' (M : Int) = some true := by
  have hk : 7 - N % 8 < 8 := by omega
  have hold := getD_lt buf hb (N / 8)
  refine ⟨_, by rw [setBit_nat, if_pos hN], by simp, ?_, ?_, ?_⟩
  · intro x hx
    rcases List.mem_or_eq_of_mem_set hx with e | e
    · exact hb x e
    · rw [e]; exact Nat.mod_lt _ (by decide)
  · rw [testBit_nat, if_pos (by simpa using hN)]
    have : (buf.set (N / 8) ((promote (buf.getD (N / 8) 0) ||| 2 ^ (7 - N % 8)) % 256)).getD
        (N / 8) 0 = (promote (buf.getD (N / 8) 0) ||| 2 ^ (7 - N % 8)) % 256 := by
      simp [hN]
    rw [this, byte_set _ hold _ hk]
  · intro M hM
    rw [testBit_nat] at hM ⊢
    by_cases hlen : M / 8 < buf.length
    · rw [if_pos hlen] at hM
      rw [if_pos (by simpa using hlen)]
      by_cases hi : N / 8 = M / 8
      · have : (buf.set (N / 8) ((promote (buf.getD (N / 8) 0) ||| 2 ^ (7 - N % 8)) % 256)).getD
            (M / 8) 0 = (promote (buf.getD (N / 8) 0) ||| 2 ^ (7 - N % 8)) % 256 := by
          rw [← hi]; simp [hN]
        rw [this]
        rw [← hi] at hM
        have hM' := Option.some.inj hM
        rw [byte_keep _ hold _ hk _ (by omega) hM']
      · have : (buf.set (N / 8) ((promote (buf.getD (N / 8) 0) ||| 2 ^ (7 - N % 8)) % 256)).getD
            (M / 8) 0 = buf.getD (M / 8) 0 := by
          simp [hi]
        rw [this]; exact hM
    · rw [if_neg hlen] at hM
      exact absurd hM (by simp)

theorem addLoop_succ0 (n i : Nat) (f : bloom_filter) (e : Int) :
    bloom_addLoop (n + 1) i f e =
      match setBit f.buf ((hash_i i e).tmod f.bsz) with
      | some buf => bloom_addLoop n (i + 1) { f with buf := buf } e
      | none => none := rfl

theorem addLoop_succ (n i : Nat) (f : bloom_filter) (e : Int) (buf : List Nat)
    (h : setBit f.buf ((hash_i i e).tmod f.bsz) = some buf) :
    bloom_addLoop (n + 1) i f e = bloom_addLoop n (i + 1) { f with buf := buf } e := by
  rw [addLoop_succ0, h]

theorem queryLoop_succ0 (n i : Nat) (f : bloom_filter) (e : Int) :
    bloom_queryLoop (n + 1) i f e =
      match testBit f.buf ((hash_i i e).tmod f.bsz) with
      | some true => bloom_queryLoop n (i + 1) f e
      | some false => some 0
      | none => none := rfl

theorem queryLoop_succ (n i : Nat) (f : bloom_filter) (e : Int)
    (h : testBit f.buf ((hash_i i e).tmod f.bsz) = some true) :
    bloom_queryLoop (n + 1) i f e = bloom_queryLoop n (i + 1) f e := by
  rw [queryLoop_succ0, h]

theorem addAll_cons (f : bloom_filter) (e : Int) (es : List Int) :
    addAll f (e :: es) = match bloom_add f e with
      | some f' => addAll f' es
      | none => none := rfl

theorem addLoop_spec (B : Nat) (hB : 0 < B) (e : Int) (he : 0 ≤ e) (len : Nat)
    (hlen : ∀ N, N < B → N / 8 < len) :
    ∀ (n i : Nat) (f : bloom_filter), i + n ≤ 10 → f.bsz = (B : Int) → f.buf.length = len →
      (∀ x ∈ f.buf, x < 256) →
      ∃ f', bloom_addLoop n i f e = some f' ∧ f'.bsz = (B : Int) ∧ f'.buf.length = len ∧
        (∀ x ∈ f'.buf, x < 256) ∧
        (∀ M : Nat, testBit f.buf (M : Int) = some true → testBit f'.buf (M : Int) = some true) ∧
        ∀ j, i ≤ j → j < i + n →
          testBit f'.buf ((hash_i j e).tmod (B : Int)) = some true := by
  intro n
  induction n with
  | zero =>
    intro i f _ h1 h2 h3
    exact ⟨f, rfl, h1, h2, h3, fun _ h => h, fun j a b => by omega⟩
  | succ n ih =>
    intro i f hi h1 h2 h3
    obtain ⟨N, hN, hNB⟩ := bit_nat i (by omega) e he B hB
    obtain ⟨buf', s1, s2, s3, s4, s5⟩ := setBit_spec f.buf h3 N (h2 ▸ hlen N hNB)
    obtain ⟨f', r1, r2, r3, r4, r5, r6⟩ := ih (i + 1) { f with buf := buf' } (by omega) h1
      (s2.trans h2) s3
    refine ⟨f', ?_, r2, r3, r4, fun M hM => r5 M (s5 M hM), ?_⟩
    · rw [addLoop_succ n i f e buf' (by rw [h1, hN]; exact s1)]
      exact r1
    · intro j j1 j2
      by_cases hj : j = i
      · rw [hj, hN]
        exact r5 N s4
      · exact r6 j (by omega) (by omega)

theorem queryLoop_spec (B : Nat) (e : Int) (f : bloom_filter) (hf : f.bsz = (B : Int)) :
    ∀ (n i : Nat),
      (∀ j, i ≤ j → j < i + n → testBit f.buf ((hash_i j e).tmod (B : Int)) = some true) →
      bloom_queryLoop n i f e = some 1 := by
  intro n
  induction n with
  | zero => intro i _; rfl
  | succ n ih =>
    intro i h
    rw [queryLoop_succ n i f e (by rw [hf]; exact h i (le_refl _) (by omega))]
    exact ih (i + 1) (fun j j1 j2 => h j (by omega) (by omega))

theorem init_facts (B : Nat) :
    (bloom_init (B : Int)).bsz = (B : Int) ∧
    (bloom_init (B : Int)).buf = List.replicate (if B % 8 ≠ 0 then B / 8 + 1 else B / 8) 0 := by
  refine ⟨rfl, ?_⟩
  unfold bloom_init
  have h8 : (B : Int).tmod 8 = ((B % 8 : Nat) : Int) := by
    rw [Int.tmod_eq_emod (by omega) (by decide)]; omega
  simp only [h8, shr3]
  congr 1
  split <;> split <;> omega

theorem addAll_spec (B : Nat) (hB : 0 < B) (len : Nat) (hlen : ∀ N, N < B → N / 8 < len) :
    ∀ (elms : List Int) (f : bloom_filter), (∀ e ∈ elms, 0 ≤ e) → f.bsz = (B : Int) →
      f.buf.length = len → (∀ x ∈ f.buf, x < 256) →
      ∃ f', addAll f elms = some f' ∧ f'.bsz = (B : Int) ∧
        (∀ M : Nat, testBit f.buf (M : Int) = some true → testBit f'.buf (M : Int) = some true) ∧
        ∀ e ∈ elms, bloom_query f' e = some 1 := by
  intro elms
  induction elms with
  | nil =>
    intro f _ h1 _ _
    exact ⟨f, rfl, h1, fun _ h => h, fun e he => by simp at he⟩
  | cons a as ih =>
    intro f hpos h1 h2 h3
    have ha := hpos a (List.mem_cons_self _ _)
    obtain ⟨f1, r1, r2, r3, r4, r5, r6⟩ := addLoop_spec B hB a ha len hlen 10 0 f (by omega) h1
      h2 h3
    obtain ⟨f2, q1, q2, q3, q4⟩ := ih f1 (fun e he => hpos e (List.mem_cons_of_mem _ he)) r2 r3 r4
    refine ⟨f2, ?_, q2, fun M hM => q3 M (r5 M hM), ?_⟩
    · have hadd : bloom_add f a = some f1 := r1
      rw [addAll_cons, hadd]
      exact q1
    · intro e he
      rcases List.mem_cons.1 he with rfl | he'
      · refine queryLoop_spec B e f2 q2 10 0 (fun j j1 j2 => ?_)
        obtain ⟨N, hN, -⟩ := bit_nat j (by omega) e ha B hB
        rw [hN]
        exact q3 N (hN ▸ r6 j j1 (by omega))
      · exact q4 e he'

/-! ### The claim about the Bloom filter -/

theorem query_fresh (B : Nat) (hB : 0 < B) (e : Int) (he : 0 ≤ e) :
    bloom_query (bloom_init (B : Int)) e = some 0 := by
  obtain ⟨i1, i2⟩ := init_facts B
  obtain ⟨N, hN, hNB⟩ := bit_nat 0 (by decide) e he B hB
  have hlen : N / 8 < (bloom_init (B : Int)).buf.length := by
    rw [i2, List.length_replicate]
    split <;> omega
  have ht : testBit (bloom_init (B : Int)).buf ((hash_i (0 : Nat) e).tmod (bloom_init (B : Int)).bsz)
      = some false := by
    rw [i1, hN, testBit_nat, if_pos hlen]
    have : (bloom_init (B : Int)).buf.getD (N / 8) 0 = 0 := by
      rw [i2, List.getD_eq_getElem?_getD, List.getElem?_replicate]
      by_cases hc : N / 8 < (if B % 8 ≠ 0 then B / 8 + 1 else B / 8)
      · rw [if_pos hc]; rfl
      · rw [if_neg hc]; rfl
    rw [this]
    have hp : promote 0 = 0 := rfl
    rw [hp, Nat.zero_and]
    rfl
  show bloom_queryLoop 10 0 (bloom_init (B : Int)) e = some 0
  rw [queryLoop_succ0, ht]

/-- C12: for every `bsz > 0`, every sequence of `bloom_add` calls with
non-negative elements runs inside the byte array, and afterwards every added
element has all ten bit indices `hash_i(i, elm) % bsz` in `[0, bsz)` and is
reported by `bloom_query` (result `1`); on the freshly initialised filter
`bloom_query` answers `0` for every non-negative element. -/
theorem bloom_no_false_negatives (bsz : Int) (hb : 0 < bsz) (elms : List Int)
    (hpos : ∀ e ∈ elms, 0 ≤ e) :
    ∃ f, addAll (bloom_init bsz) elms = some f ∧
      (∀ e ∈ elms,
        (∀ i : Nat, i < BLOOM_HASH_NUM →
          0 ≤ (hash_i i e).tmod bsz ∧ (hash_i i e).tmod bsz < bsz) ∧
        bloom_query f e = some 1) ∧
      ∀ e, 0 ≤ e → bloom_query (bloom_init bsz) e = some 0 := by
  obtain ⟨B, rfl⟩ : ∃ B : Nat, bsz = (B : Int) := ⟨bsz.toNat, by omega⟩
  have hB : 0 < B := by omega
  obtain ⟨i1, i2⟩ := init_facts B
  obtain ⟨f, r1, r2, -, r4⟩ := addAll_spec B hB (if B % 8 ≠ 0 then B / 8 + 1 else B / 8)
    (fun N hN => by split <;> omega) elms (bloom_init (B : Int)) hpos i1
    (by rw [i2, List.length_replicate])
    (by rw [i2]; intro x hx; rw [List.eq_of_mem_replicate hx]; decide)
  refine ⟨f, r1, fun e he => ⟨fun i hi => ?_, r4 e he⟩, fun e he => query_fresh B hB e he⟩
  obtain ⟨N, hN, hNB⟩ := bit_nat i hi e (hpos e he) B hB
  rw [hN]
  omega

theorem bloom_no_false_negatives_witness :
    ∃ f, addAll (bloom_init 64) [5, 4189800, 123456789012] = some f ∧
      (∀ e ∈ [5, 4189800, 123456789012],
        (∀ i : Nat, i < BLOOM_HASH_NUM →
          0 ≤ (hash_i i e).tmod 64 ∧ (hash_i i e).tmod 64 < 64) ∧
        bloom_query f e = some 1) ∧
      ∀ e, 0 ≤ e → bloom_query (bloom_init 64) e = some 0 :=
  bloom_no_false_negatives 64 (by decide) [5, 4189800, 123456789012] (by decide)

end Bloom

namespace MM

/-! ## `mm_realloc`: sizes and copies -/

/-- C21 (as the code behaves): `B` is a block of 208 bytes between two allocated
blocks, and `mm_realloc(B, 8)` moves it to the free block `X` of 24 bytes, which
it marks allocated as a whole (header `24 | 1`). The copy is `old_size - 8 = 200`
bytes long, not `min(200, 8)`: it runs over the 16 payload bytes of `X` and over
the live block `Y` behind it, whose first payload word changes from `286331153`
to the word `3735928559` that the client kept at offset 24 of `B`. -/
theorem realloc_copies_old_payload :
    copyOverrunRun =
      .ok ((65552, 65576, 65600), (208, 65552), 25, (286331153, 3735928559)) := by
  decide!

/-- C22 (as the code behaves): `mm_realloc(A, 1)` resizes the block in place to
`ALIGNED(1 + 8) = 16` bytes, whereas `mm_malloc` computes the block size 24 for
a request of one byte. -/
theorem realloc_block_below_minimum :
    reallocTinyRun = .ok (65552, 65552, 16, 1) ∧ adjust 1 = 24 ∧
    ALIGNED (add32 1 8) = 16 := by
  decide!

/-- C23 (the case the claim leaves out): `mm_realloc(A, 16)` on a block of 24
bytes whose next block is free keeps the size of the block, so the block after
it is the old next block at `65576`, and that block is the root of the free tree
after the call as it was before. -/
theorem realloc_same_size_keeps_next :
    reallocSameSizeRun = .ok ((65552, 65576, 65576), (65552, 65576, 65576)) := by
  decide!

/-! ## The tiling and the free tree -/

theorem sizeOf_mod8 (w : Nat) : sizeOf w % 8 = 0 := by
  rw [sizeOf_eq]; omega

theorem sizeOf_lt (w : Nat) : sizeOf w < 4294967296 := by
  rw [sizeOf_eq]; omega

theorem sizeOf_of_mod8 {s : Nat} (h8 : s % 8 = 0) (hlt : s < 4294967296) : sizeOf s = s := by
  rw [sizeOf_eq]; omega

theorem sizeOf_succ {s : Nat} (h8 : s % 8 = 0) (hlt : s + 1 < 4294967296) :
    sizeOf (s + 1) = s := by
  rw [sizeOf_eq]; omega

theorem allocOf_succ {s : Nat} (h8 : s % 8 = 0) : allocOf (s + 1) = 1 := by
  rw [allocOf_eq]; omega

theorem allocOf_of_mod8 {s : Nat} (h8 : s % 8 = 0) : allocOf s = 0 := by
  rw [allocOf_eq]; omega

theorem allocOf_le (w : Nat) : allocOf w ≤ 1 := by
  rw [allocOf_eq]; omega

theorem Heap.bsize_mod8 (h : Heap) (a : Nat) : h.bsize a % 8 = 0 := sizeOf_mod8 _

theorem Heap.balloc_le (h : Heap) (a : Nat) : h.balloc a ≤ 1 := allocOf_le _

theorem Chain.le_brk {h : Heap} : ∀ {S : List Nat} {a : Nat}, Chain h a S → a ≤ h.brk
  | [], _, hc => le_of_eq hc
  | _ :: bs, a, hc => by
    have := @Chain.le_brk h bs _ hc.2.2.2.2.2.2
    omega

/-- What the tiling says of each of its blocks. -/
theorem Chain.facts {h : Heap} : ∀ {S : List Nat} {a : Nat}, Chain h a S → ∀ b ∈ S,
    a ≤ b ∧ b % 8 = 0 ∧ 16 ≤ h.bsize b ∧ h.words (b - 4) = h.bsize b + h.balloc b ∧
    h.words (b + h.bsize b - 8) = h.words (b - 4) ∧ (h.balloc b = 0 → 24 ≤ h.bsize b) ∧
    b + h.bsize b ≤ h.brk
  | [], _, _, b, hb => absurd hb (List.not_mem_nil b)
  | x :: bs, a, hc, b, hb => by
    obtain ⟨e, c1, c2, c3, c4, c5, c6⟩ := hc
    rcases List.mem_cons.1 hb with rfl | hb'
    · subst e
      exact ⟨le_refl _, c1, c2, c3, c4, c5, Chain.le_brk c6⟩
    · obtain ⟨d0, d⟩ := @Chain.facts h bs _ c6 b hb'
      exact ⟨by omega, d⟩

/-- Two blocks of the tiling do not overlap. -/
theorem Chain.disjoint {h : Heap} : ∀ {S : List Nat} {a : Nat}, Chain h a S →
    ∀ b ∈ S, ∀ c ∈ S, b ≠ c → b + h.bsize b ≤ c ∨ c + h.bsize c ≤ b
  | [], _, _, b, hb, _, _, _ => absurd hb (List.not_mem_nil b)
  | x :: bs, a, hc, b, hb, c, hcm, hne => by
    obtain ⟨e, -, -, -, -, -, c6⟩ := hc
    subst e
    rcases List.mem_cons.1 hb with e1 | hb'
    · rcases List.mem_cons.1 hcm with e2 | hc'
      · exact absurd (e1.trans e2.symm) hne
      · subst e1
        exact Or.inl (Chain.facts c6 c hc').1
    · rcases List.mem_cons.1 hcm with e2 | hc'
      · subst e2
        exact Or.inr (Chain.facts c6 b hb').1
      · exact @Chain.disjoint h bs _ c6 b hb' c hc' hne

/-- Every block of the tiling but the first starts where another one ends. -/
theorem Chain.pred {h : Heap} : ∀ {S : List Nat} {a : Nat}, Chain h a S →
    ∀ b ∈ S, b = a ∨ ∃ c ∈ S, c + h.bsize c = b
  | [], _, _, b, hb => absurd hb (List.not_mem_nil b)
  | x :: bs, a, hc, b, hb => by
    obtain ⟨e, -, -, -, -, -, c6⟩ := hc
    subst e
    rcases List.mem_cons.1 hb with e1 | hb'
    · exact Or.inl e1
    · rcases @Chain.pred h bs _ c6 b hb' with e2 | ⟨c, hc', e3⟩
      · exact Or.inr ⟨x, List.mem_cons_self _ _, e2.symm⟩
      · exact Or.inr ⟨c, List.mem_cons_of_mem _ hc', e3⟩

/-- The addresses of a block of the tiling. -/
theorem Consistent.block {h : Heap} {S : List Nat} {t : FTree} (hc : Consistent h S t)
    {b : Nat} (hb : b ∈ S) :
    h.lo + 16 ≤ b ∧ 24 ≤ b ∧ b % 8 = 0 ∧ 16 ≤ h.bsize b ∧ h.bsize b % 8 = 0 ∧
    b + h.bsize b ≤ h.brk ∧ h.brk < 4294967296 ∧
    h.words (b - 4) = h.bsize b + h.balloc b ∧
    h.words (b + h.bsize b - 8) = h.words (b - 4) ∧ (h.balloc b = 0 → 24 ≤ h.bsize b) := by
  obtain ⟨d0, d1, d2, d3, d4, d5, d6⟩ := Chain.facts hc.tiled b hb
  have a1 := hc.arena.lo_pos
  have a2 := hc.arena.start
  have a3 := hc.arena.brk_le
  have a4 := hc.arena.limit_lt
  have a5 := h.bsize_mod8 b
  unfold W32 at a4
  rw [a2] at d0
  exact ⟨d0, by omega, d1, d2, a5, d6, by omega, d3, d4, d5⟩

/-- In a consistent state the free tree meets what the tree functions need. -/
theorem Consistent.treeOK {h : Heap} {S : List Nat} {t : FTree} (hc : Consistent h S t) :
    TreeOK h t := by
  refine ⟨hc.indexed.shape, hc.indexed.root, hc.indexed.ordered, hc.indexed.nodup, ?_, ?_, ?_⟩
  · intro a ha
    obtain ⟨m1, m2⟩ := hc.indexed.free a ha
    obtain ⟨b1, b2, b3, b4, b5, b6, b7, b8, b9, b10⟩ := hc.block m1
    have := b10 m2
    omega
  · intro a ha b hb hne
    obtain ⟨m1, m2⟩ := hc.indexed.free a ha
    obtain ⟨n1, n2⟩ := hc.indexed.free b hb
    have s1 := (hc.block m1).2.2.2.2.2.2.2.2.2 m2
    have s2 := (hc.block n1).2.2.2.2.2.2.2.2.2 n2
    rcases Chain.disjoint hc.tiled a m1 b n1 hne with d | d
    · left; omega
    · right; omega
  · have a3 := hc.arena.brk_le
    have a4 := hc.arena.limit_lt
    omega

/-- The free tree stays laid out when no header and no link word of a member
changes. -/
theorem TreeOK.frame {h h' : Heap} {t : FTree} (ok : TreeOK h t) (hlo : h'.lo = h.lo)
    (hbrk : h'.brk = h.brk) (hseat : h'.seat = h.seat)
    (hw : ∀ a ∈ t.members, ∀ q, a - 4 ≤ q → q < a + 16 → h'.words q = h.words q) :
    TreeOK h' t := by
  refine ⟨?_, ok.root.trans hseat.symm, ?_, ok.nodup, ?_, ok.sep, hbrk ▸ ok.brk_lt⟩
  · refine Shape_congr ok.nodup (fun a ha => ⟨?_, ?_, ?_⟩) (fun a ha _ => ?_) ok.shape
    · exact hw a ha a (by omega) (by omega)
    · exact hw a ha (a + 4) (by omega) (by omega)
    · exact hw a ha (a + 12) (by omega) (by omega)
    · exact hw a (t.nodes_sub_members a ha) (a + 8) (by omega) (by omega)
  · refine Ordered_congr (fun a ha => ?_) ok.ordered
    unfold szOf
    rw [hw a ha (a - 4) (le_refl _) (by omega)]
  · intro a ha
    rw [hlo, hbrk]
    exact ok.range a ha

/-- A tree is not higher than it has members. -/
theorem FTree.height_le_length (t : FTree) : t.height ≤ t.members.length := by
  induction t with
  | nil => exact le_refl _
  | node l a reps r ihl ihr =>
    simp only [FTree.height, FTree.members, List.length_append, List.length_cons]
    omega

/-- A tree whose members are members of `t` is not higher than `t` has members. -/
theorem FTree.height_le_of_sub {t t' : FTree} (hnd : t'.members.Nodup)
    (hs : ∀ x ∈ t'.members, x ∈ t.members) : t'.height ≤ t.members.length :=
  le_trans t'.height_le_length (List.Subperm.length_le (List.subperm_of_subset hnd hs))

/-! ## The tag macros on a block of the arena -/

theorem GET_SIZE_ok {h : Heap} {p : Nat} (hv : h.valid p) :
    GET_SIZE h p = .ok (sizeOf (h.words p)) := by
  unfold GET_SIZE
  rw [GET_ok hv]
  rfl

theorem GET_ALLOC_ok {h : Heap} {p : Nat} (hv : h.valid p) :
    GET_ALLOC h p = .ok (allocOf (h.words p)) := by
  unfold GET_ALLOC
  rw [GET_ok hv]
  rfl

theorem GET_HDRP {h : Heap} {bp : Nat} (h4 : 4 ≤ bp) (hlt : bp < 4294967296)
    (hv : h.valid (bp - 4)) : GET h (HDRP bp) = .ok (h.words (bp - 4)) := by
  rw [HDRP_eq h4 hlt]
  exact GET_ok hv

theorem GET_SIZE_HDRP {h : Heap} {bp s : Nat} (h4 : 4 ≤ bp) (hlt : bp < 4294967296)
    (hv : h.valid (bp - 4)) (hs : sizeOf (h.words (bp - 4)) = s) :
    GET_SIZE h (HDRP bp) = .ok s := by
  rw [HDRP_eq h4 hlt, GET_SIZE_ok hv, hs]

theorem GET_ALLOC_HDRP {h : Heap} {bp s : Nat} (h4 : 4 ≤ bp) (hlt : bp < 4294967296)
    (hv : h.valid (bp - 4)) (hs : allocOf (h.words (bp - 4)) = s) :
    GET_ALLOC h (HDRP bp) = .ok s := by
  rw [HDRP_eq h4 hlt, GET_ALLOC_ok hv, hs]

theorem NEXT_BLKP_ok {h : Heap} {bp s : Nat} (h4 : 4 ≤ bp) (hv : h.valid (bp - 4))
    (hs : sizeOf (h.words (bp - 4)) = s) (hlt : bp + s < 4294967296) :
    NEXT_BLKP h bp = .ok (bp + s) := by
  unfold NEXT_BLKP WSIZE
  rw [sub32_eq h4 (by omega), GET_SIZE_ok hv, hs]
  show Res.ok (add32 bp s) = _
  rw [add32_eq hlt]

theorem FTRP_ok {h : Heap} {bp s : Nat} (h4 : 4 ≤ bp) (hv : h.valid (bp - 4))
    (hs : sizeOf (h.words (bp - 4)) = s) (h8 : 8 ≤ s) (hlt : bp + s < 4294967296) :
    FTRP h bp = .ok (bp + s - 8) := by
  unfold FTRP DSIZE
  rw [HDRP_eq h4 (by omega), GET_SIZE_ok hv, hs]
  show Res.ok (sub32 (add32 bp s) 8) = _
  rw [add32_eq hlt, sub32_eq (by omega) hlt]

theorem PREV_BLKP_ok {h : Heap} {bp s : Nat} (h8 : 8 ≤ bp) (hv : h.valid (bp - 8))
    (hs : sizeOf (h.words (bp - 8)) = s) (hle : s ≤ bp) (hlt : bp < 4294967296) :
    PREV_BLKP h bp = .ok (bp - s) := by
  unfold PREV_BLKP DSIZE
  rw [sub32_eq h8 hlt, GET_SIZE_ok hv, hs]
  show Res.ok (sub32 bp s) = _
  rw [sub32_eq hle hlt]

theorem ALIGNED_eq {n : Nat} (h : n + 7 < 4294967296) : ALIGNED n = (n + 7) / 8 * 8 := by
  unfold ALIGNED
  rw [add32_eq h, land_mask, Nat.mod_eq_of_lt h]

/-! ## The tag writes of `mm_realloc` -/

theorem retagHeap_words {h : Heap} {bp news rem : Nat} (hb : 8 ≤ bp) (hn : 16 ≤ news)
    (hr : 16 ≤ rem) (hlt : bp + news + rem < 4294967296) :
    (retagHeap h bp news rem).words (bp - 4) = news + 1 ∧
    (retagHeap h bp news rem).words (bp + news - 8) = news + 1 ∧
    (retagHeap h bp news rem).words (bp + news - 4) = rem ∧
    (retagHeap h bp news rem).words (bp + news + rem - 8) = rem ∧
    ∀ q, q ≠ bp - 4 → q ≠ bp + news - 8 → q ≠ bp + news - 4 → q ≠ bp + news + rem - 8 →
      (retagHeap h bp news rem).words q = h.words q := by
  have m1 : (news + 1) % W32 = news + 1 := Nat.mod_eq_of_lt (by unfold W32; omega)
  have m2 : rem % W32 = rem := Nat.mod_eq_of_lt (by unfold W32; omega)
  have e1 : bp - 4 ≠ bp + news - 8 := by omega
  have e2 : bp - 4 ≠ bp + news - 4 := by omega
  have e3 : bp - 4 ≠ bp + news + rem - 8 := by omega
  have e4 : bp + news - 8 ≠ bp + news - 4 := by omega
  have e5 : bp + news - 8 ≠ bp + news + rem - 8 := by omega
  have e6 : bp + news - 4 ≠ bp + news + rem - 8 := by omega
  refine ⟨?_, ?_, ?_, ?_, ?_⟩
  all_goals try intro q q1 q2 q3 q4
  all_goals
    simp only [retagHeap, store_words, m1, m2, if_true, if_false, e1, e2, e3, e4, e5, e6, *]

theorem retagHeap_arena (h : Heap) (bp news rem : Nat) :
    (retagHeap h bp news rem).lo = h.lo ∧ (retagHeap h bp news rem).brk = h.brk ∧
    (retagHeap h bp news rem).limit = h.limit ∧
    (retagHeap h bp news rem).startPointer = h.startPointer ∧
    (retagHeap h bp news rem).seat = h.seat := ⟨rfl, rfl, rfl, rfl, rfl⟩

/-- The four tag writes of the branch of `mm_realloc` that grows into the next
block, up to the call of `addNode`. -/
theorem retag_exec {h : Heap} {ptr size old nextd news : Nat} (fuel : Nat)
    (hp : ptr % 8 = 0) (hlo : h.lo + 8 ≤ ptr) (hend : ptr + old + nextd ≤ h.brk)
    (hbrk : h.brk < 4294967296) (ho8 : old % 8 = 0) (ho16 : 16 ≤ old) (hd8 : nextd % 8 = 0)
    (hn8 : news % 8 = 0) (hn16 : 16 ≤ news) (hroom : news + 24 ≤ old + nextd)
    (hal : ALIGNED (add32 size 8) = news) (hhdr : h.words (ptr + old - 4) = nextd)
    {h6 : Heap}
    (hadd : addNode fuel (retagHeap h ptr news (old + nextd - news)) (ptr + news) = .ok h6) :
    reallocRetag fuel h ptr size (fun h' => (GET h' (HDRP (ptr + old))).map fun nw =>
        sub32 (add32 old nw) (ALIGNED (add32 size 8))) = .ok (h6, ptr) := by
  have hrem8 : (old + nextd - news) % 8 = 0 := by omega
  have hrem24 : 24 ≤ old + nextd - news := by omega
  have hsum : news + (old + nextd - news) = old + nextd := by omega
  generalize hrem : old + nextd - news = rem at *
  have pk1 : PACK news 1 = news + 1 := PACK_one news (by omega)
  have m1 : (news + 1) % W32 = news + 1 := Nat.mod_eq_of_lt (by unfold W32; omega)
  have m2 : rem % W32 = rem := Nat.mod_eq_of_lt (by unfold W32; omega)
  have s1 : sizeOf (news + 1) = news := sizeOf_succ hn8 (by omega)
  have s2 : sizeOf rem = rem := sizeOf_of_mod8 hrem8 (by omega)
  have e1 : ptr - 4 ≠ ptr + news - 8 := by omega
  have e2 : ptr - 4 ≠ ptr + news - 4 := by omega
  have e3 : ptr - 4 ≠ ptr + news + rem - 8 := by omega
  have e4 : ptr + old - 4 ≠ ptr - 4 := by omega
  have e5 : ptr + old - 4 ≠ ptr + news - 8 := by omega
  have sb : sub32 (add32 old nextd) news = rem := by
    rw [add32_eq (by omega), sub32_eq (by omega) (by omega)]
    omega
  have v0 : h.valid (ptr - 4) := ⟨by omega, by omega, by omega⟩
  have v1 : h.valid (ptr + news - 8) := ⟨by omega, by omega, by omega⟩
  have v2 : h.valid (ptr + news - 4) := ⟨by omega, by omega, by omega⟩
  have v3 : h.valid (ptr + news + rem - 8) := ⟨by omega, by omega, by omega⟩
  have v4 : h.valid (ptr + old - 4) := ⟨by omega, by omega, by omega⟩
  have f1 : PUT h (HDRP ptr) (PACK news 1) = .ok (h.store (ptr - 4) (news + 1)) := by
    rw [pk1, HDRP_eq (by omega) (by omega)]
    exact PUT_ok _ v0
  have f2 : FTRP (h.store (ptr - 4) (news + 1)) ptr = .ok (ptr + news - 8) :=
    FTRP_ok (by omega) v0 (by simp only [store_words, if_true, m1, s1]) (by omega) (by omega)
  have f3 : PUT (h.store (ptr - 4) (news + 1)) (ptr + news - 8) (PACK news 1) =
      .ok ((h.store (ptr - 4) (news + 1)).store (ptr + news - 8) (news + 1)) := by
    rw [pk1]
    exact PUT_ok _ v1
  have f4 : NEXT_BLKP ((h.store (ptr - 4) (news + 1)).store (ptr + news - 8) (news + 1)) ptr =
      .ok (ptr + news) :=
    NEXT_BLKP_ok (by omega) v0 (by simp only [store_words, if_true, if_false, e1, m1, s1])
      (by omega)
  have f5 : GET ((h.store (ptr - 4) (news + 1)).store (ptr + news - 8) (news + 1))
      (HDRP (ptr + old)) = .ok nextd := by
    rw [GET_HDRP (h := (h.store (ptr - 4) (news + 1)).store (ptr + news - 8) (news + 1))
      (by omega) (by omega) v4]
    simp only [store_words, if_false, e4, e5, hhdr]
  have f6 : PUT ((h.store (ptr - 4) (news + 1)).store (ptr + news - 8) (news + 1))
      (HDRP (ptr + news)) (PACK rem 0) =
      .ok (((h.store (ptr - 4) (news + 1)).store (ptr + news - 8) (news + 1)).store
        (ptr + news - 4) rem) := by
    rw [PACK_zero, HDRP_eq (by omega) (by omega)]
    exact PUT_ok _ v2
  have f7 : NEXT_BLKP (((h.store (ptr - 4) (news + 1)).store (ptr + news - 8) (news + 1)).store
        (ptr + news - 4) rem) ptr = .ok (ptr + news) :=
    NEXT_BLKP_ok (by omega) v0 (by simp only [store_words, if_true, if_false, e1, e2, m1, s1])
      (by omega)
  have f8 : FTRP (((h.store (ptr - 4) (news + 1)).store (ptr + news - 8) (news + 1)).store
        (ptr + news - 4) rem) (ptr + news) = .ok (ptr + news + rem - 8) :=
    FTRP_ok (by omega) v2 (by simp only [store_words, if_true, m2, s2]) (by omega) (by omega)
  have f9 : GET (((h.store (ptr - 4) (news + 1)).store (ptr + news - 8) (news + 1)).store
        (ptr + news - 4) rem) (HDRP (ptr + old)) = .ok nextd := by
    rw [GET_HDRP (h := ((h.store (ptr - 4) (news + 1)).store (ptr + news - 8) (news + 1)).store
      (ptr + news - 4) rem) (by omega) (by omega) v4]
    by_cases e : old = news
    · have : rem = nextd := by omega
      have m3 : nextd % W32 = nextd := this ▸ m2
      simp only [store_words, e, if_true, this, m3]
    · have e6 : ptr + old - 4 ≠ ptr + news - 4 := by omega
      simp only [store_words, if_false, e4, e5, e6, hhdr]
  have f10 : PUT (((h.store (ptr - 4) (news + 1)).store (ptr + news - 8) (news + 1)).store
        (ptr + news - 4) rem) (ptr + news + rem - 8) (PACK rem 0) =
      .ok (retagHeap h ptr news rem) := by
    rw [PACK_zero]
    exact PUT_ok _ v3
  have f11 : NEXT_BLKP (retagHeap h ptr news rem) ptr = .ok (ptr + news) :=
    NEXT_BLKP_ok (by omega) v0
      (by rw [(retagHeap_words (by omega) hn16 (by omega) (by omega)).1, s1]) (by omega)
  unfold reallocRetag
  simp only [hal, f1, f2, f3, f4, f5, f6, f7, f8, f9, f10, f11, hadd, ok_bind, map_ok, sb]

/-- The reads and tests of `mm_realloc` on the way to the branch that grows
into the next block. -/
theorem realloc_grow_exec {h : Heap} {ptr size old nextd pb : Nat} (fuel : Nat)
    (hsize : size ≠ 0) (hptr : ptr ≠ 0)
    (g1 : GET_SIZE h (HDRP ptr) = .ok old) (g2 : NEXT_BLKP h ptr = .ok (ptr + old))
    (g3 : GET_ALLOC h (HDRP (ptr + old)) = .ok 0) (g4 : PREV_BLKP h ptr = .ok pb)
    (g5 : GET_ALLOC h (HDRP pb) = .ok 1) (g6 : GET_SIZE h (HDRP (ptr + old)) = .ok nextd)
    (hroom : add32 old nextd ≥ add32 (ALIGNED (add32 size 8)) 24) :
    mm_realloc fuel h ptr size = (deleteNode fuel h (ptr + old) >>= fun h1 =>
      reallocRetag fuel h1 ptr size (fun h' => (GET h' (HDRP (ptr + old))).map fun nw =>
        sub32 (add32 old nw) (ALIGNED (add32 size 8)))) := by
  unfold mm_realloc
  simp only [g1, g2, g3, g4, g5, g6, ok_bind, hsize, hptr, if_false, ne_eq, one_ne_zero,
    not_false_eq_true, not_true_eq_false, and_false, and_true, false_and, true_and, if_true,
    hroom]

/-! ## `mm_realloc` growing into the next block -/

/-- The members of the free tree other than the next block lie outside the
block `ptr` and the next block. -/
theorem grow_far {h : Heap} {S : List Nat} {t : FTree} (hc : Consistent h S t)
    {ptr old nextd : Nat} (hptr : ptr ∈ S) (hlive : h.balloc ptr = 1) (hold : old = h.bsize ptr)
    (hnext : ptr + old ∈ S) (hnextd : nextd = h.bsize (ptr + old)) :
    ∀ m ∈ t.members, m ≠ ptr + old → m + 24 ≤ ptr ∨ ptr + old + nextd ≤ m := by
  intro m hm hne
  obtain ⟨m1, m2⟩ := hc.indexed.free m hm
  have hmp : m ≠ ptr := fun e => by rw [e, hlive] at m2; exact absurd m2 (by decide)
  have b24 := (hc.block m1).2.2.2.2.2.2.2.2.2 m2
  have o16 := (hc.block hptr).2.2.2.1
  have d1 := Chain.disjoint hc.tiled m m1 ptr hptr hmp
  have d2 := Chain.disjoint hc.tiled m m1 (ptr + old) hnext hne
  rw [← hold] at d1 o16
  rw [← hnextd] at d2
  clear hm m1 m2 hc hnext hptr hlive
  omega

/-- The reads of `mm_realloc` that find the block before `ptr` allocated. -/
theorem prev_reads {h : Heap} {S : List Nat} {t : FTree} (hc : Consistent h S t) {ptr : Nat}
    (hptr : ptr ∈ S) (hprev : ∀ a ∈ S, a + h.bsize a = ptr → h.balloc a = 1) :
    ∃ pb, PREV_BLKP h ptr = .ok pb ∧ GET_ALLOC h (HDRP pb) = .ok 1 := by
  obtain ⟨p1, p2, p3, p4, p5, p6, p7, -, -, -⟩ := hc.block hptr
  have a1 := hc.arena.lo_pos
  have a2 := hc.arena.lo_aligned
  have v8 : h.valid (ptr - 8) := ⟨by omega, by omega, by omega⟩
  rcases Chain.pred hc.tiled ptr hptr with e | ⟨c, hcS, e⟩
  · rw [hc.arena.start] at e
    have w8 : h.words (ptr - 8) = 9 := by
      rw [e, show h.lo + 16 - 8 = h.lo + 8 from rfl]
      exact hc.arena.prologue_footer
    refine ⟨ptr - 8, PREV_BLKP_ok (by omega) v8 (by rw [w8]; rfl) (by omega) (by omega), ?_⟩
    have w4 : h.words (ptr - 8 - 4) = 9 := by
      rw [e, show h.lo + 16 - 8 - 4 = h.lo + 4 from rfl]
      exact hc.arena.prologue_header
    exact GET_ALLOC_HDRP (by omega) (by omega) ⟨by omega, by omega, by omega⟩ (by rw [w4]; rfl)
  · obtain ⟨c1, c2, c3, c4, c5, c6, c7, c8, c9, -⟩ := hc.block hcS
    have hal := hprev c hcS e
    rw [hal] at c8
    have w8 : h.words (ptr - 8) = h.bsize c + 1 := by
      rw [← e, c9, c8]
    have s8 : sizeOf (h.words (ptr - 8)) = h.bsize c := by
      rw [w8]
      exact sizeOf_succ c5 (by omega)
    have epb : ptr - h.bsize c = c := by omega
    refine ⟨c, ?_, ?_⟩
    · rw [PREV_BLKP_ok (by omega) v8 s8 (by omega) (by omega), epb]
    · exact GET_ALLOC_HDRP (by omega) (by omega) ⟨by omega, by omega, by omega⟩
        (by rw [c8]; exact allocOf_succ c5)

/-- C23 (amended): in a consistent state whose free tree holds every free
block, let `ptr` be a live block of `old` bytes whose previous block (or the
prologue) is allocated and whose next block, at `ptr + old`, is free with
`nextd` bytes, and let `size > 0` with `news + 24 ≤ old + nextd` for
`news = roundup8(size + 8)`. Then `mm_realloc(ptr, size)` (with fuel for the
members of the tree) returns `ptr`; the payload words below
`min(old - 8, size)` are untouched; header and footer of the block at `ptr`
hold `news | 1`; the block after it, at `ptr + news`, has header and footer
`rem = old + nextd - news` with the allocated bit clear and is a member of the
free tree, which is again laid out in memory and ordered; every member of the
tree is that block or was a member before; and the old next block is no longer
a member, unless `news = old`, when the block after `ptr` is the old next
block itself. -/
theorem realloc_grows_in_place (h : Heap) (S : List Nat) (t : FTree) (hc : Consistent h S t)
    (hall : ∀ a ∈ S, h.balloc a = 0 → a ∈ t.members) (ptr size old nextd news rem : Nat)
    (hptr : ptr ∈ S) (hlive : h.balloc ptr = 1)
    (hprev : ∀ a ∈ S, a + h.bsize a = ptr → h.balloc a = 1)
    (hold : old = h.bsize ptr) (hnext : ptr + old ∈ S) (hnfree : h.balloc (ptr + old) = 0)
    (hnextd : nextd = h.bsize (ptr + old)) (hsize : 0 < size)
    (hnews : news = (size + 8 + 7) / 8 * 8) (hroom : news + 24 ≤ old + nextd)
    (hrem : rem = old + nextd - news) (fuel : Nat) (hf : t.members.length ≤ fuel) :
    ∃ h' t', mm_realloc fuel h ptr size = .ok (h', ptr) ∧
      (∀ q, ptr ≤ q → q < ptr + min (old - 8) size → h'.words q = h.words q) ∧
      h'.words (ptr - 4) = news + 1 ∧ h'.words (ptr + news - 8) = news + 1 ∧
      h'.words (ptr + news - 4) = rem ∧ h'.words (ptr + news + rem - 8) = rem ∧
      TreeOK h' t' ∧ ptr + news ∈ t'.members ∧
      (∀ x ∈ t'.members, x = ptr + news ∨ x ∈ t.members) ∧
      (news ≠ old → ptr + old ∉ t'.members) := by
  have ok := hc.treeOK
  have far := grow_far hc hptr hlive hold hnext hnextd
  obtain ⟨pb, g4, g5⟩ := prev_reads hc hptr hprev
  obtain ⟨p1, p2, p3, p4, p5, p6, p7, p8, -, -⟩ := hc.block hptr
  obtain ⟨-, -, -, -, n5, n6, -, n8, -, n10⟩ := hc.block hnext
  have n24 := n10 hnfree
  rw [hlive, ← hold] at p8
  rw [hnfree, ← hnextd, Nat.add_zero] at n8
  rw [← hold] at p4 p5 p6
  rw [← hnextd] at n5 n6 n24
  clear n10
  have hnm : ptr + old ∈ t.members := hall _ hnext hnfree
  -- arithmetic of the request
  have hn8 : news % 8 = 0 := by omega
  have hn16 : 16 ≤ news := by omega
  have hns : size + 8 ≤ news := by omega
  have hal : ALIGNED (add32 size 8) = news := by
    rw [add32_eq (by omega), ALIGNED_eq (by omega), hnews]
  have hr8 : rem % 8 = 0 := by omega
  have hr24 : 24 ≤ rem := by omega
  have hsum : ptr + news + rem = ptr + old + nextd := by omega
  -- the reads
  have v0 : h.valid (ptr - 4) := ⟨by omega, by omega, by omega⟩
  have vn : h.valid (ptr + old - 4) := ⟨by omega, by omega, by omega⟩
  have so : sizeOf (h.words (ptr - 4)) = old := by
    rw [p8]; exact sizeOf_succ p5 (by omega)
  have g1 : GET_SIZE h (HDRP ptr) = .ok old := GET_SIZE_HDRP (by omega) (by omega) v0 so
  have g2 : NEXT_BLKP h ptr = .ok (ptr + old) := NEXT_BLKP_ok (by omega) v0 so (by omega)
  have g3 : GET_ALLOC h (HDRP (ptr + old)) = .ok 0 :=
    GET_ALLOC_HDRP (by omega) (by omega) vn (by rw [n8]; exact allocOf_of_mod8 n5)
  have g6 : GET_SIZE h (HDRP (ptr + old)) = .ok nextd :=
    GET_SIZE_HDRP (by omega) (by omega) vn (by rw [n8]; exact sizeOf_of_mod8 n5 (by omega))
  have hge : add32 old nextd ≥ add32 (ALIGNED (add32 size 8)) 24 := by
    rw [hal, add32_eq (by omega), add32_eq (by omega)]
    exact hroom
  have ex0 := realloc_grow_exec fuel (by omega) (by omega) g1 g2 g3 g4 g5 g6 hge
  -- the next block leaves the tree
  obtain ⟨h1, t1, ⟨sa, hu1, ok1, hsub1, hnot1⟩, -, hex1⟩ := deleteNode_spec ok hnm
  obtain ⟨sa1, sa2, -, -⟩ := sa
  have hu1q : ∀ q, ptr - 4 ≤ q → q < ptr + old → h1.words q = h.words q := by
    intro q q1 q2
    refine hu1 q (fun m hm => ?_)
    by_cases e : m = ptr + old
    · left; omega
    · have := far m hm e
      omega
  have far1 : ∀ m ∈ t1.members, m + 24 ≤ ptr ∨ ptr + old + nextd ≤ m := fun m hm =>
    far m (hsub1 m hm) (fun e => hnot1 (e ▸ hm))
  -- the tag writes
  obtain ⟨w1, w2, w3, w4, w5⟩ := @retagHeap_words h1 ptr news rem (by omega) hn16 (by omega)
    (by omega)
  have ok2 : TreeOK (retagHeap h1 ptr news rem) t1 := by
    refine ok1.frame rfl rfl rfl (fun a ha q q1 q2 => ?_)
    have := far1 a ha
    have a24 := (ok1.lt ha).1
    exact w5 q (by omega) (by omega) (by omega) (by omega)
  have hbr : 24 ≤ ptr + news ∧ (retagHeap h1 ptr news rem).lo + 4 ≤ ptr + news ∧
      ptr + news + 16 ≤ (retagHeap h1 ptr news rem).brk ∧ (ptr + news) % 4 = 0 := by
    have e1 : (retagHeap h1 ptr news rem).lo = h.lo := sa1
    have e2 : (retagHeap h1 ptr news rem).brk = h.brk := sa2
    rw [e1, e2]
    omega
  have hsep : ∀ x ∈ t1.members, ptr + news + 24 ≤ x ∨ x + 24 ≤ ptr + news := by
    intro x hx
    have := far1 x hx
    omega
  have hsz : szOf (retagHeap h1 ptr news rem).words (ptr + news) = rem := by
    unfold szOf
    rw [show ptr + news - 4 = ptr + news - 4 from rfl, w3]
    exact sizeOf_of_mod8 hr8 (by omega)
  obtain ⟨h6, hex6, -, hu6, ok6⟩ := addNode_spec ok2 hbr hsep (by rw [hsz]; omega)
  have hf1 : t1.height ≤ fuel := le_trans (FTree.height_le_of_sub ok1.nodup hsub1) hf
  have hf0 : t.height ≤ fuel := le_trans t.height_le_length hf
  have hu6q : ∀ q, ptr - 4 ≤ q → q < ptr + old + nextd - 4 →
      (q < ptr + news ∨ ptr + news + 16 ≤ q) →
      h6.words q = (retagHeap h1 ptr news rem).words q := by
    intro q q1 q2 q3
    refine hu6 q (fun m hm => ?_)
    rcases List.mem_cons.1 hm with e | e
    · rw [e]; exact q3
    · have := far1 m e
      omega
  have hh1 : h1.words (ptr + old - 4) = nextd := by
    rw [hu1q _ (by omega) (by omega)]
    exact n8
  have hex : mm_realloc fuel h ptr size = .ok (h6, ptr) := by
    rw [ex0, hex1 fuel hf0]
    have e1 : h1.lo = h.lo := sa1
    have e2 : h1.brk = h.brk := sa2
    refine retag_exec fuel p3 (by omega) (by omega) (by omega) p5 p4 n5 hn8 hn16 hroom hal hh1 ?_
    rw [← hrem]
    exact hex6 fuel hf1
  refine ⟨h6, _, hex, ?_, ?_, ?_, ?_, ?_, ok6, FTree.mem_ins.2 (Or.inl rfl), ?_, ?_⟩
  · intro q q1 q2
    have q3 : q < ptr + (old - 8) := lt_of_lt_of_le q2 (Nat.add_le_add_left (min_le_left _ _) _)
    have q4 : q < ptr + size := lt_of_lt_of_le q2 (Nat.add_le_add_left (min_le_right _ _) _)
    rw [hu6q q (by omega) (by omega) (by omega),
      w5 q (by omega) (by omega) (by omega) (by omega)]
    exact hu1q q (by omega) (by omega)
  · rw [hu6q _ (by omega) (by omega) (by omega)]
    exact w1
  · rw [hu6q _ (by omega) (by omega) (by omega)]
    exact w2
  · rw [hu6q _ (by omega) (by omega) (by omega)]
    exact w3
  · rw [hu6q _ (by omega) (by omega) (by omega)]
    exact w4
  · intro x hx
    rcases FTree.mem_ins.1 hx with e | e
    · exact Or.inl e
    · exact Or.inr (hsub1 x e)
  · intro hne hx
    rcases FTree.mem_ins.1 hx with e | e
    · omega
    · exact hnot1 e

theorem realloc_grows_in_place_witness :
    ∃ h' t', mm_realloc 10 growHeap 65576 40 = .ok (h', 65576) ∧
      (∀ q, 65576 ≤ q → q < 65576 + min (24 - 8) 40 → h'.words q = growHeap.words q) ∧
      h'.words (65576 - 4) = 48 + 1 ∧ h'.words (65576 + 48 - 8) = 48 + 1 ∧
      h'.words (65576 + 48 - 4) = 952 ∧ h'.words (65576 + 48 + 952 - 8) = 952 ∧
      TreeOK h' t' ∧ 65576 + 48 ∈ t'.members ∧
      (∀ x ∈ t'.members, x = 65576 + 48 ∨ x ∈ growTree.members) ∧
      (48 ≠ 24 → 65576 + 24 ∉ t'.members) :=
  realloc_grows_in_place growHeap [65552, 65576, 65600] growTree (by decide!) (by decide!)
    65576 40 24 976 48 952 (by decide!) (by decide!) (by decide!) (by decide!) (by decide!)
    (by decide!) (by decide!) (by decide) (by decide) (by decide) (by decide) 10 (by decide)

/-! ## Requests near the top of the word range -/

/-- C1 (as the code behaves): the state after `mm_init` is well formed (one
free block of 1024 bytes, the root of the free tree), and `mm_malloc(4294967295)`
returns the pointer 65552 without growing the arena; the block at 65552 is
marked allocated but its size is 8 bytes: `size + 15` wraps around in the
computation of the block size (source line 293), which comes out as 8. -/
theorem malloc_huge_request_gets_8_bytes :
    Consistent (stateOf afterInit) [65552] initTree ∧
      NoAdjacentFree (stateOf afterInit) [65552] ∧
      (∀ a ∈ [65552], (stateOf afterInit).balloc a = 0 → a ∈ initTree.members) ∧
      hugeRequestRun = .ok (65552, 8, 1, 66576, 66576) ∧ adjust 4294967295 = 8 := by
  decide!

/-- C7 (as the code behaves): `roundTripHeap` is well formed, the call
`mm_malloc(4294967288)` returns the pointer 65552 and `mm_free(65552)` returns,
but the second `mm_malloc(4294967288)` reads outside the arena (at the address
`0 - 4`, the header of the block `NULL`) instead of returning a pointer: the
block size computed for the request is 0. -/
theorem round_trip_fails_for_huge_request :
    Consistent roundTripHeap [65552, 65576, 65600, 65624] roundTripTree ∧
      NoAdjacentFree roundTripHeap [65552, 65576, 65600, 65624] ∧
      (∀ a ∈ [65552, 65576, 65600, 65624], roundTripHeap.balloc a = 0 →
        a ∈ roundTripTree.members) ∧
      roundTripRun = .ok (65552, 66576, 66576, .fault) ∧ adjust 4294967288 = 0 := by
  decide!

/-! ## What `deleteNode` leaves in the index -/

/-- The tree nodes are among the members, in the same order. -/
theorem FTree.nodes_sublist (t : FTree) : t.nodes.Sublist t.members := by
  induction t with
  | nil => exact List.Sublist.refl _
  | node l a reps r ihl ihr =>
    exact List.Sublist.append ihl
      (List.Sublist.cons₂ a ((List.sublist_append_of_sublist_right ihr)))

/-- The entries of the listing of a tree share no block. -/
theorem FTree.listing_disjoint {t : FTree} (hnd : t.members.Nodup) :
    t.listing.Pairwise (fun p q => ∀ x, (x = p.1 ∨ x ∈ p.2) → q.1 ≠ x ∧ x ∉ q.2) := by
  induction t with
  | nil => exact List.Pairwise.nil
  | node l a reps r ihl ihr =>
    obtain ⟨hl, hr, hreps, har, hdl, hdr⟩ := FTree.nodup_node hnd
    have inr : ∀ q ∈ r.listing, ∀ x, q.1 = x ∨ x ∈ q.2 → x ∈ r.members := by
      intro q hq x hx
      obtain ⟨m1, m2⟩ := FTree.listing_mem hq
      rcases hx with e | e
      · exact e ▸ r.nodes_sub_members _ m1
      · exact m2 x e
    have inl : ∀ p ∈ l.listing, ∀ x, x = p.1 ∨ x ∈ p.2 → x ∈ l.members := by
      intro p hp x hx
      obtain ⟨m1, m2⟩ := FTree.listing_mem hp
      rcases hx with e | e
      · exact e ▸ l.nodes_sub_members _ m1
      · exact m2 x e
    refine List.pairwise_append.2 ⟨ihl hl, List.pairwise_cons.2 ⟨?_, ihr hr⟩, ?_⟩
    · intro q hq x hx
      refine ⟨fun e => ?_, fun e => ?_⟩
      · have hm := inr q hq x (Or.inl e)
        rcases hx with e' | e'
        · exact (hdr x hm).1 e'
        · exact (hdr x hm).2 e'
      · have hm := inr q hq x (Or.inr e)
        rcases hx with e' | e'
        · exact (hdr x hm).1 e'
        · exact (hdr x hm).2 e'
    · intro p hp q hq x hx
      have hm := inl p hp x hx
      rcases List.mem_cons.1 hq with e | e
      · rw [e]
        exact ⟨fun e' => (hdl x hm).1 e'.symm, (hdl x hm).2.1⟩
      · exact ⟨fun e' => (hdl x hm).2.2 (inr q e x (Or.inl e')),
          fun e' => (hdl x hm).2.2 (inr q e x (Or.inr e'))⟩

/-- Entries that do not hold `b` pass the filter unchanged. -/
theorem filter_erase_clean {b : Nat} : ∀ {L : List (Nat × List Nat)},
    (∀ q ∈ L, q.1 ≠ b ∧ b ∉ q.2) →
    (L.filter (fun p => p.1 ≠ b)).map (fun p => (p.1, p.2.erase b)) = L
  | [], _ => rfl
  | q :: L, hq => by
    obtain ⟨h1, h2⟩ := hq q (List.mem_cons_self _ _)
    rw [List.filter_cons_of_pos (by simpa using h1), List.map_cons,
      filter_erase_clean (fun p hp => hq p (List.mem_cons_of_mem _ hp)),
      List.erase_of_not_mem h2]

/-- The listing after `deleteNode(b)` for a replica or a tree node without
replicas: the entry of `b` is gone, or `b` is gone from the chain it stood in. -/
theorem delListing_filter {b : Nat} {f : Bool} : ∀ {L : List (Nat × List Nat)},
    L.Pairwise (fun p q => ∀ x, (x = p.1 ∨ x ∈ p.2) → q.1 ≠ x ∧ x ∉ q.2) →
    (∀ p ∈ L, p.1 = b → p.2 = []) →
    delListing b f L = (L.filter (fun p => p.1 ≠ b)).map (fun p => (p.1, p.2.erase b))
  | [], _, _ => rfl
  | p :: L, hpw, hemp => by
    obtain ⟨hp, hL⟩ := List.pairwise_cons.1 hpw
    rw [delListing_cons]
    by_cases h1 : p.1 = b
    · have h2 := hemp p (List.mem_cons_self _ _) h1
      rw [if_pos h1, if_pos (Or.inr h2), List.filter_cons_of_neg (by simpa using h1),
        filter_erase_clean (fun q hq => hp q hq b (Or.inl h1.symm))]
    · rw [if_neg h1, List.filter_cons_of_pos (by simpa using h1), List.map_cons]
      by_cases h2 : b ∈ p.2
      · rw [if_pos h2, filter_erase_clean (fun q hq => hp q hq b (Or.inr h2))]
      · rw [if_neg h2, List.erase_of_not_mem h2,
          delListing_filter hL (fun q hq => hemp q (List.mem_cons_of_mem _ hq))]

/-- C17: let `b` be a member of the free tree `t` that is a replica or a tree
node with an empty replica chain (the root or not, with any children). Then
`deleteNode(b)` (with fuel for the height of the tree) ends with a tree `t'`
that is laid out in memory and ordered, in which: the sizes of the tree nodes
read in order increase strictly; the tree nodes and their chains are those of
`t` without the entry of `b`, every chain with `b` taken out and its order
kept; `seat` names the top node of `t'` (NULL when `t'` is empty); the members
are the members of `t` other than `b`; and no size changes. -/
theorem deleteNode_removes_exactly (h : Heap) (t : FTree) (ok : TreeOK h t) (b : Nat)
    (hcase : (b, []) ∈ t.listing ∨ ∃ p ∈ t.listing, b ∈ p.2) (fuel : Nat)
    (hf : t.height ≤ fuel) :
    ∃ h' t', deleteNode fuel h b = .ok h' ∧ TreeOK h' t' ∧
      (t'.nodes.map (szOf h'.words)).Pairwise (fun x y => x < y) ∧
      t'.listing = (t.listing.filter (fun p => p.1 ≠ b)).map (fun p => (p.1, p.2.erase b)) ∧
      h'.seat = t'.root ∧ (t'.members = [] → h'.seat = 0) ∧
      (∀ x, x ∈ t'.members ↔ x ∈ t.members ∧ x ≠ b) ∧
      (∀ x ∈ t.members, szOf h'.words x = szOf h.words x) := by
  have hb : b ∈ t.members := by
    rcases hcase with e | ⟨p, hp, e⟩
    · exact FTree.mem_members_listing.2 ⟨_, e, Or.inl rfl⟩
    · exact FTree.mem_members_listing.2 ⟨p, hp, Or.inr e⟩
  have hemp : ∀ p ∈ t.listing, p.1 = b → p.2 = [] := by
    intro p hp e
    rcases hcase with e' | ⟨q, hq, e'⟩
    · have hnd : (t.listing.map Prod.fst).Nodup := by
        rw [← FTree.nodes_eq_listing]
        exact List.Nodup.sublist t.nodes_sublist ok.nodup
      rw [List.inj_on_of_nodup_map hnd hp e' e]
    · obtain ⟨-, -, -, i4⟩ := listing_facts ok.shape ok.ordered ok.nodup q hq
      exact absurd (e ▸ (FTree.listing_mem hp).1) (i4 b e').2.2.1
  obtain ⟨h', t', ⟨-, hu, ok', hsub, hnot⟩, ⟨-, hlist, -⟩, hex⟩ := deleteNode_spec ok hb
  have hl : t'.listing =
      (t.listing.filter (fun p => p.1 ≠ b)).map (fun p => (p.1, p.2.erase b)) := by
    rw [hlist]
    exact delListing_filter (FTree.listing_disjoint ok.nodup) hemp
  refine ⟨h', t', hex fuel hf, ok', ok'.index.1, hl, ok'.root.symm, ?_, ?_, ?_⟩
  · intro e
    rw [← ok'.root]
    cases t' with
    | nil => rfl
    | node l a reps r =>
      exact absurd (e ▸ FTree.mem_members_node.2 (Or.inr (Or.inl rfl)) :
        a ∈ ([] : List Nat)) (List.not_mem_nil a)
  · intro x
    constructor
    · intro hx
      exact ⟨hsub x hx, fun e => hnot (e ▸ hx)⟩
    · rintro ⟨hx, hne⟩
      obtain ⟨p, hp, e⟩ := FTree.mem_members_listing.1 hx
      have hp1 : p.1 ≠ b := by
        intro e1
        have h2 := hemp p hp e1
        rcases e with e | e
        · exact hne (e.trans e1)
        · rw [h2] at e
          exact absurd e (List.not_mem_nil _)
      refine FTree.mem_members_listing.2 ⟨(p.1, p.2.erase b), ?_, ?_⟩
      · rw [hl]
        exact List.mem_map.2 ⟨p, List.mem_filter.2 ⟨hp, by simpa using hp1⟩, rfl⟩
      · rcases e with e | e
        · exact Or.inl e
        · exact Or.inr ((List.mem_erase_of_ne hne).2 e)
  · intro x hx
    unfold szOf
    rw [hu.header (fun m hm hne => (ok.sep m hm x hx hne).symm)
      (by have := (ok.lt hx).1; omega)]

theorem deleteNode_removes_exactly_witness :
    ∃ h' t', deleteNode 10 demoHeap 65600 = .ok h' ∧ TreeOK h' t' ∧
      (t'.nodes.map (szOf h'.words)).Pairwise (fun x y => x < y) ∧
      t'.listing = (demoTree.listing.filter (fun p => p.1 ≠ 65600)).map
        (fun p => (p.1, p.2.erase 65600)) ∧
      h'.seat = t'.root ∧ (t'.members = [] → h'.seat = 0) ∧
      (∀ x, x ∈ t'.members ↔ x ∈ demoTree.members ∧ x ≠ 65600) ∧
      (∀ x ∈ demoTree.members, szOf h'.words x = szOf demoHeap.words x) :=
  deleteNode_removes_exactly demoHeap demoTree (by decide!) 65600 (by decide!) 10 (by decide)

/-! ## `place` -/

/-- The block after a block of the tiling is a block of the tiling or the epilogue. -/
theorem Chain.next {h : Heap} : ∀ {S : List Nat} {a : Nat}, Chain h a S →
    ∀ b ∈ S, b + h.bsize b ∈ S ∨ b + h.bsize b = h.brk
  | [], _, _, b, hb => absurd hb (List.not_mem_nil b)
  | [x], a, hc, b, hb => by
    obtain ⟨e, -, -, -, -, -, c6⟩ := hc
    rw [List.mem_singleton.1 hb, e]
    exact Or.inr c6
  | x :: y :: bs, a, hc, b, hb => by
    obtain ⟨e, -, -, -, -, -, c6⟩ := hc
    rcases List.mem_cons.1 hb with e1 | hb'
    · rw [e1, e]
      exact Or.inl (List.mem_cons_of_mem _ (c6.1 ▸ List.mem_cons_self _ _))
    · exact (@Chain.next h (y :: bs) _ c6 b hb').imp (List.mem_cons_of_mem _) id

/-- In a consistent state without adjacent free blocks, a free block is
followed by the header of an allocated block or by the epilogue. -/
theorem next_allocated {h : Heap} {S : List Nat} {t : FTree} (hc : Consistent h S t)
    (hna : NoAdjacentFree h S) {bp : Nat} (hbp : bp ∈ S) (hfree : h.balloc bp = 0) :
    allocOf (h.words (bp + h.bsize bp - 4)) = 1 := by
  rcases Chain.next hc.tiled bp hbp with e | e
  · exact hna bp hbp e hfree
  · rw [e, hc.arena.epilogue]
    rfl

/-- The case of `coalesce` in which both neighbours are allocated. -/
theorem coalesce_none_exec {H : Heap} {bp pb pf nx s : Nat} (fuel : Nat)
    (g1 : PREV_BLKP H bp = .ok pb) (g2 : FTRP H pb = .ok pf) (g3 : GET_ALLOC H pf = .ok 1)
    (g4 : NEXT_BLKP H bp = .ok nx) (g5 : GET_ALLOC H (HDRP nx) = .ok 1)
    (g6 : GET_SIZE H (HDRP bp) = .ok s) : coalesce fuel H bp = .ok (H, bp) := by
  unfold coalesce
  simp only [g1, g2, g3, g4, g5, g6, ok_bind, ne_eq, one_ne_zero, not_false_eq_true, and_self,
    if_true]

/-- The branch of `place` that splits the block, up to the call of `addNode`. -/
theorem place_split_exec {h h1 : Heap} {bp asize csize : Nat} (fuel : Nat)
    (hp : bp % 8 = 0) (hlo : h1.lo + 8 ≤ bp) (hend : bp + csize ≤ h1.brk)
    (hbrk : h1.brk < 4294967296) (hc8 : csize % 8 = 0) (ha8 : asize % 8 = 0)
    (ha24 : 24 ≤ asize) (hroom : asize + 24 ≤ csize)
    (hsize : GET_SIZE h (HDRP bp) = .ok csize) (hdel : deleteNode fuel h bp = .ok h1)
    (hnext : allocOf (h1.words (bp + csize - 4)) = 1) {h6 : Heap}
    (hadd : addNode fuel (retagHeap h1 bp asize (csize - asize)) (bp + asize) = .ok h6) :
    place fuel h bp asize = .ok h6 := by
  have hrem8 : (csize - asize) % 8 = 0 := by omega
  have hrem24 : 24 ≤ csize - asize := by omega
  have hsum : asize + (csize - asize) = csize := by omega
  have sb : sub32 csize asize = csize - asize := sub32_eq (by omega) (by omega)
  generalize hrem : csize - asize = rem at *
  have pk1 : PACK asize 1 = asize + 1 := PACK_one asize (by omega)
  have m1 : (asize + 1) % W32 = asize + 1 := Nat.mod_eq_of_lt (by unfold W32; omega)
  have m2 : rem % W32 = rem := Nat.mod_eq_of_lt (by unfold W32; omega)
  have s1 : sizeOf (asize + 1) = asize := sizeOf_succ ha8 (by omega)
  have s2 : sizeOf rem = rem := sizeOf_of_mod8 hrem8 (by omega)
  have a1 : allocOf (asize + 1) = 1 := allocOf_succ ha8
  obtain ⟨w1, w2, w3, w4, w5⟩ := @retagHeap_words h1 bp asize rem (by omega) (by omega)
    (by omega) (by omega)
  have e1 : bp - 4 ≠ bp + asize - 8 := by omega
  have v0 : h1.valid (bp - 4) := ⟨by omega, by omega, by omega⟩
  have v1 : h1.valid (bp + asize - 8) := ⟨by omega, by omega, by omega⟩
  have v2 : h1.valid (bp + asize - 4) := ⟨by omega, by omega, by omega⟩
  have v3 : h1.valid (bp + asize + rem - 8) := ⟨by omega, by omega, by omega⟩
  have v4 : h1.valid (bp + csize - 4) := ⟨by omega, by omega, by omega⟩
  have ge : (rem ≥ DSIZE * 2 + OVERHEAD) = True :=
    eq_true (show rem ≥ DSIZE * 2 + OVERHEAD from hrem24)
  have f1 : PUT h1 (HDRP bp) (PACK asize 1) = .ok (h1.store (bp - 4) (asize + 1)) := by
    rw [pk1, HDRP_eq (by omega) (by omega)]
    exact PUT_ok _ v0
  have f2 : FTRP (h1.store (bp - 4) (asize + 1)) bp = .ok (bp + asize - 8) :=
    FTRP_ok (by omega) v0 (by simp only [store_words, if_true, m1, s1]) (by omega) (by omega)
  have f3 : PUT (h1.store (bp - 4) (asize + 1)) (bp + asize - 8) (PACK asize 1) =
      .ok ((h1.store (bp - 4) (asize + 1)).store (bp + asize - 8) (asize + 1)) := by
    rw [pk1]
    exact PUT_ok _ v1
  have f4 : NEXT_BLKP ((h1.store (bp - 4) (asize + 1)).store (bp + asize - 8) (asize + 1)) bp =
      .ok (bp + asize) :=
    NEXT_BLKP_ok (by omega) v0 (by simp only [store_words, if_true, if_false, e1, m1, s1])
      (by omega)
  have f6 : PUT ((h1.store (bp - 4) (asize + 1)).store (bp + asize - 8) (asize + 1))
      (HDRP (bp + asize)) (PACK rem 0) =
      .ok (((h1.store (bp - 4) (asize + 1)).store (bp + asize - 8) (asize + 1)).store
        (bp + asize - 4) rem) := by
    rw [PACK_zero, HDRP_eq (by omega) (by omega)]
    exact PUT_ok _ v2
  have f8 : FTRP (((h1.store (bp - 4) (asize + 1)).store (bp + asize - 8) (asize + 1)).store
        (bp + asize - 4) rem) (bp + asize) = .ok (bp + asize + rem - 8) :=
    FTRP_ok (by omega) v2 (by simp only [store_words, if_true, m2, s2]) (by omega) (by omega)
  have f10 : PUT (((h1.store (bp - 4) (asize + 1)).store (bp + asize - 8) (asize + 1)).store
        (bp + asize - 4) rem) (bp + asize + rem - 8) (PACK rem 0) =
      .ok (retagHeap h1 bp asize rem) := by
    rw [PACK_zero]
    exact PUT_ok _ v3
  -- `coalesce` finds both neighbours of the remainder allocated
  have c1 : PREV_BLKP (retagHeap h1 bp asize rem) (bp + asize) = .ok bp := by
    have := @PREV_BLKP_ok (retagHeap h1 bp asize rem) (bp + asize) asize (by omega) v1
      (by rw [show bp + asize - 8 = bp + asize - 8 from rfl, w2, s1]) (by omega) (by omega)
    rw [this, show bp + asize - asize = bp from by omega]
  have c2 : FTRP (retagHeap h1 bp asize rem) bp = .ok (bp + asize - 8) :=
    FTRP_ok (by omega) v0 (by rw [w1, s1]) (by omega) (by omega)
  have c3 : GET_ALLOC (retagHeap h1 bp asize rem) (bp + asize - 8) = .ok 1 := by
    rw [GET_ALLOC_ok (h := retagHeap h1 bp asize rem) v1, w2, a1]
  have c4 : NEXT_BLKP (retagHeap h1 bp asize rem) (bp + asize) = .ok (bp + csize) := by
    have := @NEXT_BLKP_ok (retagHeap h1 bp asize rem) (bp + asize) rem (by omega) v2
      (by rw [w3, s2]) (by omega)
    rw [this, show bp + asize + rem = bp + csize from by omega]
  have c5 : GET_ALLOC (retagHeap h1 bp asize rem) (HDRP (bp + csize)) = .ok 1 :=
    GET_ALLOC_HDRP (by omega) (by omega) v4
      (by rw [w5 _ (by omega) (by omega) (by omega) (by omega)]; exact hnext)
  have c6 : GET_SIZE (retagHeap h1 bp asize rem) (HDRP (bp + asize)) = .ok rem :=
    GET_SIZE_HDRP (by omega) (by omega) v2 (by rw [w3, s2])
  have c7 := coalesce_none_exec fuel c1 c2 c3 c4 c5 c6
  unfold place
  simp only [hsize, hdel, ok_bind, ge, if_true, f1, f2, f3, f4, f6, f8, f10, sb, hrem,
    addCoalesced, c7, hadd]

/-- The branch of `place` that hands out the whole block. -/
theorem place_whole_exec {h h1 : Heap} {bp asize csize : Nat} (fuel : Nat)
    (hp : bp % 8 = 0) (hlo : h1.lo + 8 ≤ bp) (hend : bp + csize ≤ h1.brk)
    (hbrk : h1.brk < 4294967296) (hc8 : csize % 8 = 0) (hc16 : 16 ≤ csize)
    (hle : asize ≤ csize) (hroom : csize < asize + 24)
    (hsize : GET_SIZE h (HDRP bp) = .ok csize) (hdel : deleteNode fuel h bp = .ok h1) :
    place fuel h bp asize =
      .ok ((h1.store (bp - 4) (csize + 1)).store (bp + csize - 8) (csize + 1)) := by
  have sb : sub32 csize asize = csize - asize := sub32_eq hle (by omega)
  have pk1 : PACK csize 1 = csize + 1 := PACK_one csize (by omega)
  have m1 : (csize + 1) % W32 = csize + 1 := Nat.mod_eq_of_lt (by unfold W32; omega)
  have s1 : sizeOf (csize + 1) = csize := sizeOf_succ hc8 (by omega)
  have v0 : h1.valid (bp - 4) := ⟨by omega, by omega, by omega⟩
  have v1 : h1.valid (bp + csize - 8) := ⟨by omega, by omega, by omega⟩
  have ge : (sub32 csize asize ≥ DSIZE * 2 + OVERHEAD) = False := by
    rw [sb]
    exact eq_false (by unfold DSIZE OVERHEAD; omega)
  have f1 : PUT h1 (HDRP bp) (PACK csize 1) = .ok (h1.store (bp - 4) (csize + 1)) := by
    rw [pk1, HDRP_eq (by omega) (by omega)]
    exact PUT_ok _ v0
  have f2 : FTRP (h1.store (bp - 4) (csize + 1)) bp = .ok (bp + csize - 8) :=
    FTRP_ok (by omega) v0 (by simp only [store_words, if_true, m1, s1]) (by omega) (by omega)
  have f3 : PUT (h1.store (bp - 4) (csize + 1)) (bp + csize - 8) (PACK csize 1) =
      .ok ((h1.store (bp - 4) (csize + 1)).store (bp + csize - 8) (csize + 1)) := by
    rw [pk1]
    exact PUT_ok _ v1
  unfold place
  simp only [hsize, hdel, ok_bind, ge, if_false, f1, f2, f3]

/-! ## What `place` leaves behind -/

/-- The tags of a block of the tiling lie outside the link words of the members
of the free tree. -/
theorem tags_far {h : Heap} {S : List Nat} {t : FTree} (hc : Consistent h S t) {a : Nat}
    (ha : a ∈ S) : ∀ m ∈ t.members, (a - 4 < m ∨ m + 16 ≤ a - 4) ∧
      (a + h.bsize a - 8 < m ∨ m + 16 ≤ a + h.bsize a - 8) := by
  intro m hm
  obtain ⟨m1, m2⟩ := hc.indexed.free m hm
  have b24 := (hc.block m1).2.2.2.2.2.2.2.2.2 m2
  have a24 := (hc.block ha).2.1
  have a16 := (hc.block ha).2.2.2.1
  by_cases e : m = a
  · subst e
    clear hm m1 m2 hc ha
    omega
  · have d := Chain.disjoint hc.tiled m m1 a ha e
    clear hm m1 m2 hc ha
    omega

/-- The tags of a block of the tiling lie outside every other block. -/
theorem block_far {h : Heap} {S : List Nat} {t : FTree} (hc : Consistent h S t) {a bp : Nat}
    (ha : a ∈ S) (hbp : bp ∈ S) (hne : a ≠ bp) :
    ∀ q, bp - 4 ≤ q → q < bp + h.bsize bp - 4 → q ≠ a - 4 ∧ q ≠ a + h.bsize a - 8 := by
  intro q q1 q2
  have a24 := (hc.block ha).2.1
  have a16 := (hc.block ha).2.2.2.1
  have b24 := (hc.block hbp).2.1
  have d := Chain.disjoint hc.tiled a ha bp hbp hne
  clear hc ha hbp
  omega

/-- The members of the free tree other than `bp` lie outside the block `bp`. -/
theorem place_far {h : Heap} {S : List Nat} {t : FTree} (hc : Consistent h S t) {bp : Nat}
    (hbp : bp ∈ t.members) :
    ∀ m ∈ t.members, m ≠ bp → m + 24 ≤ bp ∨ bp + h.bsize bp ≤ m := by
  intro m hm hne
  obtain ⟨m1, m2⟩ := hc.indexed.free m hm
  obtain ⟨b1, -⟩ := hc.indexed.free bp hbp
  have b24 := (hc.block m1).2.2.2.2.2.2.2.2.2 m2
  have d := Chain.disjoint hc.tiled m m1 bp b1 hne
  clear hm m1 m2 hc hbp b1
  omega

/-- The size that `GET_SIZE(HDRP(b))` reads for a block of the tiling. -/
theorem block_size_read {h : Heap} {S : List Nat} {t : FTree} (hc : Consistent h S t)
    {b : Nat} (hb : b ∈ S) : GET_SIZE h (HDRP b) = .ok (h.bsize b) := by
  obtain ⟨p1, p2, p3, p4, -, p6, p7, -, -, -⟩ := hc.block hb
  exact GET_SIZE_HDRP (by omega) (by omega) ⟨by omega, by omega, by omega⟩ rfl

/-- Arithmetic of the remainder of a split block. -/
theorem rem_facts {asize csize rem : Nat} (hrem : csize - asize = rem)
    (hroom : asize + 24 ≤ csize) (c8 : csize % 8 = 0) (a8 : asize % 8 = 0) :
    rem % 8 = 0 ∧ 24 ≤ rem ∧ asize + rem = csize := by
  omega

/-- The tags of a block outside the span of two neighbouring blocks. -/
theorem tags_outside {a sa L R : Nat} (d : a + sa ≤ L ∨ R ≤ a) (a24 : 24 ≤ a)
    (s16 : 16 ≤ sa) (l8 : 8 ≤ L) :
    (a - 4 < L - 4 ∨ R - 4 ≤ a - 4) ∧ (a + sa - 8 < L - 4 ∨ R - 4 ≤ a + sa - 8) := by
  omega

/-- The free tree is laid out in the state with the new tags of a split block
as it was before, when its members lie outside the block. -/
theorem retag_treeOK {h1 : Heap} {t1 : FTree} {bp asize rem : Nat} (ok1 : TreeOK h1 t1)
    (far1 : ∀ m ∈ t1.members, m + 24 ≤ bp ∨ bp + asize + rem ≤ m) (b8 : 8 ≤ bp)
    (ha : 24 ≤ asize) (hr : 24 ≤ rem) (hlt : bp + asize + rem < 4294967296) :
    TreeOK (retagHeap h1 bp asize rem) t1 := by
  have w5 := (@retagHeap_words h1 bp asize rem (by omega) (by omega) (by omega) hlt).2.2.2.2
  refine ok1.frame rfl rfl rfl (fun a ha q q1 q2 => ?_)
  have := far1 a ha
  have a24 := (ok1.lt ha).1
  exact w5 q (by omega) (by omega) (by omega) (by omega)

/-- The words of the state after the branch of `place` that splits the block,
when the remainder stays as it is. -/
theorem split_words {h h1 h6 : Heap} {M M1 : List Nat} {bp asize rem : Nat}
    (b8 : 8 ≤ bp) (ha : 24 ≤ asize) (hr : 24 ≤ rem) (hlt : bp + asize + rem < 4294967296)
    (far : ∀ m ∈ M, m ≠ bp → m + 24 ≤ bp ∨ bp + asize + rem ≤ m)
    (sub : ∀ m ∈ M1, m ∈ M ∧ m ≠ bp) (hu1 : Untouched h.words h1.words M)
    (hu6 : Untouched (retagHeap h1 bp asize rem).words h6.words ((bp + asize) :: M1)) :
    (∀ q, (∀ m ∈ M, q < m ∨ m + 16 ≤ q) → (q < bp - 4 ∨ bp + asize + rem - 4 ≤ q) →
      h6.words q = h.words q) ∧
    h6.words (bp - 4) = asize + 1 ∧ h6.words (bp + asize - 8) = asize + 1 ∧
    h6.words (bp + asize - 4) = rem ∧ h6.words (bp + asize + rem - 8) = rem := by
  obtain ⟨w1, w2, w3, w4, w5⟩ := @retagHeap_words h1 bp asize rem (by omega) (by omega)
    (by omega) (by omega)
  have hfr6 : ∀ q, (∀ m ∈ M1, q < m ∨ m + 16 ≤ q) →
      (q < bp + asize ∨ bp + asize + 16 ≤ q) → h6.words q =
        (retagHeap h1 bp asize rem).words q := by
    intro q q1 q3
    refine hu6 q (fun m hm => ?_)
    rcases List.mem_cons.1 hm with e | e
    · rw [e]; exact q3
    · exact q1 m e
  have hin : ∀ q, bp - 4 ≤ q → q < bp + asize + rem - 4 → ∀ m ∈ M1, q < m ∨ m + 16 ≤ q := by
    intro q q1 q2 m hm
    have := far m (sub m hm).1 (sub m hm).2
    omega
  refine ⟨fun q q1 q2 => ?_, ?_, ?_, ?_, ?_⟩
  · rw [hfr6 q (fun m hm => q1 m (sub m hm).1) (by omega),
      w5 q (by omega) (by omega) (by omega) (by omega)]
    exact hu1 q q1
  · rw [hfr6 _ (hin _ (by omega) (by omega)) (by omega)]
    exact w1
  · rw [hfr6 _ (hin _ (by omega) (by omega)) (by omega)]
    exact w2
  · rw [hfr6 _ (hin _ (by omega) (by omega)) (by omega)]
    exact w3
  · rw [hfr6 _ (hin _ (by omega) (by omega)) (by omega)]
    exact w4

/-- The remainder of a split block can be inserted into a free tree whose
members lie outside the block. -/
theorem split_addable {h1 : Heap} {M1 : List Nat} {bp asize rem lo brk : Nat}
    (far1 : ∀ m ∈ M1, m + 24 ≤ bp ∨ bp + asize + rem ≤ m) (l5 : h1.lo = lo)
    (b5 : h1.brk = brk) (hlo : lo + 16 ≤ bp) (b24 : 24 ≤ bp) (b8 : bp % 8 = 0)
    (a8 : asize % 8 = 0) (ha : 24 ≤ asize) (r8 : rem % 8 = 0) (hr : 24 ≤ rem)
    (hend : bp + asize + rem ≤ brk) (hlt : brk < 4294967296) :
    (24 ≤ bp + asize ∧ (retagHeap h1 bp asize rem).lo + 4 ≤ bp + asize ∧
      bp + asize + 16 ≤ (retagHeap h1 bp asize rem).brk ∧ (bp + asize) % 4 = 0) ∧
    (∀ x ∈ M1, bp + asize + 24 ≤ x ∨ x + 24 ≤ bp + asize) ∧
    0 < szOf (retagHeap h1 bp asize rem).words (bp + asize) := by
  have w3 := (@retagHeap_words h1 bp asize rem (by omega) (by omega) (by omega)
    (by omega)).2.2.1
  have e1 : (retagHeap h1 bp asize rem).lo = lo := l5
  have e2 : (retagHeap h1 bp asize rem).brk = brk := b5
  refine ⟨by rw [e1, e2]; omega, fun x hx => ?_, ?_⟩
  · have := far1 x hx
    omega
  · unfold szOf
    rw [w3, sizeOf_of_mod8 (by omega) (by omega)]
    omega

/-- The header of the block after a block lies outside the link words of the
block and of every block that is disjoint from it. -/
theorem next_hdr_far {m bp cs : Nat} (d : m = bp ∨ m + 24 ≤ bp ∨ bp + cs ≤ m)
    (c24 : 24 ≤ cs) : bp + cs - 4 < m ∨ m + 16 ≤ bp + cs - 4 := by
  omega

/-- The branch of `place` that splits the block. -/
theorem place_split_core {h : Heap} {S : List Nat} {t : FTree} (hc : Consistent h S t)
    {bp asize csize : Nat} (hbp : bp ∈ t.members)
    (hnx : allocOf (h.words (bp + h.bsize bp - 4)) = 1)
    (hcs : csize = h.bsize bp) (ha8 : asize % 8 = 0) (ha24 : 24 ≤ asize)
    (hroom : asize + 24 ≤ csize) {fuel : Nat} (hf : t.members.length ≤ fuel) :
    ∃ h' t', place fuel h bp asize = .ok h' ∧ TreeOK h' t' ∧ bp ∉ t'.members ∧
      (∀ a ∈ S, a ≠ bp → h'.words (a - 4) = h.words (a - 4) ∧
        h'.words (a + h.bsize a - 8) = h.words (a + h.bsize a - 8)) ∧
      h'.words (bp - 4) = asize + 1 ∧ h'.words (bp + asize - 8) = asize + 1 ∧
      h'.words (bp + asize - 4) = csize - asize ∧ h'.words (bp + csize - 8) = csize - asize ∧
      bp + asize ∈ t'.members ∧ (∀ x ∈ t'.members, x = bp + asize ∨ x ∈ t.members) := by
  have ok := hc.treeOK
  have m1 : bp ∈ S := (hc.indexed.free bp hbp).1
  have m2 : h.balloc bp = 0 := (hc.indexed.free bp hbp).2
  have p1 : h.lo + 16 ≤ bp := (hc.block m1).1
  have p2 : 24 ≤ bp := (hc.block m1).2.1
  have p3 : bp % 8 = 0 := (hc.block m1).2.2.1
  have p5 : csize % 8 = 0 := hcs ▸ (hc.block m1).2.2.2.2.1
  have p6 : bp + csize ≤ h.brk := hcs ▸ (hc.block m1).2.2.2.2.2.1
  have p7 : h.brk < 4294967296 := (hc.block m1).2.2.2.2.2.2.1
  have c24 : 24 ≤ csize := hcs ▸ (hc.block m1).2.2.2.2.2.2.2.2.2 m2
  have b8 : 8 ≤ bp := Nat.le_trans (by decide) p2
  have g1 : GET_SIZE h (HDRP bp) = .ok csize := hcs ▸ block_size_read hc m1
  generalize hrem : csize - asize = rem
  obtain ⟨hr8, hr24, hsum'⟩ := rem_facts hrem hroom p5 ha8
  have hsum : bp + asize + rem = bp + csize := by rw [Nat.add_assoc, hsum']
  have lt1 : bp + asize + rem < 4294967296 := by
    rw [hsum]; exact Nat.lt_of_le_of_lt p6 p7
  have far : ∀ m ∈ t.members, m ≠ bp → m + 24 ≤ bp ∨ bp + asize + rem ≤ m := by
    intro m hm e
    have := place_far hc hbp m hm e
    rw [← hcs, ← hsum] at this
    exact this
  obtain ⟨h1, t1, ⟨sa, hu1, ok1, hsub1, hnot1⟩, -, hex1⟩ := deleteNode_spec ok hbp
  have hf0 : t.height ≤ fuel := le_trans t.height_le_length hf
  have hf1 : t1.height ≤ fuel := le_trans (FTree.height_le_of_sub ok1.nodup hsub1) hf
  have sub : ∀ m ∈ t1.members, m ∈ t.members ∧ m ≠ bp := fun m hm =>
    ⟨hsub1 m hm, fun e => hnot1 (e ▸ hm)⟩
  have far1 : ∀ m ∈ t1.members, m + 24 ≤ bp ∨ bp + asize + rem ≤ m := fun m hm =>
    far m (sub m hm).1 (sub m hm).2
  have hn1 : allocOf (h1.words (bp + csize - 4)) = 1 := by
    rw [hu1 _ (fun m hm => next_hdr_far (Classical.or_iff_not_imp_left.2
      (fun e => hsum ▸ far m hm e)) c24)]
    rw [hcs]; exact hnx
  have ok2 := retag_treeOK ok1 far1 b8 ha24 hr24 lt1
  obtain ⟨hbr, hsep, hk⟩ := @split_addable h1 t1.members bp asize rem h.lo h.brk far1 sa.1
    sa.2.1 p1 p2 p3 ha8 ha24 hr8 hr24 (hsum ▸ p6) p7
  obtain ⟨h6, hex6, -, hu6, ok6⟩ := addNode_spec ok2 hbr hsep hk
  have hex : place fuel h bp asize = .ok h6 :=
    place_split_exec fuel p3 (sa.1 ▸ Nat.le_trans (Nat.add_le_add_left (by decide) _) p1)
      (sa.2.1 ▸ p6) (sa.2.1 ▸ p7) p5 ha8 ha24 hroom g1 (hex1 fuel hf0) hn1
      (by rw [hrem]; exact hex6 fuel hf1)
  obtain ⟨hfr, y1, y2, y3, y4⟩ := split_words b8 ha24 hr24 lt1 far sub hu1 hu6
  refine ⟨h6, _, hex, ok6, ?_, ?_, y1, y2, y3, hsum ▸ y4, FTree.mem_ins.2 (Or.inl rfl), ?_⟩
  · intro hx
    rcases FTree.mem_ins.1 hx with e | e
    · exact absurd e
        (Nat.ne_of_lt (Nat.lt_add_of_pos_right (Nat.lt_of_lt_of_le (by decide) ha24)))
    · exact hnot1 e
  · intro a ha hne
    have d := Chain.disjoint hc.tiled a ha bp m1 hne
    rw [← hcs, ← hsum] at d
    have tg := tags_outside d (hc.block ha).2.1 (hc.block ha).2.2.2.1 b8
    exact ⟨hfr _ (fun m hm => (tags_far hc ha m hm).1) tg.1,
      hfr _ (fun m hm => (tags_far hc ha m hm).2) tg.2⟩
  · intro x hx
    rcases FTree.mem_ins.1 hx with e | e
    · exact Or.inl e
    · exact Or.inr (hsub1 x e)

/-- The branch of `place` that hands out the whole block. -/
theorem place_whole_spec {h : Heap} {S : List Nat} {t : FTree} (hc : Consistent h S t)
    {bp asize csize : Nat} (hbp : bp ∈ t.members) (hcs : csize = h.bsize bp)
    (hle : asize ≤ csize) (hroom : csize < asize + 24) {fuel : Nat}
    (hf : t.members.length ≤ fuel) :
    ∃ h' t', place fuel h bp asize = .ok h' ∧ TreeOK h' t' ∧ bp ∉ t'.members ∧
      (∀ a ∈ S, a ≠ bp → h'.words (a - 4) = h.words (a - 4) ∧
        h'.words (a + h.bsize a - 8) = h.words (a + h.bsize a - 8)) ∧
      h'.words (bp - 4) = csize + 1 ∧ h'.words (bp + csize - 8) = csize + 1 ∧
      (∀ x ∈ t'.members, x ∈ t.members) := by
  have ok := hc.treeOK
  obtain ⟨m1, m2⟩ := hc.indexed.free bp hbp
  have far := place_far hc hbp
  obtain ⟨p1, p2, p3, -, p5, p6, p7, p8, -, p10⟩ := hc.block m1
  have c24 := p10 m2
  rw [m2, Nat.add_zero, ← hcs] at p8
  rw [← hcs] at p5 p6 far c24
  clear p10
  have v0 : h.valid (bp - 4) := ⟨by omega, by omega, by omega⟩
  have g1 : GET_SIZE h (HDRP bp) = .ok csize :=
    GET_SIZE_HDRP (by omega) (by omega) v0 (by rw [p8]; exact sizeOf_of_mod8 p5 (by omega))
  obtain ⟨h1, t1, ⟨sa, hu1, ok1, hsub1, hnot1⟩, -, hex1⟩ := deleteNode_spec ok hbp
  obtain ⟨sa1, sa2, -, -⟩ := sa
  have hf0 : t.height ≤ fuel := le_trans t.height_le_length hf
  have far1 : ∀ m ∈ t1.members, m + 24 ≤ bp ∨ bp + csize ≤ m := fun m hm =>
    far m (hsub1 m hm) (fun e => hnot1 (e ▸ hm))
  have m1' : (csize + 1) % W32 = csize + 1 := Nat.mod_eq_of_lt (by unfold W32; omega)
  have e1 : bp - 4 ≠ bp + csize - 8 := by omega
  have hex : place fuel h bp asize =
      .ok ((h1.store (bp - 4) (csize + 1)).store (bp + csize - 8) (csize + 1)) := by
    have e1 : h1.lo = h.lo := sa1
    have e2 : h1.brk = h.brk := sa2
    exact place_whole_exec fuel p3 (by omega) (by omega) (by omega) p5 (by omega) hle hroom g1
      (hex1 fuel hf0)
  have hw : ∀ q, q ≠ bp - 4 → q ≠ bp + csize - 8 →
      ((h1.store (bp - 4) (csize + 1)).store (bp + csize - 8) (csize + 1)).words q =
        h1.words q := fun q q1 q2 => by
    simp only [store_words, q1, q2, if_false]
  refine ⟨_, t1, hex, ?_, hnot1, ?_, ?_, ?_, hsub1⟩
  · refine ok1.frame rfl rfl rfl (fun a ha q q1 q2 => ?_)
    have := far1 a ha
    have a24 := (ok1.lt ha).1
    exact hw q (by omega) (by omega)
  · intro a ha hne
    have bf := block_far hc ha m1 hne
    rw [← hcs] at bf
    have tf0 := tags_far hc ha
    constructor
    · rw [hw _ (fun e => (bf _ (le_refl _) (by omega)).1 e.symm)
        (fun e => (bf _ (by omega) (by omega)).1 e.symm)]
      exact hu1 _ (fun m hm => (tf0 m hm).1)
    · rw [hw _ (fun e => (bf _ (le_refl _) (by omega)).2 e.symm)
        (fun e => (bf _ (by omega) (by omega)).2 e.symm)]
      exact hu1 _ (fun m hm => (tf0 m hm).2)
  · simp only [store_words, e1, if_false, if_true, m1']
  · simp only [store_words, if_true, m1']

/-! ## Deleting a second block -/

theorem SameArena.valid_iff {h h' : Heap} (sa : SameArena h h') (q : Nat) :
    h'.valid q ↔ h.valid q := by
  unfold Heap.valid
  rw [sa.1, sa.2.1]

theorem spliceHeap_arena (h : Heap) (prev next : Nat) : SameArena h (spliceHeap h prev next) ∧
    (spliceHeap h prev next).seat = h.seat := by
  unfold spliceHeap
  by_cases e : next = 0
  · simp only [e, ne_eq, not_true_eq_false, if_false]
    exact ⟨⟨rfl, rfl, rfl, rfl⟩, rfl⟩
  · simp only [e, ne_eq, not_false_eq_true, if_true]
    exact ⟨⟨rfl, rfl, rfl, rfl⟩, rfl⟩

theorem spliceHeap_words (h : Heap) (prev next : Nat) :
    ∀ q, q ≠ prev + 12 → (next ≠ 0 → q ≠ next) →
      (spliceHeap h prev next).words q = h.words q := by
  intro q q1 q2
  unfold spliceHeap
  by_cases e : next = 0
  · simp only [e, ne_eq, not_true_eq_false, if_false, store_words, q1]
  · simp only [e, ne_eq, not_false_eq_true, if_true, store_words, q1, q2 e, if_false]

/-- `deleteNode` on a block whose link words read as those of a replica. -/
theorem stale_exec {h : Heap} {b prev next : Nat} (fuel : Nat) (hseat : b ≠ h.seat)
    (hb : 24 ≤ b ∧ b + 16 < 4294967296)
    (vb : h.valid b ∧ h.valid (b + 4) ∧ h.valid (b + 12)) (hp : prev + 16 < 4294967296)
    (vp : h.valid (prev + 12)) (vn : next ≠ 0 → h.valid next)
    (hnb : next = 0 ∨ next + 24 ≤ b ∨ b + 24 ≤ next)
    (w0 : h.words b = prev) (w1 : h.words (b + 4) = M1) (w3 : h.words (b + 12) = next) :
    deleteNode fuel h b = .ok (spliceHeap h prev next) := by
  obtain ⟨vb1, vb2, vb4⟩ := vb
  have ab1 : RIGHT b = b + 4 := RIGHT_eq (by omega)
  have ab3 : REPLICA b = b + 12 := REPLICA_eq (by omega)
  have ap3 : REPLICA prev = prev + 12 := REPLICA_eq (by omega)
  by_cases hn0 : next = 0
  · subst hn0
    simp [deleteNode, deleteNodeReplica, hseat, GET_RIGHT, GET_LEFT, LEFT_eq, ab1, ab3, ap3,
      GET_ok vb1, GET_ok vb2, GET_ok vb4, w0, w1, w3, PUT_ok _ vp, spliceHeap]
  · have vn1 := vn hn0
    have hbn : b ≠ next := by omega
    have e1 : (h.store next prev).words b = prev := by
      rw [store_words_ne _ _ hbn]; exact w0
    have e2 : (h.store next prev).words (b + 12) = next := by
      rw [store_words_ne _ _ (by omega)]; exact w3
    simp [deleteNode, deleteNodeReplica, hseat, GET_RIGHT, GET_LEFT, PUT_LEFT, LEFT_eq, ab1,
      ab3, ap3, w0, w1, w3, hn0, GET, PUT, vb1, vb2, vb4, vp, vn1, e1, e2, spliceHeap]

/-- When `b` is not the root, every member but `b` stays in the listing. -/
theorem mem_delListing_false {b x : Nat} : ∀ {L : List (Nat × List Nat)},
    (∃ p ∈ L, x = p.1 ∨ x ∈ p.2) → x ≠ b →
    ∃ p ∈ delListing b false L, x = p.1 ∨ x ∈ p.2
  | [], ⟨p, hp, _⟩, _ => absurd hp (List.not_mem_nil _)
  | q :: L, ⟨p, hp, hx⟩, hne => by
    rw [delListing_cons]
    have rest : p ∈ L → ∃ p' ∈ L, x = p'.1 ∨ x ∈ p'.2 := fun e => ⟨p, e, hx⟩
    by_cases h1 : q.1 = b
    · rw [if_pos h1]
      by_cases h2 : q.2 = []
      · rw [if_pos (Or.inr h2)]
        rcases List.mem_cons.1 hp with e | e
        · rw [e, h1, h2] at hx
          rcases hx with e' | e'
          · exact absurd e' hne
          · exact absurd e' (List.not_mem_nil _)
        · exact rest e
      · rw [if_neg (fun e => e.elim (fun e1 => Bool.noConfusion e1) h2)]
        rcases List.mem_cons.1 hp with e | e
        · rw [e, h1] at hx
          rcases hx with e' | e'
          · exact absurd e' hne
          · refine ⟨_, List.mem_cons_self _ _, ?_⟩
            cases hq : q.2 with
            | nil => exact absurd hq h2
            | cons y ys =>
              rw [hq] at e'
              rcases List.mem_cons.1 e' with e'' | e''
              · exact Or.inl e''
              · exact Or.inr e''
        · obtain ⟨p', hp', hx'⟩ := rest e
          exact ⟨p', List.mem_cons_of_mem _ hp', hx'⟩
    · rw [if_neg h1]
      by_cases h2 : b ∈ q.2
      · rw [if_pos h2]
        rcases List.mem_cons.1 hp with e | e
        · rw [e] at hx
          refine ⟨_, List.mem_cons_self _ _, ?_⟩
          rcases hx with e' | e'
          · exact Or.inl e'
          · exact Or.inr ((List.mem_erase_of_ne hne).2 e')
        · obtain ⟨p', hp', hx'⟩ := rest e
          exact ⟨p', List.mem_cons_of_mem _ hp', hx'⟩
      · rw [if_neg h2]
        rcases List.mem_cons.1 hp with e | e
        · exact ⟨q, List.mem_cons_self _ _, e ▸ hx⟩
        · obtain ⟨p', hp', hx'⟩ := mem_delListing_false ⟨p, e, hx⟩ hne
          exact ⟨p', List.mem_cons_of_mem _ hp', hx'⟩

/-- After `deleteNode(N)` and writes outside the link words of the stale
replicas, `deleteNode(P)` for another member `P` of the old tree: `P` is still a member, or it was a replica of the root `N` and left the
tree with it; then its link words still read as those of a replica. -/
theorem delete_second_core {h h1 : Heap} {t t1 : FTree} {N P : Nat} (ok : TreeOK h t)
    (hP : P ∈ t.members) (hne : P ≠ N) (sa : SameArena h h1) (ok1 : TreeOK h1 t1)
    (hsub : ∀ x ∈ t1.members, x ∈ t.members) (hnot : N ∉ t1.members)
    (hlist : t1.listing = delListing N (decide (N = t.root)) t.listing)
    (hlink : P ∉ t1.members → ∀ q, P ≤ q → q < P + 16 → h1.words q = h.words q) :
    ∃ h2 t2, (∀ fuel, t.members.length ≤ fuel → deleteNode fuel h1 P = .ok h2) ∧
      SameArena h1 h2 ∧ Untouched h1.words h2.words t.members ∧ TreeOK h2 t2 ∧
      (∀ x ∈ t2.members, x ∈ t1.members) ∧ P ∉ t2.members := by
  by_cases hP1 : P ∈ t1.members
  · obtain ⟨h2, t2, ⟨sa2, hu2, ok2, hsub2, hnot2⟩, -, hex⟩ := deleteNode_spec ok1 hP1
    exact ⟨h2, t2,
      fun fuel hf => hex fuel (le_trans (FTree.height_le_of_sub ok1.nodup hsub) hf), sa2,
      hu2.mono hsub, ok2, hsub2, hnot2⟩
  · have hroot : N = t.root := by
      by_contra hr
      apply hP1
      rw [FTree.mem_members_listing, hlist, decide_eq_false hr]
      exact mem_delListing_false (FTree.mem_members_listing.1 hP) hne
    cases t with
    | nil => exact absurd hP (List.not_mem_nil _)
    | node l a reps r =>
      have ea : N = a := hroot
      subst ea
      obtain ⟨ndl, ndr, ndreps, ndar, nddl, nddr⟩ := FTree.nodup_node ok.nodup
      obtain ⟨-, -, -, c4, -, -, -, -⟩ := ok.shape
      have hl2 : t1.listing = l.listing ++ r.listing := by
        rw [hlist, decide_eq_true hroot, delListing_node _ ok.nodup (Or.inl rfl), if_pos rfl,
          if_pos (Or.inl rfl)]
      have mem1 : ∀ x ∈ t1.members, x ∈ l.members ∨ x ∈ r.members := by
        intro x hx
        obtain ⟨p, hp, e⟩ := FTree.mem_members_listing.1 hx
        rw [hl2] at hp
        rcases List.mem_append.1 hp with e' | e'
        · exact Or.inl (FTree.mem_members_listing.2 ⟨p, e', e⟩)
        · exact Or.inr (FTree.mem_members_listing.2 ⟨p, e', e⟩)
      have in1 : ∀ x, x ∈ l.members ∨ x ∈ r.members → x ∈ t1.members := by
        intro x hx
        rw [FTree.mem_members_listing, hl2]
        rcases hx with e | e
        · obtain ⟨p, hp, e'⟩ := FTree.mem_members_listing.1 e
          exact ⟨p, List.mem_append_left _ hp, e'⟩
        · obtain ⟨p, hp, e'⟩ := FTree.mem_members_listing.1 e
          exact ⟨p, List.mem_append_right _ hp, e'⟩
      have hrep1 : ∀ x ∈ reps, x ∉ t1.members := by
        intro x hx hm
        rcases mem1 x hm with e | e
        · exact (nddl x e).2.1 hx
        · exact (nddr x e).2 hx
      have hPr : P ∈ reps := by
        rcases FTree.mem_members_node.1 hP with e | e | e | e
        · exact absurd (in1 P (Or.inl e)) hP1
        · exact absurd e hne
        · exact e
        · exact absurd (in1 P (Or.inr e)) hP1
      have hrepm : ∀ x ∈ reps, x ∈ (FTree.node l N reps r).members :=
        fun x hx => FTree.mem_members_node.2 (Or.inr (Or.inr (Or.inl hx)))
      have hNm : N ∈ (FTree.node l N reps r).members :=
        FTree.mem_members_node.2 (Or.inr (Or.inl rfl))
      obtain ⟨xs, ys, e⟩ := List.append_of_mem hPr
      subst e
      obtain ⟨t1', t2', t3', -⟩ := chain_target c4
      have hprev_mem : (N :: xs).getLast (List.cons_ne_nil _ _) ∈ N :: xs := List.getLast_mem _
      generalize (N :: xs).getLast (List.cons_ne_nil _ _) = prev at hprev_mem t1'
      have hprevo : prev ∈ (FTree.node l N (xs ++ P :: ys) r).members ∧ prev ∉ t1.members := by
        rcases List.mem_cons.1 hprev_mem with e | e
        · rw [e]; exact ⟨hNm, hnot⟩
        · exact ⟨hrepm _ (List.mem_append_left _ e), hrep1 _ (List.mem_append_left _ e)⟩
      have hnexto : ys.headD 0 = 0 ∨ (ys.headD 0 ∈ (FTree.node l N (xs ++ P :: ys) r).members ∧
          ys.headD 0 ∉ t1.members ∧ ys.headD 0 ≠ P) := by
        cases ys with
        | nil => exact Or.inl rfl
        | cons y ys' =>
          have hy : y ∈ xs ++ P :: y :: ys' :=
            List.mem_append_right _ (List.mem_cons_of_mem _ (List.mem_cons_self _ _))
          refine Or.inr ⟨hrepm y hy, hrep1 y hy, ?_⟩
          intro e
          have nd := ndreps
          rw [List.nodup_append] at nd
          exact (List.nodup_cons.1 nd.2.1).1 (e ▸ List.mem_cons_self _ _)
      generalize ys.headD 0 = next at hnexto t3'
      -- the link words of `P` after the first deletion
      have hPfar := hlink hP1
      have hP24 := ok.lt hP
      obtain ⟨-, vP0, vP1, -, vP3⟩ := ok.valid hP
      obtain ⟨-, -, -, -, vp3⟩ := ok.valid hprevo.1
      have hp24 := ok.lt hprevo.1
      have hPseat : P ≠ h1.seat := by
        rw [← ok1.root]
        intro e
        exact hP1 (e ▸ FTree.root_mem_members (e ▸ ok.ne_zero hP))
      have hex := fun fuel => @stale_exec h1 P prev next fuel hPseat hP24
        ⟨(sa.valid_iff _).2 vP0, (sa.valid_iff _).2 vP1, (sa.valid_iff _).2 vP3⟩ (by omega)
        ((sa.valid_iff _).2 vp3)
        (fun e => (sa.valid_iff _).2 (ok.valid (hnexto.resolve_left e).1).2.1)
        (by
          rcases hnexto with e | ⟨e1, -, e3⟩
          · exact Or.inl e
          · exact Or.inr (ok.sep _ e1 _ hP e3))
        (by rw [hPfar _ (le_refl _) (by omega)]; exact t1')
        (by rw [hPfar _ (by omega) (by omega)]; exact t2')
        (by rw [hPfar _ (by omega) (by omega)]; exact t3')
      obtain ⟨sa2, hseat2⟩ := spliceHeap_arena h1 prev next
      have hw2 := spliceHeap_words h1 prev next
      refine ⟨spliceHeap h1 prev next, t1, fun fuel _ => hex fuel, sa2, ?_, ?_, fun x hx => hx, hP1⟩
      · intro q hq
        refine hw2 q ?_ (fun e => ?_)
        · have := hq _ hprevo.1
          omega
        · have := hq _ (hnexto.resolve_left e).1
          omega
      · refine ok1.frame sa2.1 sa2.2.1 hseat2 (fun a ha q q1 q2 => ?_)
        have a24 := (ok1.lt ha).1
        refine hw2 q ?_ (fun e => ?_)
        · have := ok.sep a (hsub a ha) prev hprevo.1 (fun e => hprevo.2 (e ▸ ha))
          omega
        · obtain ⟨e1, e2, -⟩ := hnexto.resolve_left e
          have := ok.sep a (hsub a ha) next e1 (fun e' => e2 (e' ▸ ha))
          omega

/-- After `deleteNode(N)`, `deleteNode(P)` for another member `P` of the old
tree. -/
theorem delete_second {h h1 : Heap} {t t1 : FTree} {N P : Nat} (ok : TreeOK h t)
    (hP : P ∈ t.members) (hne : P ≠ N) (hd : Deleted h t N h1 t1)
    (he : DeletedExact h t N h1 t1) :
    ∃ h2 t2, (∀ fuel, t.members.length ≤ fuel → deleteNode fuel h1 P = .ok h2) ∧
      SameArena h1 h2 ∧ Untouched h1.words h2.words t.members ∧ TreeOK h2 t2 ∧
      (∀ x ∈ t2.members, x ∈ t1.members) ∧ P ∉ t2.members := by
  obtain ⟨sa, hu, ok1, hsub, hnot⟩ := hd
  obtain ⟨hus, hlist, -⟩ := he
  refine delete_second_core ok hP hne sa ok1 hsub hnot hlist (fun hP1 q q1 q2 => ?_)
  refine hus q (fun m hm => ?_)
  have := ok.sep m (hsub m hm) P hP (fun e => hP1 (e ▸ hm))
  omega

/-! ## What `coalesce` reads -/

theorem sizeOf_tag {s a : Nat} (h8 : s % 8 = 0) (ha : a ≤ 1) (hlt : s + a < 4294967296) :
    sizeOf (s + a) = s := by
  rw [sizeOf_eq]; omega

theorem allocOf_tag {s a : Nat} (h8 : s % 8 = 0) (ha : a ≤ 1) : allocOf (s + a) = a := by
  rw [allocOf_eq]; omega

theorem GET_congr {h h' : Heap} (sa : SameArena h h') {p : Nat}
    (e : h'.words p = h.words p) : GET h' p = GET h p := by
  unfold GET
  by_cases v : h.valid p
  · rw [if_pos v, if_pos ((sa.valid_iff p).2 v), e]
  · rw [if_neg v, if_neg (fun v' => v ((sa.valid_iff p).1 v'))]

theorem GET_SIZE_congr {h h' : Heap} (sa : SameArena h h') {p : Nat}
    (e : h'.words p = h.words p) : GET_SIZE h' p = GET_SIZE h p := by
  unfold GET_SIZE
  rw [GET_congr sa e]

theorem GET_ALLOC_congr {h h' : Heap} (sa : SameArena h h') {p : Nat}
    (e : h'.words p = h.words p) : GET_ALLOC h' p = GET_ALLOC h p := by
  unfold GET_ALLOC
  rw [GET_congr sa e]

theorem PREV_BLKP_congr {h h' : Heap} (sa : SameArena h h') {bp : Nat}
    (e : h'.words (sub32 bp DSIZE) = h.words (sub32 bp DSIZE)) :
    PREV_BLKP h' bp = PREV_BLKP h bp := by
  unfold PREV_BLKP
  rw [GET_SIZE_congr sa e]

theorem NEXT_BLKP_congr {h h' : Heap} (sa : SameArena h h') {bp : Nat}
    (e : h'.words (sub32 bp WSIZE) = h.words (sub32 bp WSIZE)) :
    NEXT_BLKP h' bp = NEXT_BLKP h bp := by
  unfold NEXT_BLKP
  rw [GET_SIZE_congr sa e]

theorem FTRP_congr {h h' : Heap} (sa : SameArena h h') {bp : Nat}
    (e : h'.words (HDRP bp) = h.words (HDRP bp)) : FTRP h' bp = FTRP h bp := by
  unfold FTRP
  rw [GET_SIZE_congr sa e]

theorem SameArena.chain {h h' h'' : Heap} (a : SameArena h h') (b : SameArena h' h'') :
    SameArena h h'' :=
  ⟨b.1.trans a.1, b.2.1.trans a.2.1, b.2.2.1.trans a.2.2.1, b.2.2.2.trans a.2.2.2⟩

/-- The block in front of a block of the tiling: the prologue or a block of the
tiling that ends where the block starts. -/
theorem prev_facts {h : Heap} {S : List Nat} {t : FTree} (hc : Consistent h S t) {bp : Nat}
    (hbp : bp ∈ S) :
    h.lo + 8 ≤ h.prevOf bp ∧ h.prevOf bp + h.bsize (h.prevOf bp) = bp ∧
    8 ≤ h.bsize (h.prevOf bp) ∧ h.bsize (h.prevOf bp) % 8 = 0 ∧ h.prevOf bp % 8 = 0 ∧
    h.words (bp - 8) = h.bsize (h.prevOf bp) + h.balloc (h.prevOf bp) ∧
    h.words (h.prevOf bp - 4) = h.bsize (h.prevOf bp) + h.balloc (h.prevOf bp) ∧
    (h.balloc (h.prevOf bp) = 0 → h.prevOf bp ∈ S) := by
  obtain ⟨p1, p2, p3, p4, p5, p6, p7, -, -, -⟩ := hc.block hbp
  have a1 := hc.arena.lo_pos
  have a2 := hc.arena.lo_aligned
  rcases Chain.pred hc.tiled bp hbp with e | ⟨c, hcS, e⟩
  · rw [hc.arena.start] at e
    have w8 : h.words (bp - 8) = 9 := by
      rw [e, show h.lo + 16 - 8 = h.lo + 8 from rfl]
      exact hc.arena.prologue_footer
    have ep : h.prevOf bp = h.lo + 8 := by
      unfold Heap.prevOf
      rw [w8, e]
      rfl
    have w4 : h.words (h.lo + 8 - 4) = 9 := hc.arena.prologue_header
    have bs : h.bsize (h.lo + 8) = 8 := by
      unfold Heap.bsize; rw [w4]; rfl
    have ba : h.balloc (h.lo + 8) = 1 := by
      unfold Heap.balloc; rw [w4]; rfl
    rw [ep, bs, ba]
    refine ⟨le_refl _, by omega, le_refl _, rfl, by omega, w8, w4, fun e0 => absurd e0 (by decide)⟩
  · obtain ⟨c1, c2, c3, c4, c5, c6, c7, c8, c9, -⟩ := hc.block hcS
    have hal := h.balloc_le c
    have w8 : h.words (bp - 8) = h.bsize c + h.balloc c := by
      rw [← e, c9, c8]
    have ep : h.prevOf bp = c := by
      unfold Heap.prevOf
      rw [w8, sizeOf_tag c5 hal (by omega)]
      omega
    rw [ep]
    exact ⟨by omega, e, by omega, c5, c3, w8, c8, fun _ => hcS⟩

/-- The reads of `coalesce` in a consistent state. -/
theorem coalesce_reads {h : Heap} {S : List Nat} {t : FTree} (hc : Consistent h S t)
    {bp : Nat} (hbp : bp ∈ S) :
    PREV_BLKP h bp = .ok (h.prevOf bp) ∧ FTRP h (h.prevOf bp) = .ok (bp - 8) ∧
    GET_ALLOC h (bp - 8) = .ok (h.balloc (h.prevOf bp)) ∧
    NEXT_BLKP h bp = .ok (bp + h.bsize bp) ∧
    GET_ALLOC h (HDRP (bp + h.bsize bp)) = .ok (h.balloc (bp + h.bsize bp)) ∧
    GET_SIZE h (HDRP bp) = .ok (h.bsize bp) ∧
    GET_SIZE h (HDRP (h.prevOf bp)) = .ok (h.bsize (h.prevOf bp)) ∧
    GET_SIZE h (HDRP (bp + h.bsize bp)) = .ok (h.bsize (bp + h.bsize bp)) := by
  obtain ⟨p1, p2, p3, p4, p5, p6, p7, p8, -, -⟩ := hc.block hbp
  obtain ⟨q1, q2, q3, q4, q5, q6, q7, -⟩ := prev_facts hc hbp
  have hal := h.balloc_le (h.prevOf bp)
  have a1 := hc.arena.lo_pos
  have v8 : h.valid (bp - 8) := ⟨by omega, by omega, by omega⟩
  have v4 : h.valid (bp - 4) := ⟨by omega, by omega, by omega⟩
  have vp : h.valid (h.prevOf bp - 4) := ⟨by omega, by omega, by omega⟩
  have vn : h.valid (bp + h.bsize bp - 4) := ⟨by omega, by omega, by omega⟩
  refine ⟨?_, ?_, ?_, ?_, ?_, ?_, ?_, ?_⟩
  · exact PREV_BLKP_ok (by omega) v8 rfl (by unfold Heap.prevOf at q1; omega) (by omega)
  · have := @FTRP_ok h (h.prevOf bp) (h.bsize (h.prevOf bp)) (by omega) vp rfl q3 (by omega)
    rw [this, q2]
  · rw [GET_ALLOC_ok v8, q6, allocOf_tag q4 hal]
  · exact NEXT_BLKP_ok (by omega) v4 rfl (by omega)
  · exact GET_ALLOC_HDRP (by omega) (by omega) vn rfl
  · exact GET_SIZE_HDRP (by omega) (by omega) v4 rfl
  · exact GET_SIZE_HDRP (by omega) (by omega) vp rfl
  · exact GET_SIZE_HDRP (by omega) (by omega) vn rfl

/-! ## The cases of `coalesce` -/

/-- The four tag words around a block of the tiling lie outside the link words
of the members of the free tree. -/
theorem tag_words_far {h : Heap} {S : List Nat} {t : FTree} (hc : Consistent h S t) {bp : Nat}
    (hbp : bp ∈ S) : ∀ m ∈ t.members, (bp - 8 < m ∨ m + 16 ≤ bp - 8) ∧
      (bp - 4 < m ∨ m + 16 ≤ bp - 4) ∧
      (bp + h.bsize bp - 8 < m ∨ m + 16 ≤ bp + h.bsize bp - 8) ∧
      (bp + h.bsize bp - 4 < m ∨ m + 16 ≤ bp + h.bsize bp - 4) := by
  intro m hm
  obtain ⟨m1, m2⟩ := hc.indexed.free m hm
  have b24 := (hc.block m1).2.2.2.2.2.2.2.2.2 m2
  have a24 := (hc.block hbp).2.1
  have a16 := (hc.block hbp).2.2.2.1
  by_cases e : m = bp
  · subst e
    clear hm m1 m2 hc hbp
    omega
  · have d := Chain.disjoint hc.tiled m m1 bp hbp e
    clear hm m1 m2 hc hbp
    omega

/-- A member of the free tree lies outside every other block of the tiling. -/
theorem far_of_disjoint {h : Heap} {S : List Nat} {t : FTree} (hc : Consistent h S t)
    {a b : Nat} (ha : a ∈ t.members) (hb : b ∈ S) (hne : a ≠ b) :
    a + 24 ≤ b ∨ b + h.bsize b ≤ a := by
  obtain ⟨m1, m2⟩ := hc.indexed.free a ha
  have b24 := (hc.block m1).2.2.2.2.2.2.2.2.2 m2
  have d := Chain.disjoint hc.tiled a m1 b hb hne
  clear m1 m2 hc ha hb
  omega

/-- The case of `coalesce` in which only the next block is free. -/
theorem coalesce_next_spec {h : Heap} {S : List Nat} {t : FTree} (hc : Consistent h S t)
    {bp s ns : Nat} (hbp : bp ∈ S) (hout : bp ∉ t.members) (hs : s = h.bsize bp)
    (hns : ns = h.bsize (bp + s)) (hpa : h.balloc (h.prevOf bp) = 1)
    (hnm : bp + s ∈ t.members) {fuel : Nat} (hf : t.members.length ≤ fuel) :
    ∃ h' t', coalesce fuel h bp = .ok (h', bp) ∧ h'.words (bp - 4) = s + ns ∧
      h'.words (bp + (s + ns) - 8) = s + ns ∧ TreeOK h' t' ∧ bp ∉ t'.members ∧
      bp + s ∉ t'.members ∧ (∀ x ∈ t'.members, x ∈ t.members) := by
  have ok := hc.treeOK
  obtain ⟨g1, g2, g3, g4, g5, g6, -, g8⟩ := coalesce_reads hc hbp
  obtain ⟨n1, n2⟩ := hc.indexed.free _ hnm
  rw [← hs] at g4 g5 g6 g8
  rw [← hns] at g8
  rw [hpa] at g3
  rw [n2] at g5
  obtain ⟨p1, p2, p3, p4, p5, p6, p7, -, -, -⟩ := hc.block hbp
  obtain ⟨-, -, -, -, q5, q6, -, -, -, -⟩ := hc.block n1
  rw [← hs] at p4 p5 p6
  rw [← hns] at q5 q6
  obtain ⟨h1, t1, ⟨sa, hu1, ok1, hsub1, hnot1⟩, -, hex1⟩ := deleteNode_spec ok hnm
  have hf0 : t.height ≤ fuel := le_trans t.height_le_length hf
  have e1 : h1.lo = h.lo := sa.1
  have e2 : h1.brk = h.brk := sa.2.1
  have v0 : h1.valid (bp - 4) := ⟨by omega, by omega, by omega⟩
  have v1 : h1.valid (bp + (s + ns) - 8) := ⟨by omega, by omega, by omega⟩
  have m1 : (s + ns) % W32 = s + ns := Nat.mod_eq_of_lt (by unfold W32; omega)
  have sz : sizeOf (s + ns) = s + ns := sizeOf_of_mod8 (by omega) (by omega)
  have ad : add32 s ns = s + ns := add32_eq (by omega)
  have f1 : PUT h1 (HDRP bp) (PACK (s + ns) 0) = .ok (h1.store (bp - 4) (s + ns)) := by
    rw [PACK_zero, HDRP_eq (by omega) (by omega)]
    exact PUT_ok _ v0
  have f2 : FTRP (h1.store (bp - 4) (s + ns)) bp = .ok (bp + (s + ns) - 8) :=
    FTRP_ok (by omega) v0 (by simp only [store_words, if_true, m1, sz]) (by omega) (by omega)
  have f3 : PUT (h1.store (bp - 4) (s + ns)) (bp + (s + ns) - 8) (PACK (s + ns) 0) =
      .ok ((h1.store (bp - 4) (s + ns)).store (bp + (s + ns) - 8) (s + ns)) := by
    rw [PACK_zero]
    exact PUT_ok _ v1
  have hex : coalesce fuel h bp =
      .ok ((h1.store (bp - 4) (s + ns)).store (bp + (s + ns) - 8) (s + ns), bp) := by
    unfold coalesce
    simp only [g1, g2, g3, g4, g5, g6, g8, ok_bind, ne_eq, one_ne_zero, not_false_eq_true,
      not_true_eq_false, and_false, and_self, if_false, if_true, ad, hex1 fuel hf0, f1, f2, f3]
  have e3 : bp - 4 ≠ bp + (s + ns) - 8 := by omega
  have hw : ∀ q, q ≠ bp - 4 → q ≠ bp + (s + ns) - 8 →
      ((h1.store (bp - 4) (s + ns)).store (bp + (s + ns) - 8) (s + ns)).words q =
        h1.words q := fun q q1 q2 => by
    simp only [store_words, q1, q2, if_false]
  refine ⟨_, t1, hex, ?_, ?_, ?_, fun e => hout (hsub1 _ e), hnot1, hsub1⟩
  · simp only [store_words, e3, if_false, if_true, m1]
  · simp only [store_words, if_true, m1]
  · refine ok1.frame rfl rfl rfl (fun a ha q q1 q2 => ?_)
    have a24 := (ok1.lt ha).1
    have d1 := far_of_disjoint hc (hsub1 a ha) hbp (fun e => hout (e ▸ hsub1 a ha))
    have d2 := far_of_disjoint hc (hsub1 a ha) n1 (fun e => hnot1 (e ▸ ha))
    rw [← hs] at d1
    rw [← hns] at d2
    exact hw q (by omega) (by omega)

/-- The writes of the case of `coalesce` in which only the previous block is
free, after `deleteNode` has run. -/
theorem coalesce_prev_exec {h h1 : Heap} {bp P s ps : Nat} (fuel : Nat)
    (e1 : h1.lo = h.lo) (e2 : h1.brk = h.brk) (r1 : h.lo + 16 ≤ P) (r2 : P + ps = bp)
    (r4 : ps % 8 = 0) (r5 : P % 8 = 0) (p5 : s % 8 = 0) (p6 : bp + s ≤ h.brk)
    (p7 : h.brk < 4294967296) (s24 : 24 ≤ s) (ps24 : 24 ≤ ps)
    (g1 : PREV_BLKP h bp = .ok P) (g2 : FTRP h P = .ok (bp - 8))
    (g3 : GET_ALLOC h (bp - 8) = .ok 0) (g4 : NEXT_BLKP h bp = .ok (bp + s))
    (g5 : GET_ALLOC h (HDRP (bp + s)) = .ok 1) (g6 : GET_SIZE h (HDRP bp) = .ok s)
    (g7 : GET_SIZE h (HDRP P) = .ok ps) (hdel : deleteNode fuel h P = .ok h1)
    (k8 : h1.words (bp - 8) = ps) (k4 : h1.words (bp - 4) = s) :
    coalesce fuel h bp = .ok ((h1.store (bp + s - 8) (s + ps)).store (P - 4) (s + ps), P) ∧
    ((h1.store (bp + s - 8) (s + ps)).store (P - 4) (s + ps)).words (P - 4) = s + ps ∧
    ((h1.store (bp + s - 8) (s + ps)).store (P - 4) (s + ps)).words (P + (s + ps) - 8) =
      s + ps ∧
    ∀ q, q ≠ bp + s - 8 → q ≠ P - 4 →
      ((h1.store (bp + s - 8) (s + ps)).store (P - 4) (s + ps)).words q = h1.words q := by
  have v8 : h1.valid (bp - 8) := ⟨by omega, by omega, by omega⟩
  have v4 : h1.valid (bp - 4) := ⟨by omega, by omega, by omega⟩
  have vf : h1.valid (bp + s - 8) := ⟨by omega, by omega, by omega⟩
  have vp : h1.valid (P - 4) := ⟨by omega, by omega, by omega⟩
  have m1 : (s + ps) % W32 = s + ps := Nat.mod_eq_of_lt (by unfold W32; omega)
  have szp : sizeOf ps = ps := sizeOf_of_mod8 r4 (by omega)
  have szs : sizeOf s = s := sizeOf_of_mod8 p5 (by omega)
  have ad : add32 s ps = s + ps := add32_eq (by omega)
  have ebp : bp - ps = P := by omega
  have n1' : bp - 8 ≠ bp + s - 8 := by omega
  have n2' : bp - 8 ≠ P - 4 := by omega
  have n3' : bp + s - 8 ≠ P - 4 := by omega
  have f1 : FTRP h1 bp = .ok (bp + s - 8) :=
    FTRP_ok (by omega) v4 (by rw [k4, szs]) (by omega) (by omega)
  have f2 : PUT h1 (bp + s - 8) (PACK (s + ps) 0) = .ok (h1.store (bp + s - 8) (s + ps)) := by
    rw [PACK_zero]
    exact PUT_ok _ vf
  have f3 : PREV_BLKP (h1.store (bp + s - 8) (s + ps)) bp = .ok P := by
    have := @PREV_BLKP_ok (h1.store (bp + s - 8) (s + ps)) bp ps (by omega) v8
      (by simp only [store_words, n1', if_false, k8, szp]) (by omega) (by omega)
    rw [this, ebp]
  have f4 : PUT (h1.store (bp + s - 8) (s + ps)) (HDRP P) (PACK (s + ps) 0) =
      .ok ((h1.store (bp + s - 8) (s + ps)).store (P - 4) (s + ps)) := by
    rw [PACK_zero, HDRP_eq (by omega) (by omega)]
    exact PUT_ok _ vp
  have f5 : PREV_BLKP ((h1.store (bp + s - 8) (s + ps)).store (P - 4) (s + ps)) bp = .ok P := by
    have := @PREV_BLKP_ok ((h1.store (bp + s - 8) (s + ps)).store (P - 4) (s + ps)) bp ps
      (by omega) v8 (by simp only [store_words, n1', n2', if_false, k8, szp]) (by omega)
      (by omega)
    rw [this, ebp]
  refine ⟨?_, ?_, ?_, fun q q1 q2 => ?_⟩
  · unfold coalesce
    simp only [g1, g2, g3, g4, g5, g6, g7, ok_bind, ne_eq, one_ne_zero, not_false_eq_true,
      not_true_eq_false, and_false, false_and, and_self, if_false, if_true, ad, hdel,
      f1, f2, f3, f4, f5]
  · simp only [store_words, if_true, m1]
  · rw [show P + (s + ps) - 8 = bp + s - 8 from by omega]
    simp only [store_words, n3', if_false, if_true, m1]
  · simp only [store_words, q1, q2, if_false]

/-- The link and header words of a block that lies outside the blocks from `lo`
to `hi`. -/
theorem outside_ne {a lo hi q w : Nat} (d : a + 24 ≤ lo ∨ hi ≤ a) (a24 : 24 ≤ a)
    (q1 : a - 4 ≤ q) (q2 : q < a + 16) (w1 : lo - 4 ≤ w) (w2 : w + 4 < hi) (l4 : 4 ≤ lo) :
    q ≠ w := by
  omega

/-- The case of `coalesce` in which only the previous block is free. -/
theorem coalesce_prev_spec {h : Heap} {S : List Nat} {t : FTree} (hc : Consistent h S t)
    {bp P s ps : Nat} (hbp : bp ∈ S) (hfree : h.balloc bp = 0) (hout : bp ∉ t.members)
    (hP : P = h.prevOf bp) (hs : s = h.bsize bp) (hps : ps = h.bsize P)
    (hna : h.balloc (bp + s) = 1) (hpm : P ∈ t.members) {fuel : Nat}
    (hf : t.members.length ≤ fuel) :
    ∃ h' t', coalesce fuel h bp = .ok (h', P) ∧ h'.words (P - 4) = s + ps ∧
      h'.words (P + (s + ps) - 8) = s + ps ∧ TreeOK h' t' ∧ bp ∉ t'.members ∧
      P ∉ t'.members ∧ (∀ x ∈ t'.members, x ∈ t.members) ∧ SameArena h h' ∧
      ∀ q, (∀ m ∈ t.members, q < m ∨ m + 16 ≤ q) → q ≠ bp + s - 8 → q ≠ P - 4 →
        h'.words q = h.words q := by
  have ok := hc.treeOK
  have n1 : P ∈ S := (hc.indexed.free _ hpm).1
  have n2 : h.balloc P = 0 := (hc.indexed.free _ hpm).2
  have g1 : PREV_BLKP h bp = .ok P := hP ▸ (coalesce_reads hc hbp).1
  have g2 : FTRP h P = .ok (bp - 8) := hP ▸ (coalesce_reads hc hbp).2.1
  have g3 : GET_ALLOC h (bp - 8) = .ok 0 := by
    rw [(coalesce_reads hc hbp).2.2.1, ← hP, n2]
  have g4 : NEXT_BLKP h bp = .ok (bp + s) := hs ▸ (coalesce_reads hc hbp).2.2.2.1
  have g5 : GET_ALLOC h (HDRP (bp + s)) = .ok 1 := by
    rw [hs, (coalesce_reads hc hbp).2.2.2.2.1, ← hs, hna]
  have g6 : GET_SIZE h (HDRP bp) = .ok s := hs ▸ (coalesce_reads hc hbp).2.2.2.2.2.1
  have g7 : GET_SIZE h (HDRP P) = .ok ps := by
    rw [hP, (coalesce_reads hc hbp).2.2.2.2.2.2.1, ← hP, hps]
  have r1 : h.lo + 16 ≤ P := (hc.block n1).1
  have r2 : P + ps = bp := by rw [hps, hP]; exact (prev_facts hc hbp).2.1
  have r4 : ps % 8 = 0 := by rw [hps, hP]; exact (prev_facts hc hbp).2.2.2.1
  have r5 : P % 8 = 0 := by rw [hP]; exact (prev_facts hc hbp).2.2.2.2.1
  have r6 : h.words (bp - 8) = ps := by
    rw [(prev_facts hc hbp).2.2.2.2.2.1, ← hP, n2, hps]; rfl
  have p5 : s % 8 = 0 := hs ▸ (hc.block hbp).2.2.2.2.1
  have p6 : bp + s ≤ h.brk := hs ▸ (hc.block hbp).2.2.2.2.2.1
  have p7 : h.brk < 4294967296 := (hc.block hbp).2.2.2.2.2.2.1
  have p8 : h.words (bp - 4) = s := by
    rw [(hc.block hbp).2.2.2.2.2.2.2.1, hfree, hs]; rfl
  have s24 : 24 ≤ s := hs ▸ (hc.block hbp).2.2.2.2.2.2.2.2.2 hfree
  have ps24 : 24 ≤ ps := by rw [hps]; exact (hc.block n1).2.2.2.2.2.2.2.2.2 n2
  obtain ⟨h1, t1, ⟨sa, hu1, ok1, hsub1, hnot1⟩, -, hex1⟩ := deleteNode_spec ok hpm
  have hf0 : t.height ≤ fuel := le_trans t.height_le_length hf
  have tw := tag_words_far hc hbp
  have k8 : h1.words (bp - 8) = ps := by
    rw [hu1 _ (fun m hm => (tw m hm).1)]
    exact r6
  have k4 : h1.words (bp - 4) = s := by
    rw [hu1 _ (fun m hm => (tw m hm).2.1)]
    exact p8
  obtain ⟨hex, w1, w2, hw⟩ := coalesce_prev_exec fuel sa.1 sa.2.1 r1 r2 r4 r5 p5 p6 p7 s24 ps24
    g1 g2 g3 g4 g5 g6 g7 (hex1 fuel hf0) k8 k4
  refine ⟨_, t1, hex, w1, w2, ?_, fun e => hout (hsub1 _ e), hnot1, hsub1, sa,
    fun q qf q1 q2 => (hw q q1 q2).trans (hu1 q qf)⟩
  refine ok1.frame rfl rfl rfl (fun a ha q q1 q2 => ?_)
  have a24 := (ok1.lt ha).1
  have d1 := far_of_disjoint hc (hsub1 a ha) hbp (fun e => hout (e ▸ hsub1 a ha))
  have d2 := far_of_disjoint hc (hsub1 a ha) n1 (fun e => hnot1 (e ▸ ha))
  rw [← hs] at d1
  have d : a + 24 ≤ P ∨ bp + s ≤ a := by
    clear hw hex w1 w2 k8 k4 tw hex1 hu1 hsub1 hnot1 ok1 g1 g2 g3 g4 g5 g6 g7 hc ok
    omega
  exact hw q (outside_ne d a24 q1 q2 (by omega) (by omega) (by omega))
    (outside_ne d a24 q1 q2 (by omega) (by omega) (by omega))

/-- The writes of the case of `coalesce` in which both neighbours are free,
after the two calls of `deleteNode` have run. -/
theorem coalesce_both_exec {h h1 h2 : Heap} {bp P s ps ns : Nat} (fuel : Nat)
    (e1 : h2.lo = h.lo) (e2 : h2.brk = h.brk) (r1 : h.lo + 16 ≤ P) (r2 : P + ps = bp)
    (r4 : ps % 8 = 0) (r5 : P % 8 = 0) (p5 : s % 8 = 0) (q5 : ns % 8 = 0)
    (p6 : bp + s + ns ≤ h.brk) (p7 : h.brk < 4294967296) (s24 : 24 ≤ s) (ps24 : 24 ≤ ps)
    (ns24 : 24 ≤ ns)
    (g1 : PREV_BLKP h bp = .ok P) (g2 : FTRP h P = .ok (bp - 8))
    (g3 : GET_ALLOC h (bp - 8) = .ok 0) (g4 : NEXT_BLKP h bp = .ok (bp + s))
    (g5 : GET_ALLOC h (HDRP (bp + s)) = .ok 0) (g6 : GET_SIZE h (HDRP bp) = .ok s)
    (g7 : GET_SIZE h (HDRP P) = .ok ps) (g8 : FTRP h (bp + s) = .ok (bp + s + ns - 8))
    (g9 : GET_SIZE h (bp + s + ns - 8) = .ok ns)
    (d1 : deleteNode fuel h (bp + s) = .ok h1) (g10 : PREV_BLKP h1 bp = .ok P)
    (d2 : deleteNode fuel h1 P = .ok h2) (k8 : h2.words (bp - 8) = ps)
    (k4 : h2.words (bp - 4) = s) (kn : h2.words (bp + s - 4) = ns) :
    coalesce fuel h bp =
      .ok ((h2.store (P - 4) (s + (ps + ns))).store (bp + s + ns - 8) (s + (ps + ns)), P) ∧
    ((h2.store (P - 4) (s + (ps + ns))).store (bp + s + ns - 8) (s + (ps + ns))).words (P - 4) =
      s + (ps + ns) ∧
    ((h2.store (P - 4) (s + (ps + ns))).store (bp + s + ns - 8) (s + (ps + ns))).words
      (P + (s + (ps + ns)) - 8) = s + (ps + ns) ∧
    ∀ q, q ≠ P - 4 → q ≠ bp + s + ns - 8 →
      ((h2.store (P - 4) (s + (ps + ns))).store (bp + s + ns - 8) (s + (ps + ns))).words q =
        h2.words q := by
  have v8 : h2.valid (bp - 8) := ⟨by omega, by omega, by omega⟩
  have v4 : h2.valid (bp - 4) := ⟨by omega, by omega, by omega⟩
  have vn : h2.valid (bp + s - 4) := ⟨by omega, by omega, by omega⟩
  have vf : h2.valid (bp + s + ns - 8) := ⟨by omega, by omega, by omega⟩
  have vp : h2.valid (P - 4) := ⟨by omega, by omega, by omega⟩
  have m1 : (s + (ps + ns)) % W32 = s + (ps + ns) := Nat.mod_eq_of_lt (by unfold W32; omega)
  have szp : sizeOf ps = ps := sizeOf_of_mod8 r4 (by omega)
  have szs : sizeOf s = s := sizeOf_of_mod8 p5 (by omega)
  have szn : sizeOf ns = ns := sizeOf_of_mod8 q5 (by omega)
  have ad1 : add32 ps ns = ps + ns := add32_eq (by omega)
  have ad : add32 s (ps + ns) = s + (ps + ns) := add32_eq (by omega)
  have ebp : bp - ps = P := by omega
  have n1' : bp - 8 ≠ P - 4 := by omega
  have n2' : bp - 8 ≠ bp + s + ns - 8 := by omega
  have n3' : bp - 4 ≠ P - 4 := by omega
  have n4' : bp + s - 4 ≠ P - 4 := by omega
  have n5' : P - 4 ≠ bp + s + ns - 8 := by omega
  have f1 : PREV_BLKP h2 bp = .ok P := by
    have := @PREV_BLKP_ok h2 bp ps (by omega) v8 (by rw [k8, szp]) (by omega) (by omega)
    rw [this, ebp]
  have f2 : PUT h2 (HDRP P) (PACK (s + (ps + ns)) 0) =
      .ok (h2.store (P - 4) (s + (ps + ns))) := by
    rw [PACK_zero, HDRP_eq (by omega) (by omega)]
    exact PUT_ok _ vp
  have f3 : NEXT_BLKP (h2.store (P - 4) (s + (ps + ns))) bp = .ok (bp + s) :=
    NEXT_BLKP_ok (by omega) v4 (by simp only [store_words, n3', if_false, k4, szs]) (by omega)
  have f4 : FTRP (h2.store (P - 4) (s + (ps + ns))) (bp + s) = .ok (bp + s + ns - 8) :=
    FTRP_ok (by omega) vn (by simp only [store_words, n4', if_false, kn, szn]) (by omega)
      (by omega)
  have f5 : PUT (h2.store (P - 4) (s + (ps + ns))) (bp + s + ns - 8) (PACK (s + (ps + ns)) 0) =
      .ok ((h2.store (P - 4) (s + (ps + ns))).store (bp + s + ns - 8) (s + (ps + ns))) := by
    rw [PACK_zero]
    exact PUT_ok _ vf
  have f6 : PREV_BLKP ((h2.store (P - 4) (s + (ps + ns))).store (bp + s + ns - 8)
      (s + (ps + ns))) bp = .ok P := by
    have := @PREV_BLKP_ok ((h2.store (P - 4) (s + (ps + ns))).store (bp + s + ns - 8)
      (s + (ps + ns))) bp ps (by omega) v8
      (by simp only [store_words, n1', n2', if_false, k8, szp]) (by omega) (by omega)
    rw [this, ebp]
  refine ⟨?_, ?_, ?_, fun q q1 q2 => ?_⟩
  · unfold coalesce
    simp only [g1, g2, g3, g4, g5, g6, g7, g8, g9, g10, ok_bind, ne_eq, one_ne_zero,
      not_false_eq_true, not_true_eq_false, and_false, false_and, and_self, if_false, if_true,
      ad1, ad, d1, d2, f1, f2, f3, f4, f5, f6]
  · simp only [store_words, n5', if_false, if_true, m1]
  · rw [show P + (s + (ps + ns)) - 8 = bp + s + ns - 8 from by omega]
    simp only [store_words, if_true, m1]
  · simp only [store_words, q1, q2, if_false]

/-- The tags of a block of the arena are words of the arena. -/
theorem tags_valid {h : Heap} {a n : Nat} (h1 : h.lo + 16 ≤ a) (h2 : a + n ≤ h.brk)
    (h3 : a % 8 = 0) (h4 : n % 8 = 0) (h5 : 24 ≤ n) (h6 : h.brk < 4294967296) :
    h.valid (a - 4) ∧ h.valid (a + n - 8) ∧ 4 ≤ a ∧ n < 4294967296 ∧ 8 ≤ n :=
  ⟨⟨by omega, by omega, by omega⟩, ⟨by omega, by omega, by omega⟩, by omega, by omega,
    by omega⟩

/-- The case of `coalesce` in which both neighbours are free. -/
theorem coalesce_both_spec {h : Heap} {S : List Nat} {t : FTree} (hc : Consistent h S t)
    {bp P s ps ns : Nat} (hbp : bp ∈ S) (hfree : h.balloc bp = 0) (hout : bp ∉ t.members)
    (hP : P = h.prevOf bp) (hs : s = h.bsize bp) (hps : ps = h.bsize P)
    (hns : ns = h.bsize (bp + s)) (hnm : bp + s ∈ t.members) (hpm : P ∈ t.members)
    {fuel : Nat} (hf : t.members.length ≤ fuel) :
    ∃ h' t', coalesce fuel h bp = .ok (h', P) ∧ h'.words (P - 4) = s + (ps + ns) ∧
      h'.words (P + (s + (ps + ns)) - 8) = s + (ps + ns) ∧ TreeOK h' t' ∧ bp ∉ t'.members ∧
      P ∉ t'.members ∧ bp + s ∉ t'.members ∧ (∀ x ∈ t'.members, x ∈ t.members) := by
  have ok := hc.treeOK
  have n1 : P ∈ S := (hc.indexed.free _ hpm).1
  have n2 : h.balloc P = 0 := (hc.indexed.free _ hpm).2
  have m1 : bp + s ∈ S := (hc.indexed.free _ hnm).1
  have m2 : h.balloc (bp + s) = 0 := (hc.indexed.free _ hnm).2
  have g1 : PREV_BLKP h bp = .ok P := hP ▸ (coalesce_reads hc hbp).1
  have g2 : FTRP h P = .ok (bp - 8) := hP ▸ (coalesce_reads hc hbp).2.1
  have g3 : GET_ALLOC h (bp - 8) = .ok 0 := by
    rw [(coalesce_reads hc hbp).2.2.1, ← hP, n2]
  have g4 : NEXT_BLKP h bp = .ok (bp + s) := hs ▸ (coalesce_reads hc hbp).2.2.2.1
  have g5 : GET_ALLOC h (HDRP (bp + s)) = .ok 0 := by
    rw [hs, (coalesce_reads hc hbp).2.2.2.2.1, ← hs, m2]
  have g6 : GET_SIZE h (HDRP bp) = .ok s := hs ▸ (coalesce_reads hc hbp).2.2.2.2.2.1
  have g7 : GET_SIZE h (HDRP P) = .ok ps := by
    rw [hP, (coalesce_reads hc hbp).2.2.2.2.2.2.1, ← hP, hps]
  have r1 : h.lo + 16 ≤ P := (hc.block n1).1
  have r2 : P + ps = bp := by rw [hps, hP]; exact (prev_facts hc hbp).2.1
  have r4 : ps % 8 = 0 := by rw [hps, hP]; exact (prev_facts hc hbp).2.2.2.1
  have r5 : P % 8 = 0 := by rw [hP]; exact (prev_facts hc hbp).2.2.2.2.1
  have r6 : h.words (bp - 8) = ps := by
    rw [(prev_facts hc hbp).2.2.2.2.2.1, ← hP, n2, hps]; rfl
  have p5 : s % 8 = 0 := hs ▸ (hc.block hbp).2.2.2.2.1
  have p7 : h.brk < 4294967296 := (hc.block hbp).2.2.2.2.2.2.1
  have p8 : h.words (bp - 4) = s := by
    rw [(hc.block hbp).2.2.2.2.2.2.2.1, hfree, hs]; rfl
  have s24 : 24 ≤ s := hs ▸ (hc.block hbp).2.2.2.2.2.2.2.2.2 hfree
  have ps24 : 24 ≤ ps := by rw [hps]; exact (hc.block n1).2.2.2.2.2.2.2.2.2 n2
  have q5 : ns % 8 = 0 := by rw [hns]; exact (hc.block m1).2.2.2.2.1
  have q6 : bp + s + ns ≤ h.brk := by rw [hns]; exact (hc.block m1).2.2.2.2.2.1
  have ns24 : 24 ≤ ns := by rw [hns]; exact (hc.block m1).2.2.2.2.2.2.2.2.2 m2
  have q8 : h.words (bp + s - 4) = ns := by
    rw [(hc.block m1).2.2.2.2.2.2.2.1, m2, hns]; rfl
  have q9 : h.words (bp + s + ns - 8) = ns := by
    rw [hns, (hc.block m1).2.2.2.2.2.2.2.2.1, ← hns, q8]
  have mlo : h.lo + 16 ≤ bp + s := (hc.block m1).1
  have m8 : (bp + s) % 8 = 0 := (hc.block m1).2.2.1
  obtain ⟨vN, vF, l4, lt1, l8⟩ := tags_valid mlo q6 m8 q5 ns24 p7
  have g8 : FTRP h (bp + s) = .ok (bp + s + ns - 8) :=
    FTRP_ok l4 vN (by rw [q8]; exact sizeOf_of_mod8 q5 lt1) l8 (Nat.lt_of_le_of_lt q6 p7)
  have g9 : GET_SIZE h (bp + s + ns - 8) = .ok ns := by
    rw [GET_SIZE_ok vF, q9]
    exact congrArg _ (sizeOf_of_mod8 q5 lt1)
  have hPN : P ≠ bp + s := by
    clear g1 g2 g3 g4 g5 g6 g7 g8 g9 hc ok vN vF
    omega
  obtain ⟨h1, t1, hd, he, hex1⟩ := deleteNode_spec ok hnm
  obtain ⟨h2, t2, hex2, sa2, hu2, ok2, hsub2, hnot2⟩ := delete_second ok hpm hPN hd he
  obtain ⟨sa, hu1, ok1, hsub1, hnot1⟩ := hd
  have hf0 : t.height ≤ fuel := le_trans t.height_le_length hf
  have tw := tag_words_far hc hbp
  have sb8 : sub32 bp DSIZE = bp - 8 :=
    sub32_eq (Nat.le_trans (by decide) (hc.block hbp).2.1)
      (Nat.lt_of_le_of_lt (Nat.le_trans (Nat.le_add_right _ _) (hc.block hbp).2.2.2.2.2.1) p7)
  have g10 : PREV_BLKP h1 bp = .ok P := by
    rw [PREV_BLKP_congr sa (by rw [sb8]; exact hu1 _ (fun m hm => (tw m hm).1))]
    exact g1
  have fr : ∀ q, (∀ m ∈ t.members, q < m ∨ m + 16 ≤ q) → h2.words q = h.words q :=
    fun q hq => (hu2 q hq).trans (hu1 q hq)
  have k8 : h2.words (bp - 8) = ps := (fr _ (fun m hm => (tw m hm).1)).trans r6
  have k4 : h2.words (bp - 4) = s := (fr _ (fun m hm => (tw m hm).2.1)).trans p8
  have kn : h2.words (bp + s - 4) = ns :=
    (fr _ (fun m hm => by have := (tw m hm).2.2.2; rw [← hs] at this; exact this)).trans q8
  have sa02 := sa.chain sa2
  obtain ⟨hex, w1, w2, hw⟩ := coalesce_both_exec fuel sa02.1 sa02.2.1 r1 r2 r4 r5 p5 q5 q6 p7
    s24 ps24 ns24 g1 g2 g3 g4 g5 g6 g7 g8 g9 (hex1 fuel hf0) g10 (hex2 fuel hf) k8 k4 kn
  have hin : ∀ a ∈ t2.members, a ∈ t.members := fun a ha => hsub1 a (hsub2 a ha)
  refine ⟨_, t2, hex, w1, w2, ?_, fun e => hout (hin _ e), hnot2,
    fun e => hnot1 (hsub2 _ e), hin⟩
  refine ok2.frame rfl rfl rfl (fun a ha q q1 q2 => ?_)
  have a24 := (ok2.lt ha).1
  have d1 := far_of_disjoint hc (hin a ha) hbp (fun e => hout (e ▸ hin a ha))
  have d2 := far_of_disjoint hc (hin a ha) n1 (fun e => hnot2 (e ▸ ha))
  have d3 := far_of_disjoint hc (hin a ha) m1 (fun e => hnot1 (e ▸ hsub2 a ha))
  rw [← hs] at d1
  rw [← hps] at d2
  rw [← hns] at d3
  have d : a + 24 ≤ P ∨ bp + s + ns ≤ a := by
    clear hw hex w1 w2 k8 k4 kn tw hex1 hex2 hu1 hu2 hsub1 hsub2 hnot1 hnot2 ok1 ok2 g1 g2 g3 g4
      g5 g6 g7 g8 g9 g10 hc ok fr hin he
    omega
  exact hw q (outside_ne d a24 q1 q2 (by omega) (by omega) (by omega))
    (outside_ne d a24 q1 q2 (by omega) (by omega) (by omega))

/-! ## What `coalesce` returns -/

/-- A free block after a block of the tiling is a block of the tiling. -/
theorem next_in_tiling {h : Heap} {S : List Nat} {t : FTree} (hc : Consistent h S t)
    {bp : Nat} (hbp : bp ∈ S) (hfree : h.balloc (bp + h.bsize bp) = 0) :
    bp + h.bsize bp ∈ S := by
  rcases Chain.next hc.tiled bp hbp with e | e
  · exact e
  · exfalso
    unfold Heap.balloc at hfree
    rw [e, hc.arena.epilogue] at hfree
    exact absurd hfree (by decide)

theorem le_one_cases {a : Nat} (h : a ≤ 1) : a = 0 ∨ a = 1 := by
  omega

/-- A sum of block sizes below the break is a tag word that encodes itself as
size with the allocated bit clear. -/
theorem merged_encodes {s ps ns bp brk : Nat} (h1 : s % 8 = 0) (h2 : ps % 8 = 0)
    (h3 : ns % 8 = 0) (h4 : ps ≤ bp) (h5 : bp + s + ns ≤ brk) (h6 : brk < 4294967296)
    (x : Nat) (hx : x = s + ns + ps) : sizeOf x = x ∧ allocOf x = 0 := by
  subst hx
  exact ⟨sizeOf_of_mod8 (by omega) (by omega), allocOf_of_mod8 (by omega)⟩

/-- The case of `coalesce` in which both neighbours are allocated. -/
theorem coalesce_none_spec {h : Heap} {S : List Nat} {t : FTree} (hc : Consistent h S t)
    {bp s : Nat} (hbp : bp ∈ S) (hfree : h.balloc bp = 0) (hs : s = h.bsize bp)
    (hpa : h.balloc (h.prevOf bp) = 1) (hna : h.balloc (bp + s) = 1) (fuel : Nat) :
    coalesce fuel h bp = .ok (h, bp) ∧ h.words (bp - 4) = s ∧ h.words (bp + s - 8) = s := by
  obtain ⟨g1, g2, g3, g4, g5, g6, -, -⟩ := coalesce_reads hc hbp
  have p8 : h.words (bp - 4) = s := by
    rw [(hc.block hbp).2.2.2.2.2.2.2.1, hfree, hs]; rfl
  refine ⟨coalesce_none_exec fuel g1 g2 (by rw [g3, hpa]) g4 (by rw [g5, ← hs, hna]) g6,
    p8, ?_⟩
  rw [hs, (hc.block hbp).2.2.2.2.2.2.2.2.1, p8, hs]

/-- C18: in a state in which the blocks tile the arena and the free tree is
laid out in memory and holds every free block but `bp`, let `bp` be a block
whose header and footer are marked free. Then `coalesce(bp)` (with fuel for the
members of the tree) returns the block `prev` in front of `bp` when that block
is free, and `bp` otherwise; header and footer of the returned block hold the
size of `bp` plus the sizes of those of the two neighbours that are free, a
word that decodes to this size with the allocated bit clear; the free tree is
again laid out in memory and ordered; it holds neither the returned block, nor
`bp`, nor a neighbour that was free, and nothing that it did not hold before. -/
theorem coalesce_merges_free_neighbours (h : Heap) (S : List Nat) (t : FTree)
    (hc : Consistent h S t) (bp : Nat) (hbp : bp ∈ S) (hfree : h.balloc bp = 0)
    (hout : bp ∉ t.members) (hall : ∀ a ∈ S, a ≠ bp → h.balloc a = 0 → a ∈ t.members)
    (prev next s : Nat) (hprev : prev = h.prevOf bp) (hs : s = h.bsize bp)
    (hnext : next = bp + s) (fuel : Nat) (hf : t.members.length ≤ fuel) :
    ∃ h' t' p total, coalesce fuel h bp = .ok (h', p) ∧
      p = (if h.balloc prev = 0 then prev else bp) ∧
      total = s + (if h.balloc next = 0 then h.bsize next else 0) +
        (if h.balloc prev = 0 then h.bsize prev else 0) ∧
      h'.words (p - 4) = total ∧ h'.words (p + total - 8) = total ∧
      sizeOf total = total ∧ allocOf total = 0 ∧
      TreeOK h' t' ∧ p ∉ t'.members ∧ bp ∉ t'.members ∧
      (h.balloc prev = 0 → prev ∉ t'.members) ∧ (h.balloc next = 0 → next ∉ t'.members) ∧
      ∀ x ∈ t'.members, x ∈ t.members := by
  subst hnext
  have f1 : s % 8 = 0 := hs ▸ h.bsize_mod8 bp
  have f2 := h.bsize_mod8 prev
  have f3 := h.bsize_mod8 (bp + s)
  have f4 : h.bsize prev ≤ bp := by
    have r2 := (prev_facts hc hbp).2.1
    rw [← hprev] at r2
    exact r2 ▸ Nat.le_add_left _ _
  have f5 : bp + s ≤ h.brk := hs ▸ (hc.block hbp).2.2.2.2.2.1
  have f6 : h.brk < 4294967296 := (hc.block hbp).2.2.2.2.2.2.1
  have f7 : h.balloc (bp + s) = 0 → bp + s + h.bsize (bp + s) ≤ h.brk := fun e =>
    (hc.block (show bp + s ∈ S by rw [hs]; exact next_in_tiling hc hbp (hs ▸ e))).2.2.2.2.2.1
  have hPb : prev ≠ bp := by
    have r2 := (prev_facts hc hbp).2.1
    have r3 := (prev_facts hc hbp).2.2.1
    rw [← hprev] at r2 r3
    clear hc hall hbp hout
    omega
  have hNb : bp + s ≠ bp := by
    have := (hc.block hbp).2.2.2.1
    rw [← hs] at this
    clear hc hall hbp hout
    omega
  have hPm : h.balloc prev = 0 → prev ∈ t.members := fun e =>
    hall prev (by rw [hprev]; exact (prev_facts hc hbp).2.2.2.2.2.2.2 (hprev ▸ e)) hPb e
  have hNm : h.balloc (bp + s) = 0 → bp + s ∈ t.members := fun e =>
    hall _ (by rw [hs]; exact next_in_tiling hc hbp (hs ▸ e)) hNb e
  rcases le_one_cases (h.balloc_le prev) with pa | pa <;>
    rcases le_one_cases (h.balloc_le (bp + s)) with na | na
  · obtain ⟨h', t', k1, k2, k3, k4, k5, k6, k7, k8⟩ :=
      coalesce_both_spec hc hbp hfree hout hprev hs rfl rfl (hNm na) (hPm pa) hf
    have me := merged_encodes f1 f2 f3 f4 (f7 na) f6 (s + (h.bsize prev + h.bsize (bp + s)))
      (by omega)
    refine ⟨h', t', prev, s + (h.bsize prev + h.bsize (bp + s)), k1, by rw [if_pos pa], ?_,
      k2, k3, me.1, me.2, k4, k6, k5, fun _ => k6, fun _ => k7, k8⟩
    rw [if_pos pa, if_pos na]
    exact (Nat.add_assoc _ _ _).symm ▸ by rw [Nat.add_comm (h.bsize prev)]
  · obtain ⟨h', t', k1, k2, k3, k4, k5, k6, k7, -, -⟩ :=
      coalesce_prev_spec hc hbp hfree hout hprev hs rfl na (hPm pa) hf
    have nne : ¬ h.balloc (bp + s) = 0 := by rw [na]; decide
    have me := @merged_encodes s (h.bsize prev) 0 bp h.brk f1 f2 rfl f4 f5 f6 _ rfl
    refine ⟨h', t', prev, s + h.bsize prev, k1, by rw [if_pos pa], ?_, k2, k3, me.1, me.2,
      k4, k6, k5, fun _ => k6, fun e => absurd e nne, k7⟩
    rw [if_pos pa, if_neg nne]
    rfl
  · obtain ⟨h', t', k1, k2, k3, k4, k5, k6, k7⟩ :=
      coalesce_next_spec hc hbp hout hs rfl (hprev ▸ pa) (hNm na) hf
    have pne : ¬ h.balloc prev = 0 := by rw [pa]; decide
    have me := @merged_encodes s 0 (h.bsize (bp + s)) bp h.brk f1 rfl f3 (Nat.zero_le bp)
      (f7 na) f6 _ rfl
    refine ⟨h', t', bp, s + h.bsize (bp + s), k1, by rw [if_neg pne], ?_, k2, k3, me.1, me.2,
      k4, k5, k5, fun e => absurd e pne, fun _ => k6, k7⟩
    rw [if_neg pne, if_pos na]
    rfl
  · obtain ⟨k1, k2, k3⟩ := coalesce_none_spec hc hbp hfree hs (hprev ▸ pa) na fuel
    have pne : ¬ h.balloc prev = 0 := by rw [pa]; decide
    have nne : ¬ h.balloc (bp + s) = 0 := by rw [na]; decide
    have me := @merged_encodes s 0 0 bp h.brk f1 rfl rfl (Nat.zero_le bp) f5 f6 _ rfl
    refine ⟨h, t, bp, s, k1, by rw [if_neg pne], ?_, k2, k3, me.1, me.2, hc.treeOK, hout,
      hout, fun e => absurd e pne, fun e => absurd e nne, fun x hx => hx⟩
    rw [if_neg pne, if_neg nne]
    rfl

theorem coalesce_merges_free_neighbours_witness :
    ∃ h' t' p total, coalesce 10 mergeHeap 65576 = .ok (h', p) ∧
      p = (if mergeHeap.balloc 65552 = 0 then 65552 else 65576) ∧
      total = 24 + (if mergeHeap.balloc 65600 = 0 then mergeHeap.bsize 65600 else 0) +
        (if mergeHeap.balloc 65552 = 0 then mergeHeap.bsize 65552 else 0) ∧
      h'.words (p - 4) = total ∧ h'.words (p + total - 8) = total ∧
      sizeOf total = total ∧ allocOf total = 0 ∧
      TreeOK h' t' ∧ p ∉ t'.members ∧ 65576 ∉ t'.members ∧
      (mergeHeap.balloc 65552 = 0 → 65552 ∉ t'.members) ∧
      (mergeHeap.balloc 65600 = 0 → 65600 ∉ t'.members) ∧
      ∀ x ∈ t'.members, x ∈ mergeTree.members :=
  coalesce_merges_free_neighbours mergeHeap [65552, 65576, 65600, 65624, 65648] mergeTree
    (by decide!) 65576 (by decide!) (by decide!) (by decide!) (by decide!) 65552 65600 24
    (by decide!) (by decide!) (by decide) 10 (by decide)

/-! ## Tilings of a grown arena -/

/-- A tiling is a tiling of every state with the same break and the same tags. -/
theorem Chain.congr {h h' : Heap} (hb : h'.brk = h.brk) : ∀ {S : List Nat} {a : Nat},
    Chain h a S → (∀ b ∈ S, h'.words (b - 4) = h.words (b - 4) ∧
      h'.words (b + h.bsize b - 8) = h.words (b + h.bsize b - 8)) → Chain h' a S
  | [], _, hc, _ => Eq.trans hc hb.symm
  | x :: bs, a, hc, hw => by
    obtain ⟨e, c1, c2, c3, c4, c5, c6⟩ := hc
    obtain ⟨w1, w2⟩ := hw x (List.mem_cons_self _ _)
    rw [e] at w1 w2
    have s1 : h'.bsize a = h.bsize a := by unfold Heap.bsize; rw [w1]
    have s2 : h'.balloc a = h.balloc a := by unfold Heap.balloc; rw [w1]
    refine ⟨e, c1, s1 ▸ c2, ?_, ?_, ?_, ?_⟩
    · rw [s1, s2, w1]; exact c3
    · rw [s1, w1, w2]; exact c4
    · rw [s1, s2]; exact c5
    · rw [s1]
      exact Chain.congr hb c6 (fun b hb' => hw b (List.mem_cons_of_mem _ hb'))

/-- A tiling followed by a new last block, after the break has moved. -/
theorem Chain.snoc {h h' : Heap} {E : Nat} (e8 : h.brk % 8 = 0) (e24 : 24 ≤ E)
    (hb : h'.brk = h.brk + E) (hs : h'.bsize h.brk = E) (ha : h'.balloc h.brk = 0)
    (hh : h'.words (h.brk - 4) = E) (hf : h'.words (h.brk + E - 8) = E) :
    ∀ {S : List Nat} {a : Nat}, Chain h a S →
      (∀ b ∈ S, h'.words (b - 4) = h.words (b - 4) ∧
        h'.words (b + h.bsize b - 8) = h.words (b + h.bsize b - 8)) →
      Chain h' a (S ++ [h.brk])
  | [], a, hc, _ => by
    have hc' : a = h.brk := hc
    subst hc'
    refine ⟨rfl, e8, by omega, ?_, ?_, fun _ => by omega, ?_⟩
    · rw [hs, ha, hh]; rfl
    · rw [hs, hf, hh]
    · rw [hs]; exact hb.symm
  | x :: bs, a, hc, hw => by
    obtain ⟨e, c1, c2, c3, c4, c5, c6⟩ := hc
    obtain ⟨w1, w2⟩ := hw x (List.mem_cons_self _ _)
    rw [e] at w1 w2
    have s1 : h'.bsize a = h.bsize a := by unfold Heap.bsize; rw [w1]
    have s2 : h'.balloc a = h.balloc a := by unfold Heap.balloc; rw [w1]
    refine ⟨e, c1, s1 ▸ c2, ?_, ?_, ?_, ?_⟩
    · rw [s1, s2, w1]; exact c3
    · rw [s1, w1, w2]; exact c4
    · rw [s1, s2]; exact c5
    · rw [s1]
      exact Chain.snoc e8 e24 hb hs ha hh hf c6 (fun b hb' => hw b (List.mem_cons_of_mem _ hb'))

/-- The last two blocks of a tiling. -/
theorem Chain.last_two {h : Heap} {P bp : Nat} : ∀ {S : List Nat} {a : Nat},
    Chain h a (S ++ [P, bp]) → P + h.bsize P = bp ∧ bp + h.bsize bp = h.brk
  | [], _, hc => by
    obtain ⟨e, -, -, -, -, -, e2, -, -, -, -, -, c6⟩ := hc
    have c6' : _ = h.brk := c6
    subst e
    rw [← e2] at c6'
    exact ⟨e2.symm, c6'⟩
  | _ :: bs, _, hc => @Chain.last_two h P bp bs _ hc.2.2.2.2.2.2

/-- The last two blocks of a tiling merged into one. -/
theorem Chain.merge_last {h h' : Heap} {P bp K : Nat} (hb : h'.brk = h.brk)
    (hlt : h.brk < 4294967296) (hK : K = h.bsize P + h.bsize bp) (k1 : h'.words (P - 4) = K)
    (k2 : h'.words (P + K - 8) = K) : ∀ {S : List Nat} {a : Nat},
    Chain h a (S ++ [P, bp]) → (∀ b ∈ S, b ≠ P → h'.words (b - 4) = h.words (b - 4) ∧
      h'.words (b + h.bsize b - 8) = h.words (b + h.bsize b - 8)) → Chain h' a (S ++ [P])
  | [], a, hc, _ => by
    obtain ⟨e, c1, c2, -, -, -, e2, -, d2, -, -, -, c6⟩ := hc
    have c6' : _ = h.brk := c6
    subst e
    rw [← e2] at c6' d2
    have m1 := h.bsize_mod8 P
    have m2 := h.bsize_mod8 bp
    have s1 : h'.bsize P = K := by
      unfold Heap.bsize
      rw [k1]
      exact sizeOf_of_mod8 (by omega) (by omega)
    have s2 : h'.balloc P = 0 := by
      unfold Heap.balloc
      rw [k1]
      exact allocOf_of_mod8 (by omega)
    refine ⟨rfl, c1, by omega, ?_, ?_, fun _ => by omega, ?_⟩
    · rw [s1, s2, k1]; rfl
    · rw [s1, k2, k1]
    · rw [s1]
      show P + K = h'.brk
      omega
  | x :: bs, a, hc, hw => by
    obtain ⟨e, c1, c2, c3, c4, c5, c6⟩ := hc
    have xP : x ≠ P := by
      have := (Chain.facts c6 P (List.mem_append_right _ (List.mem_cons_self _ _))).1
      omega
    obtain ⟨w1, w2⟩ := hw x (List.mem_cons_self _ _) xP
    rw [e] at w1 w2
    have s1 : h'.bsize a = h.bsize a := by unfold Heap.bsize; rw [w1]
    have s2 : h'.balloc a = h.balloc a := by unfold Heap.balloc; rw [w1]
    refine ⟨e, c1, s1 ▸ c2, ?_, ?_, ?_, ?_⟩
    · rw [s1, s2, w1]; exact c3
    · rw [s1, w1, w2]; exact c4
    · rw [s1, s2]; exact c5
    · rw [s1]
      exact Chain.merge_last hb hlt hK k1 k2 c6 (fun b hb' => hw b (List.mem_cons_of_mem _ hb'))
/-- The break of a tiled arena is a multiple of 8. -/
theorem Chain.end_aligned {h : Heap} : ∀ {S : List Nat} {a : Nat}, Chain h a S → a % 8 = 0 →
    h.brk % 8 = 0
  | [], _, hc, ha => by
    have hc' : _ = h.brk := hc
    rw [← hc']; exact ha
  | _ :: bs, a, hc, ha => by
    have m := h.bsize_mod8 a
    exact @Chain.end_aligned h bs _ hc.2.2.2.2.2.2 (by omega)

/-- The free tree of a state is the free tree of every state with the same
seat and the same header and link words in its members. -/
theorem Indexed.transfer {h h' : Heap} {S S' : List Nat} {t : FTree} (hi : Indexed h S t)
    (hseat : h'.seat = h.seat)
    (hw : ∀ a ∈ t.members, ∀ q, a - 4 ≤ q → q < a + 16 → h'.words q = h.words q)
    (hS : ∀ a ∈ t.members, a ∈ S') : Indexed h' S' t := by
  refine ⟨?_, hi.root.trans hseat.symm, ?_, hi.nodup, fun a ha => ⟨hS a ha, ?_⟩⟩
  · refine Shape_congr hi.nodup (fun a ha => ⟨?_, ?_, ?_⟩) (fun a ha _ => ?_) hi.shape
    · exact hw a ha a (by omega) (by omega)
    · exact hw a ha (a + 4) (by omega) (by omega)
    · exact hw a ha (a + 12) (by omega) (by omega)
    · exact hw a (t.nodes_sub_members a ha) (a + 8) (by omega) (by omega)
  · refine Ordered_congr (fun a ha => ?_) hi.ordered
    unfold szOf
    rw [hw a ha (a - 4) (le_refl _) (by omega)]
  · unfold Heap.balloc
    rw [hw a ha (a - 4) (le_refl _) (by omega)]
    exact (hi.free a ha).2

/-- The words of the state after `extendHeap` has set up the new block. -/
theorem extendedHeap_words {h : Heap} {E : Nat} (e24 : 24 ≤ E)
    (elt : h.brk + E < 4294967296) :
    (extendedHeap h E).words (h.brk - 4) = E ∧ (extendedHeap h E).words (h.brk + E - 8) = E ∧
    (extendedHeap h E).words (h.brk + E - 4) = 1 ∧
    ∀ q, q + 4 < h.brk → (extendedHeap h E).words q = h.words q := by
  have m1 : E % W32 = E := Nat.mod_eq_of_lt (by unfold W32; omega)
  have m2 : 1 % W32 = 1 := rfl
  have n1 : h.brk - 4 ≠ h.brk + E - 4 := by omega
  have n2 : h.brk - 4 ≠ h.brk + E - 8 := by omega
  have n3 : h.brk + E - 8 ≠ h.brk + E - 4 := by omega
  unfold extendedHeap
  refine ⟨?_, ?_, ?_, fun q hq => ?_⟩
  · simp only [store_words, n1, n2, if_false, if_true, m1]
  · simp only [store_words, n3, if_false, if_true, m1]
  · simp only [store_words, if_true, m2]
  · have q1 : q ≠ h.brk + E - 4 := by omega
    have q2 : q ≠ h.brk + E - 8 := by omega
    have q3 : q ≠ h.brk - 4 := by omega
    simp only [store_words, q1, q2, q3, if_false]

/-- The state that `extendHeap` hands to `coalesce`: the old blocks and the
new free block tile the grown arena, and the free tree is as it was. -/
theorem extended_consistent {h : Heap} {S : List Nat} {t : FTree} (hc : Consistent h S t)
    {E : Nat} (e8 : E % 8 = 0) (e24 : 24 ≤ E) (hroom : h.brk + E ≤ h.limit) :
    Consistent (extendedHeap h E) (S ++ [h.brk]) t ∧ (extendedHeap h E).bsize h.brk = E ∧
    (extendedHeap h E).balloc h.brk = 0 ∧ h.brk ∉ S ∧
    (∀ q, q + 4 < h.brk → (extendedHeap h E).words q = h.words q) ∧
    ∀ a ∈ S, a + h.bsize a ≤ h.brk ∧ 16 ≤ h.bsize a := by
  have ar := hc.arena
  have lim : h.limit < 4294967296 := ar.limit_lt
  have sb : h.startPointer ≤ h.brk := Chain.le_brk hc.tiled
  have st := ar.start
  have l8 := ar.lo_aligned
  have b8 : h.brk % 8 = 0 := Chain.end_aligned hc.tiled (by omega)
  obtain ⟨w1, w2, w3, w4⟩ := @extendedHeap_words h E e24 (by omega)
  have bl : ∀ a ∈ S, a + h.bsize a ≤ h.brk ∧ 16 ≤ h.bsize a := fun a ha =>
    ⟨(hc.block ha).2.2.2.2.2.1, (hc.block ha).2.2.2.1⟩
  have s1 : (extendedHeap h E).bsize h.brk = E := by
    unfold Heap.bsize
    rw [w1]
    exact sizeOf_of_mod8 e8 (by omega)
  have s2 : (extendedHeap h E).balloc h.brk = 0 := by
    unfold Heap.balloc
    rw [w1]
    exact allocOf_of_mod8 e8
  have fr : ∀ b ∈ S, (extendedHeap h E).words (b - 4) = h.words (b - 4) ∧
      (extendedHeap h E).words (b + h.bsize b - 8) = h.words (b + h.bsize b - 8) := by
    intro b hb
    obtain ⟨b1, b2⟩ := bl b hb
    exact ⟨w4 _ (by omega), w4 _ (by omega)⟩
  refine ⟨⟨⟨ar.lo_pos, l8, st, hroom, lim, ?_, ?_, w3⟩, ?_, ?_⟩, s1, s2, ?_, w4, bl⟩
  · exact (w4 (h.lo + 4) (by omega)).trans ar.prologue_header
  · exact (w4 (h.lo + 8) (by omega)).trans ar.prologue_footer
  · exact Chain.snoc b8 e24 rfl s1 s2 w1 w2 hc.tiled fr
  · refine hc.indexed.transfer rfl (fun a ha q q1 q2 => w4 q ?_)
      (fun a ha => List.mem_append_left _ (hc.indexed.free a ha).1)
    obtain ⟨m1, m2⟩ := hc.indexed.free a ha
    have := (hc.block m1).2.2.2.2.2.2.2.2.2 m2
    have := (bl a m1).1
    omega
  · intro hm
    have := bl _ hm
    omega

/-! ## The runs of `extendHeap` and `mm_malloc` -/

/-- A failed growth of the arena: `extendHeap` changes nothing and returns NULL. -/
theorem extendHeap_fail {h : Heap} {E : Nat} (fuel : Nat) (hno : ¬ h.brk + E ≤ h.limit) :
    extendHeap fuel h E = .ok (h, 0) := by
  unfold extendHeap mem_sbrk
  simp only [if_neg hno, if_true]

/-- The run of `extendHeap` when the arena can grow. -/
theorem extendHeap_exec {h h2 h3 : Heap} {E p : Nat} (fuel : Nat) (hroom : h.brk + E ≤ h.limit)
    (hlim : h.limit < 4294967296) (hlo : h.lo + 4 ≤ h.brk) (b8 : h.brk % 8 = 0)
    (e8 : E % 8 = 0) (e24 : 24 ≤ E)
    (hco : coalesce fuel (extendedHeap h E) h.brk = .ok (h2, p))
    (hadd : addNode fuel h2 p = .ok h3) : extendHeap fuel h E = .ok (h3, h.brk) := by
  have bM : h.brk ≠ M1 := by unfold M1; omega
  have m1 : E % W32 = E := Nat.mod_eq_of_lt (by unfold W32; omega)
  have s1 : sizeOf E = E := sizeOf_of_mod8 e8 (by omega)
  have n1 : h.brk - 4 ≠ h.brk + E - 8 := by omega
  generalize h0e : ({ h with brk := h.brk + E } : Heap) = h0
  have l0 : h0.lo = h.lo := by rw [← h0e]
  have b0 : h0.brk = h.brk + E := by rw [← h0e]
  have v0 : h0.valid (h.brk - 4) := ⟨by omega, by omega, by omega⟩
  have v1 : h0.valid (h.brk + E - 8) := ⟨by omega, by omega, by omega⟩
  have v2 : h0.valid (h.brk + E - 4) := ⟨by omega, by omega, by omega⟩
  have f1 : PUT h0 (HDRP h.brk) (PACK E 0) = .ok (h0.store (h.brk - 4) E) := by
    rw [PACK_zero, HDRP_eq (by omega) (by omega)]
    exact PUT_ok _ v0
  have f2 : FTRP (h0.store (h.brk - 4) E) h.brk = .ok (h.brk + E - 8) :=
    FTRP_ok (by omega) v0 (by simp only [store_words, if_true, m1, s1]) (by omega) (by omega)
  have f3 : PUT (h0.store (h.brk - 4) E) (h.brk + E - 8) (PACK E 0) =
      .ok ((h0.store (h.brk - 4) E).store (h.brk + E - 8) E) := by
    rw [PACK_zero]
    exact PUT_ok _ v1
  have f4 : NEXT_BLKP ((h0.store (h.brk - 4) E).store (h.brk + E - 8) E) h.brk =
      .ok (h.brk + E) :=
    NEXT_BLKP_ok (by omega) v0 (by simp only [store_words, n1, if_false, if_true, m1, s1])
      (by omega)
  have f5 : PUT ((h0.store (h.brk - 4) E).store (h.brk + E - 8) E) (HDRP (h.brk + E))
      (PACK 0 1) = .ok (((h0.store (h.brk - 4) E).store (h.brk + E - 8) E).store
        (h.brk + E - 4) 1) := by
    rw [HDRP_eq (by omega) (by omega)]
    exact PUT_ok _ v2
  have hco' : coalesce fuel (((h0.store (h.brk - 4) E).store (h.brk + E - 8) E).store
      (h.brk + E - 4) 1) h.brk = .ok (h2, p) := by
    rw [← h0e]; exact hco
  unfold extendHeap mem_sbrk addCoalesced
  simp only [if_pos hroom, h0e, bM, if_false, f1, f2, f3, f4, f5, hco', hadd, ok_bind]

/-- The run of `mm_malloc` when the free tree holds a fitting block. -/
theorem mm_malloc_fit {h h' : Heap} {size bp : Nat} (fuel : Nat) (hs : size ≠ 0)
    (hfit : findFit fuel h (adjust size) = .ok bp) (hne : bp ≠ 0)
    (hpl : place fuel h bp (adjust size) = .ok h') : mm_malloc fuel h size = .ok (h', bp) := by
  unfold mm_malloc
  simp only [hs, if_false, hfit, ok_bind, ne_eq, hne, not_false_eq_true, if_true, hpl]

/-- The run of `mm_malloc` when nothing fits and the arena cannot grow. -/
theorem mm_malloc_fail {h : Heap} {size : Nat} (fuel : Nat) (hs : size ≠ 0)
    (hfit : findFit fuel h (adjust size) = .ok 0)
    (hext : extendHeap fuel h (MAX (adjust size) CHUNKSIZE) = .ok (h, 0)) :
    mm_malloc fuel h size = .ok (h, 0) := by
  unfold mm_malloc
  simp only [hs, if_false, hfit, ok_bind, ne_eq, not_true_eq_false, if_true, hext]

/-- The run of `mm_malloc` when nothing fits and the arena grows. -/
theorem mm_malloc_grow {h h3 h4 : Heap} {size r bp : Nat} (fuel : Nat) (hs : size ≠ 0)
    (hfit : findFit fuel h (adjust size) = .ok 0)
    (hext : extendHeap fuel h (MAX (adjust size) CHUNKSIZE) = .ok (h3, r))
    (hfit2 : findFit fuel h3 (adjust size) = .ok bp) (hne : bp ≠ 0)
    (hpl : place fuel h3 bp (adjust size) = .ok h4) : mm_malloc fuel h size = .ok (h4, bp) := by
  unfold mm_malloc
  simp only [hs, if_false, hfit, ok_bind, ne_eq, not_true_eq_false, hext, hfit2, hne, hpl]

/-! ## Inserting a free block of the tiling -/

/-- The tags of a block of the tiling lie outside the link words of every free
block of the tiling. -/
theorem tags_far_free {h : Heap} {S : List Nat} {t : FTree} (hc : Consistent h S t)
    {a m : Nat} (ha : a ∈ S) (hm : m ∈ S) (hfree : h.balloc m = 0) :
    (a - 4 < m ∨ m + 16 ≤ a - 4) ∧
      (a + h.bsize a - 8 < m ∨ m + 16 ≤ a + h.bsize a - 8) := by
  have b24 := (hc.block hm).2.2.2.2.2.2.2.2.2 hfree
  have a24 := (hc.block ha).2.1
  have a16 := (hc.block ha).2.2.2.1
  by_cases e : m = a
  · subst e
    clear hm hc ha
    omega
  · have d := Chain.disjoint hc.tiled m hm a ha e
    clear hm hc ha
    omega

/-- The sentinel words lie outside the link words of every free block. -/
theorem sentinels_far {h : Heap} {S : List Nat} {t : FTree} (hc : Consistent h S t)
    {m : Nat} (hm : m ∈ S) (hfree : h.balloc m = 0) :
    h.lo + 8 < m ∧ m + 16 ≤ h.brk - 4 := by
  have b24 := (hc.block hm).2.2.2.2.2.2.2.2.2 hfree
  have b1 := (hc.block hm).1
  have b6 := (hc.block hm).2.2.2.2.2.1
  clear hc hm
  omega

/-- A state with the arena bounds, the sentinels and the tags of a consistent
state is consistent for every free tree that is laid out in it and holds free
blocks only. -/
theorem Consistent.of_tags {h h' : Heap} {S : List Nat} {t t' : FTree}
    (hc : Consistent h S t) (sa : SameArena h h')
    (hp1 : h'.words (h.lo + 4) = h.words (h.lo + 4))
    (hp2 : h'.words (h.lo + 8) = h.words (h.lo + 8))
    (hep : h'.words (h.brk - 4) = h.words (h.brk - 4))
    (htags : ∀ b ∈ S, h'.words (b - 4) = h.words (b - 4) ∧
      h'.words (b + h.bsize b - 8) = h.words (b + h.bsize b - 8))
    (ok : TreeOK h' t') (hsub : ∀ x ∈ t'.members, x ∈ S ∧ h.balloc x = 0) :
    Consistent h' S t' := by
  obtain ⟨a1, a2, a3, a4⟩ := sa
  have ar := hc.arena
  refine ⟨⟨?_, ?_, ?_, ?_, ?_, ?_, ?_, ?_⟩, ?_, ⟨ok.shape, ok.root, ok.ordered, ok.nodup, ?_⟩⟩
  · rw [a1]; exact ar.lo_pos
  · rw [a1]; exact ar.lo_aligned
  · rw [a1, a4]; exact ar.start
  · rw [a2, a3]; exact ar.brk_le
  · rw [a3]; exact ar.limit_lt
  · rw [a1, hp1]; exact ar.prologue_header
  · rw [a1, hp2]; exact ar.prologue_footer
  · rw [a2, hep]; exact ar.epilogue
  · unfold Tiled
    rw [a4]
    exact Chain.congr a2 hc.tiled htags
  · intro x hx
    refine ⟨(hsub x hx).1, ?_⟩
    unfold Heap.balloc
    rw [(htags x (hsub x hx).1).1]
    exact (hsub x hx).2

/-- Inserting a free block of the tiling that the free tree does not hold:
`addNode` returns, the state stays consistent, and no tag changes. -/
theorem add_free_block {h : Heap} {S : List Nat} {t : FTree} (hc : Consistent h S t)
    {p : Nat} (hp : p ∈ S) (hfree : h.balloc p = 0) (hout : p ∉ t.members) :
    ∃ h', (∀ fuel, t.height ≤ fuel → addNode fuel h p = .ok h') ∧
      Consistent h' S (t.ins h.words p (h.bsize p)) ∧ SameArena h h' ∧
      (∀ b ∈ S, h'.words (b - 4) = h.words (b - 4)) ∧
      h'.words (h.brk - 4) = h.words (h.brk - 4) := by
  have ok := hc.treeOK
  obtain ⟨b1, b2, b3, b4, b5, b6, b7, -, -, b10⟩ := hc.block hp
  have b24 := b10 hfree
  have hsep : ∀ x ∈ t.members, p + 24 ≤ x ∨ x + 24 ≤ p := by
    intro x hx
    have d := far_of_disjoint hc hx hp (fun e => hout (e ▸ hx))
    clear hc ok hx b10
    omega
  obtain ⟨h', hex, sa, hu, ok'⟩ := addNode_spec ok (b := p)
    ⟨b2, by omega, by omega, by omega⟩ hsep (show 0 < h.bsize p by omega)
  have mfree : ∀ m ∈ p :: t.members, m ∈ S ∧ h.balloc m = 0 := by
    intro m hm
    rcases List.mem_cons.1 hm with e | hm'
    · exact e ▸ ⟨hp, hfree⟩
    · exact hc.indexed.free m hm'
  have htags : ∀ b ∈ S, h'.words (b - 4) = h.words (b - 4) ∧
      h'.words (b + h.bsize b - 8) = h.words (b + h.bsize b - 8) := by
    intro b hb
    refine ⟨hu _ (fun m hm => ?_), hu _ (fun m hm => ?_)⟩
    · exact (tags_far_free hc hb (mfree m hm).1 (mfree m hm).2).1
    · exact (tags_far_free hc hb (mfree m hm).1 (mfree m hm).2).2
  have hep : h'.words (h.brk - 4) = h.words (h.brk - 4) :=
    hu _ (fun m hm => Or.inr (sentinels_far hc (mfree m hm).1 (mfree m hm).2).2)
  refine ⟨h', hex, ?_, sa, fun b hb => (htags b hb).1, hep⟩
  refine hc.of_tags sa (hu _ (fun m hm => Or.inl ?_)) (hu _ (fun m hm => Or.inl ?_)) hep htags
    ok' (fun x hx => ?_)
  · have := (sentinels_far hc (mfree m hm).1 (mfree m hm).2).1
    omega
  · exact (sentinels_far hc (mfree m hm).1 (mfree m hm).2).1
  · rcases FTree.mem_ins.1 hx with e | hx'
    · exact e ▸ ⟨hp, hfree⟩
    · exact hc.indexed.free x hx'

/-! ## `coalesce` on the new block of a grown arena -/

/-- A tiling that holds a block ends in a block. -/
theorem split_last (S : List Nat) (P : Nat) (hP : P ∈ S) : ∃ S0 P0, S = S0 ++ [P0] := by
  rcases List.eq_nil_or_concat S with e | ⟨S0, P0, e⟩
  · rw [e] at hP
    exact absurd hP (List.not_mem_nil P)
  · exact ⟨S0, P0, e.trans (List.concat_eq_append _ _)⟩

/-- Arithmetic of the tags around the last block of the old tiling. -/
theorem merge_arith {b bs P ps brk E q : Nat} (hne : b ≠ P) (b24 : 24 ≤ b) (bs16 : 16 ≤ bs)
    (d1 : b + bs ≤ P ∨ P + ps ≤ b) (hend : b + bs ≤ brk)
    (hP : P + ps = brk) (p24 : 24 ≤ P) (ps8 : 8 ≤ ps) (hq : q = b - 4 ∨ q = b + bs - 8) :
    q ≠ brk + E - 8 ∧ q ≠ P - 4 := by
  omega

/-- The case of `extendHeap` in which the block in front of the old break is
free: `coalesce` merges it with the new block. -/
theorem extend_merge {h : Heap} {S : List Nat} {t : FTree} (hc : Consistent h S t)
    (hall : ∀ a ∈ S, h.balloc a = 0 → a ∈ t.members) {E : Nat} (e8 : E % 8 = 0)
    (e24 : 24 ≤ E) (hroom : h.brk + E ≤ h.limit)
    (hpa : (extendedHeap h E).balloc ((extendedHeap h E).prevOf h.brk) = 0) {fuel : Nat}
    (hf : t.members.length ≤ fuel) :
    ∃ h2 t2 p, coalesce fuel (extendedHeap h E) h.brk = .ok (h2, p) ∧ Consistent h2 S t2 ∧
      p ∈ S ∧ p ∉ t2.members ∧ h2.balloc p = 0 ∧ E ≤ h2.bsize p ∧ p + h2.bsize p = h2.brk ∧
      (∀ x ∈ t2.members, x ∈ t.members ∧ h2.words (x - 4) = h.words (x - 4)) := by
  obtain ⟨hc1, s1, s2, hnS, w4, bl⟩ := extended_consistent hc e8 e24 hroom
  have hb1 : (extendedHeap h E).brk = h.brk + E := rfl
  have hl1 : (extendedHeap h E).lo = h.lo := rfl
  have hbp : h.brk ∈ S ++ [h.brk] := List.mem_append_right _ (List.mem_singleton_self _)
  have hout : h.brk ∉ t.members := fun e => hnS (hc.indexed.free _ e).1
  have r2 := (prev_facts hc1 hbp).2.1
  have r3 := (prev_facts hc1 hbp).2.2.1
  have hPS1 := (prev_facts hc1 hbp).2.2.2.2.2.2.2 hpa
  generalize hP : (extendedHeap h E).prevOf h.brk = P at hpa r2 r3 hPS1
  have hPS : P ∈ S := by
    rcases List.mem_append.1 hPS1 with e | e
    · exact e
    · exfalso
      have := List.mem_singleton.1 e
      omega
  have hw : (extendedHeap h E).words (P - 4) = h.words (P - 4) :=
    w4 _ (by have := bl P hPS; omega)
  have hPf : h.balloc P = 0 := by
    unfold Heap.balloc; rw [← hw]; exact hpa
  have hPm := hall P hPS hPf
  have hna : (extendedHeap h E).balloc (h.brk + (extendedHeap h E).bsize h.brk) = 1 := by
    rw [s1]
    unfold Heap.balloc
    have := hc1.arena.epilogue
    rw [hb1] at this
    rw [this]
    rfl
  obtain ⟨h2, t2, k1, k2, k3, ok2, k5, k6, k7, sa2, fr2⟩ :=
    coalesce_prev_spec hc1 hbp s2 hout hP.symm rfl rfl hna hPm hf
  rw [s1] at k2 k3 fr2
  have bP := hc1.block hPS1
  have lim : h.limit < 4294967296 := hc.arena.limit_lt
  have ps8 := (extendedHeap h E).bsize_mod8 P
  have z1 : h2.bsize P = E + (extendedHeap h E).bsize P := by
    unfold Heap.bsize
    rw [k2]
    exact sizeOf_of_mod8 (by omega) (by omega)
  have z2 : h2.balloc P = 0 := by
    unfold Heap.balloc
    rw [k2]
    exact allocOf_of_mod8 (by omega)
  have hsz : ∀ x ∈ S, (extendedHeap h E).bsize x = h.bsize x := by
    intro x hx
    unfold Heap.bsize
    rw [w4 _ (by have := bl x hx; omega)]
  have hfar : ∀ x ∈ S, x ≠ P → ∀ q,
      q = x - 4 ∨ q = x + (extendedHeap h E).bsize x - 8 → h2.words q =
        (extendedHeap h E).words q := by
    intro x hx hne q hq
    have hx1 : x ∈ S ++ [h.brk] := List.mem_append_left _ hx
    have d1 := Chain.disjoint hc1.tiled x hx1 P hPS1 hne
    have hend := (bl x hx).1
    rw [← hsz x hx] at hend
    have ar := merge_arith (E := E) hne (hc1.block hx1).2.1 (hc1.block hx1).2.2.2.1 d1 hend r2
      bP.2.1 r3 hq
    refine fr2 q (fun m hm => ?_) ar.1 ar.2
    rcases hq with e | e
    · rw [e]; exact (tags_far hc1 hx1 m hm).1
    · rw [e]; exact (tags_far hc1 hx1 m hm).2
  have hmem : ∀ x ∈ t2.members, x ∈ S ∧ x ≠ P ∧ x ∈ t.members := fun x hx =>
    ⟨(hc.indexed.free x (k7 x hx)).1, fun e => k6 (e ▸ hx), k7 x hx⟩
  have hhdr : ∀ x ∈ t2.members, h2.words (x - 4) = h.words (x - 4) := by
    intro x hx
    obtain ⟨m1, m2, -⟩ := hmem x hx
    rw [hfar x m1 m2 _ (Or.inl rfl)]
    exact w4 _ (by have := bl x m1; omega)
  obtain ⟨S0, P0, eS⟩ := split_last S P hPS
  have ch : Chain (extendedHeap h E) (extendedHeap h E).startPointer (S0 ++ [P0, h.brk]) := by
    have := hc1.tiled
    unfold Tiled at this
    rw [eS, List.append_assoc] at this
    exact this
  have hP0 : P0 ∈ S ++ [h.brk] := by
    rw [eS]
    exact List.mem_append_left _ (List.mem_append_right _ (List.mem_singleton_self _))
  have eP : P0 = P := by
    by_contra hne
    have l2 := (Chain.last_two ch).1
    have d := Chain.disjoint hc1.tiled P0 hP0 P hPS1 hne
    have := (hc1.block hP0).2.2.2.1
    omega
  rw [eP] at ch eS
  have ch2 : Chain h2 (extendedHeap h E).startPointer (S0 ++ [P]) := by
    refine Chain.merge_last sa2.2.1 (by rw [hb1]; omega)
      (show (extendedHeap h E).bsize P + E = _ by rw [s1]) (by rw [k2, Nat.add_comm]) ?_ ch
      (fun b hb hne => ?_)
    · rw [Nat.add_comm ((extendedHeap h E).bsize P)]; exact k3
    · have hbS : b ∈ S := by rw [eS]; exact List.mem_append_left _ hb
      exact ⟨hfar b hbS hne _ (Or.inl rfl), hfar b hbS hne _ (Or.inr rfl)⟩
  have sfar : ∀ m ∈ t.members, (extendedHeap h E).lo + 8 < m ∧
      m + 16 ≤ (extendedHeap h E).brk - 4 := fun m hm =>
    sentinels_far hc1 (hc1.indexed.free m hm).1 (hc1.indexed.free m hm).2
  have ar1 := hc1.arena
  refine ⟨h2, t2, P, k1, ⟨⟨?_, ?_, ?_, ?_, ?_, ?_, ?_, ?_⟩, ?_,
    ⟨ok2.shape, ok2.root, ok2.ordered, ok2.nodup, fun x hx => ⟨(hmem x hx).1, ?_⟩⟩⟩, hPS, k6,
    z2, by rw [z1]; omega, ?_, fun x hx => ⟨k7 x hx, hhdr x hx⟩⟩
  · rw [sa2.1]; exact ar1.lo_pos
  · rw [sa2.1]; exact ar1.lo_aligned
  · rw [sa2.1, sa2.2.2.2]; exact ar1.start
  · rw [sa2.2.1, sa2.2.2.1]; exact ar1.brk_le
  · rw [sa2.2.2.1]; exact ar1.limit_lt
  · rw [sa2.1, fr2 _ (fun m hm => Or.inl (by have := (sfar m hm).1; omega)) (by omega)
      (by have := bP.1; omega)]
    exact ar1.prologue_header
  · rw [sa2.1, fr2 _ (fun m hm => Or.inl (sfar m hm).1) (by omega) (by have := bP.1; omega)]
    exact ar1.prologue_footer
  · rw [sa2.2.1, fr2 _ (fun m hm => Or.inr (sfar m hm).2) (by omega)
      (by have := bP.2.1; omega)]
    exact ar1.epilogue
  · unfold Tiled
    rw [sa2.2.2.2, eS]
    exact ch2
  · unfold Heap.balloc
    rw [hhdr x hx]
    exact (hc.indexed.free x (k7 x hx)).2
  · rw [z1, sa2.2.1, hb1]
    omega

/-! ## What `extendHeap` does -/

/-- The call of `coalesce` in `extendHeap`: it returns a free block that ends
at the new break, is at least as long as the arena has grown and is not in the
free tree, in a consistent state in which the members of the free tree are
members of the old one, with their old headers. -/
theorem extend_coalesced {h : Heap} {S : List Nat} {t : FTree} (hc : Consistent h S t)
    (hall : ∀ a ∈ S, h.balloc a = 0 → a ∈ t.members) {E : Nat} (e8 : E % 8 = 0)
    (e24 : 24 ≤ E) (hroom : h.brk + E ≤ h.limit) {fuel : Nat}
    (hf : t.members.length ≤ fuel) :
    ∃ h2 S2 t2 p, coalesce fuel (extendedHeap h E) h.brk = .ok (h2, p) ∧ Consistent h2 S2 t2 ∧
      p ∈ S2 ∧ p ∉ t2.members ∧ h2.balloc p = 0 ∧ E ≤ h2.bsize p ∧ p + h2.bsize p = h2.brk ∧
      (∀ x ∈ t2.members, x ∈ t.members ∧ h2.words (x - 4) = h.words (x - 4)) := by
  rcases le_one_cases ((extendedHeap h E).balloc_le ((extendedHeap h E).prevOf h.brk)) with
    pa | pa
  · obtain ⟨h2, t2, p, k⟩ := extend_merge hc hall e8 e24 hroom pa hf
    exact ⟨h2, S, t2, p, k⟩
  · obtain ⟨hc1, s1, s2, hnS, w4, bl⟩ := extended_consistent hc e8 e24 hroom
    have hb1 : (extendedHeap h E).brk = h.brk + E := rfl
    have hbp : h.brk ∈ S ++ [h.brk] := List.mem_append_right _ (List.mem_singleton_self _)
    have hna : (extendedHeap h E).balloc (h.brk + (extendedHeap h E).bsize h.brk) = 1 := by
      rw [s1]
      unfold Heap.balloc
      have := hc1.arena.epilogue
      rw [hb1] at this
      rw [this]
      rfl
    refine ⟨_, _, t, h.brk, (coalesce_none_spec hc1 hbp s2 rfl pa hna fuel).1, hc1, hbp,
      fun e => hnS (hc.indexed.free _ e).1, s2, le_of_eq s1.symm, by rw [s1]; exact hb1.symm,
      fun x hx => ⟨hx, w4 _ ?_⟩⟩
    have := bl x (hc.indexed.free x hx).1
    omega

/-- The members of a tree without repetition are at most as many as the
elements of a list that holds them all. -/
theorem members_length_le {t : FTree} {L : List Nat} (hn : t.members.Nodup)
    (hs : ∀ x ∈ t.members, x ∈ L) : t.members.length ≤ L.length :=
  (List.subperm_of_subset hn hs).length_le

/-- What `extendHeap` does when the arena can grow: it returns the old break,
in a consistent state whose free tree holds a block `p` that ends at the new
break and is at least as long as the arena has grown, and apart from `p` only
members of the old tree, with their old headers. -/
theorem extendHeap_spec {h : Heap} {S : List Nat} {t : FTree} (hc : Consistent h S t)
    (hall : ∀ a ∈ S, h.balloc a = 0 → a ∈ t.members) {E : Nat} (e8 : E % 8 = 0)
    (e24 : 24 ≤ E) (hroom : h.brk + E ≤ h.limit) {fuel : Nat}
    (hf : t.members.length ≤ fuel) :
    ∃ h3 S3 t3 p, extendHeap fuel h E = .ok (h3, h.brk) ∧ Consistent h3 S3 t3 ∧
      p ∈ t3.members ∧ E ≤ h3.bsize p ∧ p + h3.bsize p = h3.brk ∧
      (∀ x ∈ t3.members, x ≠ p → x ∈ t.members ∧ h3.words (x - 4) = h.words (x - 4)) ∧
      t3.members.length ≤ t.members.length + 1 := by
  obtain ⟨h2, S2, t2, p, k1, hc2, k3, k4, k5, k6, k7, k8⟩ :=
    extend_coalesced hc hall e8 e24 hroom hf
  obtain ⟨h3, hex, hc3, sa3, hh3, -⟩ := add_free_block hc2 k3 k5 k4
  have len2 : t2.members.length ≤ t.members.length :=
    members_length_le hc2.indexed.nodup (fun x hx => (k8 x hx).1)
  have hadd := hex fuel (le_trans t2.height_le_length (le_trans len2 hf))
  have ar := hc.arena
  have sb : h.startPointer ≤ h.brk := Chain.le_brk hc.tiled
  have b8 : h.brk % 8 = 0 :=
    Chain.end_aligned hc.tiled (by have := ar.start; have := ar.lo_aligned; omega)
  have z : h3.bsize p = h2.bsize p := by
    unfold Heap.bsize
    rw [hh3 p k3]
  refine ⟨h3, S2, _, p, extendHeap_exec fuel hroom ar.limit_lt (by have := ar.start; omega) b8
    e8 e24 k1 hadd, hc3, FTree.mem_ins.2 (Or.inl rfl), by rw [z]; exact k6, ?_, ?_, ?_⟩
  · rw [z, sa3.2.1]; exact k7
  · intro x hx hne
    have hx2 := (FTree.mem_ins.1 hx).resolve_left hne
    exact ⟨(k8 x hx2).1, (hh3 x (hc2.indexed.free x hx2).1).trans (k8 x hx2).2⟩
  · refine le_trans (members_length_le (L := p :: t2.members) hc3.indexed.nodup
      (fun x hx => ?_)) (Nat.succ_le_succ len2)
    rcases FTree.mem_ins.1 hx with e | e
    · exact e ▸ List.mem_cons_self _ _
    · exact List.mem_cons_of_mem _ e

/-! ## When `mm_malloc` returns NULL -/

/-- The call of `place` on a fitting member of the free tree whose next block
is allocated returns. -/
theorem place_returns {h : Heap} {S : List Nat} {t : FTree} (hc : Consistent h S t)
    {bp asize : Nat} (hbp : bp ∈ t.members)
    (hnx : allocOf (h.words (bp + h.bsize bp - 4)) = 1) (ha8 : asize % 8 = 0)
    (ha24 : 24 ≤ asize) (hle : asize ≤ h.bsize bp) {fuel : Nat}
    (hf : t.members.length ≤ fuel) : ∃ h', place fuel h bp asize = .ok h' := by
  by_cases hroom : asize + 24 ≤ h.bsize bp
  · obtain ⟨h', -, k, -⟩ := place_split_core hc hbp hnx rfl ha8 ha24 hroom hf
    exact ⟨h', k⟩
  · obtain ⟨h', -, k, -⟩ := place_whole_spec hc hbp rfl hle (Nat.lt_of_not_le hroom) hf
    exact ⟨h', k⟩

theorem MAX_eq (x y : Nat) : MAX x y = max x y := by
  unfold MAX
  split <;> omega

/-- C3: `mm_malloc(0)` returns NULL and changes nothing. In a well-formed
state (the blocks tile the arena, no two neighbours are both free, the free
tree holds exactly the free blocks), for a request of `size > 0` bytes with
`size + 15` below `2^32`, `mm_malloc(size)` (with fuel for the members of the
tree) returns, and what it returns is NULL if and only if no member of the free
tree has at least `adjust size` bytes and `mem_sbrk`, asked for
`max (adjust size) 4096` bytes, fails. -/
theorem mm_malloc_null_iff (h : Heap) (S : List Nat) (t : FTree) (hc : Consistent h S t)
    (hna : NoAdjacentFree h S) (hall : ∀ a ∈ S, h.balloc a = 0 → a ∈ t.members) (size : Nat)
    (hsz : size + 15 < 4294967296) (fuel : Nat) (hf : t.members.length + 1 < fuel) :
    mm_malloc fuel h 0 = .ok (h, 0) ∧
    (0 < size → ∃ h' p, mm_malloc fuel h size = .ok (h', p) ∧
      (p = 0 ↔ (∀ a ∈ t.members, h.bsize a < adjust size) ∧
        (mem_sbrk h (max (adjust size) 4096)).2 = M1)) := by
  refine ⟨by unfold mm_malloc; simp only [if_true], fun hpos => ?_⟩
  have hs : size ≠ 0 := Nat.pos_iff_ne_zero.1 hpos
  have a8 : adjust size % 8 = 0 := (adjust_spec size hpos hsz).2.1
  have a24 : 24 ≤ adjust size := (adjust_spec size hpos hsz).2.2.2.2.1
  have ok := hc.treeOK
  have hf1 : t.members.length ≤ fuel := by omega
  have hE : max (adjust size) 4096 = MAX (adjust size) CHUNKSIZE := (MAX_eq _ CHUNKSIZE).symm
  obtain ⟨bp, g1, g2, g3⟩ := findFit_best ok (adjust size) fuel
    (lt_of_le_of_lt t.height_le_length (by omega))
  by_cases e0 : bp = 0
  · have nofit : ∀ a ∈ t.members, h.bsize a < adjust size := g2.1 e0
    rw [e0] at g1
    by_cases hroom : h.brk + MAX (adjust size) CHUNKSIZE ≤ h.limit
    · have E8 : MAX (adjust size) CHUNKSIZE % 8 = 0 := by
        rw [MAX_eq]; unfold CHUNKSIZE; omega
      have E24 : 24 ≤ MAX (adjust size) CHUNKSIZE := by
        rw [MAX_eq]; unfold CHUNKSIZE; omega
      have Ea : adjust size ≤ MAX (adjust size) CHUNKSIZE := by
        rw [MAX_eq]; omega
      obtain ⟨h3, S3, t3, p, x1, hc3, x3, x4, x5, x6, x7⟩ :=
        extendHeap_spec hc hall E8 E24 hroom hf1
      have ok3 := hc3.treeOK
      obtain ⟨bq, q1, q2, q3⟩ := findFit_best ok3 (adjust size) fuel
        (lt_of_le_of_lt t3.height_le_length (by omega))
      have q0 : bq ≠ 0 := fun e =>
        absurd (q2.1 e p x3) (Nat.not_lt.2 (le_trans Ea x4))
      obtain ⟨q4, q5, -⟩ := q3 q0
      have eq : bq = p := by
        by_contra hne
        obtain ⟨y1, y2⟩ := x6 bq (t3.nodes_sub_members bq q4) hne
        have := nofit bq y1
        unfold szOf at q5
        unfold Heap.bsize at this
        rw [y2] at q5
        omega
      rw [eq] at q1 q5
      have hnx : allocOf (h3.words (p + h3.bsize p - 4)) = 1 := by
        rw [x5, hc3.arena.epilogue]; rfl
      obtain ⟨h4, hpl⟩ := place_returns hc3 x3 hnx a8 a24 q5
        (show t3.members.length ≤ fuel by omega)
      refine ⟨h4, p, mm_malloc_grow fuel hs g1 x1 q1 (eq ▸ q0) hpl, ?_⟩
      constructor
      · intro e; exact absurd e (eq ▸ q0)
      · intro ⟨_, e⟩
        exfalso
        rw [hE] at e
        unfold mem_sbrk at e
        rw [if_pos (show h.brk + MAX (adjust size) CHUNKSIZE ≤ h.limit from hroom)] at e
        have : h.brk < 4294967295 := by
          have := hc.arena.brk_le
          have := hc.arena.limit_lt
          unfold W32 at *
          omega
        exact absurd e (by unfold M1; exact Nat.ne_of_lt this)
    · refine ⟨h, 0, mm_malloc_fail fuel hs g1 (extendHeap_fail fuel hroom), ?_⟩
      refine ⟨fun _ => ⟨nofit, ?_⟩, fun _ => rfl⟩
      rw [hE]
      unfold mem_sbrk
      rw [if_neg (show ¬ h.brk + MAX (adjust size) CHUNKSIZE ≤ h.limit from hroom)]
  · obtain ⟨k1, k2, -⟩ := g3 e0
    have hbp := t.nodes_sub_members bp k1
    obtain ⟨m1, m2⟩ := hc.indexed.free bp hbp
    obtain ⟨h', hpl⟩ := place_returns hc hbp (next_allocated hc hna m1 m2) a8 a24 k2 hf1
    refine ⟨h', bp, mm_malloc_fit fuel hs g1 e0 hpl, ?_⟩
    constructor
    · intro e; exact absurd e e0
    · intro ⟨nf, _⟩
      exact absurd (nf bp hbp) (Nat.not_lt.2 k2)

theorem mm_malloc_null_iff_witness :
    mm_malloc 10 (stateOf afterInit) 0 = .ok (stateOf afterInit, 0) ∧
    (0 < 2000 → ∃ h' p, mm_malloc 10 (stateOf afterInit) 2000 = .ok (h', p) ∧
      (p = 0 ↔ (∀ a ∈ initTree.members, (stateOf afterInit).bsize a < adjust 2000) ∧
        (mem_sbrk (stateOf afterInit) (max (adjust 2000) 4096)).2 = M1)) :=
  mm_malloc_null_iff (stateOf afterInit) [65552] initTree (by decide!) (by decide!)
    (by decide!) 2000 (by decide) 10 (by decide)

/-! ## `place` when the block after the split block is free -/

/-- The case of `coalesce` in which only the next block is free, once
`deleteNode` has run. -/
theorem coalesce_next_exec {h h1 : Heap} {bp pb pf s ns : Nat} (fuel : Nat)
    (e1 : h1.lo = h.lo) (e2 : h1.brk = h.brk) (r1 : h.lo + 8 ≤ bp) (b4 : bp % 4 = 0)
    (p5 : s % 8 = 0) (q5 : ns % 8 = 0) (s8 : 8 ≤ s) (q6 : bp + s + ns ≤ h.brk)
    (p7 : h.brk < 4294967296)
    (g1 : PREV_BLKP h bp = .ok pb) (g2 : FTRP h pb = .ok pf) (g3 : GET_ALLOC h pf = .ok 1)
    (g4 : NEXT_BLKP h bp = .ok (bp + s)) (g5 : GET_ALLOC h (HDRP (bp + s)) = .ok 0)
    (g6 : GET_SIZE h (HDRP bp) = .ok s) (g8 : GET_SIZE h (HDRP (bp + s)) = .ok ns)
    (hdel : deleteNode fuel h (bp + s) = .ok h1) :
    coalesce fuel h bp =
      .ok ((h1.store (bp - 4) (s + ns)).store (bp + (s + ns) - 8) (s + ns), bp) := by
  have v0 : h1.valid (bp - 4) := ⟨by omega, by omega, by omega⟩
  have v1 : h1.valid (bp + (s + ns) - 8) := ⟨by omega, by omega, by omega⟩
  have m1 : (s + ns) % W32 = s + ns := Nat.mod_eq_of_lt (by unfold W32; omega)
  have sz : sizeOf (s + ns) = s + ns := sizeOf_of_mod8 (by omega) (by omega)
  have ad : add32 s ns = s + ns := add32_eq (by omega)
  have f1 : PUT h1 (HDRP bp) (PACK (s + ns) 0) = .ok (h1.store (bp - 4) (s + ns)) := by
    rw [PACK_zero, HDRP_eq (by omega) (by omega)]
    exact PUT_ok _ v0
  have f2 : FTRP (h1.store (bp - 4) (s + ns)) bp = .ok (bp + (s + ns) - 8) :=
    FTRP_ok (by omega) v0 (by simp only [store_words, if_true, m1, sz]) (by omega) (by omega)
  have f3 : PUT (h1.store (bp - 4) (s + ns)) (bp + (s + ns) - 8) (PACK (s + ns) 0) =
      .ok ((h1.store (bp - 4) (s + ns)).store (bp + (s + ns) - 8) (s + ns)) := by
    rw [PACK_zero]
    exact PUT_ok _ v1
  unfold coalesce
  simp only [g1, g2, g3, g4, g5, g6, g8, ok_bind, ne_eq, one_ne_zero, not_false_eq_true,
    not_true_eq_false, and_false, and_self, if_false, if_true, ad, hdel, f1, f2, f3]

/-- The branch of `place` that splits the block, up to the call of `coalesce`
on the remainder. -/
theorem place_retag_exec {h h1 h5 h6 : Heap} {bp asize csize p : Nat} (fuel : Nat)
    (hp : bp % 8 = 0) (hlo : h1.lo + 8 ≤ bp) (hend : bp + csize ≤ h1.brk)
    (hbrk : h1.brk < 4294967296) (hc8 : csize % 8 = 0) (ha8 : asize % 8 = 0)
    (ha24 : 24 ≤ asize) (hroom : asize + 24 ≤ csize)
    (hsize : GET_SIZE h (HDRP bp) = .ok csize) (hdel : deleteNode fuel h bp = .ok h1)
    (hco : coalesce fuel (retagHeap h1 bp asize (csize - asize)) (bp + asize) = .ok (h5, p))
    (hadd : addNode fuel h5 p = .ok h6) : place fuel h bp asize = .ok h6 := by
  have hrem8 : (csize - asize) % 8 = 0 := by omega
  have hrem24 : 24 ≤ csize - asize := by omega
  have hsum : asize + (csize - asize) = csize := by omega
  have sb : sub32 csize asize = csize - asize := sub32_eq (by omega) (by omega)
  generalize hrem : csize - asize = rem at *
  have pk1 : PACK asize 1 = asize + 1 := PACK_one asize (by omega)
  have m1 : (asize + 1) % W32 = asize + 1 := Nat.mod_eq_of_lt (by unfold W32; omega)
  have m2 : rem % W32 = rem := Nat.mod_eq_of_lt (by unfold W32; omega)
  have s1 : sizeOf (asize + 1) = asize := sizeOf_succ ha8 (by omega)
  have s2 : sizeOf rem = rem := sizeOf_of_mod8 hrem8 (by omega)
  have e1 : bp - 4 ≠ bp + asize - 8 := by omega
  have v0 : h1.valid (bp - 4) := ⟨by omega, by omega, by omega⟩
  have v1 : h1.valid (bp + asize - 8) := ⟨by omega, by omega, by omega⟩
  have v2 : h1.valid (bp + asize - 4) := ⟨by omega, by omega, by omega⟩
  have v3 : h1.valid (bp + asize + rem - 8) := ⟨by omega, by omega, by omega⟩
  have ge : (rem ≥ DSIZE * 2 + OVERHEAD) = True :=
    eq_true (show rem ≥ DSIZE * 2 + OVERHEAD from hrem24)
  have f1 : PUT h1 (HDRP bp) (PACK asize 1) = .ok (h1.store (bp - 4) (asize + 1)) := by
    rw [pk1, HDRP_eq (by omega) (by omega)]
    exact PUT_ok _ v0
  have f2 : FTRP (h1.store (bp - 4) (asize + 1)) bp = .ok (bp + asize - 8) :=
    FTRP_ok (by omega) v0 (by simp only [store_words, if_true, m1, s1]) (by omega) (by omega)
  have f3 : PUT (h1.store (bp - 4) (asize + 1)) (bp + asize - 8) (PACK asize 1) =
      .ok ((h1.store (bp - 4) (asize + 1)).store (bp + asize - 8) (asize + 1)) := by
    rw [pk1]
    exact PUT_ok _ v1
  have f4 : NEXT_BLKP ((h1.store (bp - 4) (asize + 1)).store (bp + asize - 8) (asize + 1)) bp =
      .ok (bp + asize) :=
    NEXT_BLKP_ok (by omega) v0 (by simp only [store_words, if_true, if_false, e1, m1, s1])
      (by omega)
  have f6 : PUT ((h1.store (bp - 4) (asize + 1)).store (bp + asize - 8) (asize + 1))
      (HDRP (bp + asize)) (PACK rem 0) =
      .ok (((h1.store (bp - 4) (asize + 1)).store (bp + asize - 8) (asize + 1)).store
        (bp + asize - 4) rem) := by
    rw [PACK_zero, HDRP_eq (by omega) (by omega)]
    exact PUT_ok _ v2
  have f8 : FTRP (((h1.store (bp - 4) (asize + 1)).store (bp + asize - 8) (asize + 1)).store
        (bp + asize - 4) rem) (bp + asize) = .ok (bp + asize + rem - 8) :=
    FTRP_ok (by omega) v2 (by simp only [store_words, if_true, m2, s2]) (by omega) (by omega)
  have f10 : PUT (((h1.store (bp - 4) (asize + 1)).store (bp + asize - 8) (asize + 1)).store
        (bp + asize - 4) rem) (bp + asize + rem - 8) (PACK rem 0) =
      .ok (retagHeap h1 bp asize rem) := by
    rw [PACK_zero]
    exact PUT_ok _ v3
  unfold place
  simp only [hsize, hdel, ok_bind, ge, if_true, f1, f2, f3, f4, f6, f8, f10, sb, hrem,
    addCoalesced, hco, hadd]

/-- What `coalesce` reads around the remainder of a split block whose next
block is free. -/
theorem remainder_reads {g : Heap} {bp asize rem ns : Nat} (hp : bp % 8 = 0)
    (hlo : g.lo + 8 ≤ bp) (hend : bp + asize + rem + ns ≤ g.brk) (hbrk : g.brk < 4294967296)
    (ha8 : asize % 8 = 0) (ha24 : 24 ≤ asize) (hr8 : rem % 8 = 0) (hr24 : 24 ≤ rem)
    (hn8 : ns % 8 = 0)
    (w1 : g.words (bp - 4) = asize + 1) (w2 : g.words (bp + asize - 8) = asize + 1)
    (w3 : g.words (bp + asize - 4) = rem) (wn : g.words (bp + asize + rem - 4) = ns) :
    PREV_BLKP g (bp + asize) = .ok bp ∧ FTRP g bp = .ok (bp + asize - 8) ∧
    GET_ALLOC g (bp + asize - 8) = .ok 1 ∧
    NEXT_BLKP g (bp + asize) = .ok (bp + asize + rem) ∧
    GET_ALLOC g (HDRP (bp + asize + rem)) = .ok 0 ∧
    GET_SIZE g (HDRP (bp + asize)) = .ok rem ∧
    GET_SIZE g (HDRP (bp + asize + rem)) = .ok ns := by
  have s1 : sizeOf (asize + 1) = asize := sizeOf_succ ha8 (by omega)
  have s2 : sizeOf rem = rem := sizeOf_of_mod8 hr8 (by omega)
  have s3 : sizeOf ns = ns := sizeOf_of_mod8 hn8 (by omega)
  have a1 : allocOf (asize + 1) = 1 := allocOf_succ ha8
  have a3 : allocOf ns = 0 := allocOf_of_mod8 hn8
  have v0 : g.valid (bp - 4) := ⟨by omega, by omega, by omega⟩
  have v1 : g.valid (bp + asize - 8) := ⟨by omega, by omega, by omega⟩
  have v2 : g.valid (bp + asize - 4) := ⟨by omega, by omega, by omega⟩
  have v4 : g.valid (bp + asize + rem - 4) := ⟨by omega, by omega, by omega⟩
  refine ⟨?_, FTRP_ok (by omega) v0 (by rw [w1, s1]) (by omega) (by omega), ?_,
    NEXT_BLKP_ok (by omega) v2 (by rw [w3, s2]) (by omega),
    GET_ALLOC_HDRP (by omega) (by omega) v4 (by rw [wn, a3]),
    GET_SIZE_HDRP (by omega) (by omega) v2 (by rw [w3, s2]),
    GET_SIZE_HDRP (by omega) (by omega) v4 (by rw [wn, s3])⟩
  · have := @PREV_BLKP_ok g (bp + asize) asize (by omega) v1 (by rw [w2, s1]) (by omega)
      (by omega)
    rw [this, show bp + asize - asize = bp from by omega]
  · rw [GET_ALLOC_ok v1, w2, a1]
/-- A block that is disjoint from two neighbouring blocks lies in front of the
first or behind the second. -/
theorem two_far {m bp cs ns k : Nat} (d1 : m + k ≤ bp ∨ bp + cs ≤ m)
    (d2 : m + k ≤ bp + cs ∨ bp + cs + ns ≤ m) (hk : 0 < k) (hcs : 0 < cs) :
    m + k ≤ bp ∨ bp + cs + ns ≤ m := by
  omega

/-- The free tree is laid out in the state with the tags of the merged
remainder as it was before, when its members lie outside the two blocks. -/
theorem merged_treeOK {g2 : Heap} {t2 : FTree} {bp asize rem ns : Nat} (ok3 : TreeOK g2 t2)
    (far2 : ∀ m ∈ t2.members, m + 24 ≤ bp ∨ bp + asize + rem + ns ≤ m) (b8 : 8 ≤ bp)
    (ha : 24 ≤ asize) (hr : 24 ≤ rem) (hn : 24 ≤ ns) :
    TreeOK ((g2.store (bp + asize - 4) (rem + ns)).store (bp + asize + (rem + ns) - 8)
      (rem + ns)) t2 := by
  refine ok3.frame rfl rfl rfl (fun a ha q q1 q2 => ?_)
  have := far2 a ha
  have a24 := (ok3.lt ha).1
  have n1 : q ≠ bp + asize - 4 := by omega
  have n2 : q ≠ bp + asize + (rem + ns) - 8 := by omega
  simp only [store_words, n1, n2, if_false]

/-- The words of the state after the branch of `place` that splits the block
and merges the remainder with the next block. -/
theorem merge_words {h h1 g2 h6 : Heap} {M M2 : List Nat} {bp asize rem ns : Nat}
    (b8 : 8 ≤ bp) (ha : 24 ≤ asize) (hr : 24 ≤ rem) (hn : 24 ≤ ns)
    (hlt : bp + asize + rem + ns < 4294967296)
    (far : ∀ m ∈ M, m ≠ bp → m ≠ bp + asize + rem →
      m + 24 ≤ bp ∨ bp + asize + rem + ns ≤ m)
    (sub : ∀ m ∈ M2, m ∈ M ∧ m ≠ bp ∧ m ≠ bp + asize + rem)
    (hu1 : Untouched h.words h1.words M)
    (hu2 : Untouched (retagHeap h1 bp asize rem).words g2.words M)
    (hu6 : Untouched ((g2.store (bp + asize - 4) (rem + ns)).store
      (bp + asize + (rem + ns) - 8) (rem + ns)).words h6.words ((bp + asize) :: M2)) :
    (∀ q, (∀ m ∈ M, q < m ∨ m + 16 ≤ q) → (q < bp - 4 ∨ bp + asize + rem + ns - 4 ≤ q) →
      h6.words q = h.words q) ∧
    h6.words (bp - 4) = asize + 1 ∧ h6.words (bp + asize - 8) = asize + 1 ∧
    h6.words (bp + asize - 4) = rem + ns ∧
    h6.words (bp + asize + (rem + ns) - 8) = rem + ns := by
  obtain ⟨w1, w2, -, -, w5⟩ := @retagHeap_words h1 bp asize rem (by omega) (by omega)
    (by omega) (by omega)
  have m5 : (rem + ns) % W32 = rem + ns := Nat.mod_eq_of_lt (by unfold W32; omega)
  have n5 : bp + asize - 4 ≠ bp + asize + (rem + ns) - 8 := by omega
  have hw5 : ∀ q, q ≠ bp + asize - 4 → q ≠ bp + asize + (rem + ns) - 8 →
      ((g2.store (bp + asize - 4) (rem + ns)).store (bp + asize + (rem + ns) - 8)
        (rem + ns)).words q = g2.words q := fun q q1 q2 => by
    simp only [store_words, q1, q2, if_false]
  have hfr6 : ∀ q, (∀ m ∈ M2, q < m ∨ m + 16 ≤ q) →
      (q < bp + asize ∨ bp + asize + 16 ≤ q) → h6.words q =
        ((g2.store (bp + asize - 4) (rem + ns)).store (bp + asize + (rem + ns) - 8)
          (rem + ns)).words q := by
    intro q q1 q3
    refine hu6 q (fun m hm => ?_)
    rcases List.mem_cons.1 hm with e | e
    · rw [e]; exact q3
    · exact q1 m e
  have hin2 : ∀ q, bp - 4 ≤ q → q < bp + asize + rem + ns - 4 →
      ∀ m ∈ M2, q < m ∨ m + 16 ≤ q := by
    intro q q1 q2 m hm
    have := far m (sub m hm).1 (sub m hm).2.1 (sub m hm).2.2
    omega
  have hinT : ∀ q, bp - 4 ≤ q → q < bp + asize + rem + ns - 4 → (q < bp ∨ bp + 16 ≤ q) →
      (q < bp + asize + rem ∨ bp + asize + rem + 16 ≤ q) →
      ∀ m ∈ M, q < m ∨ m + 16 ≤ q := by
    intro q q1 q2 q3 q4 m hm
    by_cases e1 : m = bp
    · rw [e1]; exact q3
    · by_cases e2 : m = bp + asize + rem
      · rw [e2]; exact q4
      · have := far m hm e1 e2
        omega
  refine ⟨fun q q1 q2 => ?_, ?_, ?_, ?_, ?_⟩
  · rw [hfr6 q (fun m hm => q1 m (sub m hm).1) (by omega), hw5 q (by omega) (by omega),
      hu2 q q1, w5 q (by omega) (by omega) (by omega) (by omega)]
    exact hu1 q q1
  · rw [hfr6 _ (hin2 _ (by omega) (by omega)) (by omega), hw5 _ (by omega) (by omega),
      hu2 _ (hinT _ (by omega) (by omega) (by omega) (by omega))]
    exact w1
  · rw [hfr6 _ (hin2 _ (by omega) (by omega)) (by omega), hw5 _ (by omega) (by omega),
      hu2 _ (hinT _ (by omega) (by omega) (by omega) (by omega))]
    exact w2
  · rw [hfr6 _ (hin2 _ (by omega) (by omega)) (by omega)]
    simp only [store_words, n5, if_false, if_true, m5]
  · rw [hfr6 _ (hin2 _ (by omega) (by omega)) (by omega)]
    simp only [store_words, if_true, m5]

/-- The run of the branch of `place` that splits the block and merges the
remainder with the next block. -/
theorem place_merge_run {h h1 g2 h6 : Heap} {bp asize rem ns csize : Nat} (fuel : Nat)
    (a1 : h1.lo = h.lo) (a2 : h1.brk = h.brk) (e1 : g2.lo = h1.lo) (e2 : g2.brk = h1.brk)
    (hp : bp % 8 = 0) (hlo : h.lo + 8 ≤ bp) (hend : bp + csize + ns ≤ h.brk)
    (hbrk : h.brk < 4294967296) (hc8 : csize % 8 = 0) (ha8 : asize % 8 = 0)
    (ha24 : 24 ≤ asize) (hroom : asize + 24 ≤ csize) (hn8 : ns % 8 = 0)
    (hrem : csize - asize = rem)
    (hsize : GET_SIZE h (HDRP bp) = .ok csize) (hdel : deleteNode fuel h bp = .ok h1)
    (wn : h1.words (bp + csize - 4) = ns)
    (hdel2 : deleteNode fuel (retagHeap h1 bp asize rem) (bp + csize) = .ok g2)
    (hadd : addNode fuel ((g2.store (bp + asize - 4) (rem + ns)).store
      (bp + asize + (rem + ns) - 8) (rem + ns)) (bp + asize) = .ok h6) :
    place fuel h bp asize = .ok h6 := by
  have hr8 : rem % 8 = 0 := by omega
  have hr24 : 24 ≤ rem := by omega
  have hsum : bp + asize + rem = bp + csize := by omega
  obtain ⟨w1, w2, w3, -, w5⟩ := @retagHeap_words h1 bp asize rem (by omega) (by omega)
    (by omega) (by omega)
  have wn' : (retagHeap h1 bp asize rem).words (bp + asize + rem - 4) = ns := by
    rw [w5 _ (by omega) (by omega) (by omega) (by omega), hsum]
    exact wn
  obtain ⟨c1, c2, c3, c4, c5, c6, c8⟩ := @remainder_reads (retagHeap h1 bp asize rem) bp
    asize rem ns hp (show h1.lo + 8 ≤ bp by omega)
    (show bp + asize + rem + ns ≤ h1.brk by omega) (show h1.brk < 4294967296 by omega) ha8
    ha24 hr8 hr24 hn8 w1 w2 w3 wn'
  rw [← hsum] at hdel2
  have hco := @coalesce_next_exec (retagHeap h1 bp asize rem) g2 (bp + asize) bp
    (bp + asize - 8) rem ns fuel e1 e2 (show h1.lo + 8 ≤ bp + asize by omega)
    (by omega) hr8 hn8 (by omega) (show bp + asize + rem + ns ≤ h1.brk by omega)
    (show h1.brk < 4294967296 by omega) c1 c2 c3 c4 c5 c6 c8 hdel2
  exact place_retag_exec fuel hp (by omega) (by omega) (by omega) hc8 ha8 ha24 hroom hsize
    hdel (by rw [hrem]; exact hco) hadd

/-! ## What `place` does -/

/-- The link words of the block after a split block are not touched by the
first deletion and the new tags. -/
theorem retag_link {h h1 : Heap} {M1 : List Nat} {bp asize rem : Nat}
    (hus1 : Untouched h.words h1.words M1)
    (sep : ∀ m ∈ M1, m + 24 ≤ bp + asize + rem ∨ bp + asize + rem + 24 ≤ m) (b8 : 8 ≤ bp)
    (ha : 24 ≤ asize) (hr : 24 ≤ rem) (hlt : bp + asize + rem < 4294967296) :
    ∀ q, bp + asize + rem ≤ q → q < bp + asize + rem + 16 →
      (retagHeap h1 bp asize rem).words q = h.words q := by
  intro q q1 q2
  have w5 := (@retagHeap_words h1 bp asize rem (by omega) (by omega) (by omega) hlt).2.2.2.2
  rw [w5 q (by omega) (by omega) (by omega) (by omega)]
  refine hus1 q (fun m hm => ?_)
  have := sep m hm
  omega

/-- The remainder of a split block, merged with the next block, can be
inserted into a free tree whose members lie outside the two blocks. -/
theorem remainder_addable {h5 : Heap} {M2 : List Nat} {bp asize rem ns lo brk : Nat}
    (far2 : ∀ m ∈ M2, m + 24 ≤ bp ∨ bp + asize + rem + ns ≤ m) (l5 : h5.lo = lo)
    (b5 : h5.brk = brk) (hlo : lo + 16 ≤ bp) (b24 : 24 ≤ bp) (b8 : bp % 8 = 0)
    (a8 : asize % 8 = 0) (ha : 24 ≤ asize) (r8 : rem % 8 = 0) (hr : 24 ≤ rem)
    (n8 : ns % 8 = 0) (hend : bp + asize + rem + ns ≤ brk) (hlt : brk < 4294967296)
    (x1 : h5.words (bp + asize - 4) = rem + ns) :
    (24 ≤ bp + asize ∧ h5.lo + 4 ≤ bp + asize ∧ bp + asize + 16 ≤ h5.brk ∧
      (bp + asize) % 4 = 0) ∧
    (∀ x ∈ M2, bp + asize + 24 ≤ x ∨ x + 24 ≤ bp + asize) ∧
    0 < szOf h5.words (bp + asize) := by
  refine ⟨by rw [l5, b5]; omega, fun x hx => ?_, ?_⟩
  · have := far2 x hx
    omega
  · unfold szOf
    rw [x1, sizeOf_of_mod8 (by omega) (by omega)]
    omega

/-- The header of the merged remainder. -/
theorem merged_header (g2 : Heap) {bp asize rem ns : Nat} (hr : 24 ≤ rem)
    (hlt : bp + asize + rem + ns < 4294967296) :
    ((g2.store (bp + asize - 4) (rem + ns)).store (bp + asize + (rem + ns) - 8)
      (rem + ns)).words (bp + asize - 4) = rem + ns := by
  have m5 : (rem + ns) % W32 = rem + ns := Nat.mod_eq_of_lt (by unfold W32; omega)
  have n5 : bp + asize - 4 ≠ bp + asize + (rem + ns) - 8 := by omega
  simp only [store_words, n5, if_false, if_true, m5]

/-- The branch of `place` that splits the block, when the block after it is a
member of the free tree: the remainder takes that block in. -/
theorem place_split_merge {h : Heap} {S : List Nat} {t : FTree} (hc : Consistent h S t)
    {bp asize csize ns : Nat} (hbp : bp ∈ t.members) (hcs : csize = h.bsize bp)
    (hnm : bp + csize ∈ t.members) (hns : ns = h.bsize (bp + csize)) (ha8 : asize % 8 = 0)
    (ha24 : 24 ≤ asize) (hroom : asize + 24 ≤ csize) {fuel : Nat}
    (hf : t.members.length ≤ fuel) :
    ∃ h' t', place fuel h bp asize = .ok h' ∧ TreeOK h' t' ∧ bp ∉ t'.members ∧
      bp + csize ∉ t'.members ∧
      (∀ a ∈ S, a ≠ bp → a ≠ bp + csize → h'.words (a - 4) = h.words (a - 4) ∧
        h'.words (a + h.bsize a - 8) = h.words (a + h.bsize a - 8)) ∧
      h'.words (bp - 4) = asize + 1 ∧ h'.words (bp + asize - 8) = asize + 1 ∧
      h'.words (bp + asize - 4) = csize - asize + ns ∧
      h'.words (bp + asize + (csize - asize + ns) - 8) = csize - asize + ns ∧
      bp + asize ∈ t'.members ∧ (∀ x ∈ t'.members, x = bp + asize ∨ x ∈ t.members) := by
  have ok := hc.treeOK
  have m1 : bp ∈ S := (hc.indexed.free bp hbp).1
  have m2 : h.balloc bp = 0 := (hc.indexed.free bp hbp).2
  have n1 : bp + csize ∈ S := (hc.indexed.free _ hnm).1
  have n2 : h.balloc (bp + csize) = 0 := (hc.indexed.free _ hnm).2
  have p1 : h.lo + 16 ≤ bp := (hc.block m1).1
  have p2 : 24 ≤ bp := (hc.block m1).2.1
  have p3 : bp % 8 = 0 := (hc.block m1).2.2.1
  have p5 : csize % 8 = 0 := hcs ▸ (hc.block m1).2.2.2.2.1
  have p7 : h.brk < 4294967296 := (hc.block m1).2.2.2.2.2.2.1
  have c24 : 24 ≤ csize := hcs ▸ (hc.block m1).2.2.2.2.2.2.2.2.2 m2
  have q5 : ns % 8 = 0 := hns ▸ (hc.block n1).2.2.2.2.1
  have q6 : bp + csize + ns ≤ h.brk := hns ▸ (hc.block n1).2.2.2.2.2.1
  have q24 : 24 ≤ ns := hns ▸ (hc.block n1).2.2.2.2.2.2.2.2.2 n2
  have q8 : h.words (bp + csize - 4) = ns := by
    rw [(hc.block n1).2.2.2.2.2.2.2.1, n2, hns]; rfl
  have g1 : GET_SIZE h (HDRP bp) = .ok csize := hcs ▸ (coalesce_reads hc m1).2.2.2.2.2.1
  have hNne : bp + csize ≠ bp := Nat.ne_of_gt (Nat.lt_add_of_pos_right (by omega))
  generalize hrem : csize - asize = rem
  obtain ⟨hr8, hr24, hsum'⟩ := rem_facts hrem hroom p5 ha8
  have hsum : bp + asize + rem = bp + csize := by rw [Nat.add_assoc, hsum']
  have far : ∀ m ∈ t.members, m ≠ bp → m ≠ bp + asize + rem →
      m + 24 ≤ bp ∨ bp + asize + rem + ns ≤ m := by
    intro m hm e1 e2
    rw [hsum] at e2 ⊢
    have d1 := far_of_disjoint hc hm m1 e1
    have d2 := far_of_disjoint hc hm n1 e2
    rw [← hcs] at d1
    rw [← hns] at d2
    exact two_far d1 d2 (by decide) (Nat.lt_of_lt_of_le (by decide) c24)
  obtain ⟨h1, t1, ⟨sa, hu1, ok1, hsub1, hnot1⟩, ⟨hus1, hlist1, -⟩, hex1⟩ :=
    deleteNode_spec ok hbp
  have hf0 : t.height ≤ fuel := le_trans t.height_le_length hf
  have lt1 : bp + asize + rem < 4294967296 := by
    rw [hsum]; exact Nat.lt_of_le_of_lt (Nat.le_of_add_right_le q6) p7
  have lt2 : bp + asize + rem + ns < 4294967296 := by
    rw [hsum]; exact Nat.lt_of_le_of_lt q6 p7
  have far1 : ∀ m ∈ t1.members, m + 24 ≤ bp ∨ bp + asize + rem ≤ m := by
    intro m hm
    have := place_far hc hbp m (hsub1 m hm) (fun e => hnot1 (e ▸ hm))
    rw [← hcs, ← hsum] at this
    exact this
  have ok2 := retag_treeOK ok1 far1 (Nat.le_trans (by decide) p2) ha24 hr24 lt1
  have hlink : bp + csize ∉ t1.members → ∀ q, bp + csize ≤ q → q < bp + csize + 16 →
      (retagHeap h1 bp asize rem).words q = h.words q := by
    intro hN1
    rw [← hsum]
    refine retag_link hus1 (fun m hm => ?_) (Nat.le_trans (by decide) p2) ha24 hr24 lt1
    rw [hsum]
    exact ok.sep m (hsub1 m hm) _ hnm (fun e => hN1 (e ▸ hm))
  obtain ⟨g2, t2, hex2, sa2, hu2, ok3, hsub2, hnot2⟩ :=
    @delete_second_core h (retagHeap h1 bp asize rem) t t1 bp (bp + csize) ok hnm hNne sa ok2
      hsub1 hnot1 hlist1 hlink
  have sub : ∀ m ∈ t2.members, m ∈ t.members ∧ m ≠ bp ∧ m ≠ bp + asize + rem := fun m hm =>
    ⟨hsub1 m (hsub2 m hm), fun e => hnot1 (e ▸ hsub2 m hm),
      fun e => hnot2 (hsum ▸ e ▸ hm)⟩
  have far2 : ∀ m ∈ t2.members, m + 24 ≤ bp ∨ bp + asize + rem + ns ≤ m := fun m hm =>
    far m (sub m hm).1 (sub m hm).2.1 (sub m hm).2.2
  have ok5 := merged_treeOK ok3 far2 (Nat.le_trans (by decide) p2) ha24 hr24 q24
  have x1 := merged_header g2 hr24 lt2
  obtain ⟨hbr, hsep, hk⟩ := remainder_addable far2
    (show ((g2.store (bp + asize - 4) (rem + ns)).store (bp + asize + (rem + ns) - 8)
      (rem + ns)).lo = h.lo from sa2.1.trans sa.1)
    (show ((g2.store (bp + asize - 4) (rem + ns)).store (bp + asize + (rem + ns) - 8)
      (rem + ns)).brk = h.brk from sa2.2.1.trans sa.2.1) p1 p2 p3 ha8 ha24 hr8 hr24 q5
    (hsum ▸ q6) p7 x1
  obtain ⟨h6, hex6, -, hu6, ok6⟩ := addNode_spec ok5 hbr hsep hk
  have hf2 : t2.height ≤ fuel :=
    le_trans (FTree.height_le_of_sub ok3.nodup (fun x hx => hsub1 x (hsub2 x hx))) hf
  have wn : h1.words (bp + csize - 4) = ns :=
    (hu1 _ (fun m hm => (tags_far hc n1 m hm).1)).trans q8
  have hex : place fuel h bp asize = .ok h6 :=
    place_merge_run fuel sa.1 sa.2.1 sa2.1 sa2.2.1 p3 (Nat.le_trans (Nat.add_le_add_left
      (by decide) _) p1) q6 p7 p5 ha8 ha24 hroom q5 hrem g1 (hex1 fuel hf0) wn (hex2 fuel hf)
      (hex6 fuel hf2)
  obtain ⟨hfr, y1, y2, y3, y4⟩ := merge_words (Nat.le_trans (by decide) p2) ha24 hr24 q24 lt2
    far sub hu1 hu2 hu6
  refine ⟨h6, _, hex, ok6, ?_, ?_, ?_, y1, y2, y3, y4, FTree.mem_ins.2 (Or.inl rfl), ?_⟩
  · intro hx
    rcases FTree.mem_ins.1 hx with e | e
    · exact absurd e (Nat.ne_of_lt (Nat.lt_add_of_pos_right (Nat.lt_of_lt_of_le (by decide) ha24)))
    · exact hnot1 (hsub2 _ e)
  · intro hx
    rcases FTree.mem_ins.1 hx with e | e
    · rw [← hsum] at e
      exact absurd e (Nat.ne_of_gt (Nat.lt_add_of_pos_right (Nat.lt_of_lt_of_le (by decide) hr24)))
    · exact hnot2 e
  · intro a ha hne1 hne2
    have d1 := Chain.disjoint hc.tiled a ha bp m1 hne1
    have d2 := Chain.disjoint hc.tiled a ha _ n1 hne2
    rw [← hcs] at d1
    rw [← hns] at d2
    have a16 : 16 ≤ h.bsize a := (hc.block ha).2.2.2.1
    have d := two_far d1 d2 (Nat.lt_of_lt_of_le (by decide) a16)
      (Nat.lt_of_lt_of_le (by decide) c24)
    have tg := tags_outside d (hc.block ha).2.1 a16 (Nat.le_trans (by decide) p2)
    rw [← hsum] at tg
    exact ⟨hfr _ (fun m hm => (tags_far hc ha m hm).1) tg.1,
      hfr _ (fun m hm => (tags_far hc ha m hm).2) tg.2⟩
  · intro x hx
    rcases FTree.mem_ins.1 hx with e | e
    · exact Or.inl e
    · exact Or.inr (hsub1 x (hsub2 x e))

/-! ## The two branches of `place` -/

/-- The size of the remainder of a split block, with or without the next
block, is a tag word that encodes itself with the allocated bit clear. -/
theorem remainder_encodes {bp asize csize g brk : Nat} (hroom : asize + 24 ≤ csize)
    (c8 : csize % 8 = 0) (a8 : asize % 8 = 0) (g8 : g % 8 = 0) (hend : bp + csize + g ≤ brk)
    (hlt : brk < 4294967296) :
    sizeOf (csize - asize + g) = csize - asize + g ∧ allocOf (csize - asize + g) = 0 ∧
    bp + asize + (csize - asize + g) = bp + csize + g := by
  exact ⟨sizeOf_of_mod8 (by omega) (by omega), allocOf_of_mod8 (by omega), by omega⟩

/-- C19: in a state in which the blocks tile the arena and the free tree is
laid out in memory and holds exactly the free blocks, let `bp` be a member of
the free tree, of `csize` bytes, and `asize` a multiple of 8 with
`24 ≤ asize ≤ csize`; let `next = bp + csize` be the block after `bp` and
`grow` its size when it is free, and 0 when it is allocated. Then
`place(bp, asize)` (with fuel for the members of the tree) ends with a free
tree that is laid out in memory and ordered and does not hold `bp`. If
`csize - asize ≥ 24`, header and footer of `bp` hold `asize | 1`; the block at
`bp + asize` has header and footer `csize - asize + grow`, a word that decodes
to this size with the allocated bit clear, it ends where the old block, or the
free block after it, ended, and it is a member of the tree; a free `next` is
no member any more, no other block has entered the tree, and the tags of every
block other than `bp` and a free `next` are as before. Otherwise header and
footer of `bp` hold `csize | 1`, no block enters the tree and the tags of every
other block are as before. -/
theorem place_splits_or_fills (h : Heap) (S : List Nat) (t : FTree) (hc : Consistent h S t)
    (hall : ∀ a ∈ S, h.balloc a = 0 → a ∈ t.members) (bp asize csize : Nat)
    (hbp : bp ∈ t.members) (hcs : csize = h.bsize bp) (ha8 : asize % 8 = 0)
    (ha24 : 24 ≤ asize) (hle : asize ≤ csize) (next grow : Nat) (hnext : next = bp + csize)
    (hgrow : grow = if h.balloc next = 0 then h.bsize next else 0) (fuel : Nat)
    (hf : t.members.length ≤ fuel) :
    ∃ h' t', place fuel h bp asize = .ok h' ∧ TreeOK h' t' ∧ bp ∉ t'.members ∧
      (24 ≤ csize - asize →
        h'.words (bp - 4) = asize + 1 ∧ h'.words (bp + asize - 8) = asize + 1 ∧
        h'.words (bp + asize - 4) = csize - asize + grow ∧
        h'.words (bp + asize + (csize - asize + grow) - 8) = csize - asize + grow ∧
        sizeOf (csize - asize + grow) = csize - asize + grow ∧
        allocOf (csize - asize + grow) = 0 ∧
        bp + asize + (csize - asize + grow) = bp + csize + grow ∧
        bp + asize ∈ t'.members ∧ (h.balloc next = 0 → next ∉ t'.members) ∧
        (∀ x ∈ t'.members, x = bp + asize ∨ x ∈ t.members) ∧
        ∀ a ∈ S, a ≠ bp → (a = next → h.balloc next = 1) →
          h'.words (a - 4) = h.words (a - 4) ∧
          h'.words (a + h.bsize a - 8) = h.words (a + h.bsize a - 8)) ∧
      (csize - asize < 24 →
        h'.words (bp - 4) = csize + 1 ∧ h'.words (bp + csize - 8) = csize + 1 ∧
        (∀ x ∈ t'.members, x ∈ t.members) ∧
        ∀ a ∈ S, a ≠ bp → h'.words (a - 4) = h.words (a - 4) ∧
          h'.words (a + h.bsize a - 8) = h.words (a + h.bsize a - 8)) := by
  subst hnext
  have m1 : bp ∈ S := (hc.indexed.free bp hbp).1
  have p5 : csize % 8 = 0 := hcs ▸ (hc.block m1).2.2.2.2.1
  have p6 : bp + csize ≤ h.brk := hcs ▸ (hc.block m1).2.2.2.2.2.1
  have p7 : h.brk < 4294967296 := (hc.block m1).2.2.2.2.2.2.1
  by_cases hs : asize + 24 ≤ csize
  · rcases le_one_cases (h.balloc_le (bp + csize)) with na | na
    · have n1 : bp + csize ∈ S := by
        rw [hcs]; exact next_in_tiling hc m1 (hcs ▸ na)
      have hnm := hall _ n1 na
      rw [if_pos na] at hgrow
      obtain ⟨h', t', k1, k2, k3, k4, k5, k6, k7, k8, k9, k10, k11⟩ :=
        place_split_merge hc hbp hcs hnm hgrow ha8 ha24 hs hf
      have q6 : bp + csize + grow ≤ h.brk := hgrow ▸ (hc.block n1).2.2.2.2.2.1
      have q5 : grow % 8 = 0 := hgrow ▸ (hc.block n1).2.2.2.2.1
      obtain ⟨r1, r2, r3⟩ := remainder_encodes hs p5 ha8 q5 q6 p7
      refine ⟨h', t', k1, k2, k3, fun _ => ⟨k6, k7, k8, k9, r1, r2, r3, k10, fun _ => k4, k11,
        fun a ha e1 e2 => k5 a ha e1 (fun e => ?_)⟩, fun hlt => absurd hlt (by omega)⟩
      have := e2 e
      rw [na] at this
      exact absurd this (by decide)
    · have hnx : allocOf (h.words (bp + h.bsize bp - 4)) = 1 := by
        rw [← hcs]; exact na
      rw [if_neg (show ¬ h.balloc (bp + csize) = 0 by rw [na]; decide)] at hgrow
      subst hgrow
      obtain ⟨h', t', k1, k2, k3, k4, k5, k6, k7, k8, k9, k10⟩ :=
        place_split_core hc hbp hnx hcs ha8 ha24 hs hf
      obtain ⟨r1, r2, r3⟩ := @remainder_encodes bp asize csize 0 h.brk hs p5 ha8 rfl p6 p7
      refine ⟨h', t', k1, k2, k3, fun _ => ⟨k5, k6, k7, ?_, r1, r2, r3, k9,
        fun e => absurd (na.symm.trans e) (by decide), k10, fun a ha e1 _ => k4 a ha e1⟩,
        fun hlt => absurd hlt (by omega)⟩
      rw [r3]
      exact k8
  · obtain ⟨h', t', k1, k2, k3, k4, k5, k6, k7⟩ :=
      place_whole_spec hc hbp hcs hle (by omega) hf
    exact ⟨h', t', k1, k2, k3, fun hge => absurd hge (by omega), fun _ => ⟨k5, k6, k7, k4⟩⟩

theorem place_splits_or_fills_witness :
    ∃ h' t', place 10 adjHeap 65552 24 = .ok h' ∧ TreeOK h' t' ∧ 65552 ∉ t'.members ∧
      (24 ≤ 48 - 24 →
        h'.words (65552 - 4) = 24 + 1 ∧ h'.words (65552 + 24 - 8) = 24 + 1 ∧
        h'.words (65552 + 24 - 4) = 48 - 24 + 24 ∧
        h'.words (65552 + 24 + (48 - 24 + 24) - 8) = 48 - 24 + 24 ∧
        sizeOf (48 - 24 + 24) = 48 - 24 + 24 ∧
        allocOf (48 - 24 + 24) = 0 ∧
        65552 + 24 + (48 - 24 + 24) = 65552 + 48 + 24 ∧
        65552 + 24 ∈ t'.members ∧ (adjHeap.balloc 65600 = 0 → 65600 ∉ t'.members) ∧
        (∀ x ∈ t'.members, x = 65552 + 24 ∨ x ∈ adjTree.members) ∧
        ∀ a ∈ [65552, 65600, 65624, 65648], a ≠ 65552 →
          (a = 65600 → adjHeap.balloc 65600 = 1) →
          h'.words (a - 4) = adjHeap.words (a - 4) ∧
          h'.words (a + adjHeap.bsize a - 8) = adjHeap.words (a + adjHeap.bsize a - 8)) ∧
      (48 - 24 < 24 →
        h'.words (65552 - 4) = 48 + 1 ∧ h'.words (65552 + 48 - 8) = 48 + 1 ∧
        (∀ x ∈ t'.members, x ∈ adjTree.members) ∧
        ∀ a ∈ [65552, 65600, 65624, 65648], a ≠ 65552 →
          h'.words (a - 4) = adjHeap.words (a - 4) ∧
          h'.words (a + adjHeap.bsize a - 8) = adjHeap.words (a + adjHeap.bsize a - 8)) :=
  place_splits_or_fills adjHeap [65552, 65600, 65624, 65648] adjTree (by decide!)
    (by decide!) 65552 24 48 (by decide!) (by decide!) (by decide) (by decide) (by decide)
    65600 24 (by decide) (by decide!) 10 (by decide)

end MM
